import Mathlib

/-!
# Naive2D: a shallow embedding of `geometry.h`, `polygon.h` and `GJK_utility.h`

The program is embedded twice.

* The exact embedding (`N2D.v2`, `N2D.Line_segment`, `N2D.sphere`, `N2D.GJK`,
  `N2D.Polygon`). A C++ `double` is an exact rational (`ℚ`): every finite double is a
  rational number, and the arithmetic of the program is taken without rounding. The
  statements "over exact real arithmetic" are about these definitions.
  `std::sqrt` has no rational value; a function returning `std::sqrt(q)` returns the
  radicand `q` wrapped in `Dist.sqrt`.
* The rounded embedding (`N2D.Rounded`). A `double` is a `Double`: a finite rational
  value, an infinity, or NaN, and every operation rounds its exact result to the nearest
  double, ties to even (IEEE 754 binary64, one rounding for each operation of the source,
  no fused operation). The statements about what the program computes on given doubles
  are about these definitions.

In both embeddings:

* Reading a `std::vector` or a C array outside its bounds is undefined behaviour; the
  embedding makes it visible as `Fault.out_of_bounds`.
* The two `while (true)` loops of the GJK routines take a fuel argument (the number of
  iterations allowed); running out of it is `Fault.out_of_fuel`.
-/

namespace N2D

/-! ## geometry.h: `v2` -/

/-- The struct `v2` of geometry.h: two coordinates. -/
structure v2 where
  x : ℚ
  y : ℚ
deriving DecidableEq, Repr

namespace v2

/-- `v2::operator+`. -/
instance : Add v2 := ⟨fun a b => ⟨a.x + b.x, a.y + b.y⟩⟩

/-- Binary `v2::operator-`. -/
instance : Sub v2 := ⟨fun a b => ⟨a.x - b.x, a.y - b.y⟩⟩

/-- Unary `v2::operator-`. -/
instance : Neg v2 := ⟨fun a => ⟨-a.x, -a.y⟩⟩

/-- `v2::operator*(double)`. -/
instance : HMul v2 ℚ v2 := ⟨fun a b => ⟨a.x * b, a.y * b⟩⟩

/-- `v2::dot`. -/
def dot (a b : v2) : ℚ := a.x * b.x + a.y * b.y

/-- `v2::cross`. -/
def cross (a b : v2) : ℚ := a.x * b.y - a.y * b.x

/-- `v2::rsq`, the squared length. -/
def rsq (a : v2) : ℚ := a.dot a

/-- `v2::operator==`. -/
def operator_eq (a b : v2) : Bool := decide (a.x = b.x) && decide (a.y = b.y)

/-- `v2::l1`. -/
def l1 (a : v2) : ℚ := |a.x| + |a.y|

/-- `v2::linfty`. -/
def linfty (a : v2) : ℚ := max |a.x| |a.y|

end v2

/-! ## geometry.h: `Line_segment` -/

/-- The struct `Line_segment` of geometry.h. -/
structure Line_segment where
  start : v2
  «end» : v2
deriving DecidableEq, Repr

namespace Line_segment

/-- `Line_segment::__ccw__`: are `A`, `B`, `C` listed counter-clockwise (strictly)? -/
def __ccw__ (A B C : v2) : Bool :=
  decide ((C.y - A.y) * (B.x - A.x) > (B.y - A.y) * (C.x - A.x))

/-- `Line_segment::intersects(const Line_segment&)`. -/
def intersects (self other : Line_segment) : Bool :=
  let A := self.start
  let B := self.end
  let C := other.start
  let D := other.end
  (__ccw__ A C D != __ccw__ B C D) && (__ccw__ A B C != __ccw__ A B D)

/-- `Line_segment::vec`: the vector from `start` to `end`. -/
def vec (self : Line_segment) : v2 := self.end - self.start

/-- `Line_segment::operator==`: both conjuncts compare `start`. -/
def operator_eq (self other : Line_segment) : Bool :=
  self.start.operator_eq other.start && self.start.operator_eq other.start

/-- The rational `r` is the value of `Line_segment::length`, `(end - start).r()`: the
non-negative square root of the squared length. The root is a rational for some
segments only; the functions that use `length()` take its value as an argument. -/
def is_length (self : Line_segment) (r : ℚ) : Prop :=
  0 ≤ r ∧ r * r = (self.end - self.start).rsq

/-- Whether `r` is the length is decidable. -/
instance (self : Line_segment) (r : ℚ) : Decidable (self.is_length r) :=
  inferInstanceAs (Decidable (0 ≤ r ∧ r * r = (self.end - self.start).rsq))

/-- `Line_segment::project_t`, where `r` is the value of `this->length()`. -/
def project_t (self : Line_segment) (r : ℚ) (pt : v2) : ℚ :=
  if r = 0 then 0
  else (pt - self.start).dot self.vec / r

/-- `Line_segment::project`, where `r` is the value of `this->length()`. -/
def project (self : Line_segment) (r : ℚ) (pt : v2) : v2 :=
  let t := self.project_t r pt
  self.start + self.vec * t

/-- `Line_segment::project_in` (`x / 0 = 0` in `ℚ`; in the program `0.0 / 0.0` is NaN,
which the `min`/`max` pair turns into `0.0` as well). -/
def project_in (self : Line_segment) (pt : v2) : v2 :=
  let ab := self.end - self.start
  self.start + ab * max 0 (min ((pt - self.start).dot ab / ab.rsq) 1)

/-- `Line_segment::intersection_point`; `none` is the sentinel `INFINITE_POINT`. The
literal `0.0000001` is the double nearest to `1 / 10 ^ 7`, `944473296573929 / 2 ^ 73`. -/
def intersection_point (self other : Line_segment) : Option v2 :=
  let x11 := self.start.x
  let y11 := self.start.y
  let x12 := self.end.x
  let y12 := self.end.y
  let x21 := other.start.x
  let y21 := other.start.y
  let x22 := other.end.x
  let y22 := other.end.y
  let dx1 := x12 - x11
  let dy1 := y12 - y11
  let dx2 := x22 - x21
  let dy2 := y22 - y21
  let delta := dx2 * dy1 - dy2 * dx1
  if |delta| < 944473296573929 / 9444732965739290427392 then none
  else
    let s := (dx1 * (y21 - y11) + dy1 * (x11 - x21)) / delta
    let t := (dx2 * (y11 - y21) + dy2 * (x21 - x11)) / (-1 * delta)
    if ¬ ((0 ≤ s ∧ s ≤ 1) ∧ (0 ≤ t ∧ t ≤ 1)) then none
    else
      let i_x := x11 + t * dx1
      let i_y := y11 + t * dy1
      some ⟨i_x, i_y⟩

end Line_segment

/-! ## Faults and results -/

/-- What the C++ program leaves undefined or unbounded. -/
inductive Fault where
  | out_of_bounds
  | out_of_fuel
deriving DecidableEq, Repr

/-- Equality of results is decidable. -/
instance {α : Type} [DecidableEq α] : DecidableEq (Except Fault α)
  | Except.ok a, Except.ok b =>
    if h : a = b then isTrue (by rw [h]) else isFalse (fun h1 => h (Except.ok.inj h1))
  | Except.error e, Except.error f =>
    if h : e = f then isTrue (by rw [h]) else isFalse (fun h1 => h (Except.error.inj h1))
  | Except.ok _, Except.error _ => isFalse (fun h => Except.noConfusion h)
  | Except.error _, Except.ok _ => isFalse (fun h => Except.noConfusion h)

/-- The `double` returned by the distance routines: the literal `0.0`, or
`std::sqrt` of a rational radicand. -/
inductive Dist where
  | zero
  | sqrt (radicand : ℚ)
deriving DecidableEq, Repr

/-- The real number a `Dist` stands for; `std::sqrt` of a negative number is NaN and
stands for no real. -/
def Dist.denotes : Dist → ℝ → Prop
  | Dist.zero, r => r = 0
  | Dist.sqrt q, r => 0 ≤ q ∧ r = Real.sqrt (q : ℝ)

/-- The test `value == 0.0` on a returned distance (NaN compares unequal to 0). -/
def Dist.is_zero : Dist → Bool
  | Dist.zero => true
  | Dist.sqrt q => decide (q = 0)

/-- `Line_segment::dist_to(const v2&)`: `(pt - project_in(pt)).r()`. -/
def Line_segment.dist_to (self : Line_segment) (pt : v2) : Dist :=
  Dist.sqrt ((pt - self.project_in pt).rsq)

/-- `std::min` of two returned distances: the least of two square roots is the root of
the least radicand, and the literal `0.0` is below every root. -/
def Dist.min : Dist → Dist → Dist
  | Dist.zero, _ => Dist.zero
  | Dist.sqrt _, Dist.zero => Dist.zero
  | Dist.sqrt p, Dist.sqrt q => Dist.sqrt (Min.min p q)

/-- `Line_segment::dist_to_line_seg`: `0.0` if the segments intersect, else the least of
the four distances between an end of one segment and its `project_in` on the other
segment; the least of the square roots is the root of the least radicand. -/
def Line_segment.dist_to_line_seg (self other : Line_segment) : Dist :=
  if self.intersects other then Dist.zero
  else
    let other_proj_start := self.project_in other.start
    let other_proj_end := self.project_in other.end
    let proj_to_otehr_start := other.project_in self.start
    let proj_to_otehr_end := other.project_in self.end
    let d1 := (other_proj_start - other.start).rsq
    let d2 := (other_proj_end - other.end).rsq
    let d3 := (proj_to_otehr_start - self.start).rsq
    let d4 := (proj_to_otehr_end - self.end).rsq
    Dist.sqrt (min (min d1 d2) (min d3 d4))

/-! ## geometry.h: `sphere` -/

/-- The `enum class SPHEREMETRIC`. -/
inductive SPHEREMETRIC where
  | L1
  | L2
  | LINFTY
deriving DecidableEq, Repr

/-- The struct `sphere` of geometry.h. -/
structure sphere where
  c_ : v2
  r_ : ℚ
  metric : SPHEREMETRIC
deriving DecidableEq, Repr

/-- The comparison `std::sqrt(q) < c` for a radicand `q` that is not negative, decided
without the root: `c` is positive and `q < c * c`. -/
def sqrt_lt (q c : ℚ) : Bool := decide (0 < c ∧ q < c * c)

namespace sphere

/-- `sphere::on_boundary`: `(dist - r_) < tolerance`; for the metric `L2`, where
`dist` is a square root, the test is taken in the form `dist < r_ + tolerance`. -/
def on_boundary (self : sphere) (point : v2) (tolerance : ℚ) : Bool :=
  match self.metric with
  | SPHEREMETRIC.L1 => decide ((self.c_ - point).l1 - self.r_ < tolerance)
  | SPHEREMETRIC.L2 => sqrt_lt (self.c_ - point).rsq (self.r_ + tolerance)
  | SPHEREMETRIC.LINFTY => decide ((self.c_ - point).linfty - self.r_ < tolerance)

/-- `sphere::contains`: `dist < r_`. -/
def contains (self : sphere) (point : v2) : Bool :=
  match self.metric with
  | SPHEREMETRIC.L1 => decide ((self.c_ - point).l1 < self.r_)
  | SPHEREMETRIC.L2 => sqrt_lt (self.c_ - point).rsq self.r_
  | SPHEREMETRIC.LINFTY => decide ((self.c_ - point).linfty < self.r_)

/-- `sphere::intersects(Line_segment&)`: `line.dist_to(center()) - radius() < 0`, the
test `dist < r_` on the value of `Line_segment::dist_to`; the field `metric` is not
read. -/
def intersects_line (self : sphere) (line : Line_segment) : Bool :=
  match line.dist_to self.c_ with
  | Dist.zero => decide (0 < self.r_)
  | Dist.sqrt q => sqrt_lt q self.r_

end sphere

/-! ## GJK_utility.h -/

namespace GJK

/-- `constexpr double EPSILON = 1e-7`: the double nearest to `1 / 10 ^ 7`, which is
`944473296573929 / 2 ^ 73`, a little below `1 / 10 ^ 7`. -/
def EPSILON : ℚ := 944473296573929 / 9444732965739290427392

/-- `mink_diff`: all differences `p1 - p2`, `p1` in the outer loop. -/
def mink_diff (poly_points1 poly_points2 : List v2) : List v2 :=
  poly_points1.flatMap (fun p1 => poly_points2.map (fun p2 => p1 - p2))

/-- The `for` loop of `farest_point_in_dir`, run over the points from index `i` on;
the state is `(index, max_dot, dot)`. -/
def farest_scan (dir : v2) : List v2 → Nat → Nat → ℚ → ℚ → Nat × ℚ × ℚ
  | [], _, index, max_dot, dot => (index, max_dot, dot)
  | p :: rest, i, index, max_dot, dot =>
    if dot > max_dot then farest_scan dir rest (i + 1) (i - 1) dot (p.dot dir)
    else farest_scan dir rest (i + 1) index max_dot (p.dot dir)

/-- `farest_point_in_dir`: `points[0]` and `points[1]` are read before the loop,
whatever the size. -/
def farest_point_in_dir (points : List v2) (dir : v2) : Except Fault v2 :=
  let size := points.length
  match points[0]?, points[1]? with
  | some p0, some p1 =>
    match farest_scan dir (points.drop 2) 2 0 (p0.dot dir) (p1.dot dir) with
    | (index, max_dot, dot) =>
      match points[if dot > max_dot then size - 1 else index]? with
      | some p => Except.ok p
      | none => Except.error Fault.out_of_bounds
  | _, _ => Except.error Fault.out_of_bounds

/-- `support_func`. -/
def support_func (poly_points1 poly_points2 : List v2) (dir : v2) : Except Fault v2 :=
  match farest_point_in_dir poly_points1 dir with
  | Except.error e => Except.error e
  | Except.ok f1 =>
    match farest_point_in_dir poly_points2 (-dir) with
    | Except.error e => Except.error e
    | Except.ok f2 => Except.ok (f1 - f2)

/-- `closest_to_origin`: the point of the segment `a b` closest to the origin
(`x / 0 = 0` in `ℚ`; in the program `0.0 / 0.0` is NaN, which the `min`/`max` pair
turns into `0.0` as well). -/
def closest_to_origin (a b : v2) : v2 :=
  let ab := b - a
  ab * max 0 (min (-a.dot ab / ab.dot ab) 1) + a

/-- The array `v2 simplex[3]`. -/
structure Simplex where
  s0 : v2
  s1 : v2
  s2 : v2
deriving DecidableEq, Repr

/-- The read `simplex[i]`. -/
def Simplex.read (s : Simplex) : Nat → Except Fault v2
  | 0 => Except.ok s.s0
  | 1 => Except.ok s.s1
  | 2 => Except.ok s.s2
  | _ => Except.error Fault.out_of_bounds

/-- The write `simplex[i] = p`. -/
def Simplex.write (s : Simplex) (i : Nat) (p : v2) : Except Fault Simplex :=
  match i with
  | 0 => Except.ok { s with s0 := p }
  | 1 => Except.ok { s with s1 := p }
  | 2 => Except.ok { s with s2 := p }
  | _ => Except.error Fault.out_of_bounds

/-- `contains_origin(simplex, n, dir)`: the returned boolean together with the final
values of the three reference parameters. -/
def contains_origin (simplex : Simplex) (n : Nat) (_dir : v2) :
    Bool × Simplex × Nat × v2 :=
  if n = 3 then
    let ab := simplex.s1 - simplex.s2
    let dir1 : v2 := ⟨-ab.y, ab.x⟩
    let dir2 := if simplex.s0.dot dir1 > 0 then -dir1 else dir1
    if simplex.s2.dot dir2 < 0 then
      (false, { simplex with s0 := simplex.s2 }, n - 1, dir2)
    else
      let ac := simplex.s0 - simplex.s2
      let dir3 : v2 := ⟨-ac.y, ac.x⟩
      let dir4 := if simplex.s1.dot dir3 > 0 then -dir3 else dir3
      if simplex.s2.dot dir4 < 0 then
        (false, { simplex with s1 := simplex.s2 }, n - 1, dir4)
      else
        (true, simplex, n, dir4)
  else
    let ab := simplex.s0 - simplex.s1
    let dir1 : v2 := ⟨-ab.y, ab.x⟩
    let dir2 := if simplex.s1.dot dir1 > 0 then -dir1 else dir1
    (false, simplex, n, dir2)

/-- The body of the `while (true)` loop of `intersects`, iterated at most `fuel`
times from the state `(simplex, count, dir)`; the result is the returned boolean
together with the value of `dir` at the `return`. -/
def intersects_loop (poly1 poly2 : List v2) :
    Nat → Simplex → Nat → v2 → Except Fault (Bool × v2)
  | 0, _, _, _ => Except.error Fault.out_of_fuel
  | fuel + 1, simplex, count, dir =>
    match support_func poly1 poly2 dir with
    | Except.error e => Except.error e
    | Except.ok p =>
      match simplex.write count p with
      | Except.error e => Except.error e
      | Except.ok simplex1 =>
        let count1 := count + 1
        match simplex1.read (count1 - 1) with
        | Except.error e => Except.error e
        | Except.ok last =>
          if last.dot dir ≤ 0 then Except.ok (false, dir)
          else
            match contains_origin simplex1 count1 dir with
            | (true, _, _, dir2) => Except.ok (true, dir2)
            | (false, simplex2, count2, dir2) =>
              intersects_loop poly1 poly2 fuel simplex2 count2 dir2

/-- `GJK::intersects`, with the value of `dir` at the `return`. -/
def intersects_exit (fuel : Nat) (poly1 poly2 : List v2) : Except Fault (Bool × v2) :=
  let simplex : Simplex := ⟨⟨0, 0⟩, ⟨0, 0⟩, ⟨0, 0⟩⟩
  let dir : v2 := ⟨1, -1⟩
  match support_func poly1 poly2 (-dir) with
  | Except.error e => Except.error e
  | Except.ok p =>
    match simplex.write 0 p with
    | Except.error e => Except.error e
    | Except.ok simplex1 => intersects_loop poly1 poly2 fuel simplex1 1 dir

/-- `GJK::intersects`: the returned boolean alone. -/
def intersects (fuel : Nat) (poly1 poly2 : List v2) : Except Fault Bool :=
  match intersects_exit fuel poly1 poly2 with
  | Except.error e => Except.error e
  | Except.ok (r, _) => Except.ok r

/-- One pass through the body of the `while (true)` loop of `intersects` from the state
`(simplex, count, dir)`: either a `return` (the boolean and the value of `dir`), or the
state at the head of the next iteration. -/
def intersects_body (poly1 poly2 : List v2) (simplex : Simplex) (count : Nat) (dir : v2) :
    Except Fault ((Bool × v2) ⊕ (Simplex × Nat × v2)) :=
  match support_func poly1 poly2 dir with
  | Except.error e => Except.error e
  | Except.ok p =>
    match simplex.write count p with
    | Except.error e => Except.error e
    | Except.ok simplex1 =>
      let count1 := count + 1
      match simplex1.read (count1 - 1) with
      | Except.error e => Except.error e
      | Except.ok last =>
        if last.dot dir ≤ 0 then Except.ok (Sum.inl (false, dir))
        else
          match contains_origin simplex1 count1 dir with
          | (true, _, _, dir2) => Except.ok (Sum.inl (true, dir2))
          | (false, simplex2, count2, dir2) => Except.ok (Sum.inr (simplex2, count2, dir2))

/-- The state `(simplex, count, dir)` of `intersects` at the head of the iteration number
`n` of its loop (counted from 0), if the run gets there: `none` if it has returned or
faulted before. -/
def loop_head (poly1 poly2 : List v2) : Nat → Option (Simplex × Nat × v2)
  | 0 =>
    match support_func poly1 poly2 (-(⟨1, -1⟩ : v2)) with
    | Except.error _ => none
    | Except.ok p =>
      match (⟨⟨0, 0⟩, ⟨0, 0⟩, ⟨0, 0⟩⟩ : Simplex).write 0 p with
      | Except.error _ => none
      | Except.ok simplex1 => some (simplex1, 1, ⟨1, -1⟩)
  | n + 1 =>
    match loop_head poly1 poly2 n with
    | none => none
    | some (simplex, count, dir) =>
      match intersects_body poly1 poly2 simplex count dir with
      | Except.ok (Sum.inr state) => some state
      | _ => none

/-- How `GJK::distance` returned: which `return` statement was taken. -/
inductive Exit where
  | seed_close
  | origin_inside
  | no_progress
  | candidate_close
deriving DecidableEq, Repr

/-- The `while (true)` loop of `distance`, iterated at most `fuel` times from the
state `(a, b, dir)`; the result carries the `return` statement taken, the value of
`dir` at the `return`, and the returned value. -/
def distance_loop (poly1 poly2 : List v2) :
    Nat → v2 → v2 → v2 → Except Fault (Exit × v2 × Dist)
  | 0, _, _, _ => Except.error Fault.out_of_fuel
  | fuel + 1, a, b, dir =>
    match support_func poly1 poly2 dir with
    | Except.error e => Except.error e
    | Except.ok c =>
      let sa := a.cross b
      let da := a.dot dir
      let db := b.dot dir
      let sb := b.cross c
      let sc := c.cross a
      let dc := c.dot dir
      if min (sa * sb) (sa * sc) > 0 then Except.ok (Exit.origin_inside, dir, Dist.zero)
      else if min (dc - da) (dc - db) ≤ EPSILON then
        Except.ok (Exit.no_progress, dir, Dist.sqrt (-dc))
      else
        let p1 := closest_to_origin a c
        let p2 := closest_to_origin b c
        let p1_mag := p1.rsq
        let p2_mag := p2.rsq
        if min p1_mag p2_mag ≤ EPSILON then
          Except.ok (Exit.candidate_close, dir, Dist.zero)
        else if p1_mag ≤ p2_mag then distance_loop poly1 poly2 fuel a c (-p1)
        else distance_loop poly1 poly2 fuel c b (-p2)

/-- `GJK::distance`, with the `return` statement taken and the value of `dir` there. -/
def distance_exit (fuel : Nat) (poly1 poly2 : List v2) :
    Except Fault (Exit × v2 × Dist) :=
  let dir : v2 := ⟨1, -1⟩
  match support_func poly1 poly2 dir with
  | Except.error e => Except.error e
  | Except.ok a =>
    match support_func poly1 poly2 (-dir) with
    | Except.error e => Except.error e
    | Except.ok b =>
      let dir1 := -closest_to_origin a b
      if dir1.rsq ≤ EPSILON then Except.ok (Exit.seed_close, dir1, Dist.zero)
      else distance_loop poly1 poly2 fuel a b dir1

/-- `GJK::distance`: the returned value alone. -/
def distance (fuel : Nat) (poly1 poly2 : List v2) : Except Fault Dist :=
  match distance_exit fuel poly1 poly2 with
  | Except.error e => Except.error e
  | Except.ok (_, _, d) => Except.ok d

end GJK

/-! ## polygon.h -/

/-- The struct `Polygon` of polygon.h. -/
structure Polygon where
  vertices : List v2
deriving DecidableEq, Repr

namespace Polygon

/-- The segments `Line_segment(vertices[i], vertices[(i + 1) % size])` for
`i = 0 .. size - 1`, in the order the loops of polygon.h build them. -/
def edges (self : Polygon) : List Line_segment :=
  (List.finRange self.vertices.length).map (fun i =>
    Line_segment.mk (self.vertices.get i)
      (self.vertices.get ⟨(i.val + 1) % self.vertices.length,
        Nat.mod_lt _ (Nat.lt_of_le_of_lt (Nat.zero_le _) i.isLt)⟩))

/-- `Polygon::self_translate`: `vertices[i] += vect` for every index. -/
def self_translate (self : Polygon) (vect : v2) : Polygon :=
  ⟨self.vertices.map (fun p => p + vect)⟩

/-- `Polygon::contains(const v2&)`: parity of the number of edges crossed by the
segment from `point` to `(300000, 300000)`. -/
def contains (self : Polygon) (point : v2) : Bool :=
  let ray := Line_segment.mk point ⟨300000, 300000⟩
  let intersectTimes := (self.edges.filter (fun line => line.intersects ray)).length
  decide (intersectTimes % 2 = 1)

/-- `Polygon::intersects(const Line_segment&)`. -/
def intersects_line (self : Polygon) (line : Line_segment) : Bool :=
  if self.contains line.start || self.contains line.end then true
  else self.edges.any (fun li => li.intersects line)

/-- `Polygon::intersects(const Polygon&)`, the GJK path. -/
def intersects (fuel : Nat) (self other : Polygon) : Except Fault Bool :=
  GJK.intersects fuel self.vertices other.vertices

/-- `Polygon::naive_intersects(const Polygon&)`: the loop runs over the edges of
`this` and tests each against `this`; the parameter `other` is never read. -/
def naive_intersects (self _other : Polygon) : Bool :=
  self.edges.any (fun line => self.intersects_line line)

/-- `Polygon::distance_to(const v2&)`: `0.0` if the polygon contains the point, else
the least `dist_to` over the edges. `none` is `MAX_DOUBLE`, the value of `min` before
the first edge; the least of the square roots is the root of the least radicand. -/
def distance_to_point (self : Polygon) (pt : v2) : Option Dist :=
  if self.contains pt then some Dist.zero
  else
    (self.edges.foldl (fun (m : Option ℚ) li =>
      match m with
      | none => some ((pt - li.project_in pt).rsq)
      | some q => some (min q ((pt - li.project_in pt).rsq))) none).map Dist.sqrt

/-- `Polygon::distance_to(const Line_segment&)`: the least `dist_to_line_seg` over the
edges; `none` is the infinity `min` starts from. -/
def distance_to_line (self : Polygon) (line : Line_segment) : Option Dist :=
  self.edges.foldl (fun (m : Option Dist) li =>
    match m with
    | none => some (li.dist_to_line_seg line)
    | some d => some (Dist.min d (li.dist_to_line_seg line))) none

/-- Modelled from the spec: `Polygon::gjk_intersects`, which `distance_to` calls and
polygon.h does not declare; the spec says `distance_to(other polygon)` is 0 "if the GJK
intersection test returns true", so it is the GJK path `intersects`. -/
def gjk_intersects (fuel : Nat) (self other : Polygon) : Except Fault Bool :=
  self.intersects fuel other

/-- `Polygon::distance_to(const Polygon&)`. -/
def distance_to (fuel : Nat) (self other : Polygon) : Except Fault Dist :=
  match self.gjk_intersects fuel other with
  | Except.error e => Except.error e
  | Except.ok true => Except.ok Dist.zero
  | Except.ok false => GJK.distance fuel self.vertices other.vertices

end Polygon

/-! ## Vocabulary of the statements -/

namespace GJK

/-- The point `p` sits at index `k` of `points`, no point of the list has a larger dot
product with `dir`, and every point before index `k` has a strictly smaller one. -/
def is_first_max (points : List v2) (dir : v2) (k : Nat) (p : v2) : Prop :=
  points[k]? = some p ∧
  (∀ (j : Nat) (q : v2), points[j]? = some q → q.dot dir ≤ p.dot dir) ∧
  (∀ (j : Nat) (q : v2), j < k → points[j]? = some q → q.dot dir < p.dot dir)

/-- The point `m` is a point of the Minkowski difference of the two lists. -/
def in_mink (A B : List v2) (m : v2) : Prop :=
  ∃ a ∈ A, ∃ b ∈ B, m = a - b

/-- The direction `d` weakly separates the two lists: no difference `a - b` has a
positive dot product with it. -/
def separates (A B : List v2) (d : v2) : Prop :=
  ∀ a ∈ A, ∀ b ∈ B, (a - b).dot d ≤ 0

/-- The direction `contains_origin` computes for an edge: the perpendicular
`(-e.y, e.x)` of `e = q - r`, negated when `other` has a positive dot product with it. -/
def edge_dir (other q r : v2) : v2 :=
  if other.dot ⟨-(q - r).y, (q - r).x⟩ > 0 then -(⟨-(q - r).y, (q - r).x⟩ : v2)
  else ⟨-(q - r).y, (q - r).x⟩

/-- The state of the loop of `intersects` at the head of an iteration: with one live
point, it is a point of the Minkowski difference lying lowest along the non-zero `dir`;
with two, `dir` is a perpendicular of their difference, the newer point is not on its
positive side, and `dir` is zero only if some non-zero direction separates the lists. -/
def loop_inv (A B : List v2) (s : Simplex) (count : Nat) (dir : v2) : Prop :=
  (count = 1 ∧ in_mink A B s.s0 ∧ dir ≠ ⟨0, 0⟩ ∧
    ∀ a ∈ A, ∀ b ∈ B, s.s0.dot dir ≤ (a - b).dot dir) ∨
  (count = 2 ∧ in_mink A B s.s0 ∧ in_mink A B s.s1 ∧
    (dir = ⟨-(s.s0 - s.s1).y, (s.s0 - s.s1).x⟩ ∨
      dir = -(⟨-(s.s0 - s.s1).y, (s.s0 - s.s1).x⟩ : v2)) ∧
    s.s1.dot dir ≤ 0 ∧
    (dir ≠ ⟨0, 0⟩ ∨ ∃ d : v2, d ≠ ⟨0, 0⟩ ∧ separates A B d))

/-- The origin is a convex combination of three points of the Minkowski difference;
the same weights give a point shared by the convex hulls of the two lists. -/
def hulls_meet (A B : List v2) : Prop :=
  ∃ a0 ∈ A, ∃ a1 ∈ A, ∃ a2 ∈ A, ∃ b0 ∈ B, ∃ b1 ∈ B, ∃ b2 ∈ B, ∃ l0 l1 l2 : ℚ,
    0 ≤ l0 ∧ 0 ≤ l1 ∧ 0 ≤ l2 ∧ l0 + l1 + l2 = 1 ∧
    (a0 - b0) ∈ mink_diff A B ∧ (a1 - b1) ∈ mink_diff A B ∧ (a2 - b2) ∈ mink_diff A B ∧
    (a0 - b0) * l0 + (a1 - b1) * l1 + (a2 - b2) * l2 = ⟨0, 0⟩ ∧
    a0 * l0 + a1 * l1 + a2 * l2 = b0 * l0 + b1 * l1 + b2 * l2

/-- The convex hull of a list of points: the points of the list, closed under taking a
point of the segment between two points of the hull. -/
inductive in_hull (P : List v2) : v2 → Prop where
  | vertex (p : v2) : p ∈ P → in_hull P p
  | segment (x y : v2) (t : ℚ) : in_hull P x → in_hull P y → 0 ≤ t → t ≤ 1 →
      in_hull P (x + (y - x) * t)

/-- Some point of the hull of `A` and some point of the hull of `B` are at squared
distance at most `r` from each other. -/
def hulls_within (A B : List v2) (r : ℚ) : Prop :=
  ∃ x y, in_hull A x ∧ in_hull B y ∧ (x - y).rsq ≤ r

/-- The state of the loop of `distance` at the head of an iteration: `a` and `b` are
points of the Minkowski difference, `-dir` is a point `a + (b - a) * t` of the segment
between them with `0 ≤ t ≤ 1`, neither end lies below it along `-dir`, and its squared
length exceeds `EPSILON`. -/
def dist_inv (A B : List v2) (a b dir : v2) : Prop :=
  (∃ a1 ∈ A, ∃ b1 ∈ B, ∃ a2 ∈ A, ∃ b2 ∈ B, ∃ t : ℚ, a = a1 - b1 ∧ b = a2 - b2 ∧
    0 ≤ t ∧ t ≤ 1 ∧ -dir = a + (b - a) * t) ∧
  EPSILON < dir.rsq ∧ a.dot dir + dir.rsq ≤ 0 ∧ b.dot dir + dir.rsq ≤ 0

/-- What a returned result of `distance` satisfies: either the progress check fired
and the radicand `q` lies between `|dir|² - EPSILON` and `|dir|²`, with `|dir|²` above
`EPSILON`, every Minkowski-difference point at least `q` along `-dir`, and `-dir` a
difference of hull points; or another `return` was taken and the value is `0.0`. -/
def dist_post (A B : List v2) (e : Exit) (d : v2) (v : Dist) : Prop :=
  (e = Exit.no_progress ∧ ∃ q : ℚ, v = Dist.sqrt q ∧ d.rsq - EPSILON ≤ q ∧ q ≤ d.rsq ∧
    EPSILON < d.rsq ∧ (∀ a ∈ A, ∀ b ∈ B, q ≤ (a - b).dot (-d)) ∧
    ∃ x y, in_hull A x ∧ in_hull B y ∧ x - y = -d) ∨
  (e ≠ Exit.no_progress ∧ v = Dist.zero)

/-- The point `q` is the point of the segment from `a` to `b` nearest to the origin:
it lies on the segment, and neither end is nearer to the origin along it. -/
def is_closest (a b q : v2) : Prop :=
  (∃ t : ℚ, 0 ≤ t ∧ t ≤ 1 ∧ q = a + (b - a) * t) ∧ q.rsq ≤ a.dot q ∧ q.rsq ≤ b.dot q

/-- The point `x` lies lowest along `w` among the points of the Minkowski difference:
it is a farthest point along `-w`. -/
def argmin_of (A B : List v2) (x w : v2) : Prop :=
  ∀ a ∈ A, ∀ b ∈ B, x.dot w ≤ (a - b).dot w

/-- If the closest point `p` of the segment `x y` is its end `x`, then `x` lies lowest
along some direction in which `y` is strictly higher. -/
def half_hist (A B : List v2) (x y p : v2) : Prop :=
  p = x → ∃ w, argmin_of A B x w ∧ x.dot w < y.dot w

/-- What the loop of `distance` maintains of a state `(a, b, d)`, in the form used to
compare the run from `(a, b, d)` with the run from `(b, a, d)`. -/
def swap_inv (A B : List v2) (a b d : v2) : Prop :=
  is_closest a b (-d) ∧ EPSILON < d.rsq ∧ half_hist A B a b (-d) ∧ half_hist A B b a (-d)

/-- A vertex `x` kept next to the newest support point `e`, which was found from the
closest point `w`: `x` is nearer to the origin along neither `e` nor `w`. -/
def shared_inv (x e w : v2) : Prop :=
  e.rsq ≤ x.dot e ∧ w.rsq ≤ x.dot w

/-- The newest support point `e` is the closest point, found from the closest point `w`:
`w` is not nearer to the origin along `e`, `e` lies lowest along `w` and strictly nearer
than `w` along it, and its squared length exceeds `EPSILON`. -/
def shared_base (A B : List v2) (e w : v2) : Prop :=
  e.rsq ≤ w.dot e ∧ argmin_of A B e w ∧ e.dot w < w.rsq ∧ EPSILON < e.rsq

/-- Two states of the loop of `distance` from which the runs return the same result:
equal states; a state and its swap; or two states whose closest point is the newest
support point `e`, an end of both segments. -/
def related (A B : List v2) (a1 b1 d1 a2 b2 d2 : v2) : Prop :=
  (a1 = a2 ∧ b1 = b2 ∧ d1 = d2) ∨
  (a2 = b1 ∧ b2 = a1 ∧ d2 = d1 ∧ swap_inv A B a1 b1 d1) ∨
  (∃ e w x1 x2, d1 = -e ∧ d2 = -e ∧
    ((a1 = x1 ∧ b1 = e) ∨ (a1 = e ∧ b1 = x1)) ∧
    ((a2 = x2 ∧ b2 = e) ∨ (a2 = e ∧ b2 = x2)) ∧
    shared_inv x1 e w ∧ shared_inv x2 e w ∧ shared_base A B e w)

/-- The state after an iteration from a state whose closest point is its end `e`: the
kept vertex `x` with the new support point `c`, when `c` is the new closest point `u`;
or the ends `c`, `e` in either order. -/
def next_form (x e c u a b : v2) : Prop :=
  (a = x ∧ b = c ∧ u = c ∧ c.rsq ≤ x.dot c) ∨ (a = c ∧ b = e) ∨ (a = e ∧ b = c)

/-- One comparison of the scan: keep `acc` unless `p` is strictly farther along `dir`. -/
def pick (dir : v2) (acc p : v2) : v2 :=
  if p.dot dir > acc.dot dir then p else acc

/-- The number of pairs of the Minkowski difference that lie strictly beyond the vertex
`V` along `d`: strictly on the side of the current edge where the origin is. -/
def cap_count (A B : List v2) (V d : v2) : Nat :=
  (mink_diff A B).countP (fun m => decide (V.dot d < m.dot d))

/-- The number of pairs of the Minkowski difference that span with `V` and the origin a
triangle of larger area than `X` does. -/
def far_count (A B : List v2) (X V : v2) : Nat :=
  (mink_diff A B).countP (fun m => decide (|(X - V).cross V| < |(m - V).cross V|))

/-- The quantity that decreases at every iteration of the loop of `intersects` that
replaces a vertex of the edge `X V`: before the first drop of a vertex that lies behind
the new edge, the count `far_count`, above every later value; after it, `cap_count`. -/
def term_measure (A B : List v2) (X V d : v2) (proper : Bool) : Nat :=
  if proper then cap_count A B V d
  else (mink_diff A B).length + 1 + far_count A B X V

/-- What the loop of `intersects` maintains of a state with the two live points `X`
(`simplex[0]`) and `V` (`simplex[1]`): both are points of the Minkowski difference; `dir`
is a perpendicular of `X - V` and `V` is not on its positive side; each of `V` and `X`
lies farthest along some direction, `V` strictly beyond the origin along its direction
and strictly behind `X` along the direction of `X`; and, once a vertex has been dropped
behind the new edge, the origin is strictly off the edge and some point `G` of the
difference lies with the origin on the same side of the line through `V` and `G` as `X`,
the origin not farther from that line than `X`. -/
def term_inv (A B : List v2) (X V d : v2) (proper : Bool) : Prop :=
  in_mink A B X ∧ in_mink A B V ∧ V.dot d ≤ 0 ∧
  ∃ η : ℚ, ∃ wV wX : v2, (η = 1 ∨ η = -1) ∧
    (∀ p : v2, p.dot d = η * (X - V).cross p) ∧
    (∀ a ∈ A, ∀ b ∈ B, (a - b).dot wV ≤ V.dot wV) ∧ 0 < V.dot wV ∧
    (∀ a ∈ A, ∀ b ∈ B, (a - b).dot wX ≤ X.dot wX) ∧ V.dot wX < X.dot wX ∧
    (proper = true → V.dot d < 0 ∧ ∃ G, in_mink A B G ∧
      η * (G - V).cross (-V) ≤ η * (G - V).cross (X - V) ∧
      0 ≤ η * (G - V).cross (-V) ∧
      (η * (G - V).cross (-V) < η * (G - V).cross (X - V) ∨ (G - V).dot wV < 0))

end GJK

/-- The point `q` lies on the segment from `a` to `b`, ends included. -/
def on_seg (a b q : v2) : Prop :=
  ∃ t : ℚ, 0 ≤ t ∧ t ≤ 1 ∧ q = a + (b - a) * t

/-- Twice the signed area of the triangle `a b x`: positive when `a`, `b`, `x` are listed
counter-clockwise, zero when they lie on a line. -/
def orient (a b x : v2) : ℚ := (b - a).cross (x - a)

/-- The real `d` is the distance from the center of the disk to `point` in the metric
of the disk. -/
def sphere.metric_dist (self : sphere) (point : v2) (d : ℝ) : Prop :=
  match self.metric with
  | SPHEREMETRIC.L1 => d = (((self.c_ - point).l1 : ℚ) : ℝ)
  | SPHEREMETRIC.L2 => d = Real.sqrt (((self.c_ - point).rsq : ℚ) : ℝ)
  | SPHEREMETRIC.LINFTY => d = (((self.c_ - point).linfty : ℚ) : ℝ)

/-- The point `x` lies in the triangle `p0 p1 p2`, edges and vertices included: it is a
combination of the vertices with weights that are not negative and sum to 1. -/
def in_triangle (p0 p1 p2 x : v2) : Prop :=
  ∃ l0 l1 l2 : ℚ, 0 ≤ l0 ∧ 0 ≤ l1 ∧ 0 ≤ l2 ∧ l0 + l1 + l2 = 1 ∧
    x = p0 * l0 + p1 * l1 + p2 * l2

/-- The point `x` lies strictly inside the triangle `p0 p1 p2`: it is a combination of
the vertices with positive weights that sum to 1. -/
def strictly_in_triangle (p0 p1 p2 x : v2) : Prop :=
  ∃ l0 l1 l2 : ℚ, 0 < l0 ∧ 0 < l1 ∧ 0 < l2 ∧ l0 + l1 + l2 = 1 ∧
    x = p0 * l0 + p1 * l1 + p2 * l2

/-- The ray from the origin in the direction `d` crosses the segment from `u` to `v`: the
ends lie on different sides of the line of `d`, a point of the line counting with the
clockwise side, and the point of the segment on the line is on the side of `d`. -/
def ray_crosses (u v d : v2) : Bool :=
  (decide (0 < d.cross u) != decide (0 < d.cross v)) &&
    decide (0 < u.cross v * (d.cross v - d.cross u))

/-- The point `w` lies in the sector between the direction `(1, 0)` and the direction `d`,
closed on the side where a point of a line counts with the clockwise side. -/
def in_sector (d w : v2) : Bool :=
  if 0 < d.y then decide (0 < w.y) && !decide (0 < d.cross w)
  else if d.y < 0 then !decide (0 < w.y) && decide (0 < d.cross w)
  else if d.x < 0 then decide (0 < w.y) || (decide (w.y = 0) && decide (w.x < 0))
  else false

/-- The horizontal ray from `x` to the right crosses the edge from `u` to `v`: exactly one
end of the edge is strictly above the line of the ray, and `x` is strictly to the left of
the edge. -/
def crosses_ray (u v x : v2) : Bool :=
  (decide (x.y < u.y) != decide (x.y < v.y)) && decide (0 < (v.y - u.y) * orient u v x)

/-- The even-odd rule: the point `x` is inside the polygon when the horizontal ray from
`x` to the right crosses an odd number of edges. -/
def Polygon.inside (self : Polygon) (x : v2) : Bool :=
  decide ((self.edges.filter (fun line => crosses_ray line.start line.end x)).length % 2 = 1)

/-! ## The type `double` with rounding -/

/-- A C++ `double` (IEEE 754 binary64) by its value: a finite value, which is a rational
number, an infinity with its sign, or NaN. The sign of a zero is not kept: every divisor
in the program is a sum of squares, a square root, or a value tested to be away from
zero, so that the sign of a zero never reaches a result. -/
inductive Double where
  | finite (q : ℚ)
  | inf (negative : Bool)
  | nan
deriving DecidableEq, Repr

namespace Double

/-- The quotient `n / d` divided by `2 ^ p`, as a numerator and a denominator. -/
def scaled (n d : Nat) (p : Int) : Nat × Nat :=
  if 0 ≤ p then (n, d * 2 ^ p.toNat) else (n * 2 ^ (-p).toNat, d)

/-- The integer nearest to `n / d`, the even one of the two if they are equally near. -/
def nearest_even (n d : Nat) : Nat :=
  let fl := n / d
  let r := n % d
  if 2 * r < d then fl
  else if d < 2 * r then fl + 1
  else if fl % 2 = 0 then fl else fl + 1

/-- The number of binary digits of `n`, counted in at most `fuel` steps. -/
def bit_count : Nat → Nat → Nat
  | 0, _ => 0
  | fuel + 1, n => if n = 0 then 0 else bit_count fuel (n / 2) + 1

/-- The binary logarithm of a positive natural number, rounded down. -/
def log2 (n : Nat) : Nat := bit_count n n - 1

/-- The exponent of a positive rational `n / d`: the integer `e` with
`2 ^ e ≤ n / d < 2 ^ (e + 1)`. -/
def exponent (n d : Nat) : Int :=
  let e0 : Int := (log2 n : Int) - (log2 d : Int)
  if (scaled n d e0).1 < (scaled n d e0).2 then e0 - 1 else e0

/-- The value `m * 2 ^ p`. -/
def scale_up (m : Nat) (p : Int) : ℚ :=
  if 0 ≤ p then ((m * 2 ^ p.toNat : Nat) : ℚ) else (m : ℚ) / ((2 ^ (-p).toNat : Nat) : ℚ)

/-- Rounding to `double`, to nearest, ties to even: a multiple `m * 2 ^ p` of the unit
in the last place `2 ^ p`, with 53 significant bits (`p` is at least -1074, the exponent
of the subnormal numbers); an infinity if the result is `2 ^ 1024` or more. -/
def nearest (q : ℚ) : Double :=
  if q = 0 then finite 0
  else
    let n := q.num.natAbs
    let d := q.den
    let p : Int := max (exponent n d - 52) (-1074)
    let m := nearest_even (scaled n d p).1 (scaled n d p).2
    let v := scale_up m p
    if (2 : ℚ) ^ 1024 ≤ v then inf (decide (q < 0))
    else finite (if q < 0 then -v else v)

/-- Addition of two doubles. -/
def add : Double → Double → Double
  | finite a, finite b => nearest (a + b)
  | finite _, inf s => inf s
  | inf s, finite _ => inf s
  | inf s, inf t => if s = t then inf s else nan
  | _, _ => nan

/-- Unary minus. -/
def neg : Double → Double
  | finite a => finite (-a)
  | inf s => inf (!s)
  | nan => nan

/-- Subtraction. -/
def sub (a b : Double) : Double := add a (neg b)

/-- Multiplication. -/
def mul : Double → Double → Double
  | finite a, finite b => nearest (a * b)
  | finite a, inf s => if a = 0 then nan else inf (xor s (decide (a < 0)))
  | inf s, finite b => if b = 0 then nan else inf (xor s (decide (b < 0)))
  | inf s, inf t => inf (xor s t)
  | _, _ => nan

/-- Division; `0.0 / 0.0` and `inf / inf` are NaN, and a non-zero value divided by zero
is an infinity. -/
def div : Double → Double → Double
  | finite a, finite b =>
    if b = 0 then (if a = 0 then nan else inf (decide (a < 0))) else nearest (a / b)
  | finite _, inf _ => finite 0
  | inf s, finite b => inf (xor s (decide (b < 0)))
  | _, _ => nan

instance : Add Double := ⟨add⟩
instance : Sub Double := ⟨sub⟩
instance : Neg Double := ⟨neg⟩
instance : Mul Double := ⟨mul⟩
instance : Div Double := ⟨div⟩

/-- The comparison `a < b`; false if an operand is NaN. -/
def lt : Double → Double → Bool
  | finite a, finite b => decide (a < b)
  | finite _, inf t => !t
  | inf s, finite _ => s
  | inf s, inf t => s && !t
  | _, _ => false

/-- The comparison `a <= b`; false if an operand is NaN. -/
def le : Double → Double → Bool
  | finite a, finite b => decide (a ≤ b)
  | finite _, inf t => !t
  | inf s, finite _ => s
  | inf s, inf t => s || !t
  | _, _ => false

/-- The comparison `a > b`. -/
def gt (a b : Double) : Bool := lt b a

/-- The comparison `a == b`; false if an operand is NaN. -/
def eq : Double → Double → Bool
  | finite a, finite b => decide (a = b)
  | inf s, inf t => decide (s = t)
  | _, _ => false

/-- `fabs`. -/
def fabs : Double → Double
  | finite a => finite |a|
  | inf _ => inf false
  | nan => nan

/-- `std::min(a, b)`: `(b < a) ? b : a`. -/
def min (a b : Double) : Double := if lt b a then b else a

/-- `std::max(a, b)`: `(a < b) ? b : a`. -/
def max (a b : Double) : Double := if lt a b then b else a

/-- The largest `r` with `r * r ≤ n`, found bit by bit from bit `k - 1` down. -/
def isqrt_bits (n : Nat) : Nat → Nat → Nat
  | 0, r => r
  | k + 1, r => if (r + 2 ^ k) * (r + 2 ^ k) ≤ n then isqrt_bits n k (r + 2 ^ k)
    else isqrt_bits n k r

/-- The integer square root. -/
def isqrt (n : Nat) : Nat := isqrt_bits n (log2 n / 2 + 1) 0

/-- `std::sqrt` of a positive rational, correctly rounded. -/
def sqrt_pos (q : ℚ) : Double :=
  let n := q.num.natAbs
  let d := q.den
  let p : Int := (exponent n d) / 2 - 52
  let sc := scaled n d (2 * p)
  let m0 := isqrt (sc.1 / sc.2)
  let m := if (2 * m0 + 1) * (2 * m0 + 1) * sc.2 < 4 * sc.1 then m0 + 1
    else if 4 * sc.1 < (2 * m0 + 1) * (2 * m0 + 1) * sc.2 then m0
    else if m0 % 2 = 0 then m0 else m0 + 1
  finite (scale_up m p)

/-- `std::sqrt`: NaN for a negative argument. -/
def sqrt : Double → Double
  | finite a => if a < 0 then nan else if a = 0 then finite 0 else sqrt_pos a
  | inf s => if s then nan else inf false
  | nan => nan

/-- The rational value of a finite double; `0` for an infinity or NaN. -/
def value : Double → ℚ
  | finite q => q
  | _ => 0

end Double

/-! ## The same functions in double precision

The definitions below repeat the functions above with the arithmetic of the program:
every operation on doubles is rounded to the nearest double, and infinities and NaN
follow IEEE 754. -/

namespace Rounded

/-- The struct `v2` of geometry.h with `double` coordinates. -/
structure v2 where
  x : Double
  y : Double
deriving DecidableEq, Repr

namespace v2

/-- `v2::operator+`. -/
instance : Add v2 := ⟨fun a b => ⟨a.x + b.x, a.y + b.y⟩⟩

/-- Binary `v2::operator-`. -/
instance : Sub v2 := ⟨fun a b => ⟨a.x - b.x, a.y - b.y⟩⟩

/-- Unary `v2::operator-`. -/
instance : Neg v2 := ⟨fun a => ⟨-a.x, -a.y⟩⟩

/-- `v2::operator*(double)`. -/
instance : HMul v2 Double v2 := ⟨fun a b => ⟨a.x * b, a.y * b⟩⟩

/-- `v2::dot`. -/
def dot (a b : v2) : Double := a.x * b.x + a.y * b.y

/-- `v2::cross`. -/
def cross (a b : v2) : Double := a.x * b.y - a.y * b.x

/-- `v2::rsq`. -/
def rsq (a : v2) : Double := a.dot a

/-- `v2::r`: `sqrt(this->dot(*this))`. -/
def r (a : v2) : Double := Double.sqrt (a.dot a)

/-- `v2::l1`. -/
def l1 (a : v2) : Double := Double.fabs a.x + Double.fabs a.y

/-- `v2::linfty`. -/
def linfty (a : v2) : Double := Double.max (Double.fabs a.x) (Double.fabs a.y)

/-- The point with the rational coordinates `p`, rounded to doubles: what the
constructor `v2(x, y)` gives for the decimal literals `x` and `y`. -/
def lit (x y : ℚ) : v2 := ⟨Double.nearest x, Double.nearest y⟩

/-- The point of the exact plane that a point with finite coordinates is. -/
def value (a : v2) : N2D.v2 := ⟨a.x.value, a.y.value⟩

end v2

/-- The struct `Line_segment` of geometry.h with `double` coordinates. -/
structure Line_segment where
  start : v2
  «end» : v2
deriving DecidableEq, Repr

namespace Line_segment

/-- `Line_segment::vec`. -/
def vec (self : Line_segment) : v2 := self.end - self.start

/-- `Line_segment::length`. -/
def length (self : Line_segment) : Double := (self.end - self.start).r

/-- `Line_segment::project_t`. -/
def project_t (self : Line_segment) (pt : v2) : Double :=
  let r := self.length
  if Double.eq r (Double.finite 0) then Double.finite 0
  else (pt - self.start).dot self.vec / r

/-- `Line_segment::project_in`. -/
def project_in (self : Line_segment) (pt : v2) : v2 :=
  let ab := self.end - self.start
  self.start + ab * Double.max (Double.finite 0)
    (Double.min ((pt - self.start).dot ab / ab.rsq) (Double.finite 1))

/-- `Line_segment::__ccw__`. -/
def __ccw__ (A B C : v2) : Bool :=
  Double.gt ((C.y - A.y) * (B.x - A.x)) ((B.y - A.y) * (C.x - A.x))

/-- `Line_segment::intersects(const Line_segment&)`. -/
def intersects (self other : Line_segment) : Bool :=
  let A := self.start
  let B := self.end
  let C := other.start
  let D := other.end
  (__ccw__ A C D != __ccw__ B C D) && (__ccw__ A B C != __ccw__ A B D)

/-- `Line_segment::dist_to(const v2&)`. -/
def dist_to (self : Line_segment) (pt : v2) : Double :=
  (pt - self.project_in pt).r

/-- `Line_segment::dist_to_line_seg`. -/
def dist_to_line_seg (self other : Line_segment) : Double :=
  if self.intersects other then Double.finite 0
  else
    let other_proj_start := self.project_in other.start
    let other_proj_end := self.project_in other.end
    let proj_to_otehr_start := other.project_in self.start
    let proj_to_otehr_end := other.project_in self.end
    let d1 := (other_proj_start - other.start).r
    let d2 := (other_proj_end - other.end).r
    let d3 := (proj_to_otehr_start - self.start).r
    let d4 := (proj_to_otehr_end - self.end).r
    Double.min (Double.min d1 d2) (Double.min d3 d4)

/-- The sentinel `INFINITE_POINT`: `v2(MAX_DOUBLE, MAX_DOUBLE)`, both coordinates the
positive infinity. -/
def INFINITE_POINT : v2 := ⟨Double.inf false, Double.inf false⟩

/-- `Line_segment::intersection_point`. -/
def intersection_point (self other : Line_segment) : v2 :=
  let x11 := self.start.x
  let y11 := self.start.y
  let x12 := self.end.x
  let y12 := self.end.y
  let x21 := other.start.x
  let y21 := other.start.y
  let x22 := other.end.x
  let y22 := other.end.y
  let dx1 := x12 - x11
  let dy1 := y12 - y11
  let dx2 := x22 - x21
  let dy2 := y22 - y21
  let delta := dx2 * dy1 - dy2 * dx1
  if Double.lt (Double.fabs delta) (Double.nearest (1 / 10000000)) then INFINITE_POINT
  else
    let s := (dx1 * (y21 - y11) + dy1 * (x11 - x21)) / delta
    let t := (dx2 * (y11 - y21) + dy2 * (x21 - x11)) / (Double.finite (-1) * delta)
    if !((Double.le (Double.finite 0) s && Double.le s (Double.finite 1)) &&
        (Double.le (Double.finite 0) t && Double.le t (Double.finite 1))) then
      INFINITE_POINT
    else
      let i_x := x11 + t * dx1
      let i_y := y11 + t * dy1
      ⟨i_x, i_y⟩

end Line_segment

/-- The struct `sphere` of geometry.h with `double` fields. -/
structure sphere where
  c_ : v2
  r_ : Double
  metric : SPHEREMETRIC
deriving DecidableEq, Repr

namespace sphere

/-- `sphere::on_boundary`: `(dist - this->r_) < tolerance`. -/
def on_boundary (self : sphere) (point : v2) (tolerance : Double) : Bool :=
  let dist :=
    match self.metric with
    | SPHEREMETRIC.L1 => (self.c_ - point).l1
    | SPHEREMETRIC.L2 => (self.c_ - point).r
    | SPHEREMETRIC.LINFTY => (self.c_ - point).linfty
  Double.lt (dist - self.r_) tolerance

/-- `sphere::contains`: `dist < this->r_`. -/
def contains (self : sphere) (point : v2) : Bool :=
  let dist :=
    match self.metric with
    | SPHEREMETRIC.L1 => (self.c_ - point).l1
    | SPHEREMETRIC.L2 => (self.c_ - point).r
    | SPHEREMETRIC.LINFTY => (self.c_ - point).linfty
  Double.lt dist self.r_

end sphere

namespace GJK

/-- `constexpr double EPSILON = 1e-7`. -/
def EPSILON : Double := Double.nearest (1 / 10000000)

/-- `mink_diff`. -/
def mink_diff (poly_points1 poly_points2 : List v2) : List v2 :=
  poly_points1.flatMap (fun p1 => poly_points2.map (fun p2 => p1 - p2))

/-- The `for` loop of `farest_point_in_dir`, run over the points from index `i` on;
the state is `(index, max_dot, dot)`. -/
def farest_scan (dir : v2) : List v2 → Nat → Nat → Double → Double → Nat × Double × Double
  | [], _, index, max_dot, dot => (index, max_dot, dot)
  | p :: rest, i, index, max_dot, dot =>
    if Double.gt dot max_dot then farest_scan dir rest (i + 1) (i - 1) dot (p.dot dir)
    else farest_scan dir rest (i + 1) index max_dot (p.dot dir)

/-- `farest_point_in_dir`. -/
def farest_point_in_dir (points : List v2) (dir : v2) : Except Fault v2 :=
  let size := points.length
  match points[0]?, points[1]? with
  | some p0, some p1 =>
    match farest_scan dir (points.drop 2) 2 0 (p0.dot dir) (p1.dot dir) with
    | (index, max_dot, dot) =>
      match points[if Double.gt dot max_dot then size - 1 else index]? with
      | some p => Except.ok p
      | none => Except.error Fault.out_of_bounds
  | _, _ => Except.error Fault.out_of_bounds

/-- `support_func`. -/
def support_func (poly_points1 poly_points2 : List v2) (dir : v2) : Except Fault v2 :=
  match farest_point_in_dir poly_points1 dir with
  | Except.error e => Except.error e
  | Except.ok f1 =>
    match farest_point_in_dir poly_points2 (-dir) with
    | Except.error e => Except.error e
    | Except.ok f2 => Except.ok (f1 - f2)

/-- `closest_to_origin`. -/
def closest_to_origin (a b : v2) : v2 :=
  let ab := b - a
  ab * Double.max (Double.finite 0)
    (Double.min (-(a.dot ab) / ab.dot ab) (Double.finite 1)) + a

/-- The array `v2 simplex[3]`. -/
structure Simplex where
  s0 : v2
  s1 : v2
  s2 : v2
deriving DecidableEq, Repr

/-- The read `simplex[i]`. -/
def Simplex.read (s : Simplex) : Nat → Except Fault v2
  | 0 => Except.ok s.s0
  | 1 => Except.ok s.s1
  | 2 => Except.ok s.s2
  | _ => Except.error Fault.out_of_bounds

/-- The write `simplex[i] = p`. -/
def Simplex.write (s : Simplex) (i : Nat) (p : v2) : Except Fault Simplex :=
  match i with
  | 0 => Except.ok { s with s0 := p }
  | 1 => Except.ok { s with s1 := p }
  | 2 => Except.ok { s with s2 := p }
  | _ => Except.error Fault.out_of_bounds

/-- `contains_origin(simplex, n, dir)`: the returned boolean together with the final
values of the three reference parameters. -/
def contains_origin (simplex : Simplex) (n : Nat) (_dir : v2) :
    Bool × Simplex × Nat × v2 :=
  if n = 3 then
    let ab := simplex.s1 - simplex.s2
    let dir1 : v2 := ⟨-ab.y, ab.x⟩
    let dir2 := if Double.gt (simplex.s0.dot dir1) (Double.finite 0) then -dir1 else dir1
    if Double.lt (simplex.s2.dot dir2) (Double.finite 0) then
      (false, { simplex with s0 := simplex.s2 }, n - 1, dir2)
    else
      let ac := simplex.s0 - simplex.s2
      let dir3 : v2 := ⟨-ac.y, ac.x⟩
      let dir4 := if Double.gt (simplex.s1.dot dir3) (Double.finite 0) then -dir3 else dir3
      if Double.lt (simplex.s2.dot dir4) (Double.finite 0) then
        (false, { simplex with s1 := simplex.s2 }, n - 1, dir4)
      else
        (true, simplex, n, dir4)
  else
    let ab := simplex.s0 - simplex.s1
    let dir1 : v2 := ⟨-ab.y, ab.x⟩
    let dir2 := if Double.gt (simplex.s1.dot dir1) (Double.finite 0) then -dir1 else dir1
    (false, simplex, n, dir2)

/-- The body of the `while (true)` loop of `intersects`, iterated at most `fuel`
times from the state `(simplex, count, dir)`. -/
def intersects_loop (poly1 poly2 : List v2) :
    Nat → Simplex → Nat → v2 → Except Fault (Bool × v2)
  | 0, _, _, _ => Except.error Fault.out_of_fuel
  | fuel + 1, simplex, count, dir =>
    match support_func poly1 poly2 dir with
    | Except.error e => Except.error e
    | Except.ok p =>
      match simplex.write count p with
      | Except.error e => Except.error e
      | Except.ok simplex1 =>
        let count1 := count + 1
        match simplex1.read (count1 - 1) with
        | Except.error e => Except.error e
        | Except.ok last =>
          if Double.le (last.dot dir) (Double.finite 0) then Except.ok (false, dir)
          else
            match contains_origin simplex1 count1 dir with
            | (true, _, _, dir2) => Except.ok (true, dir2)
            | (false, simplex2, count2, dir2) =>
              intersects_loop poly1 poly2 fuel simplex2 count2 dir2

/-- `GJK::intersects`, with the value of `dir` at the `return`. -/
def intersects_exit (fuel : Nat) (poly1 poly2 : List v2) : Except Fault (Bool × v2) :=
  let simplex : Simplex := ⟨⟨Double.finite 0, Double.finite 0⟩,
    ⟨Double.finite 0, Double.finite 0⟩, ⟨Double.finite 0, Double.finite 0⟩⟩
  let dir : v2 := ⟨Double.finite 1, Double.finite (-1)⟩
  match support_func poly1 poly2 (-dir) with
  | Except.error e => Except.error e
  | Except.ok p =>
    match simplex.write 0 p with
    | Except.error e => Except.error e
    | Except.ok simplex1 => intersects_loop poly1 poly2 fuel simplex1 1 dir

/-- `GJK::intersects`: the returned boolean alone. -/
def intersects (fuel : Nat) (poly1 poly2 : List v2) : Except Fault Bool :=
  match intersects_exit fuel poly1 poly2 with
  | Except.error e => Except.error e
  | Except.ok (r, _) => Except.ok r

/-- The `while (true)` loop of `distance`, iterated at most `fuel` times from the
state `(a, b, dir)`; the result carries the `return` statement taken, the value of
`dir` at the `return`, and the returned double. -/
def distance_loop (poly1 poly2 : List v2) :
    Nat → v2 → v2 → v2 → Except Fault (N2D.GJK.Exit × v2 × Double)
  | 0, _, _, _ => Except.error Fault.out_of_fuel
  | fuel + 1, a, b, dir =>
    match support_func poly1 poly2 dir with
    | Except.error e => Except.error e
    | Except.ok c =>
      let sa := a.cross b
      let da := a.dot dir
      let db := b.dot dir
      let sb := b.cross c
      let sc := c.cross a
      let dc := c.dot dir
      if Double.gt (Double.min (sa * sb) (sa * sc)) (Double.finite 0) then
        Except.ok (N2D.GJK.Exit.origin_inside, dir, Double.finite 0)
      else if Double.le (Double.min (dc - da) (dc - db)) EPSILON then
        Except.ok (N2D.GJK.Exit.no_progress, dir, Double.sqrt (-dc))
      else
        let p1 := closest_to_origin a c
        let p2 := closest_to_origin b c
        let p1_mag := p1.rsq
        let p2_mag := p2.rsq
        if Double.le (Double.min p1_mag p2_mag) EPSILON then
          Except.ok (N2D.GJK.Exit.candidate_close, dir, Double.finite 0)
        else if Double.le p1_mag p2_mag then distance_loop poly1 poly2 fuel a c (-p1)
        else distance_loop poly1 poly2 fuel c b (-p2)

/-- `GJK::distance`, with the `return` statement taken and the value of `dir` there. -/
def distance_exit (fuel : Nat) (poly1 poly2 : List v2) :
    Except Fault (N2D.GJK.Exit × v2 × Double) :=
  let dir : v2 := ⟨Double.finite 1, Double.finite (-1)⟩
  match support_func poly1 poly2 dir with
  | Except.error e => Except.error e
  | Except.ok a =>
    match support_func poly1 poly2 (-dir) with
    | Except.error e => Except.error e
    | Except.ok b =>
      let dir1 := -closest_to_origin a b
      if Double.le dir1.rsq EPSILON then
        Except.ok (N2D.GJK.Exit.seed_close, dir1, Double.finite 0)
      else distance_loop poly1 poly2 fuel a b dir1

/-- `GJK::distance`: the returned double alone. -/
def distance (fuel : Nat) (poly1 poly2 : List v2) : Except Fault Double :=
  match distance_exit fuel poly1 poly2 with
  | Except.error e => Except.error e
  | Except.ok (_, _, d) => Except.ok d

end GJK

/-- The struct `Polygon` of polygon.h with `double` coordinates. -/
structure Polygon where
  vertices : List v2
deriving DecidableEq, Repr

namespace Polygon

/-- The segments `Line_segment(vertices[i], vertices[(i + 1) % size])` for
`i = 0 .. size - 1`. -/
def edges (self : Polygon) : List Line_segment :=
  (List.finRange self.vertices.length).map (fun i =>
    Line_segment.mk (self.vertices.get i)
      (self.vertices.get ⟨(i.val + 1) % self.vertices.length,
        Nat.mod_lt _ (Nat.lt_of_le_of_lt (Nat.zero_le _) i.isLt)⟩))

/-- `Polygon::contains(const v2&)`. -/
def contains (self : Polygon) (point : v2) : Bool :=
  let ray := Line_segment.mk point ⟨Double.finite 300000, Double.finite 300000⟩
  let intersectTimes := (self.edges.filter (fun line => line.intersects ray)).length
  decide (intersectTimes % 2 = 1)

/-- `Polygon::intersects(const Polygon&)`, the GJK path. -/
def intersects (fuel : Nat) (self other : Polygon) : Except Fault Bool :=
  GJK.intersects fuel self.vertices other.vertices

/-- Modelled from the spec: `Polygon::gjk_intersects`, the GJK path `intersects`. -/
def gjk_intersects (fuel : Nat) (self other : Polygon) : Except Fault Bool :=
  self.intersects fuel other

/-- `Polygon::distance_to(const Polygon&)`. -/
def distance_to (fuel : Nat) (self other : Polygon) : Except Fault Double :=
  match self.gjk_intersects fuel other with
  | Except.error e => Except.error e
  | Except.ok true => Except.ok (Double.finite 0)
  | Except.ok false => GJK.distance fuel self.vertices other.vertices

end Polygon

end Rounded

/-! ## The floating-point environment

The division `0.0 / 0.0` produces NaN and raises the exception flag `FE_INVALID` of
`<cfenv>`; nothing else of it is visible in the values once `std::min` and `std::max`
have replaced the NaN. The two functions `project_t` and `project_in` are repeated here
with the flags their operations raise. -/

/-- The exception flags `FE_INVALID` and `FE_DIVBYZERO` of the floating-point
environment. -/
structure Flags where
  invalid : Bool
  divbyzero : Bool
deriving DecidableEq, Repr

/-- A value computed in the floating-point environment, with the flags raised on the
way. -/
structure Flagged (α : Type) where
  val : α
  flags : Flags
deriving DecidableEq, Repr

/-- Sequencing: the flags are sticky, a flag raised by either step stays raised. -/
instance : Monad Flagged where
  pure a := ⟨a, ⟨false, false⟩⟩
  bind x f := ⟨(f x.val).val, ⟨x.flags.invalid || (f x.val).flags.invalid,
    x.flags.divbyzero || (f x.val).flags.divbyzero⟩⟩

namespace Double

/-- Addition with its flags: `inf + (-inf)` is invalid. -/
def add_fe (a b : Double) : Flagged Double :=
  ⟨a + b, ⟨match a, b with
    | inf s, inf t => s != t
    | _, _ => false, false⟩⟩

/-- Subtraction with its flags. -/
def sub_fe (a b : Double) : Flagged Double := add_fe a (-b)

/-- Multiplication with its flags: `0 * inf` is invalid. -/
def mul_fe (a b : Double) : Flagged Double :=
  ⟨a * b, ⟨match a, b with
    | finite x, inf _ => decide (x = 0)
    | inf _, finite y => decide (y = 0)
    | _, _ => false, false⟩⟩

/-- Division with its flags: `0 / 0` and `inf / inf` are invalid, a finite non-zero value
divided by zero raises `FE_DIVBYZERO`. -/
def div_fe (a b : Double) : Flagged Double :=
  ⟨a / b, match a, b with
    | finite x, finite y =>
      if y = 0 then (if x = 0 then ⟨true, false⟩ else ⟨false, true⟩) else ⟨false, false⟩
    | inf _, inf _ => ⟨true, false⟩
    | _, _ => ⟨false, false⟩⟩

/-- The comparison `a < b` with its flags: an ordered comparison with a NaN operand is
invalid. -/
def lt_fe (a b : Double) : Flagged Bool :=
  ⟨lt a b, ⟨match a, b with
    | nan, _ => true
    | _, nan => true
    | _, _ => false, false⟩⟩

/-- `std::sqrt` with its flags: the root of a negative number is invalid. -/
def sqrt_fe (a : Double) : Flagged Double :=
  ⟨sqrt a, ⟨match a with
    | finite x => decide (x < 0)
    | inf s => s
    | nan => false, false⟩⟩

/-- `std::min(a, b)` with its flags. -/
def min_fe (a b : Double) : Flagged Double := do
  let c ← lt_fe b a
  pure (if c then b else a)

/-- `std::max(a, b)` with its flags. -/
def max_fe (a b : Double) : Flagged Double := do
  let c ← lt_fe a b
  pure (if c then b else a)

end Double

namespace Rounded

namespace v2

/-- `v2::operator+` with its flags. -/
def add_fe (a b : v2) : Flagged v2 := do
  let x ← Double.add_fe a.x b.x
  let y ← Double.add_fe a.y b.y
  pure ⟨x, y⟩

/-- Binary `v2::operator-` with its flags. -/
def sub_fe (a b : v2) : Flagged v2 := do
  let x ← Double.sub_fe a.x b.x
  let y ← Double.sub_fe a.y b.y
  pure ⟨x, y⟩

/-- `v2::operator*(double)` with its flags. -/
def mul_fe (a : v2) (b : Double) : Flagged v2 := do
  let x ← Double.mul_fe a.x b
  let y ← Double.mul_fe a.y b
  pure ⟨x, y⟩

/-- `v2::dot` with its flags. -/
def dot_fe (a b : v2) : Flagged Double := do
  let p ← Double.mul_fe a.x b.x
  let q ← Double.mul_fe a.y b.y
  Double.add_fe p q

end v2

namespace Line_segment

/-- `Line_segment::length` with its flags. -/
def length_fe (self : Line_segment) : Flagged Double := do
  let d ← v2.sub_fe self.end self.start
  let q ← v2.dot_fe d d
  Double.sqrt_fe q

/-- `Line_segment::project_t` with its flags. -/
def project_t_fe (self : Line_segment) (pt : v2) : Flagged Double := do
  let r ← self.length_fe
  if Double.eq r (Double.finite 0) then pure (Double.finite 0)
  else do
    let d ← v2.sub_fe pt self.start
    let v ← v2.sub_fe self.end self.start
    let n ← v2.dot_fe d v
    Double.div_fe n r

/-- `Line_segment::project_in` with its flags. -/
def project_in_fe (self : Line_segment) (pt : v2) : Flagged v2 := do
  let ab ← v2.sub_fe self.end self.start
  let d ← v2.sub_fe pt self.start
  let n ← v2.dot_fe d ab
  let q ← v2.dot_fe ab ab
  let t ← Double.div_fe n q
  let m ← Double.min_fe t (Double.finite 1)
  let c ← Double.max_fe (Double.finite 0) m
  let s ← v2.mul_fe ab c
  v2.add_fe self.start s

end Line_segment

end Rounded

/-! ## The farthest point and the support function -/

namespace GJK

theorem getElem_snoc_cases {pre : List v2} {q r : v2} {j : Nat}
    (h : (pre ++ [q])[j]? = some r) : pre[j]? = some r ∨ (j = pre.length ∧ r = q) := by
  rcases Nat.lt_or_ge j pre.length with hj | hj
  · left
    rwa [List.getElem?_append_left hj] at h
  · right
    rw [List.getElem?_append_right hj] at h
    rcases Nat.eq_or_lt_of_le hj with h1 | h1
    · subst h1
      simp at h
      exact ⟨rfl, h.symm⟩
    · have : 1 ≤ j - pre.length := by omega
      rw [List.getElem?_eq_none (by simpa using this)] at h
      exact absurd h (by simp)

theorem farest_scan_spec (dir : v2) (rest : List v2) :
    ∀ (pre : List v2) (q : v2) (index : Nat) (m : v2),
      pre[index]? = some m →
      (∀ (j : Nat) (r : v2), pre[j]? = some r → r.dot dir ≤ m.dot dir) →
      (∀ (j : Nat) (r : v2), j < index → pre[j]? = some r → r.dot dir < m.dot dir) →
      ∃ p, is_first_max (pre ++ q :: rest) dir
        (if (farest_scan dir rest (pre.length + 1) index (m.dot dir) (q.dot dir)).2.2 >
            (farest_scan dir rest (pre.length + 1) index (m.dot dir) (q.dot dir)).2.1
          then (pre ++ q :: rest).length - 1
          else (farest_scan dir rest (pre.length + 1) index (m.dot dir) (q.dot dir)).1) p := by
  induction rest with
  | nil =>
    intro pre q index m hm hall hbefore
    have hidx : index < pre.length := by
      by_contra hc
      rw [List.getElem?_eq_none (by omega)] at hm
      exact absurd hm (by simp)
    simp only [farest_scan]
    by_cases hgt : q.dot dir > m.dot dir
    · rw [if_pos hgt]
      refine ⟨q, ?_, ?_, ?_⟩
      · simp
      · intro j r hr
        rcases getElem_snoc_cases hr with h1 | ⟨_, h1⟩
        · exact le_trans (hall j r h1) (le_of_lt hgt)
        · rw [h1]
      · intro j r hj hr
        rcases getElem_snoc_cases hr with h1 | ⟨h1, _⟩
        · exact lt_of_le_of_lt (hall j r h1) hgt
        · simp at hj
          omega
    · rw [if_neg hgt]
      refine ⟨m, ?_, ?_, ?_⟩
      · rw [List.getElem?_append_left hidx]
        exact hm
      · intro j r hr
        rcases getElem_snoc_cases hr with h1 | ⟨_, h1⟩
        · exact hall j r h1
        · rw [h1]
          exact not_lt.mp hgt
      · intro j r hj hr
        rcases getElem_snoc_cases hr with h1 | ⟨h1, _⟩
        · exact hbefore j r hj h1
        · omega
  | cons p1 rest1 ih =>
    intro pre q index m hm hall hbefore
    have hidx : index < pre.length := by
      by_contra hc
      rw [List.getElem?_eq_none (by omega)] at hm
      exact absurd hm (by simp)
    have hlist : pre ++ q :: p1 :: rest1 = (pre ++ [q]) ++ p1 :: rest1 := by simp
    have hlen : (pre ++ [q]).length = pre.length + 1 := by simp
    by_cases hgt : q.dot dir > m.dot dir
    · have h := ih (pre ++ [q]) p1 pre.length q (by simp)
        (by
          intro j r hr
          rcases getElem_snoc_cases hr with h1 | ⟨_, h1⟩
          · exact le_trans (hall j r h1) (le_of_lt hgt)
          · rw [h1])
        (by
          intro j r hj hr
          rcases getElem_snoc_cases hr with h1 | ⟨h1, _⟩
          · exact lt_of_le_of_lt (hall j r h1) hgt
          · omega)
      rw [hlen] at h
      rw [hlist]
      simp only [farest_scan, if_pos hgt, Nat.add_sub_cancel]
      exact h
    · have h := ih (pre ++ [q]) p1 index m
        (by rw [List.getElem?_append_left hidx]; exact hm)
        (by
          intro j r hr
          rcases getElem_snoc_cases hr with h1 | ⟨_, h1⟩
          · exact hall j r h1
          · rw [h1]
            exact not_lt.mp hgt)
        (by
          intro j r hj hr
          rcases getElem_snoc_cases hr with h1 | ⟨h1, _⟩
          · exact hbefore j r hj h1
          · omega)
      rw [hlen] at h
      rw [hlist]
      simp only [farest_scan, if_neg hgt]
      exact h

theorem farest_point_in_dir_spec (p0 p1 : v2) (rest : List v2) (dir : v2) :
    ∃ k p, farest_point_in_dir (p0 :: p1 :: rest) dir = Except.ok p ∧
      is_first_max (p0 :: p1 :: rest) dir k p := by
  obtain ⟨p, hp⟩ := farest_scan_spec dir rest [p0] p1 0 p0 (by simp)
    (by
      intro j r hr
      cases j with
      | zero => simp at hr; rw [hr]
      | succ n => simp at hr)
    (by intro j r hj; omega)
  refine ⟨_, p, ?_, hp⟩
  have hk : ([p0] ++ p1 :: rest)[_]? = some p := hp.1
  simp only [List.length_singleton, List.singleton_append, List.length_cons] at hk
  simp only [farest_point_in_dir, List.getElem?_cons_zero, List.getElem?_cons_succ,
    List.drop_succ_cons, List.drop_zero, List.length_cons]
  rw [show ([] : List v2).length + 1 + 1 = 2 from rfl] at hk
  rw [hk]

theorem is_first_max_unique {points : List v2} {dir : v2} {k k1 : Nat} {p p1 : v2}
    (h : is_first_max points dir k p) (h1 : is_first_max points dir k1 p1) :
    k = k1 ∧ p = p1 := by
  obtain ⟨hk, hall, hlt⟩ := h
  obtain ⟨hk1, hall1, hlt1⟩ := h1
  have hkk : k = k1 := by
    rcases Nat.lt_trichotomy k k1 with hc | hc | hc
    · exact absurd (hlt1 k p hc hk) (not_lt.mpr (hall k1 p1 hk1))
    · exact hc
    · exact absurd (hlt k1 p1 hc hk1) (not_lt.mpr (hall1 k p hk))
  refine ⟨hkk, ?_⟩
  subst hkk
  rw [hk] at hk1
  exact Option.some.inj hk1

theorem foldl_pick_first_max (dir : v2) (l : List v2) :
    ∀ (pre : List v2) (acc : v2) (idx : Nat), is_first_max pre dir idx acc →
      ∃ k, is_first_max (pre ++ l) dir k (l.foldl (pick dir) acc) := by
  induction l with
  | nil =>
    intro pre acc idx h
    exact ⟨idx, by simpa using h⟩
  | cons x xs ih =>
    intro pre acc idx h
    obtain ⟨hk, hall, hlt⟩ := h
    have hidx : idx < pre.length := by
      by_contra hc
      rw [List.getElem?_eq_none (by omega)] at hk
      exact absurd hk (by simp)
    have hlist : pre ++ x :: xs = (pre ++ [x]) ++ xs := by simp
    rw [hlist, List.foldl_cons]
    by_cases hgt : x.dot dir > acc.dot dir
    · apply ih (pre ++ [x]) (pick dir acc x) pre.length
      simp only [pick, if_pos hgt]
      refine ⟨by simp, ?_, ?_⟩
      · intro j r hr
        rcases getElem_snoc_cases hr with h1 | ⟨_, h1⟩
        · exact le_trans (hall j r h1) (le_of_lt hgt)
        · rw [h1]
      · intro j r hj hr
        rcases getElem_snoc_cases hr with h1 | ⟨h1, _⟩
        · exact lt_of_le_of_lt (hall j r h1) hgt
        · omega
    · apply ih (pre ++ [x]) (pick dir acc x) idx
      simp only [pick, if_neg hgt]
      refine ⟨by rw [List.getElem?_append_left hidx]; exact hk, ?_, ?_⟩
      · intro j r hr
        rcases getElem_snoc_cases hr with h1 | ⟨_, h1⟩
        · exact hall j r h1
        · rw [h1]
          exact not_lt.mp hgt
      · intro j r hj hr
        rcases getElem_snoc_cases hr with h1 | ⟨h1, _⟩
        · exact hlt j r hj h1
        · omega

theorem farest_point_in_dir_eq_foldl (p0 p1 : v2) (rest : List v2) (dir : v2) :
    farest_point_in_dir (p0 :: p1 :: rest) dir =
      Except.ok ((p1 :: rest).foldl (pick dir) p0) := by
  obtain ⟨k, p, hp, hmax⟩ := farest_point_in_dir_spec p0 p1 rest dir
  obtain ⟨k1, hfold⟩ := foldl_pick_first_max dir (p1 :: rest) [p0] p0 0
    ⟨by simp, by
      intro j r hr
      cases j with
      | zero => simp at hr; rw [hr]
      | succ n => simp at hr, by intro j r hj; omega⟩
  rw [hp, (is_first_max_unique hmax hfold).2]

theorem pick_assoc (dir a b c : v2) :
    pick dir (pick dir a b) c = pick dir a (pick dir b c) := by
  unfold pick
  split_ifs <;> first | rfl | (exfalso; linarith)

theorem foldl_pick_assoc (dir : v2) (xs : List v2) :
    ∀ a x : v2, xs.foldl (pick dir) (pick dir a x) = pick dir a (xs.foldl (pick dir) x) := by
  induction xs with
  | nil => intro a x; rfl
  | cons y ys ih =>
    intro a x
    rw [List.foldl_cons, List.foldl_cons, pick_assoc, ih]

theorem v2_ext {a b : v2} (hx : a.x = b.x) (hy : a.y = b.y) : a = b := by
  cases a
  cases b
  simp only [v2.mk.injEq]
  exact ⟨hx, hy⟩

theorem sub_x (a b : v2) : (a - b).x = a.x - b.x := rfl

theorem sub_y (a b : v2) : (a - b).y = a.y - b.y := rfl

theorem add_x (a b : v2) : (a + b).x = a.x + b.x := rfl

theorem add_y (a b : v2) : (a + b).y = a.y + b.y := rfl

theorem neg_x (a : v2) : (-a).x = -a.x := rfl

theorem neg_y (a : v2) : (-a).y = -a.y := rfl

theorem mul_x (a : v2) (t : ℚ) : (a * t).x = a.x * t := rfl

theorem mul_y (a : v2) (t : ℚ) : (a * t).y = a.y * t := rfl

theorem dot_sub_left (a b d : v2) : (a - b).dot d = a.dot d - b.dot d := by
  simp only [v2.dot, sub_x, sub_y]
  ring

theorem dot_neg_right (a d : v2) : a.dot (-d) = -(a.dot d) := by
  simp only [v2.dot, neg_x, neg_y]
  ring

theorem dot_neg_left (a d : v2) : (-a).dot d = -(a.dot d) := by
  simp only [v2.dot, neg_x, neg_y]
  ring

theorem pick_sub_right (dir a x y : v2) :
    pick dir (a - x) (a - y) = a - pick (-dir) x y := by
  unfold pick
  simp only [dot_sub_left, dot_neg_right]
  split_ifs <;> first | rfl | (exfalso; linarith)

theorem pick_sub_left (dir f x y : v2) :
    pick dir (x - f) (y - f) = pick dir x y - f := by
  unfold pick
  simp only [dot_sub_left]
  split_ifs <;> first | rfl | (exfalso; linarith)

theorem foldl_pick_map_sub (dir a : v2) (bs : List v2) :
    ∀ b0 : v2, (bs.map (fun p2 => a - p2)).foldl (pick dir) (a - b0) =
      a - bs.foldl (pick (-dir)) b0 := by
  induction bs with
  | nil => intro b0; rfl
  | cons b bs ih =>
    intro b0
    rw [List.map_cons, List.foldl_cons, List.foldl_cons, pick_sub_right, ih]

theorem foldl_pick_row (dir a acc b0 : v2) (bs : List v2) :
    ((b0 :: bs).map (fun p2 => a - p2)).foldl (pick dir) acc =
      pick dir acc (a - (b0 :: bs).foldl (pick (-dir)) b0) := by
  rw [List.map_cons, List.foldl_cons, foldl_pick_assoc, foldl_pick_map_sub]
  have h : pick (-dir) b0 b0 = b0 := by simp [pick]
  rw [List.foldl_cons, h]

theorem foldl_pick_mink (dir b0 : v2) (bs : List v2) (as : List v2) :
    ∀ a0 : v2, (mink_diff as (b0 :: bs)).foldl (pick dir)
        (a0 - (b0 :: bs).foldl (pick (-dir)) b0) =
      as.foldl (pick dir) a0 - (b0 :: bs).foldl (pick (-dir)) b0 := by
  induction as with
  | nil => intro a0; rfl
  | cons a as ih =>
    intro a0
    have hm : mink_diff (a :: as) (b0 :: bs) =
        (b0 :: bs).map (fun p2 => a - p2) ++ mink_diff as (b0 :: bs) := by
      simp [mink_diff]
    rw [hm, List.foldl_append, foldl_pick_row, pick_sub_left, ih]
    rfl

/-- The support point, for lists of at least two points: the first farthest point of
the first list along `dir` minus the first farthest point of the second along `-dir`. -/
theorem support_func_eq (a0 a1 : v2) (as : List v2) (b0 b1 : v2) (bs : List v2)
    (dir : v2) :
    support_func (a0 :: a1 :: as) (b0 :: b1 :: bs) dir =
      Except.ok ((a1 :: as).foldl (pick dir) a0 - (b1 :: bs).foldl (pick (-dir)) b0) := by
  simp only [support_func, farest_point_in_dir_eq_foldl]

theorem farest_mink_diff_eq (a0 a1 : v2) (as : List v2) (b0 b1 : v2) (bs : List v2)
    (dir : v2) :
    farest_point_in_dir (mink_diff (a0 :: a1 :: as) (b0 :: b1 :: bs)) dir =
      Except.ok ((a1 :: as).foldl (pick dir) a0 - (b1 :: bs).foldl (pick (-dir)) b0) := by
  have hm : mink_diff (a0 :: a1 :: as) (b0 :: b1 :: bs) =
      (a0 - b0) :: (a0 - b1) :: ((bs.map (fun p2 => a0 - p2)) ++
        mink_diff (a1 :: as) (b0 :: b1 :: bs)) := by
    simp [mink_diff]
  have hrow := foldl_pick_row dir a0 (a0 - b0) b0 (b1 :: bs)
  have hself : ∀ q : v2, pick dir (a0 - b0) (a0 - q) = a0 - pick (-dir) b0 q :=
    fun q => pick_sub_right dir a0 b0 q
  rw [hm, farest_point_in_dir_eq_foldl]
  congr 1
  have h2 : ((a0 - b1) :: ((bs.map (fun p2 => a0 - p2)) ++
      mink_diff (a1 :: as) (b0 :: b1 :: bs))) =
      ((b1 :: bs).map (fun p2 => a0 - p2)) ++ mink_diff (a1 :: as) (b0 :: b1 :: bs) := by
    simp
  rw [h2, List.foldl_append, foldl_pick_map_sub]
  have h3 := foldl_pick_mink dir b0 (b1 :: bs) (a1 :: as) a0
  have h4 : (b0 :: b1 :: bs).foldl (pick (-dir)) b0 = (b1 :: bs).foldl (pick (-dir)) b0 := by
    rw [List.foldl_cons]
    have h : pick (-dir) b0 b0 = b0 := by simp [pick]
    rw [h]
  rw [h4] at h3
  exact h3

theorem foldl_pick_max (dir : v2) (p0 : v2) (l : List v2) :
    l.foldl (pick dir) p0 ∈ p0 :: l ∧
      ∀ q ∈ p0 :: l, q.dot dir ≤ (l.foldl (pick dir) p0).dot dir := by
  obtain ⟨k, hk, hall, _⟩ := foldl_pick_first_max dir l [p0] p0 0
    ⟨by simp, by
      intro j r hr
      cases j with
      | zero => simp at hr; rw [hr]
      | succ n => simp at hr, by intro j r hj; omega⟩
  simp only [List.singleton_append] at hk hall
  refine ⟨List.mem_iff_getElem?.mpr ⟨k, hk⟩, ?_⟩
  intro q hq
  obtain ⟨j, hj⟩ := List.mem_iff_getElem?.mp hq
  exact hall j q hj

/-- What `support_func` returns on lists of at least two points: a difference `a - b`
of a point of each list, farthest along `dir` among all such differences. -/
theorem support_func_spec (A B : List v2) (dir : v2) (hA : 2 ≤ A.length)
    (hB : 2 ≤ B.length) :
    ∃ a b, a ∈ A ∧ b ∈ B ∧ support_func A B dir = Except.ok (a - b) ∧
      ∀ a1 ∈ A, ∀ b1 ∈ B, (a1 - b1).dot dir ≤ (a - b).dot dir := by
  match A, hA, B, hB with
  | a0 :: a1 :: as, _, b0 :: b1 :: bs, _ =>
    obtain ⟨hAmem, hAmax⟩ := foldl_pick_max dir a0 (a1 :: as)
    obtain ⟨hBmem, hBmax⟩ := foldl_pick_max (-dir) b0 (b1 :: bs)
    refine ⟨_, _, hAmem, hBmem, support_func_eq a0 a1 as b0 b1 bs dir, ?_⟩
    intro x hx y hy
    have h1 := hAmax x hx
    have h2 := hBmax y hy
    rw [dot_neg_right, dot_neg_right] at h2
    rw [dot_sub_left, dot_sub_left]
    linarith

theorem mem_mink_diff {A B : List v2} {m : v2} :
    m ∈ mink_diff A B ↔ ∃ a ∈ A, ∃ b ∈ B, m = a - b := by
  simp only [mink_diff, List.mem_flatMap, List.mem_map]
  constructor
  · rintro ⟨a, ha, b, hb, h⟩
    exact ⟨a, ha, b, hb, h.symm⟩
  · rintro ⟨a, ha, b, hb, h⟩
    exact ⟨a, ha, b, hb, h.symm⟩

/-- C8, amended: over exact arithmetic, for lists of at least two points each,
`support_func` returns exactly what `farest_point_in_dir` returns on the explicit Minkowski
difference, and the dot product of that point with `dir` is at least that of every
difference `a - b`. -/
theorem support_func_eq_farest_mink_diff (A B : List v2) (dir : v2)
    (hA : 2 ≤ A.length) (hB : 2 ≤ B.length) :
    support_func A B dir = farest_point_in_dir (mink_diff A B) dir ∧
    ∃ s, support_func A B dir = Except.ok s ∧
      ∀ a ∈ A, ∀ b ∈ B, (a - b).dot dir ≤ s.dot dir := by
  constructor
  · match A, hA, B, hB with
    | a0 :: a1 :: as, _, b0 :: b1 :: bs, _ =>
      rw [support_func_eq, farest_mink_diff_eq]
  · obtain ⟨a, b, _, _, hs, hmax⟩ := support_func_spec A B dir hA hB
    exact ⟨a - b, hs, hmax⟩

/-- C8, amended, at two squares and the direction (1, -1). -/
theorem support_func_eq_farest_mink_diff_witness :
    2 ≤ ([⟨0, 0⟩, ⟨1, 0⟩, ⟨1, 1⟩, ⟨0, 1⟩] : List v2).length ∧
    2 ≤ ([⟨2, 2⟩, ⟨3, 2⟩, ⟨3, 3⟩, ⟨2, 3⟩] : List v2).length ∧
    (support_func [⟨0, 0⟩, ⟨1, 0⟩, ⟨1, 1⟩, ⟨0, 1⟩] [⟨2, 2⟩, ⟨3, 2⟩, ⟨3, 3⟩, ⟨2, 3⟩] ⟨1, -1⟩ =
      farest_point_in_dir
        (mink_diff [⟨0, 0⟩, ⟨1, 0⟩, ⟨1, 1⟩, ⟨0, 1⟩] [⟨2, 2⟩, ⟨3, 2⟩, ⟨3, 3⟩, ⟨2, 3⟩]) ⟨1, -1⟩ ∧
    ∃ s, support_func [⟨0, 0⟩, ⟨1, 0⟩, ⟨1, 1⟩, ⟨0, 1⟩] [⟨2, 2⟩, ⟨3, 2⟩, ⟨3, 3⟩, ⟨2, 3⟩]
        ⟨1, -1⟩ = Except.ok s ∧
      ∀ a ∈ ([⟨0, 0⟩, ⟨1, 0⟩, ⟨1, 1⟩, ⟨0, 1⟩] : List v2),
        ∀ b ∈ ([⟨2, 2⟩, ⟨3, 2⟩, ⟨3, 3⟩, ⟨2, 3⟩] : List v2),
          (a - b).dot ⟨1, -1⟩ ≤ s.dot ⟨1, -1⟩) :=
  ⟨by decide, by decide, support_func_eq_farest_mink_diff _ _ _ (by decide) (by decide)⟩

/-- C10 fails on the code: on a list of exactly one point `farest_point_in_dir` reads
`points[1]`, an index that is not below the size, whatever the direction; so do
`GJK::intersects` and `GJK::distance` when either list has a single point. -/
theorem farest_point_in_dir_single_point (p dir : v2) (fuel : Nat) (B : List v2) :
    farest_point_in_dir [p] dir = Except.error Fault.out_of_bounds ∧
    intersects fuel [p] B = Except.error Fault.out_of_bounds ∧
    distance fuel [p] B = Except.error Fault.out_of_bounds := by
  refine ⟨rfl, rfl, rfl⟩

/-! ## The intersection test -/

theorem dot_comm (a b : v2) : a.dot b = b.dot a := by
  simp only [v2.dot]
  ring

theorem v2_zero_of_ne {d : v2} (h : d ≠ ⟨0, 0⟩) : d.x ≠ 0 ∨ d.y ≠ 0 := by
  by_contra hc
  push_neg at hc
  exact h (v2_ext hc.1 hc.2)

/-- The arithmetic of the triangle case: when the two edge tests of `contains_origin`
both fail to exclude the origin and the oldest two points lie on a line that has the
newest point strictly on the other side of the origin, the three cross products have
one sign and do not all vanish. -/
theorem triangle_signs (A B C d : v2)
    (hd : d = ⟨-(C - B).y, (C - B).x⟩ ∨ d = -(⟨-(C - B).y, (C - B).x⟩ : v2))
    (hB : B.dot d ≤ 0) (hA : 0 < A.dot d)
    (h1 : ¬ A.dot (if C.dot ⟨-(B - A).y, (B - A).x⟩ > 0
        then -(⟨-(B - A).y, (B - A).x⟩ : v2) else ⟨-(B - A).y, (B - A).x⟩) < 0)
    (h2 : ¬ A.dot (if B.dot ⟨-(C - A).y, (C - A).x⟩ > 0
        then -(⟨-(C - A).y, (C - A).x⟩ : v2) else ⟨-(C - A).y, (C - A).x⟩) < 0) :
    (0 ≤ B.cross C ∧ 0 ≤ C.cross A ∧ 0 ≤ A.cross B ∧
        0 < B.cross C + C.cross A + A.cross B) ∨
    (B.cross C ≤ 0 ∧ C.cross A ≤ 0 ∧ A.cross B ≤ 0 ∧
        B.cross C + C.cross A + A.cross B < 0) := by
  have e1 : C.dot ⟨-(B - A).y, (B - A).x⟩ = B.cross C + C.cross A := by
    simp only [v2.dot, v2.cross, sub_x, sub_y]
    ring
  have e2 : A.dot ⟨-(B - A).y, (B - A).x⟩ = -A.cross B := by
    simp only [v2.dot, v2.cross, sub_x, sub_y]
    ring
  have e3 : B.dot ⟨-(C - A).y, (C - A).x⟩ = -(B.cross C + A.cross B) := by
    simp only [v2.dot, v2.cross, sub_x, sub_y]
    ring
  have e4 : A.dot ⟨-(C - A).y, (C - A).x⟩ = C.cross A := by
    simp only [v2.dot, v2.cross, sub_x, sub_y]
    ring
  have e5 : B.dot ⟨-(C - B).y, (C - B).x⟩ = -B.cross C := by
    simp only [v2.dot, v2.cross, sub_x, sub_y]
    ring
  have e6 : A.dot ⟨-(C - B).y, (C - B).x⟩ = C.cross A + A.cross B := by
    simp only [v2.dot, v2.cross, sub_x, sub_y]
    ring
  rw [e1] at h1
  rw [e3] at h2
  have k1 : (0 < B.cross C + C.cross A ∧ 0 ≤ A.cross B) ∨
      (B.cross C + C.cross A ≤ 0 ∧ A.cross B ≤ 0) := by
    by_cases hc : B.cross C + C.cross A > 0
    · rw [if_pos hc, dot_neg_right, e2] at h1
      left
      exact ⟨hc, by linarith⟩
    · rw [if_neg hc, e2] at h1
      right
      exact ⟨by linarith, by linarith⟩
  have k2 : (B.cross C + A.cross B < 0 ∧ C.cross A ≤ 0) ∨
      (0 ≤ B.cross C + A.cross B ∧ 0 ≤ C.cross A) := by
    by_cases hc : -(B.cross C + A.cross B) > 0
    · rw [if_pos hc, dot_neg_right, e4] at h2
      left
      exact ⟨by linarith, by linarith⟩
    · rw [if_neg hc, e4] at h2
      right
      exact ⟨by linarith, by linarith⟩
  rcases hd with hd | hd
  · rw [hd, e5] at hB
    rw [hd, e6] at hA
    left
    rcases k1 with ⟨k1a, k1b⟩ | ⟨k1a, k1b⟩ <;> rcases k2 with ⟨k2a, k2b⟩ | ⟨k2a, k2b⟩ <;>
      refine ⟨by linarith, by linarith, by linarith, by linarith⟩
  · rw [hd, dot_neg_right, e5] at hB
    rw [hd, dot_neg_right, e6] at hA
    right
    rcases k1 with ⟨k1a, k1b⟩ | ⟨k1a, k1b⟩ <;> rcases k2 with ⟨k2a, k2b⟩ | ⟨k2a, k2b⟩ <;>
      refine ⟨by linarith, by linarith, by linarith, by linarith⟩

/-- Three points whose cross products have one sign and do not all vanish have the
origin in their closed triangle. -/
theorem origin_in_triangle (A B C : v2)
    (h : (0 ≤ B.cross C ∧ 0 ≤ C.cross A ∧ 0 ≤ A.cross B ∧
        0 < B.cross C + C.cross A + A.cross B) ∨
      (B.cross C ≤ 0 ∧ C.cross A ≤ 0 ∧ A.cross B ≤ 0 ∧
        B.cross C + C.cross A + A.cross B < 0)) :
    ∃ l0 l1 l2 : ℚ, 0 ≤ l0 ∧ 0 ≤ l1 ∧ 0 ≤ l2 ∧ l0 + l1 + l2 = 1 ∧
      C.x * l0 + B.x * l1 + A.x * l2 = 0 ∧ C.y * l0 + B.y * l1 + A.y * l2 = 0 := by
  have hS : B.cross C + C.cross A + A.cross B ≠ 0 := by
    rcases h with h | h
    · exact ne_of_gt h.2.2.2
    · exact ne_of_lt h.2.2.2
  refine ⟨A.cross B / (B.cross C + C.cross A + A.cross B),
    C.cross A / (B.cross C + C.cross A + A.cross B),
    B.cross C / (B.cross C + C.cross A + A.cross B), ?_, ?_, ?_, ?_, ?_, ?_⟩
  · rcases h with h | h
    · exact div_nonneg h.2.2.1 (le_of_lt h.2.2.2)
    · exact div_nonneg_of_nonpos h.2.2.1 (le_of_lt h.2.2.2)
  · rcases h with h | h
    · exact div_nonneg h.2.1 (le_of_lt h.2.2.2)
    · exact div_nonneg_of_nonpos h.2.1 (le_of_lt h.2.2.2)
  · rcases h with h | h
    · exact div_nonneg h.1 (le_of_lt h.2.2.2)
    · exact div_nonneg_of_nonpos h.1 (le_of_lt h.2.2.2)
  · field_simp
    ring
  · field_simp
    simp only [v2.cross]
    ring
  · field_simp
    simp only [v2.cross]
    ring

theorem hulls_meet_of_triangle {A B : List v2} {s0 s1 s2 : v2}
    (h0 : in_mink A B s0) (h1 : in_mink A B s1) (h2 : in_mink A B s2)
    (h : ∃ l0 l1 l2 : ℚ, 0 ≤ l0 ∧ 0 ≤ l1 ∧ 0 ≤ l2 ∧ l0 + l1 + l2 = 1 ∧
      s0.x * l0 + s1.x * l1 + s2.x * l2 = 0 ∧ s0.y * l0 + s1.y * l1 + s2.y * l2 = 0) :
    hulls_meet A B := by
  obtain ⟨a0, ha0, b0, hb0, e0⟩ := h0
  obtain ⟨a1, ha1, b1, hb1, e1⟩ := h1
  obtain ⟨a2, ha2, b2, hb2, e2⟩ := h2
  obtain ⟨l0, l1, l2, p0, p1, p2, hs, hx, hy⟩ := h
  subst e0 e1 e2
  simp only [sub_x, sub_y] at hx hy
  refine ⟨a0, ha0, a1, ha1, a2, ha2, b0, hb0, b1, hb1, b2, hb2, l0, l1, l2, p0, p1, p2, hs,
    mem_mink_diff.mpr ⟨a0, ha0, b0, hb0, rfl⟩, mem_mink_diff.mpr ⟨a1, ha1, b1, hb1, rfl⟩,
    mem_mink_diff.mpr ⟨a2, ha2, b2, hb2, rfl⟩, ?_, ?_⟩
  · apply v2_ext
    · simp only [add_x, mul_x, sub_x]
      exact hx
    · simp only [add_y, mul_y, sub_y]
      exact hy
  · apply v2_ext
    · simp only [add_x, mul_x]
      linarith
    · simp only [add_y, mul_y]
      linarith

theorem contains_origin_two (s : Simplex) (dir : v2) :
    contains_origin s 2 dir = (false, s, 2, edge_dir s.s1 s.s0 s.s1) := rfl

theorem contains_origin_drop0 (s : Simplex) (dir : v2)
    (h : s.s2.dot (edge_dir s.s0 s.s1 s.s2) < 0) :
    contains_origin s 3 dir =
      (false, { s with s0 := s.s2 }, 2, edge_dir s.s0 s.s1 s.s2) := by
  unfold edge_dir at h
  simp only [contains_origin, if_true, if_pos h]
  rfl

theorem contains_origin_drop1 (s : Simplex) (dir : v2)
    (h : ¬ s.s2.dot (edge_dir s.s0 s.s1 s.s2) < 0)
    (h1 : s.s2.dot (edge_dir s.s1 s.s0 s.s2) < 0) :
    contains_origin s 3 dir =
      (false, { s with s1 := s.s2 }, 2, edge_dir s.s1 s.s0 s.s2) := by
  unfold edge_dir at h h1
  simp only [contains_origin, if_true, if_neg h, if_pos h1]
  rfl

theorem contains_origin_inside (s : Simplex) (dir : v2)
    (h : ¬ s.s2.dot (edge_dir s.s0 s.s1 s.s2) < 0)
    (h1 : ¬ s.s2.dot (edge_dir s.s1 s.s0 s.s2) < 0) :
    contains_origin s 3 dir = (true, s, 3, edge_dir s.s1 s.s0 s.s2) := by
  unfold edge_dir at h h1
  simp only [contains_origin, if_true, if_neg h, if_neg h1]
  rfl

theorem edge_dir_cases (other q r : v2) :
    edge_dir other q r = ⟨-(q - r).y, (q - r).x⟩ ∨
      edge_dir other q r = -(⟨-(q - r).y, (q - r).x⟩ : v2) := by
  unfold edge_dir
  split_ifs
  · right; rfl
  · left; rfl

theorem edge_dir_other (other q r : v2) : other.dot (edge_dir other q r) ≤ 0 := by
  unfold edge_dir
  split_ifs with h
  · rw [dot_neg_right]
    linarith
  · exact not_lt.mp h

theorem edge_dir_perp (other q r : v2) :
    q.dot (edge_dir other q r) = r.dot (edge_dir other q r) := by
  rcases edge_dir_cases other q r with h | h <;> rw [h] <;>
    simp only [v2.dot, sub_x, sub_y, neg_x, neg_y] <;> ring

theorem edge_dir_ne_zero (other q r : v2) (h : q ≠ r) : edge_dir other q r ≠ ⟨0, 0⟩ := by
  intro hc
  apply h
  rcases edge_dir_cases other q r with h1 | h1 <;> rw [h1] at hc
  · have hy := congrArg v2.x hc
    have hx := congrArg v2.y hc
    simp only [sub_x, sub_y] at hx hy
    exact v2_ext (by linarith) (by linarith)
  · have hy := congrArg v2.x hc
    have hx := congrArg v2.y hc
    simp only [neg_x, neg_y, sub_x, sub_y] at hx hy
    exact v2_ext (by linarith) (by linarith)

theorem perp_swap (q r : v2) :
    (⟨-(q - r).y, (q - r).x⟩ : v2) = -(⟨-(r - q).y, (r - q).x⟩ : v2) := by
  apply v2_ext
  · simp only [neg_x, sub_y]
    ring
  · simp only [neg_y, sub_x]
    ring

theorem dot_zero_right (a : v2) : a.dot ⟨0, 0⟩ = 0 := by
  simp [v2.dot]

/-- Soundness of the loop of `intersects`: from a state satisfying `loop_inv`, a
returned `true` comes with a common point of the two hulls, and a returned `false`
with a direction at the `return` that separates the lists, and a non-zero one. -/
theorem intersects_loop_sound (A B : List v2) (hA : 2 ≤ A.length) (hB : 2 ≤ B.length) :
    ∀ (fuel : Nat) (s : Simplex) (count : Nat) (dir : v2) (r : Bool) (d : v2),
      loop_inv A B s count dir →
      intersects_loop A B fuel s count dir = Except.ok (r, d) →
      (r = true → hulls_meet A B) ∧
      (r = false → separates A B d ∧ ∃ d1 : v2, d1 ≠ ⟨0, 0⟩ ∧ separates A B d1) := by
  intro fuel
  induction fuel with
  | zero =>
    intro s count dir r d _ h
    simp [intersects_loop] at h
  | succ n ih =>
    intro s count dir r d hinv h
    obtain ⟨a, b, ha, hb, hs, hmax⟩ := support_func_spec A B dir hA hB
    have hp : in_mink A B (a - b) := ⟨a, ha, b, hb, rfl⟩
    rcases hinv with ⟨hc, h0, hdir, hmin⟩ | ⟨hc, h0, h1, hperp, hs1, hsep⟩
    · subst hc
      simp only [intersects_loop, hs, Simplex.write, Simplex.read, Nat.add_sub_cancel] at h
      by_cases hle : (a - b).dot dir ≤ 0
      · rw [if_pos hle] at h
        have h2 := Except.ok.inj h
        have hr : false = r := congrArg Prod.fst h2
        have hd : dir = d := congrArg Prod.snd h2
        subst hr hd
        have hsepd : separates A B dir := fun x hx y hy => le_trans (hmax x hx y hy) hle
        exact ⟨fun hc => absurd hc (by simp), fun _ => ⟨hsepd, dir, hdir, hsepd⟩⟩
      · rw [if_neg hle, show (1 + 1 : Nat) = 2 from rfl,
          contains_origin_two ⟨s.s0, a - b, s.s2⟩ dir] at h
        refine ih _ _ _ r d ?_ h
        right
        refine ⟨rfl, h0, hp, edge_dir_cases _ _ _, edge_dir_other _ _ _, ?_⟩
        by_cases heq : s.s0 = a - b
        · right
          refine ⟨-dir, ?_, ?_⟩
          · intro hc
            apply hdir
            have hx := congrArg v2.x hc
            have hy := congrArg v2.y hc
            simp only [neg_x, neg_y] at hx hy
            exact v2_ext (show dir.x = 0 by linarith) (show dir.y = 0 by linarith)
          · intro x hx y hy
            have := hmin x hx y hy
            rw [heq] at this
            rw [dot_neg_right]
            linarith
        · left
          exact edge_dir_ne_zero _ _ _ heq
    · subst hc
      simp only [intersects_loop, hs, Simplex.write, Simplex.read, Nat.add_sub_cancel] at h
      by_cases hle : (a - b).dot dir ≤ 0
      · rw [if_pos hle] at h
        have h2 := Except.ok.inj h
        have hr : false = r := congrArg Prod.fst h2
        have hd : dir = d := congrArg Prod.snd h2
        subst hr hd
        have hsepd : separates A B dir := fun x hx y hy => le_trans (hmax x hx y hy) hle
        refine ⟨fun hc => absurd hc (by simp), fun _ => ⟨hsepd, ?_⟩⟩
        rcases hsep with hne | hex
        · exact ⟨dir, hne, hsepd⟩
        · exact hex
      · rw [if_neg hle, show (2 + 1 : Nat) = 3 from rfl] at h
        by_cases t0 : (a - b).dot (edge_dir s.s0 s.s1 (a - b)) < 0
        · rw [contains_origin_drop0 ⟨s.s0, s.s1, a - b⟩ dir t0] at h
          refine ih _ _ _ r d ?_ h
          right
          refine ⟨rfl, hp, h1, ?_, ?_, ?_⟩
          · rcases edge_dir_cases s.s0 s.s1 (a - b) with e | e
            · right
              show edge_dir s.s0 s.s1 (a - b) = _
              rw [e, perp_swap]
            · left
              show edge_dir s.s0 s.s1 (a - b) = _
              rw [e, perp_swap, ]
              apply v2_ext <;> simp only [neg_x, neg_y, neg_neg]
          · show s.s1.dot (edge_dir s.s0 s.s1 (a - b)) ≤ 0
            rw [edge_dir_perp]
            exact le_of_lt t0
          · left
            show edge_dir s.s0 s.s1 (a - b) ≠ _
            intro hc
            rw [hc, dot_zero_right] at t0
            exact lt_irrefl _ t0
        · by_cases t1 : (a - b).dot (edge_dir s.s1 s.s0 (a - b)) < 0
          · rw [contains_origin_drop1 ⟨s.s0, s.s1, a - b⟩ dir t0 t1] at h
            refine ih _ _ _ r d ?_ h
            right
            refine ⟨rfl, h0, hp, edge_dir_cases _ _ _, le_of_lt t1, ?_⟩
            left
            show edge_dir s.s1 s.s0 (a - b) ≠ _
            intro hc
            rw [hc, dot_zero_right] at t1
            exact lt_irrefl _ t1
          · rw [contains_origin_inside ⟨s.s0, s.s1, a - b⟩ dir t0 t1] at h
            have h2 := Except.ok.inj h
            have hr : true = r := congrArg Prod.fst h2
            subst hr
            refine ⟨fun _ => ?_, fun hc => absurd hc (by simp)⟩
            apply hulls_meet_of_triangle h0 h1 hp
            apply origin_in_triangle
            exact triangle_signs (a - b) s.s1 s.s0 dir hperp hs1 (not_le.mp hle) t0 t1

theorem intersects_exit_sound (fuel : Nat) (A B : List v2) (hA : 2 ≤ A.length)
    (hB : 2 ≤ B.length) (r : Bool) (d : v2)
    (h : intersects_exit fuel A B = Except.ok (r, d)) :
    (r = true → hulls_meet A B) ∧
    (r = false → separates A B d ∧ ∃ d1 : v2, d1 ≠ ⟨0, 0⟩ ∧ separates A B d1) := by
  obtain ⟨a, b, ha, hb, hs, hmax⟩ := support_func_spec A B (-(⟨1, -1⟩ : v2)) hA hB
  simp only [intersects_exit, hs, Simplex.write] at h
  refine intersects_loop_sound A B hA hB fuel _ 1 ⟨1, -1⟩ r d ?_ h
  left
  refine ⟨rfl, ⟨a, ha, b, hb, rfl⟩, ?_, ?_⟩
  · intro hc
    have hx := congrArg v2.x hc
    simp at hx
  · intro x hx y hy
    have := hmax x hx y hy
    rw [dot_neg_right, dot_neg_right] at this
    show (a - b).dot ⟨1, -1⟩ ≤ _
    linarith

theorem intersects_eq_ok {fuel : Nat} {A B : List v2} {r : Bool}
    (h : intersects fuel A B = Except.ok r) :
    ∃ d, intersects_exit fuel A B = Except.ok (r, d) := by
  unfold intersects at h
  cases he : intersects_exit fuel A B with
  | error e =>
    rw [he] at h
    exact absurd h (by simp)
  | ok v =>
    rw [he] at h
    obtain ⟨r1, d⟩ := v
    have := Except.ok.inj h
    exact ⟨d, by rw [← this]⟩

/-- C1, amended: over exact arithmetic, for lists of at least two points each, if
`GJK::intersects` returns true then the origin is a convex combination of three points of
the Minkowski difference, and the same weights give a convex combination of points of `A`
equal to one of points of `B`. -/
theorem intersects_true_sound (fuel : Nat) (A B : List v2) (hA : 2 ≤ A.length)
    (hB : 2 ≤ B.length) (h : intersects fuel A B = Except.ok true) :
    hulls_meet A B := by
  obtain ⟨d, hd⟩ := intersects_eq_ok h
  exact (intersects_exit_sound fuel A B hA hB true d hd).1 rfl

/-- C1, amended, at the overlapping squares (0,0)-(10,10) and (5,5)-(15,15). -/
theorem intersects_true_sound_witness :
    2 ≤ ([⟨0, 0⟩, ⟨10, 0⟩, ⟨10, 10⟩, ⟨0, 10⟩] : List v2).length ∧
    2 ≤ ([⟨5, 5⟩, ⟨15, 5⟩, ⟨15, 15⟩, ⟨5, 15⟩] : List v2).length ∧
    intersects 8 [⟨0, 0⟩, ⟨10, 0⟩, ⟨10, 10⟩, ⟨0, 10⟩]
      [⟨5, 5⟩, ⟨15, 5⟩, ⟨15, 15⟩, ⟨5, 15⟩] = Except.ok true ∧
    hulls_meet [⟨0, 0⟩, ⟨10, 0⟩, ⟨10, 10⟩, ⟨0, 10⟩] [⟨5, 5⟩, ⟨15, 5⟩, ⟨15, 15⟩, ⟨5, 15⟩] :=
  ⟨by decide, by decide, by decide!,
    intersects_true_sound 8 _ _ (by decide) (by decide) (by decide!)⟩

/-- C2, amended: over exact arithmetic, for lists of at least two points each, if
`GJK::intersects` returns false then every point `a - b` of the Minkowski difference has a
dot product at most 0 with the direction `d` in force at the `return`, and some non-zero
direction has that property. -/
theorem intersects_false_sound (fuel : Nat) (A B : List v2) (hA : 2 ≤ A.length)
    (hB : 2 ≤ B.length) (h : intersects fuel A B = Except.ok false) :
    ∃ d, intersects_exit fuel A B = Except.ok (false, d) ∧
      (∀ a ∈ A, ∀ b ∈ B, (a - b).dot d ≤ 0) ∧
      ∃ d1 : v2, d1 ≠ ⟨0, 0⟩ ∧ ∀ a ∈ A, ∀ b ∈ B, (a - b).dot d1 ≤ 0 := by
  obtain ⟨d, hd⟩ := intersects_eq_ok h
  obtain ⟨h1, h2⟩ := (intersects_exit_sound fuel A B hA hB false d hd).2 rfl
  exact ⟨d, hd, h1, h2⟩

/-- C2, amended, at the disjoint squares (0,0)-(1,1) and (2,2)-(3,3). -/
theorem intersects_false_sound_witness :
    2 ≤ ([⟨0, 0⟩, ⟨1, 0⟩, ⟨1, 1⟩, ⟨0, 1⟩] : List v2).length ∧
    2 ≤ ([⟨2, 2⟩, ⟨3, 2⟩, ⟨3, 3⟩, ⟨2, 3⟩] : List v2).length ∧
    intersects 8 [⟨0, 0⟩, ⟨1, 0⟩, ⟨1, 1⟩, ⟨0, 1⟩]
      [⟨2, 2⟩, ⟨3, 2⟩, ⟨3, 3⟩, ⟨2, 3⟩] = Except.ok false ∧
    ∃ d, intersects_exit 8 [⟨0, 0⟩, ⟨1, 0⟩, ⟨1, 1⟩, ⟨0, 1⟩]
        [⟨2, 2⟩, ⟨3, 2⟩, ⟨3, 3⟩, ⟨2, 3⟩] = Except.ok (false, d) ∧
      (∀ a ∈ ([⟨0, 0⟩, ⟨1, 0⟩, ⟨1, 1⟩, ⟨0, 1⟩] : List v2),
        ∀ b ∈ ([⟨2, 2⟩, ⟨3, 2⟩, ⟨3, 3⟩, ⟨2, 3⟩] : List v2), (a - b).dot d ≤ 0) ∧
      ∃ d1 : v2, d1 ≠ ⟨0, 0⟩ ∧
        ∀ a ∈ ([⟨0, 0⟩, ⟨1, 0⟩, ⟨1, 1⟩, ⟨0, 1⟩] : List v2),
          ∀ b ∈ ([⟨2, 2⟩, ⟨3, 2⟩, ⟨3, 3⟩, ⟨2, 3⟩] : List v2), (a - b).dot d1 ≤ 0 :=
  ⟨by decide, by decide, by decide!,
    intersects_false_sound 8 _ _ (by decide) (by decide) (by decide!)⟩

/-! ## The separating distance -/

theorem clamp_props (u L : ℚ) (hL : 0 ≤ L) (hu : L = 0 → u = 0) :
    0 ≤ max 0 (min (-u / L) 1) ∧ max 0 (min (-u / L) 1) ≤ 1 ∧
    max 0 (min (-u / L) 1) * (u + max 0 (min (-u / L) 1) * L) ≤ 0 ∧
    0 ≤ (1 - max 0 (min (-u / L) 1)) * (u + max 0 (min (-u / L) 1) * L) := by
  rcases eq_or_lt_of_le hL with h0 | hpos
  · have hu0 := hu h0.symm
    subst hu0
    rw [← h0]
    simp
  · rcases le_total (-u / L) 0 with hx | hx
    · have ht : max 0 (min (-u / L) 1) = 0 := by
        rw [max_eq_left]
        exact le_trans (min_le_left _ _) hx
      rw [ht]
      have hu1 : 0 ≤ u := by
        by_contra hc
        push_neg at hc
        have : 0 < -u / L := div_pos (by linarith) hpos
        linarith
      simp
      exact hu1
    · rcases le_total (-u / L) 1 with hy | hy
      · have ht : max 0 (min (-u / L) 1) = -u / L := by
          rw [min_eq_left hy, max_eq_right hx]
        rw [ht]
        have hz : u + -u / L * L = 0 := by
          field_simp
        rw [hz]
        simp
        exact ⟨hx, hy⟩
      · have ht : max 0 (min (-u / L) 1) = 1 := by
          rw [min_eq_right hy, max_eq_right (by norm_num)]
        rw [ht]
        have hu1 : u + L ≤ 0 := by
          have := (le_div_iff₀ hpos).mp hy
          linarith
        simp
        exact hu1

theorem rsq_nonneg (a : v2) : 0 ≤ a.rsq := by
  simp only [v2.rsq, v2.dot]
  nlinarith [sq_nonneg a.x, sq_nonneg a.y]

theorem rsq_eq_zero {a : v2} (h : a.rsq = 0) : a.x = 0 ∧ a.y = 0 := by
  simp only [v2.rsq, v2.dot] at h
  constructor
  · nlinarith [sq_nonneg a.x, sq_nonneg a.y]
  · nlinarith [sq_nonneg a.x, sq_nonneg a.y]

theorem rsq_neg (a : v2) : (-a).rsq = a.rsq := by
  simp only [v2.rsq, v2.dot, neg_x, neg_y]
  ring

theorem neg_neg_v2 (a : v2) : -(-a) = a := by
  apply v2_ext
  · simp only [neg_x, neg_neg]
  · simp only [neg_y, neg_neg]

/-- The point `closest_to_origin a b` lies on the segment from `a` to `b`, and neither
end of the segment is nearer to the origin along it. -/
theorem closest_to_origin_spec (a b : v2) :
    ∃ t : ℚ, 0 ≤ t ∧ t ≤ 1 ∧ closest_to_origin a b = a + (b - a) * t ∧
      (closest_to_origin a b).rsq ≤ a.dot (closest_to_origin a b) ∧
      (closest_to_origin a b).rsq ≤ b.dot (closest_to_origin a b) := by
  have hL : 0 ≤ (b - a).dot (b - a) := rsq_nonneg (b - a)
  have hu : (b - a).dot (b - a) = 0 → a.dot (b - a) = 0 := by
    intro h
    obtain ⟨hx, hy⟩ := rsq_eq_zero h
    simp only [v2.dot, hx, hy]
    ring
  obtain ⟨h0, h1, h2, h3⟩ := clamp_props (a.dot (b - a)) ((b - a).dot (b - a)) hL hu
  have hq : closest_to_origin a b =
      a + (b - a) * max 0 (min (-a.dot (b - a) / (b - a).dot (b - a)) 1) := by
    apply v2_ext
    · simp only [closest_to_origin, add_x, mul_x]
      ring
    · simp only [closest_to_origin, add_y, mul_y]
      ring
  refine ⟨_, h0, h1, hq, ?_, ?_⟩
  · rw [hq]
    simp only [v2.rsq, v2.dot, add_x, add_y, mul_x, mul_y, sub_x, sub_y] at h2 ⊢
    linarith
  · rw [hq]
    simp only [v2.rsq, v2.dot, add_x, add_y, mul_x, mul_y, sub_x, sub_y] at h3 ⊢
    linarith


theorem in_hull_pair {A B : List v2} {a1 b1 a2 b2 : v2} (ha1 : a1 ∈ A) (hb1 : b1 ∈ B)
    (ha2 : a2 ∈ A) (hb2 : b2 ∈ B) (t : ℚ) (h0 : 0 ≤ t) (h1 : t ≤ 1) :
    ∃ x y, in_hull A x ∧ in_hull B y ∧
      x - y = (a1 - b1) + ((a2 - b2) - (a1 - b1)) * t := by
  refine ⟨a1 + (a2 - a1) * t, b1 + (b2 - b1) * t,
    in_hull.segment a1 a2 t (in_hull.vertex a1 ha1) (in_hull.vertex a2 ha2) h0 h1,
    in_hull.segment b1 b2 t (in_hull.vertex b1 hb1) (in_hull.vertex b2 hb2) h0 h1, ?_⟩
  apply v2_ext
  · simp only [sub_x, add_x, mul_x]
    ring
  · simp only [sub_y, add_y, mul_y]
    ring

theorem dist_inv_of_closest {A B : List v2} {a1 b1 a2 b2 : v2} (ha1 : a1 ∈ A)
    (hb1 : b1 ∈ B) (ha2 : a2 ∈ A) (hb2 : b2 ∈ B)
    (heps : EPSILON < (closest_to_origin (a1 - b1) (a2 - b2)).rsq) :
    dist_inv A B (a1 - b1) (a2 - b2) (-closest_to_origin (a1 - b1) (a2 - b2)) := by
  obtain ⟨t, h0, h1, hq, hqa, hqb⟩ := closest_to_origin_spec (a1 - b1) (a2 - b2)
  refine ⟨⟨a1, ha1, b1, hb1, a2, ha2, b2, hb2, t, rfl, rfl, h0, h1, ?_⟩, ?_, ?_, ?_⟩
  · rw [neg_neg_v2]
    exact hq
  · rw [rsq_neg]
    exact heps
  · rw [rsq_neg, dot_neg_right]
    linarith
  · rw [rsq_neg, dot_neg_right]
    linarith

theorem dist_inv_of_closest_swap {A B : List v2} {a1 b1 a2 b2 : v2} (ha1 : a1 ∈ A)
    (hb1 : b1 ∈ B) (ha2 : a2 ∈ A) (hb2 : b2 ∈ B)
    (heps : EPSILON < (closest_to_origin (a1 - b1) (a2 - b2)).rsq) :
    dist_inv A B (a2 - b2) (a1 - b1) (-closest_to_origin (a1 - b1) (a2 - b2)) := by
  obtain ⟨t, h0, h1, hq, hqa, hqb⟩ := closest_to_origin_spec (a1 - b1) (a2 - b2)
  refine ⟨⟨a2, ha2, b2, hb2, a1, ha1, b1, hb1, 1 - t, rfl, rfl, by linarith, by linarith,
    ?_⟩, ?_, ?_, ?_⟩
  · rw [neg_neg_v2, hq]
    apply v2_ext
    · simp only [sub_x, add_x, mul_x]
      ring
    · simp only [sub_y, add_y, mul_y]
      ring
  · rw [rsq_neg]
    exact heps
  · rw [rsq_neg, dot_neg_right]
    linarith
  · rw [rsq_neg, dot_neg_right]
    linarith

/-- Soundness of the loop of `distance`: a result returned from a state satisfying
`dist_inv` satisfies `dist_post`. -/
theorem distance_loop_sound (A B : List v2) (hA : 2 ≤ A.length) (hB : 2 ≤ B.length) :
    ∀ (fuel : Nat) (a b dir : v2) (e : Exit) (d : v2) (v : Dist),
      dist_inv A B a b dir →
      distance_loop A B fuel a b dir = Except.ok (e, d, v) →
      dist_post A B e d v := by
  intro fuel
  induction fuel with
  | zero =>
    intro a b dir e d v _ h
    simp [distance_loop] at h
  | succ n ih =>
    intro a b dir e d v hinv h
    obtain ⟨ac, bc, hac, hbc, hs, hmax⟩ := support_func_spec A B dir hA hB
    obtain ⟨⟨a1, ha1, b1, hb1, a2, ha2, b2, hb2, t, ea, eb, ht0, ht1, hseg⟩, heps, hda, hdb⟩ :=
      hinv
    simp only [distance_loop, hs] at h
    split_ifs at h with hin hprog hclose hle
    · have h2 := Except.ok.inj h
      simp only [Prod.mk.injEq] at h2
      obtain ⟨he, _, hv⟩ := h2
      right
      rw [← he, ← hv]
      exact ⟨by simp, rfl⟩
    · have h2 := Except.ok.inj h
      simp only [Prod.mk.injEq] at h2
      obtain ⟨he, hd, hv⟩ := h2
      subst hd
      left
      refine ⟨he.symm, -(ac - bc).dot dir, hv.symm, ?_, ?_, heps, ?_, ?_⟩
      · rcases min_le_iff.mp hprog with hp | hp <;> linarith
      · have hxa := hmax a1 ha1 b1 hb1
        have hxb := hmax a2 ha2 b2 hb2
        rw [← ea] at hxa
        rw [← eb] at hxb
        have hd : (-dir).dot dir = (a + (b - a) * t).dot dir := by rw [hseg]
        have hexp : (a + (b - a) * t).dot dir = (1 - t) * a.dot dir + t * b.dot dir := by
          simp only [v2.dot, add_x, add_y, mul_x, mul_y, sub_x, sub_y]
          ring
        have hneg : (-dir).dot dir = -dir.rsq := by
          simp only [v2.rsq, v2.dot, neg_x, neg_y]
          ring
        rw [hexp, hneg] at hd
        nlinarith [mul_nonneg ht0 (sub_nonneg.mpr hxb),
          mul_nonneg (sub_nonneg.mpr ht1) (sub_nonneg.mpr hxa)]
      · intro x hx y hy
        have := hmax x hx y hy
        rw [dot_neg_right]
        linarith
      · obtain ⟨x, y, hx, hy, hxy⟩ := in_hull_pair ha1 hb1 ha2 hb2 t ht0 ht1
        refine ⟨x, y, hx, hy, ?_⟩
        rw [hxy, hseg, ea, eb]
    · have h2 := Except.ok.inj h
      simp only [Prod.mk.injEq] at h2
      obtain ⟨he, _, hv⟩ := h2
      right
      rw [← he, ← hv]
      exact ⟨by simp, rfl⟩
    · refine ih _ _ _ e d v ?_ h
      have hgt : EPSILON < (closest_to_origin a (ac - bc)).rsq := by
        have := not_le.mp hclose
        exact lt_of_lt_of_le this (min_le_left _ _)
      rw [ea] at hgt ⊢
      exact dist_inv_of_closest ha1 hb1 hac hbc hgt
    · refine ih _ _ _ e d v ?_ h
      have hgt : EPSILON < (closest_to_origin b (ac - bc)).rsq := by
        have := not_le.mp hclose
        exact lt_of_lt_of_le this (min_le_right _ _)
      rw [eb] at hgt ⊢
      exact dist_inv_of_closest_swap ha2 hb2 hac hbc hgt

theorem distance_exit_sound (fuel : Nat) (A B : List v2) (hA : 2 ≤ A.length)
    (hB : 2 ≤ B.length) (e : Exit) (d : v2) (v : Dist)
    (h : distance_exit fuel A B = Except.ok (e, d, v)) :
    dist_post A B e d v := by
  obtain ⟨a1, b1, ha1, hb1, hs1, _⟩ := support_func_spec A B ⟨1, -1⟩ hA hB
  obtain ⟨a2, b2, ha2, hb2, hs2, _⟩ := support_func_spec A B (-(⟨1, -1⟩ : v2)) hA hB
  simp only [distance_exit, hs1, hs2] at h
  split_ifs at h with hclose
  · have h2 := Except.ok.inj h
    simp only [Prod.mk.injEq] at h2
    obtain ⟨he, _, hv⟩ := h2
    right
    rw [← he, ← hv]
    exact ⟨by simp, rfl⟩
  · refine distance_loop_sound A B hA hB fuel _ _ _ e d v ?_ h
    have hgt := not_le.mp hclose
    rw [rsq_neg] at hgt
    exact dist_inv_of_closest ha1 hb1 ha2 hb2 hgt

theorem distance_eq_ok {fuel : Nat} {A B : List v2} {v : Dist}
    (h : distance fuel A B = Except.ok v) :
    ∃ e d, distance_exit fuel A B = Except.ok (e, d, v) := by
  unfold distance at h
  cases he : distance_exit fuel A B with
  | error e =>
    rw [he] at h
    exact absurd h (by simp)
  | ok w =>
    rw [he] at h
    obtain ⟨e, d, v1⟩ := w
    have := Except.ok.inj h
    exact ⟨e, d, by rw [← this]⟩

theorem hull_dot_ge {P : List v2} {w : v2} {k : ℚ} (h : ∀ p ∈ P, k ≤ p.dot w) :
    ∀ x, in_hull P x → k ≤ x.dot w := by
  intro x hx
  induction hx with
  | vertex p hp => exact h p hp
  | segment x y t _ _ h0 h1 ihx ihy =>
    have e : (x + (y - x) * t).dot w = (1 - t) * x.dot w + t * y.dot w := by
      simp only [v2.dot, add_x, add_y, mul_x, mul_y, sub_x, sub_y]
      ring
    rw [e]
    nlinarith [mul_nonneg h0 (sub_nonneg.mpr ihy),
      mul_nonneg (sub_nonneg.mpr h1) (sub_nonneg.mpr ihx)]

theorem hull_pair_dot_ge {A B : List v2} {w : v2} {k : ℚ}
    (h : ∀ a ∈ A, ∀ b ∈ B, k ≤ (a - b).dot w) :
    ∀ x y, in_hull A x → in_hull B y → k ≤ (x - y).dot w := by
  intro x y hx hy
  have hB : ∀ b ∈ B, k ≤ (x - b).dot w := by
    intro b hb
    have h1 : ∀ a ∈ A, k + b.dot w ≤ a.dot w := by
      intro a ha
      have := h a ha b hb
      rw [dot_sub_left] at this
      linarith
    have := hull_dot_ge h1 x hx
    rw [dot_sub_left]
    linarith
  have h2 : ∀ b ∈ B, k - x.dot w ≤ b.dot (-w) := by
    intro b hb
    have := hB b hb
    rw [dot_sub_left] at this
    rw [dot_neg_right]
    linarith
  have := hull_dot_ge h2 y hy
  rw [dot_neg_right] at this
  rw [dot_sub_left]
  linarith

theorem EPSILON_pos : 0 < EPSILON := by
  unfold EPSILON
  norm_num

/-- C5, amended: over exact arithmetic, for lists of at least two points each on which
`GJK::distance` returns, the returned value is a non-negative real; when it returns through
the progress check the argument `-dot(c, d)` of the square root is at least `|d|² -
EPSILON`, which is positive (`-d` is the current closest point, of squared length above
`EPSILON`). -/
theorem distance_nonneg (fuel : Nat) (A B : List v2) (hA : 2 ≤ A.length)
    (hB : 2 ≤ B.length) (v : Dist) (h : distance fuel A B = Except.ok v) :
    (∃ r : ℝ, v.denotes r ∧ 0 ≤ r) ∧
    ∀ d q, distance_exit fuel A B = Except.ok (Exit.no_progress, d, Dist.sqrt q) →
      d.rsq - EPSILON ≤ q ∧ 0 < d.rsq - EPSILON := by
  obtain ⟨e, d, he⟩ := distance_eq_ok h
  constructor
  · rcases distance_exit_sound fuel A B hA hB e d v he with
      ⟨_, q, hv, hq, _, heps, _⟩ | ⟨_, hv⟩
    · refine ⟨Real.sqrt (q : ℝ), ?_, Real.sqrt_nonneg _⟩
      rw [hv]
      exact ⟨by linarith, rfl⟩
    · refine ⟨0, ?_, le_refl _⟩
      rw [hv]
      rfl
  · intro d1 q hd
    rcases distance_exit_sound fuel A B hA hB _ d1 _ hd with
      ⟨_, q1, hv, hq, _, heps, _⟩ | ⟨hne, _⟩
    · have : q = q1 := Dist.sqrt.inj hv
      subst this
      exact ⟨hq, by linarith⟩
    · exact absurd rfl hne

/-- C5, amended, at the disjoint squares (0,0)-(1,1) and (2,2)-(3,3), where the progress check
fires with radicand 2. -/
theorem distance_nonneg_witness :
    2 ≤ ([⟨0, 0⟩, ⟨1, 0⟩, ⟨1, 1⟩, ⟨0, 1⟩] : List v2).length ∧
    2 ≤ ([⟨2, 2⟩, ⟨3, 2⟩, ⟨3, 3⟩, ⟨2, 3⟩] : List v2).length ∧
    distance_exit 8 [⟨0, 0⟩, ⟨1, 0⟩, ⟨1, 1⟩, ⟨0, 1⟩] [⟨2, 2⟩, ⟨3, 2⟩, ⟨3, 3⟩, ⟨2, 3⟩] =
      Except.ok (Exit.no_progress, ⟨1, 1⟩, Dist.sqrt 2) ∧
    ((∃ r : ℝ, (Dist.sqrt 2).denotes r ∧ 0 ≤ r) ∧
    ∀ d q, distance_exit 8 [⟨0, 0⟩, ⟨1, 0⟩, ⟨1, 1⟩, ⟨0, 1⟩]
        [⟨2, 2⟩, ⟨3, 2⟩, ⟨3, 3⟩, ⟨2, 3⟩] = Except.ok (Exit.no_progress, d, Dist.sqrt q) →
      d.rsq - EPSILON ≤ q ∧ 0 < d.rsq - EPSILON) :=
  ⟨by decide, by decide, by decide!,
    distance_nonneg 8 _ _ (by decide) (by decide) (Dist.sqrt 2) (by decide!)⟩

open scoped RealInnerProductSpace in
/-- The closed triangle spanned by three points of the plane has a point closest to the
origin: a convex combination `q` of the three with `|q|² ≤ m · q` for each vertex `m`. -/
theorem exists_closest_in_triangle (ax ay bx by_ cx cy : ℝ) :
    ∃ α β γ : ℝ, 0 ≤ α ∧ 0 ≤ β ∧ 0 ≤ γ ∧ α + β + γ = 1 ∧
      (α * ax + β * bx + γ * cx) * (α * ax + β * bx + γ * cx) +
          (α * ay + β * by_ + γ * cy) * (α * ay + β * by_ + γ * cy) ≤
        ax * (α * ax + β * bx + γ * cx) + ay * (α * ay + β * by_ + γ * cy) ∧
      (α * ax + β * bx + γ * cx) * (α * ax + β * bx + γ * cx) +
          (α * ay + β * by_ + γ * cy) * (α * ay + β * by_ + γ * cy) ≤
        bx * (α * ax + β * bx + γ * cx) + by_ * (α * ay + β * by_ + γ * cy) ∧
      (α * ax + β * bx + γ * cx) * (α * ax + β * bx + γ * cx) +
          (α * ay + β * by_ + γ * cy) * (α * ay + β * by_ + γ * cy) ≤
        cx * (α * ax + β * bx + γ * cx) + cy * (α * ay + β * by_ + γ * cy) := by
  have hfin : ({(⟨ax, ay⟩ : ℂ), ⟨bx, by_⟩, ⟨cx, cy⟩} : Set ℂ).Finite := by simp
  have hK := hfin.isCompact_convexHull
  have hne : (convexHull ℝ {(⟨ax, ay⟩ : ℂ), ⟨bx, by_⟩, ⟨cx, cy⟩}).Nonempty :=
    ⟨⟨ax, ay⟩, subset_convexHull ℝ _ (by simp)⟩
  have hconv : Convex ℝ (convexHull ℝ {(⟨ax, ay⟩ : ℂ), ⟨bx, by_⟩, ⟨cx, cy⟩}) :=
    convex_convexHull ℝ _
  obtain ⟨q, hq, hmin⟩ := exists_norm_eq_iInf_of_complete_convex hne hK.isComplete hconv 0
  have hall := (norm_eq_iInf_iff_real_inner_le_zero hconv hq).mp hmin
  have ha := hall ⟨ax, ay⟩ (subset_convexHull ℝ _ (by simp))
  have hb := hall ⟨bx, by_⟩ (subset_convexHull ℝ _ (by simp))
  have hc := hall ⟨cx, cy⟩ (subset_convexHull ℝ _ (by simp))
  rw [convexHull_insert (by simp), mem_convexJoin] at hq
  obtain ⟨a', ha', y, hy, hseg⟩ := hq
  simp only [Set.mem_singleton_iff] at ha'
  subst ha'
  rw [convexHull_pair] at hy
  obtain ⟨s, t, hs, ht, hst, hy⟩ := hy
  obtain ⟨u, v, hu, hv, huv, hqeq⟩ := hseg
  have hre : q.re = u * ax + v * s * bx + v * t * cx := by
    rw [← hqeq, ← hy]
    simp
    ring
  have him : q.im = u * ay + v * s * by_ + v * t * cy := by
    rw [← hqeq, ← hy]
    simp
    ring
  rw [Complex.inner] at ha hb hc
  simp only [Complex.mul_re, Complex.conj_re, Complex.conj_im, Complex.sub_re,
    Complex.sub_im, Complex.zero_re, Complex.zero_im] at ha hb hc
  rw [hre, him] at ha hb hc
  refine ⟨u, v * s, v * t, hu, mul_nonneg hv hs, mul_nonneg hv ht, ?_, ?_, ?_, ?_⟩
  · calc u + v * s + v * t = u + v * (s + t) := by ring
      _ = 1 := by rw [hst, mul_one, huv]
  · linarith [ha]
  · linarith [hb]
  · linarith [hc]

/-- Two points of a segment that both satisfy the first-order conditions coincide. -/
theorem seg_closest_unique_real {mx my nx ny qx qy ex ey l t : ℝ}
    (hl0 : 0 ≤ l) (hl1 : l ≤ 1) (hq : qx = mx + l * (nx - mx) ∧ qy = my + l * (ny - my))
    (hqm : qx * qx + qy * qy ≤ mx * qx + my * qy)
    (hqn : qx * qx + qy * qy ≤ nx * qx + ny * qy)
    (ht0 : 0 ≤ t) (ht1 : t ≤ 1) (he : ex = mx + t * (nx - mx) ∧ ey = my + t * (ny - my))
    (hem : ex * ex + ey * ey ≤ mx * ex + my * ey)
    (hen : ex * ex + ey * ey ≤ nx * ex + ny * ey) :
    qx = ex ∧ qy = ey := by
  have h1 : qx * qx + qy * qy ≤ ex * qx + ey * qy := by
    have : ex * qx + ey * qy = (1 - t) * (mx * qx + my * qy) + t * (nx * qx + ny * qy) := by
      rw [he.1, he.2]; ring
    rw [this]
    linarith [mul_nonneg ht0 (sub_nonneg.mpr hqn),
      mul_nonneg (sub_nonneg.mpr ht1) (sub_nonneg.mpr hqm)]
  have h2 : ex * ex + ey * ey ≤ qx * ex + qy * ey := by
    have : qx * ex + qy * ey = (1 - l) * (mx * ex + my * ey) + l * (nx * ex + ny * ey) := by
      rw [hq.1, hq.2]; ring
    rw [this]
    linarith [mul_nonneg hl0 (sub_nonneg.mpr hen),
      mul_nonneg (sub_nonneg.mpr hl1) (sub_nonneg.mpr hem)]
  have h3 : (qx - ex) * (qx - ex) + (qy - ey) * (qy - ey) ≤ 0 := by
    have : (qx - ex) * (qx - ex) + (qy - ey) * (qy - ey) =
        (qx * qx + qy * qy) - 2 * (ex * qx + ey * qy) + (ex * ex + ey * ey) := by ring
    rw [this]
    have : qx * ex + qy * ey = ex * qx + ey * qy := by ring
    linarith
  have g1 : (qx - ex) * (qx - ex) = 0 := by
    nlinarith [mul_self_nonneg (qx - ex), mul_self_nonneg (qy - ey)]
  have g2 : (qy - ey) * (qy - ey) = 0 := by
    nlinarith [mul_self_nonneg (qx - ex), mul_self_nonneg (qy - ey)]
  exact ⟨by linarith [mul_self_eq_zero.mp g1], by linarith [mul_self_eq_zero.mp g2]⟩

theorem cross_zero_of_sides {e m n : ℝ} (k1 : e * e ≤ m * e) (k2 : e * e ≤ n * e)
    (hside : (m ≤ 0 ∧ 0 ≤ n) ∨ (n ≤ 0 ∧ 0 ≤ m)) : e = 0 := by
  rcases hside with ⟨s1, s2⟩ | ⟨s1, s2⟩
  · rcases lt_trichotomy e 0 with h | h | h
    · nlinarith [mul_nonneg s2 (le_of_lt (neg_pos.mpr h))]
    · exact h
    · nlinarith [mul_nonneg (neg_nonneg.mpr s1) (le_of_lt h)]
  · rcases lt_trichotomy e 0 with h | h | h
    · nlinarith [mul_nonneg s2 (le_of_lt (neg_pos.mpr h))]
    · exact h
    · nlinarith [mul_nonneg (neg_nonneg.mpr s1) (le_of_lt h)]

theorem eq_of_sq_dist_zero {qx qy ex ey : ℝ}
    (h : (qx - ex) * (qx - ex) + (qy - ey) * (qy - ey) ≤ 0) : qx = ex ∧ qy = ey := by
  have h1 : (qx - ex) * (qx - ex) = 0 := by
    nlinarith [mul_self_nonneg (qx - ex), mul_self_nonneg (qy - ey)]
  have h2 : (qy - ey) * (qy - ey) = 0 := by
    nlinarith [mul_self_nonneg (qx - ex), mul_self_nonneg (qy - ey)]
  exact ⟨by linarith [mul_self_eq_zero.mp h1], by linarith [mul_self_eq_zero.mp h2]⟩

/-- On a line at dot product `|q|²` with `q`, whose two points `m`, `n` lie on either
side of `q`, a point satisfying the first-order conditions is `q`. -/
theorem line_closest_real {mx my nx ny qx qy ex ey t : ℝ}
    (hq : 0 < qx * qx + qy * qy)
    (hm : mx * qx + my * qy = qx * qx + qy * qy)
    (hn : nx * qx + ny * qy = qx * qx + qy * qy)
    (hside : (mx * qy - my * qx ≤ 0 ∧ 0 ≤ nx * qy - ny * qx) ∨
      (nx * qy - ny * qx ≤ 0 ∧ 0 ≤ mx * qy - my * qx))
    (he : ex = mx + t * (nx - mx) ∧ ey = my + t * (ny - my))
    (hem : ex * ex + ey * ey ≤ mx * ex + my * ey)
    (hen : ex * ex + ey * ey ≤ nx * ex + ny * ey) :
    qx = ex ∧ qy = ey := by
  have heq : ex * qx + ey * qy = qx * qx + qy * qy := by
    have : ex * qx + ey * qy = (1 - t) * (mx * qx + my * qy) + t * (nx * qx + ny * qy) := by
      rw [he.1, he.2]; ring
    rw [this, hm, hn]; ring
  have i1 : (qx * qx + qy * qy) * (ex * ex + ey * ey) =
      (ex * qx + ey * qy) * (ex * qx + ey * qy) + (ex * qy - ey * qx) * (ex * qy - ey * qx) := by
    ring
  have i2 : (qx * qx + qy * qy) * (mx * ex + my * ey) =
      (mx * qx + my * qy) * (ex * qx + ey * qy) + (mx * qy - my * qx) * (ex * qy - ey * qx) := by
    ring
  have i3 : (qx * qx + qy * qy) * (nx * ex + ny * ey) =
      (nx * qx + ny * qy) * (ex * qx + ey * qy) + (nx * qy - ny * qx) * (ex * qy - ey * qx) := by
    ring
  rw [heq] at i1 i2 i3
  rw [hm] at i2
  rw [hn] at i3
  have m1 := mul_le_mul_of_nonneg_left hem (le_of_lt hq)
  have m2 := mul_le_mul_of_nonneg_left hen (le_of_lt hq)
  rw [i1, i2] at m1
  rw [i1, i3] at m2
  have hz : ex * qy - ey * qx = 0 :=
    cross_zero_of_sides (by linarith) (by linarith) hside
  have h3 : ((qx - ex) * (qx - ex) + (qy - ey) * (qy - ey)) * (qx * qx + qy * qy) = 0 := by
    have : ((qx - ex) * (qx - ex) + (qy - ey) * (qy - ey)) * (qx * qx + qy * qy) =
        ((qx * qx + qy * qy) - (ex * qx + ey * qy)) * ((qx * qx + qy * qy) - (ex * qx + ey * qy))
        + (ex * qy - ey * qx) * (ex * qy - ey * qx) := by ring
    rw [this, heq, hz]; ring
  have h4 : (qx - ex) * (qx - ex) + (qy - ey) * (qy - ey) = 0 := by
    rcases mul_eq_zero.mp h3 with h | h
    · exact h
    · exact absurd h (ne_of_gt hq)
  exact eq_of_sq_dist_zero (le_of_eq h4)

theorem sq_sum_zero {x y : ℝ} (h : x * x + y * y ≤ 0) : x = 0 ∧ y = 0 := by
  have hx : x * x = 0 := by nlinarith [mul_self_nonneg x, mul_self_nonneg y]
  have hy : y * y = 0 := by nlinarith [mul_self_nonneg x, mul_self_nonneg y]
  exact ⟨mul_self_eq_zero.mp hx, mul_self_eq_zero.mp hy⟩

theorem sq_sum_nonneg (x y : ℝ) : 0 ≤ x * x + y * y := by
  linarith [mul_self_nonneg x, mul_self_nonneg y]

theorem convex_ge {s A C V : ℝ} (hs0 : 0 ≤ s) (hs1 : s ≤ 1) (hA : V ≤ A) (hC : V ≤ C) :
    V ≤ (1 - s) * A + s * C := by
  linarith [mul_nonneg hs0 (sub_nonneg.mpr hC), mul_nonneg (sub_nonneg.mpr hs1) (sub_nonneg.mpr hA)]

set_option maxHeartbeats 1000000 in
/-- The nearer of the two candidate points is the closest point of the whole triangle:
the dropped vertex is not nearer to the origin along it. -/
theorem closer_candidate_real {ax ay bx by_ cx cy px py ux uy vx vy t s r : ℝ}
    (hp : px = ax + t * (bx - ax) ∧ py = ay + t * (by_ - ay)) (ht0 : 0 ≤ t) (ht1 : t ≤ 1)
    (hpa : px * px + py * py ≤ ax * px + ay * py)
    (hpb : px * px + py * py ≤ bx * px + by_ * py)
    (hprog : cx * px + cy * py < px * px + py * py)
    (hu : ux = ax + s * (cx - ax) ∧ uy = ay + s * (cy - ay)) (hs0 : 0 ≤ s) (hs1 : s ≤ 1)
    (hua : ux * ux + uy * uy ≤ ax * ux + ay * uy)
    (huc : ux * ux + uy * uy ≤ cx * ux + cy * uy)
    (hv : vx = bx + r * (cx - bx) ∧ vy = by_ + r * (cy - by_)) (hr0 : 0 ≤ r) (hr1 : r ≤ 1)
    (hvb : vx * vx + vy * vy ≤ bx * vx + by_ * vy)
    (hvc : vx * vx + vy * vy ≤ cx * vx + cy * vy)
    (hle : ux * ux + uy * uy ≤ vx * vx + vy * vy) (hmu : 0 < ux * ux + uy * uy)
    (hnot : ¬ (0 < (ax * by_ - ay * bx) * (bx * cy - by_ * cx) ∧
      0 < (ax * by_ - ay * bx) * (cx * ay - cy * ax))) :
    ux * ux + uy * uy ≤ bx * ux + by_ * uy := by
  obtain ⟨α, β, γ, hα, hβ, hγ, hsum, Ha, Hb, Hc⟩ :=
    exists_closest_in_triangle ax ay bx by_ cx cy
  obtain ⟨qx, hqx⟩ : ∃ qx, qx = α * ax + β * bx + γ * cx := ⟨_, rfl⟩
  obtain ⟨qy, hqy⟩ : ∃ qy, qy = α * ay + β * by_ + γ * cy := ⟨_, rfl⟩
  rw [← hqx, ← hqy] at Ha Hb Hc
  have hP : 0 < px * px + py * py := by
    by_contra hc
    obtain ⟨hx, hy⟩ := sq_sum_zero (not_lt.mp hc)
    rw [hx, hy] at hprog
    simp at hprog
  have huv : vx * vx + vy * vy ≤ ax * vx + ay * vy →
      ux * ux + uy * uy ≤ bx * ux + by_ * uy := by
    intro hav
    have h1 : vx * vx + vy * vy ≤ ux * vx + uy * vy := by
      have : ux * vx + uy * vy = (1 - s) * (ax * vx + ay * vy) + s * (cx * vx + cy * vy) := by
        rw [hu.1, hu.2]; ring
      rw [this]
      exact convex_ge hs0 hs1 hav hvc
    have h2 : (ux - vx) * (ux - vx) + (uy - vy) * (uy - vy) ≤ 0 := by
      have : (ux - vx) * (ux - vx) + (uy - vy) * (uy - vy) =
          (ux * ux + uy * uy) - 2 * (ux * vx + uy * vy) + (vx * vx + vy * vy) := by ring
      rw [this]
      linarith
    obtain ⟨e1, e2⟩ := eq_of_sq_dist_zero h2
    rw [e1, e2]
    exact hvb
  rcases eq_or_lt_of_le (sq_sum_nonneg qx qy) with hQ | hQ
  · -- the origin is a convex combination of the three vertices
    obtain ⟨hx0, hy0⟩ := sq_sum_zero (le_of_eq hQ.symm)
    rw [hx0] at hqx
    rw [hy0] at hqy
    have eqp : α * (ax * px + ay * py) + β * (bx * px + by_ * py) +
        γ * (cx * px + cy * py) = 0 := by
      linear_combination (-px) * hqx - py * hqy
    have equ : α * (ax * ux + ay * uy) + β * (bx * ux + by_ * uy) +
        γ * (cx * ux + cy * uy) = 0 := by
      linear_combination (-ux) * hqx - uy * hqy
    have eqv : α * (ax * vx + ay * vy) + β * (bx * vx + by_ * vy) +
        γ * (cx * vx + cy * vy) = 0 := by
      linear_combination (-vx) * hqx - vy * hqy
    have hγpos : 0 < γ := by
      rcases eq_or_lt_of_le hγ with h | h
      · exfalso
        rw [← h] at eqp hsum
        have hsumP : α * (px * px + py * py) + β * (px * px + py * py) =
            px * px + py * py := by
          linear_combination (px * px + py * py) * hsum
        linarith [mul_nonneg hα (sub_nonneg.mpr hpa), mul_nonneg hβ (sub_nonneg.mpr hpb)]
      · exact h
    by_contra hgoal
    push_neg at hgoal
    have hV : 0 < vx * vx + vy * vy := lt_of_lt_of_le hmu hle
    have hαpos : 0 < α := by
      rcases eq_or_lt_of_le hα with h | h
      · exfalso
        rw [← h] at eqv
        linarith [mul_nonneg hβ (sub_nonneg.mpr hvb), mul_nonneg hγ (sub_nonneg.mpr hvc),
          mul_pos hγpos hV, mul_nonneg hβ (le_of_lt hV)]
      · exact h
    have hβpos : 0 < β := by
      rcases eq_or_lt_of_le hβ with h | h
      · exfalso
        rw [← h] at equ
        linarith [mul_nonneg hα (sub_nonneg.mpr hua), mul_nonneg hγ (sub_nonneg.mpr huc),
          mul_pos hγpos hmu, mul_nonneg hα (le_of_lt hmu)]
      · exact h
    have cb : α * (ax * by_ - ay * bx) = γ * (bx * cy - by_ * cx) := by
      linear_combination (-by_) * hqx + bx * hqy
    have cc : α * (cx * ay - cy * ax) = β * (bx * cy - by_ * cx) := by
      linear_combination cy * hqx - cx * hqy
    rcases lt_trichotomy (bx * cy - by_ * cx) 0 with hsb | hsb | hsb
    · apply hnot
      have hsa : ax * by_ - ay * bx < 0 := by
        by_contra hc
        push_neg at hc
        linarith [mul_nonneg (le_of_lt hαpos) hc, mul_pos hγpos (neg_pos.mpr hsb)]
      have hsc : cx * ay - cy * ax < 0 := by
        by_contra hc
        push_neg at hc
        linarith [mul_nonneg (le_of_lt hαpos) hc, mul_pos hβpos (neg_pos.mpr hsb)]
      exact ⟨mul_pos_of_neg_of_neg hsa hsb, mul_pos_of_neg_of_neg hsa hsc⟩
    · -- all three vertices on a line through the origin
      have hbu : β * (bx * ux + by_ * uy) < 0 := by
        linarith [mul_nonneg hα (sub_nonneg.mpr hua), mul_nonneg hγ (sub_nonneg.mpr huc),
          mul_pos hγpos hmu, mul_nonneg hα (le_of_lt hmu)]
      have hbu' : bx * ux + by_ * uy < 0 := by
        by_contra hc
        push_neg at hc
        linarith [mul_nonneg hβ hc]
      have I1 : (bx * ux + by_ * uy) * (cx * cx + cy * cy) =
          (bx * cx + by_ * cy) * (cx * ux + cy * uy) +
            (bx * cy - by_ * cx) * (ux * cy - uy * cx) := by ring
      have I2 : (bx * vx + by_ * vy) * (cx * cx + cy * cy) =
          (bx * cx + by_ * cy) * (cx * vx + cy * vy) +
            (bx * cy - by_ * cx) * (vx * cy - vy * cx) := by ring
      rw [hsb, zero_mul, add_zero] at I1 I2
      have hcu : 0 < cx * ux + cy * uy := lt_of_lt_of_le hmu huc
      have hcv : 0 < cx * vx + cy * vy := lt_of_lt_of_le hV hvc
      have hbv : 0 < bx * vx + by_ * vy := lt_of_lt_of_le hV hvb
      have hcc : 0 ≤ cx * cx + cy * cy := sq_sum_nonneg cx cy
      have hbc1 : (bx * cx + by_ * cy) * (cx * ux + cy * uy) ≤ 0 := by
        rw [← I1]
        exact mul_nonpos_of_nonpos_of_nonneg (le_of_lt hbu') hcc
      have hbc2 : 0 ≤ (bx * cx + by_ * cy) * (cx * vx + cy * vy) := by
        rw [← I2]
        exact mul_nonneg (le_of_lt hbv) hcc
      have hbc3 : bx * cx + by_ * cy ≤ 0 := by
        by_contra hc
        push_neg at hc
        linarith [mul_pos hc hcu]
      have hbc4 : 0 ≤ bx * cx + by_ * cy := by
        by_contra hc
        push_neg at hc
        linarith [mul_pos (neg_pos.mpr hc) hcv]
      have hbc : bx * cx + by_ * cy = 0 := le_antisymm hbc3 hbc4
      rw [hbc, zero_mul] at I1
      rcases mul_eq_zero.mp I1 with h | h
      · linarith
      · obtain ⟨hx, hy⟩ := sq_sum_zero (le_of_eq h)
        rw [hx, hy] at hcu
        simp at hcu
    · apply hnot
      have hsa : 0 < ax * by_ - ay * bx := by
        by_contra hc
        push_neg at hc
        linarith [mul_nonneg (le_of_lt hαpos) (neg_nonneg.mpr hc), mul_pos hγpos hsb]
      have hsc : 0 < cx * ay - cy * ax := by
        by_contra hc
        push_neg at hc
        linarith [mul_nonneg (le_of_lt hαpos) (neg_nonneg.mpr hc), mul_pos hβpos hsb]
      exact ⟨mul_pos hsa hsb, mul_pos hsa hsc⟩
  · -- the closest point of the triangle is not the origin
    have slack : α * ((ax * qx + ay * qy) - (qx * qx + qy * qy)) +
        β * ((bx * qx + by_ * qy) - (qx * qx + qy * qy)) +
        γ * ((cx * qx + cy * qy) - (qx * qx + qy * qy)) = 0 := by
      linear_combination (-(qx * qx + qy * qy)) * hsum - qx * hqx - qy * hqy
    have ta := mul_nonneg hα (sub_nonneg.mpr Ha)
    have tb := mul_nonneg hβ (sub_nonneg.mpr Hb)
    have tc := mul_nonneg hγ (sub_nonneg.mpr Hc)
    have onab : γ = 0 → False := by
      intro h
      have hq : qx = ax + β * (bx - ax) ∧ qy = ay + β * (by_ - ay) := by
        constructor
        · rw [hqx, h]; linear_combination (ax) * hsum - ax * h
        · rw [hqy, h]; linear_combination (ay) * hsum - ay * h
      obtain ⟨e1, e2⟩ := seg_closest_unique_real hβ (by linarith) hq Ha Hb ht0 ht1 hp hpa hpb
      rw [e1, e2] at Hc
      linarith
    have onac : β = 0 → ux * ux + uy * uy ≤ bx * ux + by_ * uy := by
      intro h
      have hq : qx = ax + γ * (cx - ax) ∧ qy = ay + γ * (cy - ay) := by
        constructor
        · rw [hqx, h]; linear_combination (ax) * hsum - ax * h
        · rw [hqy, h]; linear_combination (ay) * hsum - ay * h
      obtain ⟨e1, e2⟩ := seg_closest_unique_real hγ (by linarith) hq Ha Hc hs0 hs1 hu hua huc
      rw [e1, e2] at Hb
      exact Hb
    have onbc : α = 0 → ux * ux + uy * uy ≤ bx * ux + by_ * uy := by
      intro h
      have hq : qx = bx + γ * (cx - bx) ∧ qy = by_ + γ * (cy - by_) := by
        constructor
        · rw [hqx, h]; linear_combination (bx) * hsum - bx * h
        · rw [hqy, h]; linear_combination (by_) * hsum - by_ * h
      obtain ⟨e1, e2⟩ := seg_closest_unique_real hγ (by linarith) hq Hb Hc hr0 hr1 hv hvb hvc
      rw [e1, e2] at Ha
      exact huv Ha
    rcases eq_or_lt_of_le hα with h | hαpos
    · exact onbc h.symm
    rcases eq_or_lt_of_le hβ with h | hβpos
    · exact onac h.symm
    rcases eq_or_lt_of_le hγ with h | hγpos
    · exact absurd (onab h.symm) id
    have ea : ax * qx + ay * qy = qx * qx + qy * qy := by
      have : α * ((ax * qx + ay * qy) - (qx * qx + qy * qy)) = 0 := by linarith
      rcases mul_eq_zero.mp this with h | h
      · exact absurd h (ne_of_gt hαpos)
      · linarith
    have eb : bx * qx + by_ * qy = qx * qx + qy * qy := by
      have : β * ((bx * qx + by_ * qy) - (qx * qx + qy * qy)) = 0 := by linarith
      rcases mul_eq_zero.mp this with h | h
      · exact absurd h (ne_of_gt hβpos)
      · linarith
    have ec : cx * qx + cy * qy = qx * qx + qy * qy := by
      have : γ * ((cx * qx + cy * qy) - (qx * qx + qy * qy)) = 0 := by linarith
      rcases mul_eq_zero.mp this with h | h
      · exact absurd h (ne_of_gt hγpos)
      · linarith
    have hxi : α * (ax * qy - ay * qx) + β * (bx * qy - by_ * qx) +
        γ * (cx * qy - cy * qx) = 0 := by
      linear_combination (-qy) * hqx + qx * hqy
    have withb : ((ax * qy - ay * qx ≤ 0 ∧ 0 ≤ bx * qy - by_ * qx) ∨
        (bx * qy - by_ * qx ≤ 0 ∧ 0 ≤ ax * qy - ay * qx)) → False := by
      intro hside
      obtain ⟨e1, e2⟩ := line_closest_real hQ ea eb hside hp hpa hpb
      rw [e1, e2] at Hc
      linarith
    have withc : ((ax * qy - ay * qx ≤ 0 ∧ 0 ≤ cx * qy - cy * qx) ∨
        (cx * qy - cy * qx ≤ 0 ∧ 0 ≤ ax * qy - ay * qx)) →
        ux * ux + uy * uy ≤ bx * ux + by_ * uy := by
      intro hside
      obtain ⟨e1, e2⟩ := line_closest_real hQ ea ec hside hu hua huc
      rw [e1, e2] at Hb
      exact Hb
    rcases le_total (ax * qy - ay * qx) 0 with h1 | h1
    · rcases le_total 0 (bx * qy - by_ * qx) with h2 | h2
      · exact absurd (withb (Or.inl ⟨h1, h2⟩)) id
      · rcases le_total 0 (cx * qy - cy * qx) with h3 | h3
        · exact withc (Or.inl ⟨h1, h3⟩)
        · have hz : γ * (cx * qy - cy * qx) = 0 := by
            linarith [mul_nonneg hα (neg_nonneg.mpr h1), mul_nonneg hβ (neg_nonneg.mpr h2),
              mul_nonneg hγ (neg_nonneg.mpr h3)]
          rcases mul_eq_zero.mp hz with h | h
          · exact absurd h (ne_of_gt hγpos)
          · exact withc (Or.inl ⟨h1, le_of_eq h.symm⟩)
    · rcases le_total (bx * qy - by_ * qx) 0 with h2 | h2
      · exact absurd (withb (Or.inr ⟨h2, h1⟩)) id
      · rcases le_total (cx * qy - cy * qx) 0 with h3 | h3
        · exact withc (Or.inr ⟨h3, h1⟩)
        · have hz : γ * (cx * qy - cy * qx) = 0 := by
            linarith [mul_nonneg hα h1, mul_nonneg hβ h2, mul_nonneg hγ h3]
          rcases mul_eq_zero.mp hz with h | h
          · exact absurd h (ne_of_gt hγpos)
          · exact withc (Or.inr ⟨le_of_eq h, h1⟩)

theorem closest_to_origin_is_closest (a b : v2) : is_closest a b (closest_to_origin a b) := by
  obtain ⟨t, h0, h1, hq, ha, hb⟩ := closest_to_origin_spec a b
  exact ⟨⟨t, h0, h1, hq⟩, ha, hb⟩

theorem seg_coords {a b q : v2} {t : ℚ} (h : q = a + (b - a) * t) :
    q.x = a.x + t * (b.x - a.x) ∧ q.y = a.y + t * (b.y - a.y) := by
  rw [h]
  simp only [add_x, add_y, mul_x, mul_y, sub_x, sub_y]
  constructor <;> ring

theorem seg_coords_real {a b q : v2} {t : ℚ} (h : q = a + (b - a) * t) :
    (q.x : ℝ) = a.x + t * (b.x - a.x) ∧ (q.y : ℝ) = a.y + t * (b.y - a.y) := by
  obtain ⟨hx, hy⟩ := seg_coords h
  exact ⟨by exact_mod_cast hx, by exact_mod_cast hy⟩

theorem is_closest_unique {a b q e : v2} (hq : is_closest a b q) (he : is_closest a b e) :
    q = e := by
  obtain ⟨⟨l, hl0, hl1, hql⟩, hqa, hqb⟩ := hq
  obtain ⟨⟨t, ht0, ht1, het⟩, hea, heb⟩ := he
  simp only [v2.rsq, v2.dot] at hqa hqb hea heb
  have h := @seg_closest_unique_real a.x a.y b.x b.y q.x q.y e.x e.y l t
    (by exact_mod_cast hl0) (by exact_mod_cast hl1) (seg_coords_real hql)
    (by exact_mod_cast hqa) (by exact_mod_cast hqb)
    (by exact_mod_cast ht0) (by exact_mod_cast ht1) (seg_coords_real het)
    (by exact_mod_cast hea) (by exact_mod_cast heb)
  exact v2_ext (by exact_mod_cast h.1) (by exact_mod_cast h.2)

theorem is_closest_symm {a b q : v2} (hq : is_closest a b q) : is_closest b a q := by
  obtain ⟨⟨t, ht0, ht1, hqt⟩, hqa, hqb⟩ := hq
  refine ⟨⟨1 - t, by linarith, by linarith, ?_⟩, hqb, hqa⟩
  rw [hqt]
  apply v2_ext
  · simp only [add_x, mul_x, sub_x]
    ring
  · simp only [add_y, mul_y, sub_y]
    ring

theorem closest_to_origin_symm (a b : v2) :
    closest_to_origin b a = closest_to_origin a b :=
  is_closest_unique (is_closest_symm (closest_to_origin_is_closest b a))
    (closest_to_origin_is_closest a b)

/-- The nearer candidate is the closest point of the triangle `a b c`: when the origin is
not strictly inside the triangle, the point of the segment `a b` nearest to the origin
has `c` strictly nearer along it, and the nearest point `u` of the segment `a c` is not
farther than the nearest point `v` of the segment `b c`, the vertex `b` is not nearer to
the origin along `u`. -/
theorem closer_candidate {a b c p u v : v2} (hp : is_closest a b p)
    (hprog : c.dot p < p.rsq) (hu : is_closest a c u) (hv : is_closest b c v)
    (hle : u.rsq ≤ v.rsq) (hmu : 0 < u.rsq)
    (hnot : ¬ min (a.cross b * b.cross c) (a.cross b * c.cross a) > 0) :
    u.rsq ≤ b.dot u := by
  obtain ⟨⟨t, ht0, ht1, hpt⟩, hpa, hpb⟩ := hp
  obtain ⟨⟨s, hs0, hs1, hus⟩, hua, huc⟩ := hu
  obtain ⟨⟨r, hr0, hr1, hvr⟩, hvb, hvc⟩ := hv
  have hnot1 : ¬ (0 < a.cross b * b.cross c ∧ 0 < a.cross b * c.cross a) := by
    intro h
    exact hnot (lt_min h.1 h.2)
  simp only [v2.rsq, v2.dot, v2.cross] at hpa hpb hprog hua huc hvb hvc hle hmu hnot1 ⊢
  have h := @closer_candidate_real a.x a.y b.x b.y c.x c.y p.x p.y u.x u.y v.x v.y t s r
    (seg_coords_real hpt) (by exact_mod_cast ht0) (by exact_mod_cast ht1)
    (by exact_mod_cast hpa) (by exact_mod_cast hpb) (by exact_mod_cast hprog)
    (seg_coords_real hus) (by exact_mod_cast hs0) (by exact_mod_cast hs1)
    (by exact_mod_cast hua) (by exact_mod_cast huc)
    (seg_coords_real hvr) (by exact_mod_cast hr0) (by exact_mod_cast hr1)
    (by exact_mod_cast hvb) (by exact_mod_cast hvc)
    (by exact_mod_cast hle) (by exact_mod_cast hmu)
    (by
      intro hc
      apply hnot1
      exact_mod_cast hc)
  exact_mod_cast h

theorem frame_ineq {E x1 x2 c1 c2 w1 w2 t G : ℚ} (hE : 0 < E) (h1 : E ≤ x1)
    (h2 : E ≤ w1) (h3 : w1 * w1 + w2 * w2 ≤ x1 * w1 + x2 * w2)
    (h4 : E * w1 ≤ c1 * w1 + c2 * w2) (h5 : c1 < E) (hG : G = E + t * (c1 - E))
    (ht0 : 0 ≤ t) (hEe : G * G + (t * c2) * (t * c2) ≤ E * G) :
    0 ≤ (x1 - E) * G + x2 * (t * c2) := by
  have hG0 : 0 ≤ G := by
    by_contra hc
    push_neg at hc
    have : E * G < 0 := mul_neg_of_pos_of_neg hE hc
    linarith [mul_self_nonneg G, mul_self_nonneg (t * c2)]
  have hxE : 0 ≤ (x1 - E) * G := mul_nonneg (sub_nonneg.mpr h1) hG0
  by_cases hx : 0 ≤ x2 * (t * c2)
  · linarith
  · push_neg at hx
    have ht : 0 < t := by
      rcases eq_or_lt_of_le ht0 with h | h
      · rw [← h] at hx
        simp at hx
      · exact h
    have hw1 : 0 < w1 := lt_of_lt_of_le hE h2
    have hEc : 0 < E - c1 := sub_pos.mpr h5
    have hB' : 0 < (E - c1) * w1 := mul_pos hEc hw1
    have hB : (E - c1) * w1 ≤ c2 * w2 := by linarith
    have hxc : x2 * c2 < 0 := by
      by_contra hc
      push_neg at hc
      have : 0 ≤ t * (x2 * c2) := mul_nonneg ht0 hc
      linarith
    have hxw : x2 * w2 < 0 := by
      by_contra hc
      push_neg at hc
      have h6 : 0 ≤ (x2 * w2) * (c2 * c2) := mul_nonneg hc (mul_self_nonneg c2)
      have h7 : (x2 * c2) * (c2 * w2) < 0 :=
        mul_neg_of_neg_of_pos hxc (lt_of_lt_of_le hB' hB)
      linarith
    have hA : -(x2 * w2) ≤ (x1 - E) * w1 := by
      have : 0 ≤ w1 * (w1 - E) := mul_nonneg (le_of_lt hw1) (sub_nonneg.mpr h2)
      linarith [mul_self_nonneg w2]
    have hC : t * (c2 * c2) ≤ G * (E - c1) := by
      have h8 : t * (t * (c2 * c2)) ≤ t * (G * (E - c1)) := by
        have : G * (E - G) = t * (G * (E - c1)) := by rw [hG]; ring
        have h9 : t * (t * (c2 * c2)) = (t * c2) * (t * c2) := by ring
        linarith
      exact le_of_mul_le_mul_left h8 ht
    have hAB : (-(x2 * w2)) * ((E - c1) * w1) ≤ ((x1 - E) * w1) * (c2 * w2) :=
      mul_le_mul hA hB (le_of_lt hB') (le_trans (le_of_lt (neg_pos.mpr hxw)) hA)
    have hABC : (-(x2 * w2)) * ((E - c1) * w1) * (t * (c2 * c2)) ≤
        ((x1 - E) * w1) * (c2 * w2) * (G * (E - c1)) :=
      mul_le_mul hAB hC (mul_nonneg ht0 (mul_self_nonneg c2))
        (mul_nonneg (le_trans (le_of_lt (neg_pos.mpr hxw)) hA)
          (le_trans (le_of_lt hB') hB))
    have hK : 0 < w1 * (c2 * w2) * (E - c1) :=
      mul_pos (mul_pos hw1 (lt_of_lt_of_le hB' hB)) hEc
    have hfin : 0 ≤ ((x1 - E) * G + x2 * (t * c2)) * (w1 * (c2 * w2) * (E - c1)) := by
      have e1 : ((x1 - E) * G + x2 * (t * c2)) * (w1 * (c2 * w2) * (E - c1)) =
          ((x1 - E) * w1) * (c2 * w2) * (G * (E - c1)) -
            (-(x2 * w2)) * ((E - c1) * w1) * (t * (c2 * c2)) := by ring
      rw [e1]
      linarith
    exact nonneg_of_mul_nonneg_left hfin hK

theorem lagrange (e m n : v2) :
    e.rsq * m.dot n = m.dot e * n.dot e + e.cross m * e.cross n := by
  simp only [v2.rsq, v2.dot, v2.cross]
  ring

theorem rsq_pos_of_dot_lt {c e : v2} (h : c.dot e < e.rsq) : 0 < e.rsq := by
  rcases eq_or_lt_of_le (rsq_nonneg e) with h0 | h0
  · obtain ⟨hx, hy⟩ := rsq_eq_zero h0.symm
    simp only [v2.rsq, v2.dot, hx, hy] at h
    simp at h
  · exact h0

/-- The kept vertex is not nearer than the shared one: in a state whose closest point is
its end `e`, with `e` farthest along `-w` and `x` not nearer than `w` along `w`, the
point of the segment from `e` to the new support point `c` nearest to the origin has `x`
not nearer to the origin along it. -/
theorem kept_not_nearer {x e c w u : v2} {t : ℚ} (H1 : e.rsq ≤ x.dot e)
    (H2 : e.rsq ≤ w.dot e) (H3 : w.rsq ≤ x.dot w) (H4 : e.dot w ≤ c.dot w)
    (H5 : c.dot e < e.rsq) (hu : u = e + (c - e) * t) (ht0 : 0 ≤ t)
    (hue : u.rsq ≤ e.dot u) : u.rsq ≤ x.dot u := by
  have hE : 0 < e.rsq := rsq_pos_of_dot_lt H5
  have hG : u.dot e = e.rsq + t * (c.dot e - e.rsq) := by
    rw [hu]
    simp only [v2.rsq, v2.dot, add_x, add_y, mul_x, mul_y, sub_x, sub_y]
    ring
  have hu2 : e.cross u = t * e.cross c := by
    rw [hu]
    simp only [v2.cross, add_x, add_y, mul_x, mul_y, sub_x, sub_y]
    ring
  have h3 : w.dot e * w.dot e + e.cross w * e.cross w ≤
      x.dot e * w.dot e + e.cross x * e.cross w := by
    have := mul_le_mul_of_nonneg_left H3 (le_of_lt hE)
    rw [show w.rsq = w.dot w from rfl, lagrange e w w, lagrange e x w] at this
    exact this
  have h4 : e.rsq * w.dot e ≤ c.dot e * w.dot e + e.cross c * e.cross w := by
    have := mul_le_mul_of_nonneg_left H4 (le_of_lt hE)
    rw [lagrange e c w, dot_comm e w] at this
    exact this
  have hEe : u.dot e * u.dot e + (t * e.cross c) * (t * e.cross c) ≤ e.rsq * u.dot e := by
    have := mul_le_mul_of_nonneg_left hue (le_of_lt hE)
    rw [show u.rsq = u.dot u from rfl, lagrange e u u, hu2, dot_comm e u] at this
    exact this
  have hfin := frame_ineq hE H1 H2 h3 h4 H5 hG ht0 hEe
  have hx : e.rsq * x.dot u = x.dot e * u.dot e + e.cross x * (t * e.cross c) := by
    rw [lagrange e x u, hu2]
  have hkey : e.rsq * (x.dot u - e.dot u) =
      (x.dot e - e.rsq) * u.dot e + e.cross x * (t * e.cross c) := by
    rw [dot_comm e u]
    linear_combination hx
  have : 0 ≤ x.dot u - e.dot u := by
    have h0 : 0 ≤ e.rsq * (x.dot u - e.dot u) := by rw [hkey]; exact hfin
    exact nonneg_of_mul_nonneg_right h0 hE
  linarith

/-- The origin is not strictly inside a triangle whose three vertices lie strictly on
one side of a line through the origin. -/
theorem origin_not_inside {a b c w : v2} (ha : 0 < a.dot w) (hb : 0 < b.dot w)
    (hc : 0 < c.dot w) :
    ¬ min (a.cross b * b.cross c) (a.cross b * c.cross a) > 0 := by
  intro h
  obtain ⟨h1, h2⟩ := lt_min_iff.mp h
  have hid : b.cross c * a.dot w + c.cross a * b.dot w + a.cross b * c.dot w = 0 := by
    simp only [v2.dot, v2.cross]
    ring
  have h3 : (a.cross b * b.cross c) * a.dot w + (a.cross b * c.cross a) * b.dot w +
      (a.cross b * a.cross b) * c.dot w = 0 := by
    linear_combination (a.cross b) * hid
  linarith [mul_pos h1 ha, mul_pos h2 hb, mul_nonneg (mul_self_nonneg (a.cross b)) (le_of_lt hc)]

theorem scalars_no_tie {σ τ C D : ℚ} (hσ : 0 < σ) (hle : σ ≤ τ) (hD : D ≤ 0)
    (hC : D < C) (e2 : σ * C = τ * D) : False := by
  have h1 : τ * D ≤ σ * D := by
    have := mul_nonneg (sub_nonneg.mpr hle) (neg_nonneg.mpr hD)
    linarith
  have h2 : 0 < σ * (C - D) := mul_pos hσ (sub_pos.mpr hC)
  linarith

theorem seg_end {x c q : v2} (h : q = x + (c - x) * (1 : ℚ)) : q = c := by
  rw [h]
  apply v2_ext
  · simp only [add_x, mul_x, sub_x]
    ring
  · simp only [add_y, mul_y, sub_y]
    ring

theorem seg_dot {x c q : v2} {s : ℚ} (h : q = x + (c - x) * s) (w : v2) :
    q.dot w - c.dot w = (1 - s) * (x.dot w - c.dot w) := by
  rw [h]
  simp only [v2.dot, add_x, add_y, mul_x, mul_y, sub_x, sub_y]
  ring

/-- A point common to the segments from `x` to `c` and from `e` to `c` is `c`, when `e`
lies farthest along `-w` with `x` strictly behind it, and `x` is not nearer than `e`
along `e` while `c` is strictly nearer. -/
theorem shared_candidate_is_new {x e c w q : v2} {s t : ℚ} (hx : q = x + (c - x) * s)
    (he : q = e + (c - e) * t) (hs1 : s ≤ 1) (ht1 : t ≤ 1) (H1 : e.rsq ≤ x.dot e)
    (H5 : c.dot e < e.rsq) (H3 : e.dot w < x.dot w) (H4 : e.dot w ≤ c.dot w) : q = c := by
  rcases eq_or_lt_of_le hs1 with hs | hs
  · rw [hs] at hx
    exact seg_end hx
  rcases eq_or_lt_of_le ht1 with ht | ht
  · rw [ht] at he
    exact seg_end he
  exfalso
  have e1 := seg_dot hx e
  have e2 := seg_dot he e
  have e3 := seg_dot hx w
  have e4 := seg_dot he w
  have hA : (1 - s) * (x.dot e - c.dot e) = (1 - t) * (e.dot e - c.dot e) := by
    rw [← e1, ← e2]
  have hC : (1 - s) * (x.dot w - c.dot w) = (1 - t) * (e.dot w - c.dot w) := by
    rw [← e3, ← e4]
  have hB : 0 < e.dot e - c.dot e := by
    have : e.dot e = e.rsq := rfl
    linarith
  have hle : 1 - s ≤ 1 - t := by
    have h1 : (1 - t) * (e.dot e - c.dot e) ≤ (1 - t) * (x.dot e - c.dot e) := by
      apply mul_le_mul_of_nonneg_left _ (by linarith)
      have : e.dot e = e.rsq := rfl
      linarith
    have h2 : (1 - s) * (x.dot e - c.dot e) ≤ (1 - t) * (x.dot e - c.dot e) := by linarith
    have hpos : 0 < x.dot e - c.dot e := by
      have : e.dot e = e.rsq := rfl
      linarith
    exact le_of_mul_le_mul_right h2 hpos
  exact scalars_no_tie (by linarith) hle (by linarith) (by linarith) hC

/-! ### One iteration of the loop of `distance` -/

theorem distance_loop_succ {A B : List v2} {c : v2} (n : Nat) (a b dir : v2)
    (hs : support_func A B dir = Except.ok c) :
    distance_loop A B (n + 1) a b dir =
      if min (a.cross b * b.cross c) (a.cross b * c.cross a) > 0 then
        Except.ok (Exit.origin_inside, dir, Dist.zero)
      else if min (c.dot dir - a.dot dir) (c.dot dir - b.dot dir) ≤ EPSILON then
        Except.ok (Exit.no_progress, dir, Dist.sqrt (-(c.dot dir)))
      else if min (closest_to_origin a c).rsq (closest_to_origin b c).rsq ≤ EPSILON then
        Except.ok (Exit.candidate_close, dir, Dist.zero)
      else if (closest_to_origin a c).rsq ≤ (closest_to_origin b c).rsq then
        distance_loop A B n a c (-closest_to_origin a c)
      else distance_loop A B n c b (-closest_to_origin b c) := by
  simp only [distance_loop, hs]

theorem inside_swap (a b c : v2) :
    min (b.cross a * a.cross c) (b.cross a * c.cross b) =
      min (a.cross b * b.cross c) (a.cross b * c.cross a) := by
  rw [min_comm]
  congr 1 <;> (simp only [v2.cross]; ring)

theorem seg_dot_ge {a b q w : v2} {t K : ℚ} (h : q = a + (b - a) * t) (h0 : 0 ≤ t)
    (h1 : t ≤ 1) (ha : K ≤ a.dot w) (hb : K ≤ b.dot w) : K ≤ q.dot w := by
  have e := seg_dot h w
  have p1 := mul_nonneg (sub_nonneg.mpr h1) (sub_nonneg.mpr ha)
  have p2 := mul_nonneg h0 (sub_nonneg.mpr hb)
  linarith

theorem closest_dot_ge {a b q w : v2} {K : ℚ} (h : is_closest a b q) (ha : K ≤ a.dot w)
    (hb : K ≤ b.dot w) : K ≤ q.dot w := by
  obtain ⟨⟨t, h0, h1, hq⟩, -, -⟩ := h
  exact seg_dot_ge hq h0 h1 ha hb

theorem progress_lt {a b p c : v2} (hp : is_closest a b p) (ha : c.dot p < a.dot p)
    (hb : c.dot p < b.dot p) : c.dot p < p.rsq := by
  obtain ⟨⟨t, h0, h1, hpt⟩, -, -⟩ := hp
  have e := seg_dot hpt p
  have hpp : p.dot p = p.rsq := rfl
  rcases eq_or_lt_of_le h0 with ht | ht
  · rw [← ht] at e
    linarith
  · have p1 := mul_nonneg (sub_nonneg.mpr h1) (sub_nonneg.mpr ha.le)
    have p2 := mul_pos ht (sub_pos.mpr hb)
    linarith

theorem rsq_le_of_dot {E z : v2} (h : E.rsq ≤ z.dot E) : E.rsq ≤ z.rsq := by
  simp only [v2.rsq, v2.dot] at h ⊢
  nlinarith [sq_nonneg (z.x - E.x), sq_nonneg (z.y - E.y)]

theorem eq_of_rsq_le {E z : v2} (h : E.rsq ≤ z.dot E) (hle : z.rsq ≤ E.rsq) : z = E := by
  simp only [v2.rsq, v2.dot] at h hle
  have hx : (z.x - E.x) ^ 2 = 0 := by
    nlinarith [sq_nonneg (z.x - E.x), sq_nonneg (z.y - E.y)]
  have hy : (z.y - E.y) ^ 2 = 0 := by
    nlinarith [sq_nonneg (z.x - E.x), sq_nonneg (z.y - E.y)]
  apply v2_ext
  · have := pow_eq_zero_iff (two_ne_zero) |>.mp hx
    linarith
  · have := pow_eq_zero_iff (two_ne_zero) |>.mp hy
    linarith

theorem swap_inv_symm {A B : List v2} {a b d : v2} (h : swap_inv A B a b d) :
    swap_inv A B b a d :=
  ⟨is_closest_symm h.1, h.2.1, h.2.2.2, h.2.2.1⟩

theorem is_closest_self {a b : v2} (h : a.rsq ≤ b.dot a) : is_closest a b a := by
  refine ⟨⟨0, le_refl 0, zero_le_one, ?_⟩, le_refl _, h⟩
  apply v2_ext
  · simp only [add_x, mul_x, sub_x]
    ring
  · simp only [add_y, mul_y, sub_y]
    ring

/-- The facts of an iteration that passes the three `return` tests, from a state
satisfying `swap_inv`: the new support point is strictly lower along the closest point
than the ends and than the closest point itself. -/
theorem progress_facts {a b d c : v2} (hcl : is_closest a b (-d))
    (hpr : ¬ min (c.dot d - a.dot d) (c.dot d - b.dot d) ≤ EPSILON) :
    c.dot (-d) < a.dot (-d) ∧ c.dot (-d) < b.dot (-d) ∧ c.dot (-d) < (-d).rsq := by
  have h := not_le.mp hpr
  rw [lt_min_iff] at h
  have he := EPSILON_pos
  have ha : c.dot (-d) < a.dot (-d) := by
    rw [dot_neg_right, dot_neg_right]
    linarith [h.1]
  have hb : c.dot (-d) < b.dot (-d) := by
    rw [dot_neg_right, dot_neg_right]
    linarith [h.2]
  exact ⟨ha, hb, progress_lt hcl ha hb⟩

theorem swap_next {A B : List v2} {a b d c : v2} (h : swap_inv A B a b d)
    (hc : argmin_of A B c (-d))
    (hin : ¬ min (a.cross b * b.cross c) (a.cross b * c.cross a) > 0)
    (hpr : ¬ min (c.dot d - a.dot d) (c.dot d - b.dot d) ≤ EPSILON)
    (hz : ¬ min (closest_to_origin a c).rsq (closest_to_origin b c).rsq ≤ EPSILON)
    (hle : (closest_to_origin a c).rsq ≤ (closest_to_origin b c).rsq) :
    swap_inv A B a c (-closest_to_origin a c) := by
  obtain ⟨hcl, -, -, -⟩ := h
  have hu := closest_to_origin_is_closest a c
  have hv := closest_to_origin_is_closest b c
  obtain ⟨hca, hcb, hprog⟩ := progress_facts hcl hpr
  have hz1 := not_le.mp hz
  rw [lt_min_iff] at hz1
  have he := EPSILON_pos
  have hmu : 0 < (closest_to_origin a c).rsq := by linarith [hz1.1]
  have hT0 := closer_candidate hcl hprog hu hv hle hmu hin
  refine ⟨by rw [neg_neg_v2]; exact hu, by rw [rsq_neg]; exact hz1.1, ?_, ?_⟩
  · rw [neg_neg_v2]
    intro hua
    exfalso
    rw [hua] at hT0
    have hpa := is_closest_unique hcl (is_closest_self hT0)
    have h2 := hu.2.2
    rw [hua] at h2
    rw [hpa] at hprog
    linarith
  · rw [neg_neg_v2]
    intro _
    exact ⟨-d, hc, hca⟩

theorem scale_gt {σ τ X Y : ℚ} (hσ : 0 < σ) (hlt : σ < τ) (hY : 0 < Y)
    (e : σ * X = τ * Y) : Y < X := by
  by_contra hc
  have hXY := not_lt.mp hc
  have h1 : σ * X ≤ σ * Y := mul_le_mul_of_nonneg_left hXY hσ.le
  have h2 : σ * Y < τ * Y := mul_lt_mul_of_pos_right hlt hY
  linarith

theorem tie_vec {a b c q : v2} {s t : ℚ} (hs : q = a + (c - a) * s)
    (ht : q = b + (c - b) * t) (w : v2) :
    (1 - s) * (a.dot w - c.dot w) = (1 - t) * (b.dot w - c.dot w) := by
  rw [← seg_dot hs w, ← seg_dot ht w]

theorem tie_aux {A B : List v2} {a b c p q : v2} {s t : ℚ} (hp : is_closest a b p)
    (hh : half_hist A B b a p) (hcm : ∀ w, argmin_of A B b w → b.dot w ≤ c.dot w)
    (hcb : c.dot p < b.dot p) (hs : q = a + (c - a) * s) (ht : q = b + (c - b) * t)
    (hs1 : s ≤ 1) (hst : t ≤ s) : a = b ∨ q = c := by
  rcases eq_or_lt_of_le hs1 with hs1 | hs1
  · right
    rw [hs1] at hs
    exact seg_end hs
  rcases eq_or_lt_of_le hst with hst | hst
  · left
    have hσ : (1 - s) ≠ 0 := by linarith
    have ex : (1 - s) * (a.x - c.x) = (1 - t) * (b.x - c.x) := by
      have := tie_vec hs ht ⟨1, 0⟩
      simp only [v2.dot] at this
      linarith
    have ey : (1 - s) * (a.y - c.y) = (1 - t) * (b.y - c.y) := by
      have := tie_vec hs ht ⟨0, 1⟩
      simp only [v2.dot] at this
      linarith
    rw [hst] at ex ey
    apply v2_ext
    · have := mul_left_cancel₀ hσ ex
      linarith
    · have := mul_left_cancel₀ hσ ey
      linarith
  · exfalso
    have hσ : 0 < 1 - s := by linarith
    have hlt : 1 - s < 1 - t := by linarith
    have hgt := scale_gt hσ hlt (sub_pos.mpr hcb) (tie_vec hs ht p)
    have hab : b.dot p < a.dot p := by linarith
    obtain ⟨⟨l, hl0, hl1, hpl⟩, hpa, hpb⟩ := hp
    have e := seg_dot hpl p
    have hpp : p.dot p = p.rsq := rfl
    have hl : l = 1 := by
      by_contra hne
      have hlt1 : l < 1 := lt_of_le_of_ne hl1 hne
      have := mul_pos (sub_pos.mpr hlt1) (sub_pos.mpr hab)
      linarith
    rw [hl] at hpl
    have hpb2 := seg_end hpl
    obtain ⟨w, hw, hbw⟩ := hh hpb2
    have hcw := hcm w hw
    exact scalars_no_tie hσ hlt.le (sub_nonpos.mpr hcw) (by linarith) (tie_vec hs ht w)

theorem swap_tie {A B : List v2} {a b d c : v2} (h : swap_inv A B a b d)
    (hcm : ∃ a1 ∈ A, ∃ b1 ∈ B, c = a1 - b1)
    (hin : ¬ min (a.cross b * b.cross c) (a.cross b * c.cross a) > 0)
    (hpr : ¬ min (c.dot d - a.dot d) (c.dot d - b.dot d) ≤ EPSILON)
    (hz : ¬ min (closest_to_origin a c).rsq (closest_to_origin b c).rsq ≤ EPSILON)
    (heq : (closest_to_origin a c).rsq = (closest_to_origin b c).rsq) :
    closest_to_origin b c = closest_to_origin a c ∧
      (a = b ∨ closest_to_origin a c = c) := by
  obtain ⟨hcl, -, hha, hhb⟩ := h
  have hu := closest_to_origin_is_closest a c
  have hv := closest_to_origin_is_closest b c
  obtain ⟨hca, hcb, hprog⟩ := progress_facts hcl hpr
  have hz1 := not_le.mp hz
  rw [lt_min_iff] at hz1
  have he := EPSILON_pos
  have hmu : 0 < (closest_to_origin a c).rsq := by linarith [hz1.1]
  have hT0 := closer_candidate hcl hprog hu hv heq.le hmu hin
  have huv : closest_to_origin b c = closest_to_origin a c :=
    eq_of_rsq_le (closest_dot_ge hv hT0 hu.2.2) heq.ge
  refine ⟨huv, ?_⟩
  obtain ⟨⟨s, hs0, hs1, hqs⟩, -, -⟩ := hu
  obtain ⟨⟨t, ht0, ht1, hqt⟩, -, -⟩ := hv
  rw [huv] at hqt
  have hmem : ∀ x w, argmin_of A B x w → x.dot w ≤ c.dot w := by
    intro x w hx
    obtain ⟨a1, ha1, b1, hb1, hc1⟩ := hcm
    rw [hc1]
    exact hx a1 ha1 b1 hb1
  rcases le_total t s with hst | hst
  · exact tie_aux hcl hhb (hmem b) hcb hqs hqt hs1 hst
  · rcases tie_aux (is_closest_symm hcl) hha (hmem a) hca hqt hqs ht1 hst with h1 | h1
    · exact Or.inl h1.symm
    · exact Or.inr h1

/-- One iteration from a state satisfying `swap_inv` and from its swap: either both
return the same result, or both continue, from related states. -/
theorem swap_step {A B : List v2} {a b d c : v2} (n : Nat) (h : swap_inv A B a b d)
    (hs : support_func A B d = Except.ok c) (hcm : ∃ a1 ∈ A, ∃ b1 ∈ B, c = a1 - b1)
    (hc : argmin_of A B c (-d)) :
    distance_loop A B (n + 1) a b d = distance_loop A B (n + 1) b a d ∨
    ∃ a1 b1 a2 b2 d1, related A B a1 b1 d1 a2 b2 d1 ∧
      distance_loop A B (n + 1) a b d = distance_loop A B n a1 b1 d1 ∧
      distance_loop A B (n + 1) b a d = distance_loop A B n a2 b2 d1 := by
  rw [distance_loop_succ n a b d hs, distance_loop_succ n b a d hs, inside_swap a b c,
    min_comm (c.dot d - b.dot d) (c.dot d - a.dot d),
    min_comm (closest_to_origin b c).rsq (closest_to_origin a c).rsq]
  by_cases hin : min (a.cross b * b.cross c) (a.cross b * c.cross a) > 0
  · left
    rw [if_pos hin, if_pos hin]
  rw [if_neg hin, if_neg hin]
  by_cases hpr : min (c.dot d - a.dot d) (c.dot d - b.dot d) ≤ EPSILON
  · left
    rw [if_pos hpr, if_pos hpr]
  rw [if_neg hpr, if_neg hpr]
  by_cases hz : min (closest_to_origin a c).rsq (closest_to_origin b c).rsq ≤ EPSILON
  · left
    rw [if_pos hz, if_pos hz]
  rw [if_neg hz, if_neg hz]
  right
  have hin2 : ¬ min (b.cross a * a.cross c) (b.cross a * c.cross b) > 0 := by
    rw [inside_swap]
    exact hin
  have hpr2 : ¬ min (c.dot d - b.dot d) (c.dot d - a.dot d) ≤ EPSILON := by
    rw [min_comm]
    exact hpr
  have hz2 : ¬ min (closest_to_origin b c).rsq (closest_to_origin a c).rsq ≤ EPSILON := by
    rw [min_comm]
    exact hz
  rcases lt_trichotomy (closest_to_origin a c).rsq (closest_to_origin b c).rsq with
    hlt | heq | hgt
  · refine ⟨a, c, c, a, -closest_to_origin a c,
      Or.inr (Or.inl ⟨rfl, rfl, rfl, swap_next h hc hin hpr hz hlt.le⟩), ?_, ?_⟩
    · rw [if_pos hlt.le]
    · rw [if_neg (not_le.mpr hlt)]
  · obtain ⟨huv, hor⟩ := swap_tie h hcm hin hpr hz heq
    refine ⟨a, c, b, c, -closest_to_origin a c, ?_, ?_, ?_⟩
    · rcases hor with hab | huc
      · exact Or.inl ⟨hab, rfl, rfl⟩
      · obtain ⟨hcl, -, -, -⟩ := h
        have hu := closest_to_origin_is_closest a c
        have hv := closest_to_origin_is_closest b c
        obtain ⟨hca, hcb, hprog⟩ := progress_facts hcl hpr
        have hz1 := not_le.mp hz
        rw [lt_min_iff] at hz1
        rw [huv] at hv
        rw [huc] at hu hv hz1
        refine Or.inr (Or.inr ⟨c, -d, a, b, by rw [huc], by rw [huc],
          Or.inl ⟨rfl, rfl⟩, Or.inl ⟨rfl, rfl⟩, ⟨hu.2.1, hcl.2.1⟩, ⟨hv.2.1, hcl.2.2⟩,
          ?_, hc, hprog, hz1.1⟩)
        exact closest_dot_ge hcl hu.2.1 hv.2.1
    · rw [if_pos heq.le]
    · rw [if_pos heq.ge, huv]
  · refine ⟨c, b, b, c, -closest_to_origin b c,
      Or.inr (Or.inl ⟨rfl, rfl, rfl,
        swap_inv_symm (swap_next (swap_inv_symm h) hc hin2 hpr2 hz2 hgt.le)⟩), ?_, ?_⟩
    · rw [if_neg (not_le.mpr hgt)]
    · rw [if_pos hgt.le]

/-- One iteration from a state whose closest point is its end `e`, the newest support
point: the three `return` tests depend on `e` and the new support point `c` only, and a
continuing iteration leaves a state of the form `next_form`. -/
theorem shared_next {A B : List v2} {x e w c a b : v2} (n : Nat)
    (hab : (a = x ∧ b = e) ∨ (a = e ∧ b = x)) (hx : shared_inv x e w)
    (hb : shared_base A B e w) (hs : support_func A B (-e) = Except.ok c)
    (hcm : ∃ a1 ∈ A, ∃ b1 ∈ B, c = a1 - b1) :
    (e.rsq - c.dot e ≤ EPSILON ∧ distance_loop A B (n + 1) a b (-e) =
        Except.ok (Exit.no_progress, -e, Dist.sqrt (c.dot e))) ∨
    (¬ e.rsq - c.dot e ≤ EPSILON ∧ (closest_to_origin e c).rsq ≤ EPSILON ∧
      distance_loop A B (n + 1) a b (-e) =
        Except.ok (Exit.candidate_close, -e, Dist.zero)) ∨
    (¬ e.rsq - c.dot e ≤ EPSILON ∧ ¬ (closest_to_origin e c).rsq ≤ EPSILON ∧
      ∃ a1 b1, next_form x e c (closest_to_origin e c) a1 b1 ∧
        distance_loop A B (n + 1) a b (-e) =
          distance_loop A B n a1 b1 (-closest_to_origin e c)) := by
  obtain ⟨H1, H3⟩ := hx
  obtain ⟨H2, hmin, hew, heps⟩ := hb
  have he := EPSILON_pos
  have hee : e.dot e = e.rsq := rfl
  have hcw : e.dot w ≤ c.dot w := by
    obtain ⟨a1, ha1, b1, hb1, hc1⟩ := hcm
    rw [hc1]
    exact hmin a1 ha1 b1 hb1
  have hew0 : 0 < e.dot w := by
    rw [dot_comm]
    linarith
  have hxw0 : 0 < x.dot w := by linarith
  have hcw0 : 0 < c.dot w := by linarith
  have hneg : -(c.dot (-e)) = c.dot e := by rw [dot_neg_right, neg_neg]
  rw [distance_loop_succ n a b (-e) hs, hneg]
  have hE := closest_to_origin_is_closest e c
  have hX := closest_to_origin_is_closest x c
  by_cases hpr : e.rsq - c.dot e ≤ EPSILON
  · left
    refine ⟨hpr, ?_⟩
    rcases hab with ⟨ha, hb⟩ | ⟨ha, hb⟩
    · rw [ha, hb, if_neg (origin_not_inside hxw0 hew0 hcw0)]
      have hm : min (c.dot (-e) - x.dot (-e)) (c.dot (-e) - e.dot (-e)) =
          e.rsq - c.dot e := by
        rw [dot_neg_right, dot_neg_right, dot_neg_right, min_eq_right (by linarith)]
        linarith
      rw [hm, if_pos hpr]
    · rw [ha, hb, if_neg (origin_not_inside hew0 hxw0 hcw0)]
      have hm : min (c.dot (-e) - e.dot (-e)) (c.dot (-e) - x.dot (-e)) =
          e.rsq - c.dot e := by
        rw [dot_neg_right, dot_neg_right, dot_neg_right, min_eq_left (by linarith)]
        linarith
      rw [hm, if_pos hpr]
  right
  have H5 : c.dot e < e.rsq := by linarith [not_le.mp hpr]
  obtain ⟨t, ht0, ht1, hEt⟩ := hE.1
  obtain ⟨s, hs0, hs1, hXs⟩ := hX.1
  have hxE : (closest_to_origin e c).rsq ≤ x.dot (closest_to_origin e c) :=
    kept_not_nearer H1 H2 H3 hcw H5 hEt ht0 hE.2.1
  have hXdot := closest_dot_ge hX hxE hE.2.2
  have hXE : (closest_to_origin e c).rsq ≤ (closest_to_origin x c).rsq :=
    rsq_le_of_dot hXdot
  by_cases hz : (closest_to_origin e c).rsq ≤ EPSILON
  · left
    refine ⟨hpr, hz, ?_⟩
    rcases hab with ⟨ha, hb⟩ | ⟨ha, hb⟩
    · rw [ha, hb, if_neg (origin_not_inside hxw0 hew0 hcw0)]
      have hm : min (c.dot (-e) - x.dot (-e)) (c.dot (-e) - e.dot (-e)) =
          e.rsq - c.dot e := by
        rw [dot_neg_right, dot_neg_right, dot_neg_right, min_eq_right (by linarith)]
        linarith
      rw [hm, if_neg hpr, min_eq_right hXE, if_pos hz]
    · rw [ha, hb, if_neg (origin_not_inside hew0 hxw0 hcw0)]
      have hm : min (c.dot (-e) - e.dot (-e)) (c.dot (-e) - x.dot (-e)) =
          e.rsq - c.dot e := by
        rw [dot_neg_right, dot_neg_right, dot_neg_right, min_eq_left (by linarith)]
        linarith
      rw [hm, if_neg hpr, min_eq_left hXE, if_pos hz]
  right
  refine ⟨hpr, hz, ?_⟩
  rcases hab with ⟨ha, hb⟩ | ⟨ha, hb⟩
  · rw [ha, hb, if_neg (origin_not_inside hxw0 hew0 hcw0)]
    have hm : min (c.dot (-e) - x.dot (-e)) (c.dot (-e) - e.dot (-e)) =
        e.rsq - c.dot e := by
      rw [dot_neg_right, dot_neg_right, dot_neg_right, min_eq_right (by linarith)]
      linarith
    rw [hm, if_neg hpr, min_eq_right hXE, if_neg hz]
    by_cases hle : (closest_to_origin x c).rsq ≤ (closest_to_origin e c).rsq
    · have hXeq : closest_to_origin x c = closest_to_origin e c := eq_of_rsq_le hXdot hle
      rw [hXeq] at hXs
      have hEc : closest_to_origin e c = c :=
        shared_candidate_is_new hXs hEt hs1 ht1 H1 H5 (by linarith) hcw
      have hxc : c.rsq ≤ x.dot c := by
        have := hX.2.1
        rw [hXeq, hEc] at this
        exact this
      refine ⟨x, c, Or.inl ⟨rfl, rfl, hEc, hxc⟩, ?_⟩
      rw [if_pos hle, hXeq]
    · refine ⟨c, e, Or.inr (Or.inl ⟨rfl, rfl⟩), ?_⟩
      rw [if_neg hle]
  · rw [ha, hb, if_neg (origin_not_inside hew0 hxw0 hcw0)]
    have hm : min (c.dot (-e) - e.dot (-e)) (c.dot (-e) - x.dot (-e)) =
        e.rsq - c.dot e := by
      rw [dot_neg_right, dot_neg_right, dot_neg_right, min_eq_left (by linarith)]
      linarith
    rw [hm, if_neg hpr, min_eq_left hXE, if_neg hz, if_pos hXE]
    exact ⟨e, c, Or.inr (Or.inr ⟨rfl, rfl⟩), rfl⟩

theorem next_shared {x e c u a b : v2} {w : v2} (h : next_form x e c u a b)
    (hx : shared_inv x e w) (hec : c.rsq ≤ e.dot c) :
    ∃ y, ((a = y ∧ b = c) ∨ (a = c ∧ b = y)) ∧ shared_inv y c e := by
  rcases h with ⟨ha, hb, -, hxc⟩ | ⟨ha, hb⟩ | ⟨ha, hb⟩
  · exact ⟨x, Or.inl ⟨ha, hb⟩, hxc, hx.1⟩
  · exact ⟨e, Or.inr ⟨ha, hb⟩, hec, le_refl _⟩
  · exact ⟨e, Or.inl ⟨ha, hb⟩, hec, le_refl _⟩

theorem related_of_next {A B : List v2} {x1 x2 e w c a1 b1 a2 b2 : v2}
    (hx1 : shared_inv x1 e w) (hx2 : shared_inv x2 e w) (hc : argmin_of A B c e)
    (H5 : c.dot e < e.rsq) (hz : EPSILON < (closest_to_origin e c).rsq)
    (h1 : next_form x1 e c (closest_to_origin e c) a1 b1)
    (h2 : next_form x2 e c (closest_to_origin e c) a2 b2) :
    related A B a1 b1 (-closest_to_origin e c) a2 b2 (-closest_to_origin e c) := by
  have hE := closest_to_origin_is_closest e c
  have hsw : swap_inv A B e c (-closest_to_origin e c) := by
    refine ⟨by rw [neg_neg_v2]; exact hE, by rw [rsq_neg]; exact hz, ?_, ?_⟩
    · rw [neg_neg_v2]
      intro hEe
      exfalso
      have := hE.2.2
      rw [hEe] at this
      linarith
    · rw [neg_neg_v2]
      intro _
      exact ⟨e, hc, H5⟩
  have hshared : closest_to_origin e c = c →
      related A B a1 b1 (-closest_to_origin e c) a2 b2 (-closest_to_origin e c) := by
    intro hEc
    have hec : c.rsq ≤ e.dot c := by
      have := hE.2.1
      rw [hEc] at this
      exact this
    obtain ⟨y1, hf1, hy1⟩ := next_shared h1 hx1 hec
    obtain ⟨y2, hf2, hy2⟩ := next_shared h2 hx2 hec
    refine Or.inr (Or.inr ⟨c, e, y1, y2, by rw [hEc], by rw [hEc], hf1, hf2, hy1, hy2,
      hec, hc, H5, ?_⟩)
    rw [hEc] at hz
    exact hz
  rcases h1 with ⟨-, -, hEc, -⟩ | ⟨ha1, hb1⟩ | ⟨ha1, hb1⟩
  · exact hshared hEc
  · rcases h2 with ⟨-, -, hEc, -⟩ | ⟨ha2, hb2⟩ | ⟨ha2, hb2⟩
    · exact hshared hEc
    · exact Or.inl ⟨by rw [ha1, ha2], by rw [hb1, hb2], rfl⟩
    · refine Or.inr (Or.inl ⟨by rw [ha2, hb1], by rw [hb2, ha1], rfl, ?_⟩)
      rw [ha1, hb1]
      exact swap_inv_symm hsw
  · rcases h2 with ⟨-, -, hEc, -⟩ | ⟨ha2, hb2⟩ | ⟨ha2, hb2⟩
    · exact hshared hEc
    · refine Or.inr (Or.inl ⟨by rw [ha2, hb1], by rw [hb2, ha1], rfl, ?_⟩)
      rw [ha1, hb1]
      exact hsw
    · exact Or.inl ⟨by rw [ha1, ha2], by rw [hb1, hb2], rfl⟩

/-- Related states give the same result: the loop of `distance` does not depend on the
order of the two ends of its segment, nor on the end it keeps when the closest point is
the newest support point. -/
theorem distance_loop_related (A B : List v2) (hA : 2 ≤ A.length) (hB : 2 ≤ B.length) :
    ∀ (n : Nat) (a1 b1 d1 a2 b2 d2 : v2), related A B a1 b1 d1 a2 b2 d2 →
      distance_loop A B n a1 b1 d1 = distance_loop A B n a2 b2 d2 := by
  intro n
  induction n with
  | zero =>
    intro a1 b1 d1 a2 b2 d2 _
    rfl
  | succ n ih =>
    intro a1 b1 d1 a2 b2 d2 h
    rcases h with ⟨h1, h2, h3⟩ | ⟨h1, h2, h3, hsw⟩ | ⟨e, w, x1, x2, hd1, hd2, h1, h2, hx1, hx2, hb⟩
    · rw [h1, h2, h3]
    · rw [h1, h2, h3]
      obtain ⟨p, q, hp, hq, hs, hmax⟩ := support_func_spec A B d1 hA hB
      have hc : argmin_of A B (p - q) (-d1) := by
        intro a ha b hb
        rw [dot_neg_right, dot_neg_right]
        linarith [hmax a ha b hb]
      rcases swap_step n hsw hs ⟨p, hp, q, hq, rfl⟩ hc with h | ⟨u1, v1, u2, v2, d, hrel, e1, e2⟩
      · exact h
      · rw [e1, e2]
        exact ih _ _ _ _ _ _ hrel
    · rw [hd1, hd2]
      obtain ⟨p, q, hp, hq, hs, hmax⟩ := support_func_spec A B (-e) hA hB
      have hc : argmin_of A B (p - q) e := by
        intro a ha b hb
        have := hmax a ha b hb
        rw [dot_neg_right, dot_neg_right] at this
        linarith
      have hcm : ∃ a1 ∈ A, ∃ b1 ∈ B, p - q = a1 - b1 := ⟨p, hp, q, hq, rfl⟩
      have he := EPSILON_pos
      rcases shared_next n h1 hx1 hb hs hcm with ⟨c1, r1⟩ | ⟨c1, z1, r1⟩ | ⟨c1, z1, u1, v1, f1, r1⟩
      · rcases shared_next n h2 hx2 hb hs hcm with ⟨c2, r2⟩ | ⟨c2, z2, r2⟩ | ⟨c2, z2, u2, v2, f2, r2⟩
        · rw [r1, r2]
        · exact absurd c1 c2
        · exact absurd c1 c2
      · rcases shared_next n h2 hx2 hb hs hcm with ⟨c2, r2⟩ | ⟨c2, z2, r2⟩ | ⟨c2, z2, u2, v2, f2, r2⟩
        · exact absurd c2 c1
        · rw [r1, r2]
        · exact absurd z1 z2
      · rcases shared_next n h2 hx2 hb hs hcm with ⟨c2, r2⟩ | ⟨c2, z2, r2⟩ | ⟨c2, z2, u2, v2, f2, r2⟩
        · exact absurd c2 c1
        · exact absurd z2 z1
        · rw [r1, r2]
          exact ih _ _ _ _ _ _
            (related_of_next hx1 hx2 hc (by linarith [not_le.mp c1]) (not_le.mp z1) f1 f2)

/-! ### The run on the swapped lists -/

theorem cross_neg_neg (a b : v2) : (-a).cross (-b) = a.cross b := by
  simp only [v2.cross, neg_x, neg_y]
  ring

theorem dot_neg_neg (a b : v2) : (-a).dot (-b) = a.dot b := by
  rw [dot_neg_left, dot_neg_right, neg_neg]

theorem is_closest_neg {a b q : v2} (h : is_closest a b q) :
    is_closest (-a) (-b) (-q) := by
  obtain ⟨⟨t, h0, h1, hq⟩, ha, hb⟩ := h
  refine ⟨⟨t, h0, h1, ?_⟩, by rw [rsq_neg, dot_neg_neg]; exact ha,
    by rw [rsq_neg, dot_neg_neg]; exact hb⟩
  rw [hq]
  apply v2_ext
  · simp only [neg_x, add_x, mul_x, sub_x]
    ring
  · simp only [neg_y, add_y, mul_y, sub_y]
    ring

theorem closest_to_origin_neg (a b : v2) :
    closest_to_origin (-a) (-b) = -closest_to_origin a b :=
  is_closest_unique (closest_to_origin_is_closest (-a) (-b))
    (is_closest_neg (closest_to_origin_is_closest a b))

/-- The support point of the swapped lists along `-dir` is the negated support point of
the lists along `dir`. -/
theorem support_func_mirror (A B : List v2) (hA : 2 ≤ A.length) (hB : 2 ≤ B.length)
    (dir : v2) :
    ∃ c, support_func A B dir = Except.ok c ∧ support_func B A (-dir) = Except.ok (-c) := by
  match A, hA, B, hB with
  | a0 :: a1 :: as, _, b0 :: b1 :: bs, _ =>
    refine ⟨_, support_func_eq a0 a1 as b0 b1 bs dir, ?_⟩
    rw [support_func_eq b0 b1 bs a0 a1 as (-dir), neg_neg_v2]
    congr 1
    apply v2_ext
    · simp only [neg_x, sub_x]
      ring
    · simp only [neg_y, sub_y]
      ring

/-- The loop of `distance` on the swapped lists, from the negated state, takes the same
`return` with the same value, and the negated `dir`. -/
theorem distance_loop_mirror (A B : List v2) (hA : 2 ≤ A.length) (hB : 2 ≤ B.length) :
    ∀ (n : Nat) (a b d : v2),
      distance_loop B A n (-a) (-b) (-d) =
        match distance_loop A B n a b d with
        | Except.error e => Except.error e
        | Except.ok (e, d1, v) => Except.ok (e, -d1, v) := by
  intro n
  induction n with
  | zero =>
    intro a b d
    rfl
  | succ n ih =>
    intro a b d
    obtain ⟨c, hs, hs1⟩ := support_func_mirror A B hA hB d
    rw [distance_loop_succ n (-a) (-b) (-d) hs1, distance_loop_succ n a b d hs]
    simp only [cross_neg_neg, dot_neg_neg, closest_to_origin_neg, rsq_neg]
    by_cases hin : min (a.cross b * b.cross c) (a.cross b * c.cross a) > 0
    · rw [if_pos hin, if_pos hin]
    rw [if_neg hin, if_neg hin]
    by_cases hpr : min (c.dot d - a.dot d) (c.dot d - b.dot d) ≤ EPSILON
    · rw [if_pos hpr, if_pos hpr]
    rw [if_neg hpr, if_neg hpr]
    by_cases hz : min (closest_to_origin a c).rsq (closest_to_origin b c).rsq ≤ EPSILON
    · rw [if_pos hz, if_pos hz]
    rw [if_neg hz, if_neg hz]
    by_cases hle : (closest_to_origin a c).rsq ≤ (closest_to_origin b c).rsq
    · rw [if_pos hle, if_pos hle]
      exact ih a c (-closest_to_origin a c)
    · rw [if_neg hle, if_neg hle]
      exact ih c b (-closest_to_origin b c)

/-- More fuel does not change a returned result of the loop of `distance`. -/
theorem distance_loop_fuel_succ (A B : List v2) (hA : 2 ≤ A.length) (hB : 2 ≤ B.length) :
    ∀ (n : Nat) (a b d : v2) (r : Exit × v2 × Dist),
      distance_loop A B n a b d = Except.ok r →
      distance_loop A B (n + 1) a b d = Except.ok r := by
  intro n
  induction n with
  | zero =>
    intro a b d r h
    simp [distance_loop] at h
  | succ n ih =>
    intro a b d r h
    obtain ⟨p, q, _, _, hs, _⟩ := support_func_spec A B d hA hB
    rw [distance_loop_succ n a b d hs] at h
    rw [distance_loop_succ (n + 1) a b d hs]
    by_cases hin : min (a.cross b * b.cross (p - q)) (a.cross b * (p - q).cross a) > 0
    · rw [if_pos hin] at h ⊢
      exact h
    rw [if_neg hin] at h ⊢
    by_cases hpr : min ((p - q).dot d - a.dot d) ((p - q).dot d - b.dot d) ≤ EPSILON
    · rw [if_pos hpr] at h ⊢
      exact h
    rw [if_neg hpr] at h ⊢
    by_cases hz : min (closest_to_origin a (p - q)).rsq (closest_to_origin b (p - q)).rsq ≤
        EPSILON
    · rw [if_pos hz] at h ⊢
      exact h
    rw [if_neg hz] at h ⊢
    by_cases hle : (closest_to_origin a (p - q)).rsq ≤ (closest_to_origin b (p - q)).rsq
    · rw [if_pos hle] at h ⊢
      exact ih _ _ _ r h
    · rw [if_neg hle] at h ⊢
      exact ih _ _ _ r h

theorem distance_loop_fuel_le (A B : List v2) (hA : 2 ≤ A.length) (hB : 2 ≤ B.length)
    {n m : Nat} (hnm : n ≤ m) (a b d : v2) (r : Exit × v2 × Dist)
    (h : distance_loop A B n a b d = Except.ok r) :
    distance_loop A B m a b d = Except.ok r := by
  induction hnm with
  | refl => exact h
  | step _ ih => exact distance_loop_fuel_succ A B hA hB _ a b d r ih

theorem distance_exit_fuel_le (A B : List v2) (hA : 2 ≤ A.length) (hB : 2 ≤ B.length)
    {n m : Nat} (hnm : n ≤ m) (r : Exit × v2 × Dist)
    (h : distance_exit n A B = Except.ok r) : distance_exit m A B = Except.ok r := by
  obtain ⟨a1, b1, _, _, hs1, _⟩ := support_func_spec A B ⟨1, -1⟩ hA hB
  obtain ⟨a2, b2, _, _, hs2, _⟩ := support_func_spec A B (-(⟨1, -1⟩ : v2)) hA hB
  simp only [distance_exit, hs1, hs2] at h ⊢
  split_ifs at h ⊢ with hclose
  · exact h
  · exact distance_loop_fuel_le A B hA hB hnm _ _ _ r h

/-- The value `distance` returns does not depend on the fuel. -/
theorem distance_fuel_indep (A B : List v2) (hA : 2 ≤ A.length) (hB : 2 ≤ B.length)
    {n m : Nat} {v1 v2 : Dist} (h1 : distance n A B = Except.ok v1)
    (h2 : distance m A B = Except.ok v2) : v1 = v2 := by
  obtain ⟨e1, d1, he1⟩ := distance_eq_ok h1
  obtain ⟨e2, d2, he2⟩ := distance_eq_ok h2
  rcases le_total n m with hnm | hnm
  · have := distance_exit_fuel_le A B hA hB hnm _ he1
    rw [he2] at this
    have := Except.ok.inj this
    simp only [Prod.mk.injEq] at this
    exact this.2.2.symm
  · have := distance_exit_fuel_le A B hA hB hnm _ he2
    rw [he1] at this
    have := Except.ok.inj this
    simp only [Prod.mk.injEq] at this
    exact this.2.2

theorem foldl_pick_const (dir : v2) :
    ∀ (l : List v2) (p0 : v2), (∀ q ∈ l, q.dot dir ≤ p0.dot dir) →
      l.foldl (pick dir) p0 = p0 := by
  intro l
  induction l with
  | nil =>
    intro p0 _
    rfl
  | cons x l ih =>
    intro p0 h
    have hx : pick dir p0 x = p0 := by
      unfold pick
      rw [if_neg (not_lt.mpr (h x (List.mem_cons_self x l)))]
    rw [List.foldl_cons, hx]
    exact ih p0 (fun q hq => h q (List.mem_cons_of_mem x hq))

theorem foldl_pick_flat (dir : v2) (p0 : v2) (l : List v2)
    (h : (l.foldl (pick dir) p0).dot dir ≤ (l.foldl (pick (-dir)) p0).dot dir) :
    l.foldl (pick dir) p0 = p0 ∧ l.foldl (pick (-dir)) p0 = p0 := by
  obtain ⟨hm1, hmax1⟩ := foldl_pick_max dir p0 l
  obtain ⟨hm2, hmax2⟩ := foldl_pick_max (-dir) p0 l
  have h0a := hmax1 p0 (List.mem_cons_self p0 l)
  have h0b := hmax2 p0 (List.mem_cons_self p0 l)
  rw [dot_neg_right, dot_neg_right] at h0b
  constructor
  · apply foldl_pick_const
    intro q hq
    have := hmax2 q (List.mem_cons_of_mem p0 hq)
    have h1 := hmax1 q (List.mem_cons_of_mem p0 hq)
    rw [dot_neg_right, dot_neg_right] at this
    linarith
  · apply foldl_pick_const
    intro q hq
    have := hmax2 q (List.mem_cons_of_mem p0 hq)
    have h1 := hmax1 q (List.mem_cons_of_mem p0 hq)
    rw [dot_neg_right, dot_neg_right] at this ⊢
    linarith

/-- When the support points along `dir` and along `-dir` are level along `dir`, they are
the same point: both scans keep their first point. -/
theorem support_func_tie (A B : List v2) (hA : 2 ≤ A.length) (hB : 2 ≤ B.length)
    (dir a b : v2) (ha : support_func A B dir = Except.ok a)
    (hb : support_func A B (-dir) = Except.ok b) (h : a.dot dir ≤ b.dot dir) : a = b := by
  match A, hA, B, hB with
  | a0 :: a1 :: as, _, b0 :: b1 :: bs, _ =>
    rw [support_func_eq] at ha hb
    rw [neg_neg_v2] at hb
    have ea := Except.ok.inj ha
    have eb := Except.ok.inj hb
    rw [← ea, ← eb, dot_sub_left, dot_sub_left] at h
    obtain ⟨_, hA1⟩ := foldl_pick_max dir a0 (a1 :: as)
    obtain ⟨hA2, _⟩ := foldl_pick_max (-dir) a0 (a1 :: as)
    obtain ⟨_, hB1⟩ := foldl_pick_max dir b0 (b1 :: bs)
    obtain ⟨hB2, _⟩ := foldl_pick_max (-dir) b0 (b1 :: bs)
    have hAle := hA1 _ hA2
    have hBle := hB1 _ hB2
    obtain ⟨fa1, fa2⟩ := foldl_pick_flat dir a0 (a1 :: as) (by linarith)
    obtain ⟨fb1, fb2⟩ := foldl_pick_flat dir b0 (b1 :: bs) (by linarith)
    rw [← ea, ← eb, fa1, fa2, fb1, fb2]

/-- The first state of the loop of `distance` and its swap are related. -/
theorem related_seed (A B : List v2) (hA : 2 ≤ A.length) (hB : 2 ≤ B.length)
    (dir a b : v2) (ha : support_func A B dir = Except.ok a)
    (hb : support_func A B (-dir) = Except.ok b)
    (heps : ¬ (-closest_to_origin a b).rsq ≤ EPSILON) :
    related A B a b (-closest_to_origin a b) b a (-closest_to_origin a b) := by
  obtain ⟨p1, q1, hp1, hq1, hs1, hmax1⟩ := support_func_spec A B dir hA hB
  obtain ⟨p2, q2, hp2, hq2, hs2, hmax2⟩ := support_func_spec A B (-dir) hA hB
  rw [ha] at hs1
  rw [hb] at hs2
  have ea := Except.ok.inj hs1
  have eb := Except.ok.inj hs2
  by_cases htie : a.dot dir ≤ b.dot dir
  · have hab := support_func_tie A B hA hB dir a b ha hb htie
    exact Or.inl ⟨hab, hab.symm, rfl⟩
  · have hlt := not_le.mp htie
    refine Or.inr (Or.inl ⟨rfl, rfl, rfl, ?_, not_le.mp heps, ?_, ?_⟩)
    · rw [neg_neg_v2]
      exact closest_to_origin_is_closest a b
    · intro _
      refine ⟨-dir, ?_, ?_⟩
      · intro x hx y hy
        have := hmax1 x hx y hy
        rw [← ea] at this
        rw [dot_neg_right, dot_neg_right]
        linarith
      · rw [dot_neg_right, dot_neg_right]
        linarith
    · intro _
      refine ⟨dir, ?_, hlt⟩
      intro x hx y hy
      have := hmax2 x hx y hy
      rw [← eb, dot_neg_right, dot_neg_right] at this
      linarith

/-- Symmetry of `GJK::distance` in the embedding: on lists of at least two points each,
the run on `(B, A)` returns what the run on `(A, B)` returns, with the same fuel. -/
theorem distance_comm (fuel : Nat) (A B : List v2) (hA : 2 ≤ A.length)
    (hB : 2 ≤ B.length) : distance fuel A B = distance fuel B A := by
  obtain ⟨a, hsa, hsa1⟩ := support_func_mirror A B hA hB ⟨1, -1⟩
  obtain ⟨b, hsb, hsb1⟩ := support_func_mirror A B hA hB (-(⟨1, -1⟩ : v2))
  rw [neg_neg_v2] at hsb1
  simp only [distance, distance_exit, hsa, hsb, hsa1, hsb1, closest_to_origin_neg,
    closest_to_origin_symm a b, rsq_neg]
  by_cases hclose : (closest_to_origin a b).rsq ≤ EPSILON
  · rw [if_pos hclose, if_pos hclose]
  · rw [if_neg hclose, if_neg hclose]
    have heps : ¬ (-closest_to_origin a b).rsq ≤ EPSILON := by
      rw [rsq_neg]
      exact hclose
    rw [distance_loop_mirror A B hA hB fuel b a (-closest_to_origin a b),
      ← distance_loop_related A B hA hB fuel _ _ _ _ _ _
        (related_seed A B hA hB _ a b hsa hsb heps)]
    cases distance_loop A B fuel a b (-closest_to_origin a b) with
    | error e => rfl
    | ok r => rfl

/-- When the hulls share a point, `distance` returns `0.0` if it returns. -/
theorem distance_zero_of_meet (fuel : Nat) (A B : List v2) (hA : 2 ≤ A.length)
    (hB : 2 ≤ B.length) (hm : hulls_meet A B) (v : Dist)
    (h : distance fuel A B = Except.ok v) : v = Dist.zero := by
  obtain ⟨e, d, he⟩ := distance_eq_ok h
  rcases distance_exit_sound fuel A B hA hB e d v he with
    ⟨_, q, _, hq, _, heps, hall, _⟩ | ⟨_, hv⟩
  · exfalso
    obtain ⟨a0, ha0, a1, ha1, a2, ha2, b0, hb0, b1, hb1, b2, hb2, l0, l1, l2, h0, h1, h2,
      hsum, _, _, _, hz, _⟩ := hm
    have k0 := mul_nonneg h0 (sub_nonneg.mpr (hall a0 ha0 b0 hb0))
    have k1 := mul_nonneg h1 (sub_nonneg.mpr (hall a1 ha1 b1 hb1))
    have k2 := mul_nonneg h2 (sub_nonneg.mpr (hall a2 ha2 b2 hb2))
    have hx := congrArg v2.x hz
    have hy := congrArg v2.y hz
    simp only [add_x, add_y, mul_x, mul_y] at hx hy
    have hdot : l0 * (a0 - b0).dot (-d) + l1 * (a1 - b1).dot (-d) +
        l2 * (a2 - b2).dot (-d) = 0 := by
      simp only [v2.dot]
      linear_combination (-d).x * hx + (-d).y * hy
    have hql : q * (l0 + l1 + l2) = q := by rw [hsum, mul_one]
    linarith
  · exact hv

end GJK

namespace GJK

/-! ### Fuel of the loop of `intersects` -/

/-- More fuel does not change a returned result of the loop of `intersects`. -/
theorem intersects_loop_fuel_succ (A B : List v2) :
    ∀ (n : Nat) (s : Simplex) (c : Nat) (d : v2) (r : Bool × v2),
      intersects_loop A B n s c d = Except.ok r →
      intersects_loop A B (n + 1) s c d = Except.ok r := by
  intro n
  induction n with
  | zero =>
    intro s c d r h
    simp [intersects_loop] at h
  | succ n ih =>
    intro s c d r h
    rw [intersects_loop] at h ⊢
    cases hs : support_func A B d with
    | error e =>
      rw [hs] at h
      exact absurd h (by simp)
    | ok p =>
      rw [hs] at h
      simp only at h ⊢
      cases hw : s.write c p with
      | error e =>
        rw [hw] at h
        exact absurd h (by simp)
      | ok s1 =>
        rw [hw] at h
        simp only at h ⊢
        cases hr : s1.read (c + 1 - 1) with
        | error e =>
          rw [hr] at h
          exact absurd h (by simp)
        | ok last =>
          rw [hr] at h
          simp only at h ⊢
          by_cases hle : last.dot d ≤ 0
          · rw [if_pos hle] at h ⊢
            exact h
          · rw [if_neg hle] at h ⊢
            rcases hco : contains_origin s1 (c + 1) d with ⟨b, s2, c2, d2⟩
            rw [hco] at h
            cases b with
            | true => exact h
            | false => exact ih s2 c2 d2 r h

theorem intersects_loop_fuel_add (A B : List v2) (n k : Nat) (s : Simplex) (c : Nat)
    (d : v2) (r : Bool × v2) (h : intersects_loop A B n s c d = Except.ok r) :
    intersects_loop A B (k + n) s c d = Except.ok r := by
  induction k with
  | zero =>
    rw [Nat.zero_add]
    exact h
  | succ k ih =>
    rw [Nat.succ_add]
    exact intersects_loop_fuel_succ A B _ s c d r ih

/-- More fuel does not change a returned result of `intersects`. -/
theorem intersects_fuel_add (A B : List v2) (n k : Nat) (r : Bool)
    (h : intersects n A B = Except.ok r) : intersects (k + n) A B = Except.ok r := by
  unfold intersects at h ⊢
  cases he : intersects_exit n A B with
  | error e =>
    rw [he] at h
    exact absurd h (by simp)
  | ok w =>
    have hk : intersects_exit (k + n) A B = Except.ok w := by
      simp only [intersects_exit] at he ⊢
      cases hs : support_func A B (-(⟨1, -1⟩ : v2)) with
      | error e =>
        rw [hs] at he
        exact absurd he (by simp)
      | ok p =>
        rw [hs] at he
        simp only at he ⊢
        cases hw : Simplex.write ⟨⟨0, 0⟩, ⟨0, 0⟩, ⟨0, 0⟩⟩ 0 p with
        | error e =>
          rw [hw] at he
          exact absurd he (by simp)
        | ok s1 =>
          rw [hw] at he
          exact intersects_loop_fuel_add A B n k _ _ _ w he
    rw [he] at h
    rw [hk]
    exact h

/-- More fuel does not change a returned result of `distance`. -/
theorem distance_fuel_add (A B : List v2) (hA : 2 ≤ A.length) (hB : 2 ≤ B.length)
    (n k : Nat) (v : Dist) (h : distance n A B = Except.ok v) :
    distance (k + n) A B = Except.ok v := by
  obtain ⟨e, d, he⟩ := distance_eq_ok h
  have := distance_exit_fuel_le A B hA hB (Nat.le_add_left n k) _ he
  unfold distance
  rw [this]

end GJK

/-! ## geometry.h: `Line_segment` -/

namespace Line_segment

theorem vec_x (self : Line_segment) : self.vec.x = self.end.x - self.start.x := rfl

theorem vec_y (self : Line_segment) : self.vec.y = self.end.y - self.start.y := rfl

theorem rsq_eq_zero_iff (a b : v2) : (b - a).rsq = 0 ↔ a = b := by
  constructor
  · intro h
    obtain ⟨hx, hy⟩ := GJK.rsq_eq_zero h
    rw [GJK.sub_x] at hx
    rw [GJK.sub_y] at hy
    exact GJK.v2_ext (by linarith) (by linarith)
  · intro h
    rw [h]
    simp only [v2.rsq, v2.dot, GJK.sub_x, GJK.sub_y]
    ring

/-- The squared distance from `pt` to the point of parameter `s` of the segment. -/
theorem rsq_to_param (a b pt : v2) (s : ℚ) :
    (pt - (a + (b - a) * s)).rsq =
      (pt - a).rsq - 2 * s * (pt - a).dot (b - a) + s * s * (b - a).rsq := by
  simp only [v2.rsq, v2.dot, GJK.sub_x, GJK.sub_y, GJK.add_x, GJK.add_y, GJK.mul_x,
    GJK.mul_y]
  ring

/-- C13, amended: over exact arithmetic, for a segment with `start != end`, `project_in(pt)`
is a point `start + (end - start) * t` with `0 ≤ t ≤ 1`, no point of the segment is nearer
to `pt`, and `dist_to(pt)` is the distance from `pt` to it, the least distance from `pt` to
a point of the segment. -/
theorem project_in_closest (self : Line_segment) (pt : v2) (hne : self.start ≠ self.end) :
    on_seg self.start self.end (self.project_in pt) ∧
    (∀ q, on_seg self.start self.end q →
      (pt - self.project_in pt).rsq ≤ (pt - q).rsq) ∧
    (self.dist_to pt).denotes (Real.sqrt (((pt - self.project_in pt).rsq : ℚ) : ℝ)) ∧
    ∀ q, on_seg self.start self.end q →
      Real.sqrt (((pt - self.project_in pt).rsq : ℚ) : ℝ) ≤
        Real.sqrt (((pt - q).rsq : ℚ) : ℝ) := by
  have hL : 0 ≤ (self.end - self.start).rsq := GJK.rsq_nonneg _
  have hu : (self.end - self.start).rsq = 0 →
      -(pt - self.start).dot (self.end - self.start) = 0 := by
    intro h0
    exact absurd ((rsq_eq_zero_iff _ _).mp h0) hne
  have hc := GJK.clamp_props (-(pt - self.start).dot (self.end - self.start))
    (self.end - self.start).rsq hL hu
  rw [neg_neg] at hc
  have hp : self.project_in pt = self.start + (self.end - self.start) *
      max 0 (min ((pt - self.start).dot (self.end - self.start) /
        (self.end - self.start).rsq) 1) := rfl
  generalize max 0 (min ((pt - self.start).dot (self.end - self.start) /
    (self.end - self.start).rsq) 1) = t at hc hp
  obtain ⟨ht0, ht1, hg1, hg2⟩ := hc
  have hmin : ∀ q, on_seg self.start self.end q →
      (pt - self.project_in pt).rsq ≤ (pt - q).rsq := by
    intro q hq
    obtain ⟨s, hs0, hs1, hqs⟩ := hq
    rw [hp, hqs, rsq_to_param, rsq_to_param]
    have k1 := mul_nonneg hs0 hg2
    have k2 := mul_nonneg (sub_nonneg.mpr hs1) (neg_nonneg.mpr hg1)
    have k3 := mul_nonneg (mul_self_nonneg (s - t)) hL
    linarith
  refine ⟨⟨t, ht0, ht1, hp⟩, hmin, ⟨?_, rfl⟩, ?_⟩
  · exact GJK.rsq_nonneg _
  · intro q hq
    exact Real.sqrt_le_sqrt (by exact_mod_cast hmin q hq)

/-- C13, amended, at the segment (0,0)-(10,0) and the point (3,4): the projection is (3,0). -/
theorem project_in_closest_witness :
    (⟨0, 0⟩ : v2) ≠ ⟨10, 0⟩ ∧
    (Line_segment.mk ⟨0, 0⟩ ⟨10, 0⟩).project_in ⟨3, 4⟩ = ⟨3, 0⟩ ∧
    (Line_segment.mk ⟨0, 0⟩ ⟨10, 0⟩).dist_to ⟨3, 4⟩ = Dist.sqrt 16 ∧
    (on_seg ⟨0, 0⟩ ⟨10, 0⟩ ((Line_segment.mk ⟨0, 0⟩ ⟨10, 0⟩).project_in ⟨3, 4⟩) ∧
    (∀ q, on_seg ⟨0, 0⟩ ⟨10, 0⟩ q →
      ((⟨3, 4⟩ : v2) - (Line_segment.mk ⟨0, 0⟩ ⟨10, 0⟩).project_in ⟨3, 4⟩).rsq ≤
        ((⟨3, 4⟩ : v2) - q).rsq) ∧
    ((Line_segment.mk ⟨0, 0⟩ ⟨10, 0⟩).dist_to ⟨3, 4⟩).denotes
      (Real.sqrt ((((⟨3, 4⟩ : v2) -
        (Line_segment.mk ⟨0, 0⟩ ⟨10, 0⟩).project_in ⟨3, 4⟩).rsq : ℚ) : ℝ)) ∧
    ∀ q, on_seg ⟨0, 0⟩ ⟨10, 0⟩ q →
      Real.sqrt ((((⟨3, 4⟩ : v2) -
        (Line_segment.mk ⟨0, 0⟩ ⟨10, 0⟩).project_in ⟨3, 4⟩).rsq : ℚ) : ℝ) ≤
        Real.sqrt ((((⟨3, 4⟩ : v2) - q).rsq : ℚ) : ℝ)) :=
  ⟨by decide, by decide!, by decide!,
    project_in_closest (Line_segment.mk ⟨0, 0⟩ ⟨10, 0⟩) ⟨3, 4⟩ (by decide)⟩

end Line_segment

namespace Line_segment

/-- C14 fails on the code: `project_t` divides the dot product by the length `r`, not by
the squared length. On the segment (0,0)-(2,0), of length 2, it returns `pt.x`, twice
the parameter of the orthogonal projection, and `project` returns `(2 * pt.x, 0)`; for
`pt = (1,1)` that is `t = 1` and the point `(2,0)`, with
`dot(pt - project(pt), end - start) = -2`, while the orthogonal projection is `(1,0)`,
at `t = 1/2`. -/
theorem project_t_divides_by_length :
    (Line_segment.mk ⟨0, 0⟩ ⟨2, 0⟩).is_length 2 ∧
    (∀ pt : v2,
      (Line_segment.mk ⟨0, 0⟩ ⟨2, 0⟩).project_t 2 pt = pt.x ∧
      (Line_segment.mk ⟨0, 0⟩ ⟨2, 0⟩).project 2 pt = ⟨2 * pt.x, 0⟩ ∧
      (pt - (Line_segment.mk ⟨0, 0⟩ ⟨2, 0⟩).project 2 pt).dot
        (Line_segment.mk ⟨0, 0⟩ ⟨2, 0⟩).vec = -2 * pt.x) ∧
    (Line_segment.mk ⟨0, 0⟩ ⟨2, 0⟩).project_t 2 ⟨1, 1⟩ = 1 ∧
    (Line_segment.mk ⟨0, 0⟩ ⟨2, 0⟩).project 2 ⟨1, 1⟩ = ⟨2, 0⟩ ∧
    ((⟨1, 1⟩ : v2) - (Line_segment.mk ⟨0, 0⟩ ⟨2, 0⟩).project 2 ⟨1, 1⟩).dot
      (Line_segment.mk ⟨0, 0⟩ ⟨2, 0⟩).vec = -2 ∧
    ((⟨1, 1⟩ : v2) - ((⟨0, 0⟩ : v2) + (Line_segment.mk ⟨0, 0⟩ ⟨2, 0⟩).vec * (1 / 2 : ℚ))).dot
      (Line_segment.mk ⟨0, 0⟩ ⟨2, 0⟩).vec = 0 := by
  refine ⟨by decide!, ?_, by decide!, by decide!, by decide!, by decide!⟩
  intro pt
  have ht : (Line_segment.mk ⟨0, 0⟩ ⟨2, 0⟩).project_t 2 pt = pt.x := by
    simp only [project_t, vec, v2.dot, GJK.sub_x, GJK.sub_y]
    norm_num
  refine ⟨ht, ?_, ?_⟩
  · simp only [project, ht, vec]
    apply GJK.v2_ext
    · simp only [GJK.add_x, GJK.mul_x, GJK.sub_x]
      ring
    · simp only [GJK.add_y, GJK.mul_y, GJK.sub_y]
      ring
  · simp only [project, ht, vec, v2.dot, GJK.add_x, GJK.mul_x, GJK.sub_x, GJK.add_y,
      GJK.mul_y, GJK.sub_y]
    ring

/-- C15, amended: over exact arithmetic, `intersection_point` returns the sentinel exactly
when the determinant `delta = dx2 * dy1 - dy2 * dx1` has magnitude below the double
`0.0000001` or one of the parameters `s`, `t` lies outside `[0, 1]`; a returned point is
`start1 + (end1 - start1) * t` and `start2 + (end2 - start2) * s`, a point of both segments.
-/
theorem intersection_point_spec (self other : Line_segment) (delta s t : ℚ)
    (hdelta : delta = other.vec.x * self.vec.y - other.vec.y * self.vec.x)
    (hs : s = (self.vec.x * (other.start.y - self.start.y) +
      self.vec.y * (self.start.x - other.start.x)) / delta)
    (ht : t = (other.vec.x * (self.start.y - other.start.y) +
      other.vec.y * (other.start.x - self.start.x)) / (-1 * delta)) :
    (self.intersection_point other = none ↔
      (|delta| < 944473296573929 / 9444732965739290427392 ∨ ¬ (0 ≤ s ∧ s ≤ 1) ∨ ¬ (0 ≤ t ∧ t ≤ 1))) ∧
    ∀ P, self.intersection_point other = some P →
      P = self.start + self.vec * t ∧ P = other.start + other.vec * s ∧
      on_seg self.start self.end P ∧ on_seg other.start other.end P := by
  have hdef : self.intersection_point other =
      if |delta| < 944473296573929 / 9444732965739290427392 then none
      else if ¬ ((0 ≤ s ∧ s ≤ 1) ∧ (0 ≤ t ∧ t ≤ 1)) then none
      else some ⟨self.start.x + t * self.vec.x, self.start.y + t * self.vec.y⟩ := by
    rw [hs, ht, hdelta]
    rfl
  rw [hdef]
  constructor
  · by_cases h1 : |delta| < 944473296573929 / 9444732965739290427392
    · rw [if_pos h1]
      exact ⟨fun _ => Or.inl h1, fun _ => rfl⟩
    · rw [if_neg h1]
      by_cases h2 : ¬ ((0 ≤ s ∧ s ≤ 1) ∧ (0 ≤ t ∧ t ≤ 1))
      · rw [if_pos h2]
        refine ⟨fun _ => ?_, fun _ => rfl⟩
        right
        by_contra hc
        push_neg at hc
        exact h2 hc
      · rw [if_neg h2]
        have h3 := not_not.mp h2
        constructor
        · intro h
          exact absurd h (by simp)
        · rintro (h | h | h)
          · exact absurd h h1
          · exact absurd h3.1 h
          · exact absurd h3.2 h
  · intro P hP
    by_cases h1 : |delta| < 944473296573929 / 9444732965739290427392
    · rw [if_pos h1] at hP
      exact absurd hP (by simp)
    rw [if_neg h1] at hP
    by_cases h2 : ¬ ((0 ≤ s ∧ s ≤ 1) ∧ (0 ≤ t ∧ t ≤ 1))
    · rw [if_pos h2] at hP
      exact absurd hP (by simp)
    rw [if_neg h2] at hP
    have h3 := not_not.mp h2
    have hPe := (Option.some.inj hP).symm
    have hd0 : delta ≠ 0 := by
      intro h0
      apply h1
      rw [h0]
      norm_num
    have hs1 : s * delta = self.vec.x * (other.start.y - self.start.y) +
        self.vec.y * (self.start.x - other.start.x) := by
      rw [hs]
      field_simp
    have ht1 : t * delta = -(other.vec.x * (self.start.y - other.start.y) +
        other.vec.y * (other.start.x - self.start.x)) := by
      have hd1 : -1 * delta ≠ 0 := by
        intro h0
        apply hd0
        linarith
      rw [ht, div_mul_eq_mul_div, div_eq_iff hd1]
      ring
    have e1 : P = self.start + self.vec * t := by
      rw [hPe]
      apply GJK.v2_ext
      · simp only [GJK.add_x, GJK.mul_x]
        ring
      · simp only [GJK.add_y, GJK.mul_y]
        ring
    have e2 : P = other.start + other.vec * s := by
      rw [hPe]
      apply GJK.v2_ext
      · simp only [GJK.add_x, GJK.mul_x]
        apply mul_right_cancel₀ hd0
        linear_combination (self.vec.x) * ht1 - (other.vec.x) * hs1 +
          (self.start.x - other.start.x) * hdelta
      · simp only [GJK.add_y, GJK.mul_y]
        apply mul_right_cancel₀ hd0
        linear_combination (self.vec.y) * ht1 - (other.vec.y) * hs1 +
          (self.start.y - other.start.y) * hdelta
    exact ⟨e1, e2, ⟨t, h3.2.1, h3.2.2, e1⟩, ⟨s, h3.1.1, h3.1.2, e2⟩⟩

/-- C15, amended, at the segments (0,0)-(10,10) and (0,10)-(10,0): the point is (5,5), at
`s = t = 1/2`, and `intersects` is true. -/
theorem intersection_point_spec_witness :
    (Line_segment.mk ⟨0, 0⟩ ⟨10, 10⟩).intersection_point
      (Line_segment.mk ⟨0, 10⟩ ⟨10, 0⟩) = some ⟨5, 5⟩ ∧
    (Line_segment.mk ⟨0, 0⟩ ⟨10, 10⟩).intersects (Line_segment.mk ⟨0, 10⟩ ⟨10, 0⟩) = true ∧
    (((Line_segment.mk ⟨0, 0⟩ ⟨10, 10⟩).intersection_point
        (Line_segment.mk ⟨0, 10⟩ ⟨10, 0⟩) = none ↔
      (|(200 : ℚ)| < 944473296573929 / 9444732965739290427392 ∨ ¬ (0 ≤ (1 / 2 : ℚ) ∧ (1 / 2 : ℚ) ≤ 1) ∨
        ¬ (0 ≤ (1 / 2 : ℚ) ∧ (1 / 2 : ℚ) ≤ 1))) ∧
    ∀ P, (Line_segment.mk ⟨0, 0⟩ ⟨10, 10⟩).intersection_point
        (Line_segment.mk ⟨0, 10⟩ ⟨10, 0⟩) = some P →
      P = (⟨0, 0⟩ : v2) + (Line_segment.mk ⟨0, 0⟩ ⟨10, 10⟩).vec * (1 / 2 : ℚ) ∧
      P = (⟨0, 10⟩ : v2) + (Line_segment.mk ⟨0, 10⟩ ⟨10, 0⟩).vec * (1 / 2 : ℚ) ∧
      on_seg ⟨0, 0⟩ ⟨10, 10⟩ P ∧ on_seg ⟨0, 10⟩ ⟨10, 0⟩ P) :=
  ⟨by decide!, by decide!,
    intersection_point_spec (Line_segment.mk ⟨0, 0⟩ ⟨10, 10⟩)
      (Line_segment.mk ⟨0, 10⟩ ⟨10, 0⟩) 200 (1 / 2) (1 / 2) (by decide!) (by decide!)
      (by decide!)⟩

/-- The test of `__ccw__` as a sign: `A`, `B`, `C` are counter-clockwise exactly when
the cross product of `B - A` and `C - A` is positive. -/
theorem ccw_iff (A B C : v2) : __ccw__ A B C = true ↔ 0 < (B - A).cross (C - A) := by
  simp only [__ccw__, decide_eq_true_eq, v2.cross, GJK.sub_x, GJK.sub_y]
  constructor <;> intro h <;> linarith

/-- C16, amended: over exact arithmetic, two segments whose direction vectors have cross
product zero never intersect: `intersects` is false and `intersection_point` returns the
sentinel. -/
theorem parallel_never_intersects (self other : Line_segment)
    (h : self.vec.cross other.vec = 0) :
    self.intersects other = false ∧ self.intersection_point other = none := by
  simp only [v2.cross, vec_x, vec_y] at h
  constructor
  · have e : __ccw__ self.start other.start other.end =
        __ccw__ self.end other.start other.end := by
      rw [Bool.eq_iff_iff, ccw_iff, ccw_iff]
      simp only [v2.cross, GJK.sub_x, GJK.sub_y]
      constructor <;> intro h1 <;> linarith
    simp only [intersects, e, bne_self_eq_false, Bool.false_and]
  · have hd : (other.end.x - other.start.x) * (self.end.y - self.start.y) -
        (other.end.y - other.start.y) * (self.end.x - self.start.x) = 0 := by linarith
    simp only [intersection_point, hd]
    norm_num

/-- C16, amended, at the segments (0,0)-(1,0) and (0,1)-(1,1). -/
theorem parallel_never_intersects_witness :
    (Line_segment.mk ⟨0, 0⟩ ⟨1, 0⟩).vec.cross (Line_segment.mk ⟨0, 1⟩ ⟨1, 1⟩).vec = 0 ∧
    (Line_segment.mk ⟨0, 0⟩ ⟨1, 0⟩).intersects (Line_segment.mk ⟨0, 1⟩ ⟨1, 1⟩) = false ∧
    (Line_segment.mk ⟨0, 0⟩ ⟨1, 0⟩).intersection_point
      (Line_segment.mk ⟨0, 1⟩ ⟨1, 1⟩) = none :=
  ⟨by decide!, parallel_never_intersects _ _ (by decide!)⟩

/-- C20 fails on the code: `operator==` compares `start` with `other.start` twice and
never reads `end`, so it is true exactly when the starts are equal; the segments
(0,0)-(1,0) and (0,0)-(2,0) compare equal although their ends differ. -/
theorem operator_eq_ignores_end :
    (∀ s o : Line_segment, s.operator_eq o = true ↔ s.start = o.start) ∧
    (Line_segment.mk ⟨0, 0⟩ ⟨1, 0⟩).operator_eq (Line_segment.mk ⟨0, 0⟩ ⟨2, 0⟩) = true ∧
    (Line_segment.mk ⟨0, 0⟩ ⟨1, 0⟩).end ≠ (Line_segment.mk ⟨0, 0⟩ ⟨2, 0⟩).end ∧
    ¬ ((Line_segment.mk ⟨0, 0⟩ ⟨1, 0⟩).operator_eq (Line_segment.mk ⟨0, 0⟩ ⟨2, 0⟩) = true ↔
      (Line_segment.mk ⟨0, 0⟩ ⟨1, 0⟩).start = (Line_segment.mk ⟨0, 0⟩ ⟨2, 0⟩).start ∧
      (Line_segment.mk ⟨0, 0⟩ ⟨1, 0⟩).end = (Line_segment.mk ⟨0, 0⟩ ⟨2, 0⟩).end) := by
  refine ⟨?_, by decide!, by decide, ?_⟩
  · intro s o
    simp only [operator_eq, v2.operator_eq, Bool.and_self, Bool.and_eq_true,
      decide_eq_true_eq]
    constructor
    · intro h
      exact GJK.v2_ext h.1 h.2
    · intro h
      rw [h]
      exact ⟨rfl, rfl⟩
  · intro h
    have h1 := (h.mp (by decide!)).2
    exact absurd h1 (by decide)

end Line_segment

/-! ## geometry.h: `sphere` -/

/-- The test `sqrt_lt q c` is the comparison of the real square root of `q` with `c`. -/
theorem sqrt_lt_iff (q c : ℚ) :
    sqrt_lt q c = true ↔ Real.sqrt (q : ℝ) < (c : ℝ) := by
  simp only [sqrt_lt, decide_eq_true_eq]
  constructor
  · rintro ⟨hc, hq⟩
    have hc1 : (0 : ℝ) < c := by exact_mod_cast hc
    rw [Real.sqrt_lt' hc1, pow_two]
    exact_mod_cast hq
  · intro h
    have hc1 : (0 : ℝ) < c := lt_of_le_of_lt (Real.sqrt_nonneg _) h
    rw [Real.sqrt_lt' hc1, pow_two] at h
    exact ⟨by exact_mod_cast hc1, by exact_mod_cast h⟩

namespace sphere

/-- The test of `on_boundary` is one-sided and strict: `dist - r_ < tolerance`. -/
theorem on_boundary_iff (s : sphere) (p : v2) (tol : ℚ) :
    s.on_boundary p tol = true ↔
      ∃ d : ℝ, s.metric_dist p d ∧ d - (s.r_ : ℝ) < (tol : ℝ) := by
  unfold on_boundary metric_dist
  cases s.metric with
  | L1 =>
    simp only [decide_eq_true_eq, exists_eq_left]
    constructor
    · intro h
      exact_mod_cast h
    · intro h
      exact_mod_cast h
  | L2 =>
    simp only [sqrt_lt_iff, exists_eq_left]
    push_cast
    constructor <;> intro h <;> linarith
  | LINFTY =>
    simp only [decide_eq_true_eq, exists_eq_left]
    constructor
    · intro h
      exact_mod_cast h
    · intro h
      exact_mod_cast h

/-- C18 fails on the code: `on_boundary` is true exactly when `dist - r_ < tolerance`,
not when `|dist - r_| ≤ tolerance` as its comment says. For the `L1` disk of center
(0,0) and radius 5 and the tolerance 1, the center, at distance 0, is on the boundary
although `|0 - 5| > 1`, and the point (6,0), at distance 6, is not although
`|6 - 5| ≤ 1`. -/
theorem on_boundary_one_sided :
    (∀ (s : sphere) (p : v2) (tol : ℚ), s.on_boundary p tol = true ↔
      ∃ d : ℝ, s.metric_dist p d ∧ d - (s.r_ : ℝ) < (tol : ℝ)) ∧
    (sphere.mk ⟨0, 0⟩ 5 SPHEREMETRIC.L1).on_boundary ⟨0, 0⟩ 1 = true ∧
    ((⟨0, 0⟩ : v2) - ⟨0, 0⟩).l1 = 0 ∧ ¬ |(0 : ℚ) - 5| ≤ 1 ∧
    (sphere.mk ⟨0, 0⟩ 5 SPHEREMETRIC.L1).on_boundary ⟨6, 0⟩ 1 = false ∧
    ((⟨0, 0⟩ : v2) - ⟨6, 0⟩).l1 = 6 ∧ |(6 : ℚ) - 5| ≤ 1 ∧
    (sphere.mk ⟨0, 0⟩ 5 SPHEREMETRIC.L2).on_boundary ⟨0, 0⟩ 1 = true ∧
    (sphere.mk ⟨0, 0⟩ 5 SPHEREMETRIC.LINFTY).on_boundary ⟨0, 0⟩ 1 = true :=
  ⟨on_boundary_iff, by decide!, by decide!, by decide!, by decide!, by decide!, by decide!,
    by decide!, by decide!⟩

/-- C19, amended: over exact arithmetic, for a disk of any of the three metrics and a point
whose distance to the center in the metric of the disk equals the radius, `on_boundary` is
true for every positive tolerance and `contains` is false. -/
theorem at_radius_on_boundary (s : sphere) (p : v2) (tol : ℚ)
    (hd : s.metric_dist p (s.r_ : ℝ)) (htol : 0 < tol) :
    s.on_boundary p tol = true ∧ s.contains p = false := by
  constructor
  · rw [on_boundary_iff]
    refine ⟨(s.r_ : ℝ), hd, ?_⟩
    have : (0 : ℝ) < tol := by exact_mod_cast htol
    linarith
  · unfold metric_dist at hd
    unfold contains
    cases hm : s.metric with
    | L1 =>
      rw [hm] at hd
      simp only at hd ⊢
      have h : s.r_ = (s.c_ - p).l1 := by exact_mod_cast hd
      rw [decide_eq_false_iff_not, ← h]
      exact lt_irrefl _
    | L2 =>
      rw [hm] at hd
      simp only at hd ⊢
      rw [Bool.eq_false_iff]
      intro hc
      rw [sqrt_lt_iff, ← hd] at hc
      exact lt_irrefl _ hc
    | LINFTY =>
      rw [hm] at hd
      simp only at hd ⊢
      have h : s.r_ = (s.c_ - p).linfty := by exact_mod_cast hd
      rw [decide_eq_false_iff_not, ← h]
      exact lt_irrefl _

/-- C19, amended, at the `L1` disk of center (0,0) and radius 5 and the point (3,2), at `L1`
distance 5, with the tolerance `1e-7`. -/
theorem at_radius_on_boundary_witness :
    ((⟨0, 0⟩ : v2) - ⟨3, 2⟩).l1 = 5 ∧
    (sphere.mk ⟨0, 0⟩ 5 SPHEREMETRIC.L1).on_boundary ⟨3, 2⟩ (1 / 10000000) = true ∧
    (sphere.mk ⟨0, 0⟩ 5 SPHEREMETRIC.L1).contains ⟨3, 2⟩ = false :=
  ⟨by decide!,
    at_radius_on_boundary (sphere.mk ⟨0, 0⟩ 5 SPHEREMETRIC.L1) ⟨3, 2⟩ (1 / 10000000)
      (by
        show (((5 : ℚ) : ℝ)) = ((((⟨0, 0⟩ : v2) - ⟨3, 2⟩).l1 : ℚ) : ℝ)
        have h : ((⟨0, 0⟩ : v2) - ⟨3, 2⟩).l1 = 5 := by decide!
        rw [h])
      (by norm_num)⟩

end sphere

/-! ## polygon.h -/

namespace Polygon

/-- C7 fails on the code: `naive_intersects` never reads its parameter, so its result
does not depend on the other polygon; on the disjoint squares (0,0)-(1,1) and
(2,2)-(3,3) it returns true while the GJK path `intersects` returns false. -/
theorem naive_intersects_ignores_other :
    (∀ P Q R : Polygon, P.naive_intersects Q = P.naive_intersects R) ∧
    (Polygon.mk [⟨0, 0⟩, ⟨1, 0⟩, ⟨1, 1⟩, ⟨0, 1⟩]).naive_intersects
      (Polygon.mk [⟨2, 2⟩, ⟨3, 2⟩, ⟨3, 3⟩, ⟨2, 3⟩]) = true ∧
    (Polygon.mk [⟨0, 0⟩, ⟨1, 0⟩, ⟨1, 1⟩, ⟨0, 1⟩]).intersects 8
      (Polygon.mk [⟨2, 2⟩, ⟨3, 2⟩, ⟨3, 3⟩, ⟨2, 3⟩]) = Except.ok false := by
  refine ⟨fun _ _ _ => rfl, by decide!, by decide!⟩

/-- C11: on the squares (0,0)-(1,1) and (2,2)-(3,3), with any number of iterations from
two on allowed to each loop, `intersects` returns false and `distance_to` returns
`sqrt(2)`. -/
theorem scenario_disjoint_squares (k : Nat) :
    (Polygon.mk [⟨0, 0⟩, ⟨1, 0⟩, ⟨1, 1⟩, ⟨0, 1⟩]).intersects (k + 2)
      (Polygon.mk [⟨2, 2⟩, ⟨3, 2⟩, ⟨3, 3⟩, ⟨2, 3⟩]) = Except.ok false ∧
    (Polygon.mk [⟨0, 0⟩, ⟨1, 0⟩, ⟨1, 1⟩, ⟨0, 1⟩]).distance_to (k + 2)
      (Polygon.mk [⟨2, 2⟩, ⟨3, 2⟩, ⟨3, 3⟩, ⟨2, 3⟩]) = Except.ok (Dist.sqrt 2) ∧
    (Dist.sqrt 2).denotes (Real.sqrt 2) := by
  have hi : GJK.intersects (k + 2) [⟨0, 0⟩, ⟨1, 0⟩, ⟨1, 1⟩, ⟨0, 1⟩]
      [⟨2, 2⟩, ⟨3, 2⟩, ⟨3, 3⟩, ⟨2, 3⟩] = Except.ok false :=
    GJK.intersects_fuel_add _ _ 2 k false (by decide!)
  have hd : GJK.distance (k + 2) [⟨0, 0⟩, ⟨1, 0⟩, ⟨1, 1⟩, ⟨0, 1⟩]
      [⟨2, 2⟩, ⟨3, 2⟩, ⟨3, 3⟩, ⟨2, 3⟩] = Except.ok (Dist.sqrt 2) :=
    GJK.distance_fuel_add _ _ (by decide) (by decide) 2 k _ (by decide!)
  refine ⟨hi, ?_, ?_⟩
  · unfold distance_to gjk_intersects intersects
    simp only [hi, hd]
  · exact ⟨by norm_num, by norm_num⟩

/-- C12: on the squares (0,0)-(10,10) and (5,5)-(15,15), the pair of `performance_test`,
with any number of iterations from two on allowed to the loop, `intersects` returns true
and `distance_to` returns `0.0`. -/
theorem scenario_overlapping_squares (k : Nat) :
    (Polygon.mk [⟨0, 0⟩, ⟨10, 0⟩, ⟨10, 10⟩, ⟨0, 10⟩]).intersects (k + 2)
      (Polygon.mk [⟨5, 5⟩, ⟨15, 5⟩, ⟨15, 15⟩, ⟨5, 15⟩]) = Except.ok true ∧
    (Polygon.mk [⟨0, 0⟩, ⟨10, 0⟩, ⟨10, 10⟩, ⟨0, 10⟩]).distance_to (k + 2)
      (Polygon.mk [⟨5, 5⟩, ⟨15, 5⟩, ⟨15, 15⟩, ⟨5, 15⟩]) = Except.ok Dist.zero ∧
    Dist.zero.denotes 0 ∧ Dist.zero.is_zero = true := by
  have hi : GJK.intersects (k + 2) [⟨0, 0⟩, ⟨10, 0⟩, ⟨10, 10⟩, ⟨0, 10⟩]
      [⟨5, 5⟩, ⟨15, 5⟩, ⟨15, 15⟩, ⟨5, 15⟩] = Except.ok true :=
    GJK.intersects_fuel_add _ _ 2 k true (by decide!)
  refine ⟨hi, ?_, rfl, rfl⟩
  unfold distance_to gjk_intersects intersects
  simp only [hi]

/-! ## polygon.h: `contains` on a triangle

The signs met by the ray-casting test, for a point and a far point given by their three
orientations `A`, `B` relative to the edges, scaled so that the interior is where all
three are positive; `H0`, `H1`, `H2` give the side of each vertex relative to the line
through the two points. -/

theorem eq_zero_of_mul_sandwich {a b : ℚ} (h1 : a ≤ b) (h2 : b ≤ 0) (h3 : 0 ≤ a) :
    a = 0 ∧ b = 0 :=
  ⟨by linarith, by linarith⟩

theorem tri_core {A0 A1 A2 B0 B1 B2 H0 H1 H2 : ℚ}
    (hH0 : H0 = A0 * B2 - A2 * B0) (hH1 : H1 = A1 * B0 - A0 * B1)
    (hH2 : H2 = A2 * B1 - A1 * B2)
    (hA : 0 < A0 + A1 + A2) (hB : 0 < B0 + B1 + B2)
    (hneg : A0 < 0 ∨ A1 < 0 ∨ A2 < 0) (hF : B0 < 0 ∨ B1 < 0 ∨ B2 < 0)
    (hV1 : ¬ (H1 = 0 ∧ A0 * B0 ≤ 0 ∧ A1 * B1 ≤ 0))
    (hs0 : A0 * B0 ≤ 0) (hs0n : ¬ (A0 = 0 ∧ B0 = 0)) (hs1 : 0 ≤ A1 * B1)
    (hd01 : H0 * H1 ≤ 0) (hd12 : H1 * H2 ≤ 0) : False := by
  have hH1ne : H1 ≠ 0 := by
    intro h10
    have hpos : 0 < A1 * B1 := by
      by_contra hc
      exact hV1 ⟨h10, hs0, not_lt.mp hc⟩
    have h1 : A1 * B0 = A0 * B1 := by linarith
    have h2 : (A1 * B0) * (A1 * B0) ≤ 0 := by
      have : (A1 * B0) * (A1 * B0) = (A1 * B1) * (A0 * B0) := by
        nth_rewrite 2 [h1]
        ring
      rw [this]
      exact mul_nonpos_of_nonneg_of_nonpos hpos.le hs0
    have h3 : A1 * B0 = 0 := mul_self_eq_zero.mp (le_antisymm h2 (mul_self_nonneg _))
    have hA1 : A1 ≠ 0 := by
      intro h
      rw [h] at hpos
      simp at hpos
    have hB1 : B1 ≠ 0 := by
      intro h
      rw [h] at hpos
      simp at hpos
    have hB0 : B0 = 0 := (mul_eq_zero.mp h3).resolve_left hA1
    have hA0 : A0 = 0 := by
      rw [h3] at h1
      exact (mul_eq_zero.mp h1.symm).resolve_right hB1
    exact hs0n ⟨hA0, hB0⟩
  rcases mul_nonpos_iff.mp hs0 with ⟨hA0, hB0⟩ | ⟨hA0, hB0⟩
  · rcases mul_nonneg_iff.mp hs1 with ⟨hA1, hB1⟩ | ⟨hA1, hB1⟩
    · -- 0 ≤ A0, B0 ≤ 0, 0 ≤ A1, 0 ≤ B1
      have hH1s : H1 < 0 := by
        have k1 := mul_nonneg hA1 (neg_nonneg.mpr hB0)
        have k2 := mul_nonneg hA0 hB1
        exact lt_of_le_of_ne (by linarith) hH1ne
      have hH0n : 0 ≤ H0 := by
        by_contra hc
        have := mul_pos_of_neg_of_neg (not_le.mp hc) hH1s
        linarith
      have hH2n : 0 ≤ H2 := by
        by_contra hc
        have := mul_pos_of_neg_of_neg hH1s (not_le.mp hc)
        linarith
      have hA2 : A2 < 0 := by
        rcases hneg with h | h | h
        · linarith
        · linarith
        · exact h
      have k3 : 0 ≤ A2 * B0 := mul_nonneg_of_nonpos_of_nonpos hA2.le hB0
      have k4 : A2 * B1 ≤ 0 := mul_nonpos_of_nonpos_of_nonneg hA2.le hB1
      by_cases hB2 : B2 < 0
      · have k5 : A0 * B2 ≤ 0 := mul_nonpos_of_nonneg_of_nonpos hA0 hB2.le
        have e := eq_zero_of_mul_sandwich (a := A2 * B0) (b := A0 * B2) (by linarith) k5 k3
        have hB00 : B0 = 0 := (mul_eq_zero.mp e.1).resolve_left hA2.ne
        have hA00 : A0 = 0 := (mul_eq_zero.mp e.2).resolve_right hB2.ne
        exact hs0n ⟨hA00, hB00⟩
      · have hB2n := not_lt.mp hB2
        have hB0neg : B0 < 0 := by
          rcases hF with h | h | h
          · exact h
          · linarith
          · linarith
        have k5 : 0 < A2 * B0 := mul_pos_of_neg_of_neg hA2 hB0neg
        have k6 : 0 < B2 := by
          by_contra hc
          have hz : B2 = 0 := le_antisymm (not_lt.mp hc) hB2n
          rw [hz] at hH0
          linarith
        have k7 : A1 * B2 ≤ 0 := by linarith
        have hA10 : A1 = 0 := by
          by_contra hc
          have hA1p : 0 < A1 := lt_of_le_of_ne hA1 (Ne.symm hc)
          have := mul_pos hA1p k6
          linarith
        have hB10 : B1 = 0 := by
          by_contra hc
          have hB1p : 0 < B1 := lt_of_le_of_ne hB1 (Ne.symm hc)
          have := mul_neg_of_neg_of_pos hA2 hB1p
          rw [hA10] at hH2
          linarith
        exact hH1ne (by rw [hH1, hA10, hB10]; ring)
    · -- 0 ≤ A0, B0 ≤ 0, A1 ≤ 0, B1 ≤ 0
      have hH1s : 0 < H1 := by
        have k1 := mul_nonneg_of_nonpos_of_nonpos hA1 hB0
        have k2 := mul_nonpos_of_nonneg_of_nonpos hA0 hB1
        exact lt_of_le_of_ne (by linarith) (Ne.symm hH1ne)
      have hH0n : H0 ≤ 0 := by
        by_contra hc
        have := mul_pos (not_le.mp hc) hH1s
        linarith
      have hH2n : H2 ≤ 0 := by
        by_contra hc
        have := mul_pos hH1s (not_le.mp hc)
        linarith
      have hB2 : 0 < B2 := by linarith
      have k1 : 0 ≤ A0 * B2 := mul_nonneg hA0 hB2.le
      have k2 : A1 * B2 ≤ 0 := mul_nonpos_of_nonpos_of_nonneg hA1 hB2.le
      rcases eq_or_lt_of_le hA0 with hA00 | hA0p
      · have hA2 : 0 < A2 := by linarith
        have hB0neg : B0 < 0 := by
          refine lt_of_le_of_ne hB0 ?_
          intro h
          exact hs0n ⟨hA00.symm, h⟩
        have := mul_neg_of_pos_of_neg hA2 hB0neg
        rw [← hA00] at hH0
        linarith
      · have k3 : 0 < A0 * B2 := mul_pos hA0p hB2
        have k4 : 0 < A2 * B0 := by linarith
        have hA2 : A2 < 0 := by
          by_contra hc
          have := mul_nonpos_of_nonneg_of_nonpos (not_lt.mp hc) hB0
          linarith
        have k5 : 0 ≤ A2 * B1 := mul_nonneg_of_nonpos_of_nonpos hA2.le hB1
        have e := eq_zero_of_mul_sandwich (a := A2 * B1) (b := A1 * B2) (by linarith) k2 k5
        have hB10 : B1 = 0 := (mul_eq_zero.mp e.1).resolve_left hA2.ne
        have hA10 : A1 = 0 := (mul_eq_zero.mp e.2).resolve_right hB2.ne'
        exact hH1ne (by rw [hH1, hA10, hB10]; ring)
  · rcases mul_nonneg_iff.mp hs1 with ⟨hA1, hB1⟩ | ⟨hA1, hB1⟩
    · -- A0 ≤ 0, 0 ≤ B0, 0 ≤ A1, 0 ≤ B1
      have hH1s : 0 < H1 := by
        have k1 := mul_nonneg hA1 hB0
        have k2 := mul_nonpos_of_nonpos_of_nonneg hA0 hB1
        exact lt_of_le_of_ne (by linarith) (Ne.symm hH1ne)
      have hH0n : H0 ≤ 0 := by
        by_contra hc
        have := mul_pos (not_le.mp hc) hH1s
        linarith
      have hH2n : H2 ≤ 0 := by
        by_contra hc
        have := mul_pos hH1s (not_le.mp hc)
        linarith
      have hB2 : B2 < 0 := by
        rcases hF with h | h | h
        · linarith
        · linarith
        · exact h
      rcases eq_or_lt_of_le hA0 with hA00 | hA0n
      · have hB0p : 0 < B0 := by
          refine lt_of_le_of_ne hB0 ?_
          intro h
          exact hs0n ⟨hA00, h.symm⟩
        have hA2 : A2 < 0 := by
          rcases hneg with h | h | h
          · linarith
          · linarith
          · exact h
        have := mul_neg_of_neg_of_pos hA2 hB0p
        rw [hA00] at hH0
        linarith
      · have k1 : 0 < A0 * B2 := mul_pos_of_neg_of_neg hA0n hB2
        have k2 : 0 < A2 * B0 := by linarith
        have hA2 : 0 < A2 := by
          by_contra hc
          have := mul_nonpos_of_nonpos_of_nonneg (not_lt.mp hc) hB0
          linarith
        have k3 : 0 ≤ A2 * B1 := mul_nonneg hA2.le hB1
        have k4 : A1 * B2 ≤ 0 := mul_nonpos_of_nonneg_of_nonpos hA1 hB2.le
        have e := eq_zero_of_mul_sandwich (a := A2 * B1) (b := A1 * B2) (by linarith) k4 k3
        have hB10 : B1 = 0 := (mul_eq_zero.mp e.1).resolve_left hA2.ne'
        have hA10 : A1 = 0 := (mul_eq_zero.mp e.2).resolve_right hB2.ne
        exact hH1ne (by rw [hH1, hA10, hB10]; ring)
    · -- A0 ≤ 0, 0 ≤ B0, A1 ≤ 0, B1 ≤ 0
      have hH1s : H1 < 0 := by
        have k1 := mul_nonpos_of_nonpos_of_nonneg hA1 hB0
        have k2 := mul_nonneg_of_nonpos_of_nonpos hA0 hB1
        exact lt_of_le_of_ne (by linarith) hH1ne
      have hH0n : 0 ≤ H0 := by
        by_contra hc
        have := mul_pos_of_neg_of_neg (not_le.mp hc) hH1s
        linarith
      have hH2n : 0 ≤ H2 := by
        by_contra hc
        have := mul_pos_of_neg_of_neg hH1s (not_le.mp hc)
        linarith
      have hA2 : 0 < A2 := by linarith
      have k1 : 0 ≤ A2 * B0 := mul_nonneg hA2.le hB0
      have k2 : A2 * B1 ≤ 0 := mul_nonpos_of_nonneg_of_nonpos hA2.le hB1
      rcases eq_or_lt_of_le hA0 with hA00 | hA0n
      · have hB0p : 0 < B0 := by
          refine lt_of_le_of_ne hB0 ?_
          intro h
          exact hs0n ⟨hA00, h.symm⟩
        have := mul_pos hA2 hB0p
        rw [hA00] at hH0
        linarith
      · have hB2 : B2 ≤ 0 := by
          by_contra hc
          have := mul_neg_of_neg_of_pos hA0n (not_le.mp hc)
          linarith
        have hB0p : 0 < B0 := by linarith
        have k3 : 0 < A2 * B0 := mul_pos hA2 hB0p
        have hB2n : B2 < 0 := by
          refine lt_of_le_of_ne hB2 ?_
          intro h
          rw [h] at hH0
          linarith
        have k4 : 0 ≤ A1 * B2 := mul_nonneg_of_nonpos_of_nonpos hA1 hB2
        have e := eq_zero_of_mul_sandwich (a := A1 * B2) (b := A2 * B1) (by linarith) k2 k4
        have hA10 : A1 = 0 := (mul_eq_zero.mp e.1).resolve_right hB2n.ne
        have hB10 : B1 = 0 := (mul_eq_zero.mp e.2).resolve_left hA2.ne'
        exact hH1ne (by rw [hH1, hA10, hB10]; ring)

/-- One vertex alone on its side of the line through the two points: the two edges at
the vertex are the ones the line meets, and exactly one of them separates the two points
if and only if the first point is inside. -/
theorem tri_alone {A0 A1 A2 B0 B1 B2 H0 H1 H2 : ℚ} {S0 S1 : Prop}
    (hH0 : H0 = A0 * B2 - A2 * B0) (hH1 : H1 = A1 * B0 - A0 * B1)
    (hH2 : H2 = A2 * B1 - A1 * B2)
    (hA : 0 < A0 + A1 + A2) (hB : 0 < B0 + B1 + B2)
    (hout : ¬ (0 < A0 ∧ 0 < A1 ∧ 0 < A2) → A0 < 0 ∨ A1 < 0 ∨ A2 < 0)
    (hF : B0 < 0 ∨ B1 < 0 ∨ B2 < 0)
    (hV1 : ¬ (H1 = 0 ∧ A0 * B0 ≤ 0 ∧ A1 * B1 ≤ 0))
    (fS0 : S0 → A0 * B0 ≤ 0 ∧ ¬ (A0 = 0 ∧ B0 = 0)) (gS0 : ¬ S0 → 0 ≤ A0 * B0)
    (fS1 : S1 → A1 * B1 ≤ 0 ∧ ¬ (A1 = 0 ∧ B1 = 0)) (gS1 : ¬ S1 → 0 ≤ A1 * B1)
    (hd01 : H0 * H1 ≤ 0) (hd12 : H1 * H2 ≤ 0) (hd20 : 0 ≤ H2 * H0) :
    ((S0 ∧ ¬ S1) ∨ (¬ S0 ∧ S1)) ↔ (0 < A0 ∧ 0 < A1 ∧ 0 < A2) := by
  by_cases hin : 0 < A0 ∧ 0 < A1 ∧ 0 < A2
  · obtain ⟨hA0, hA1, hA2⟩ := hin
    refine ⟨fun _ => ⟨hA0, hA1, hA2⟩, fun _ => ?_⟩
    by_cases h0 : S0
    · by_cases h1 : S1
      · exfalso
        have hB0 : B0 ≤ 0 := by
          by_contra hc
          have := mul_pos hA0 (not_le.mp hc)
          linarith [(fS0 h0).1]
        have hB1 : B1 ≤ 0 := by
          by_contra hc
          have := mul_pos hA1 (not_le.mp hc)
          linarith [(fS1 h1).1]
        have hB2 : 0 < B2 := by linarith
        have k1 : 0 < H0 := by
          have := mul_pos hA0 hB2
          have := mul_nonpos_of_nonneg_of_nonpos hA2.le hB0
          linarith
        have k2 : H2 < 0 := by
          have := mul_pos hA1 hB2
          have := mul_nonpos_of_nonneg_of_nonpos hA2.le hB1
          linarith
        have := mul_neg_of_neg_of_pos k2 k1
        linarith
      · exact Or.inl ⟨h0, h1⟩
    · by_cases h1 : S1
      · exact Or.inr ⟨h0, h1⟩
      · exfalso
        have hB0 : 0 ≤ B0 := by
          by_contra hc
          have := mul_neg_of_pos_of_neg hA0 (not_le.mp hc)
          linarith [gS0 h0]
        have hB1 : 0 ≤ B1 := by
          by_contra hc
          have := mul_neg_of_pos_of_neg hA1 (not_le.mp hc)
          linarith [gS1 h1]
        have hB2 : B2 < 0 := by
          rcases hF with h | h | h
          · linarith
          · linarith
          · exact h
        have k1 : H0 < 0 := by
          have := mul_neg_of_pos_of_neg hA0 hB2
          have := mul_nonneg hA2.le hB0
          linarith
        have k2 : 0 < H2 := by
          have := mul_neg_of_pos_of_neg hA1 hB2
          have := mul_nonneg hA2.le hB1
          linarith
        have := mul_neg_of_pos_of_neg k2 k1
        linarith
  · have hneg := hout hin
    refine ⟨fun h => ?_, fun h => absurd h hin⟩
    exfalso
    rcases h with ⟨h0, h1⟩ | ⟨h0, h1⟩
    · exact tri_core hH0 hH1 hH2 hA hB hneg hF hV1 (fS0 h0).1 (fS0 h0).2 (gS1 h1) hd01 hd12
    · have hH0m : -H2 = A1 * B2 - A2 * B1 := by rw [hH2]; ring
      have hH1m : -H1 = A0 * B1 - A1 * B0 := by rw [hH1]; ring
      have hH2m : -H0 = A2 * B0 - A0 * B2 := by rw [hH0]; ring
      refine @tri_core A1 A0 A2 B1 B0 B2 (-H2) (-H1) (-H0)
        hH0m hH1m hH2m (by linarith) (by linarith) ?_ ?_ ?_ (fS1 h1).1 (fS1 h1).2 (gS0 h0)
        (by linarith) (by linarith)
      · rcases hneg with h | h | h
        · exact Or.inr (Or.inl h)
        · exact Or.inl h
        · exact Or.inr (Or.inr h)
      · rcases hF with h | h | h
        · exact Or.inr (Or.inl h)
        · exact Or.inl h
        · exact Or.inr (Or.inr h)
      · rintro ⟨e1, e2, e3⟩
        exact hV1 ⟨by linarith, e3, e2⟩

/-- All three vertices on one side of the line through the two points: the first point
is not inside. -/
theorem tri_none {A0 A1 A2 B0 B1 B2 H0 H1 H2 : ℚ}
    (hH0 : H0 = A0 * B2 - A2 * B0) (hH1 : H1 = A1 * B0 - A0 * B1)
    (hH2 : H2 = A2 * B1 - A1 * B2) (hB : 0 < B0 + B1 + B2)
    (hF : B0 < 0 ∨ B1 < 0 ∨ B2 < 0)
    (hd01 : 0 ≤ H0 * H1) (hd12 : 0 ≤ H1 * H2) (hd20 : 0 ≤ H2 * H0) :
    ¬ (0 < A0 ∧ 0 < A1 ∧ 0 < A2) := by
  rintro ⟨hA0, hA1, hA2⟩
  -- a negative and a positive orientation of the far point, at edges `i` and `j`, make
  -- the vertex between them and the next one lie on opposite sides
  have key : ∀ {Ai Aj Ak Bi Bj Bk Hi Hj Hk : ℚ}, Hi = Ai * Bk - Ak * Bi →
      Hj = Aj * Bi - Ai * Bj → Hk = Ak * Bj - Aj * Bk → 0 < Ai → 0 < Aj → 0 < Ak →
      0 < Bi + Bj + Bk → Bi < 0 → 0 ≤ Hi * Hj → 0 ≤ Hj * Hk → 0 ≤ Hk * Hi → False := by
    intro Ai Aj Ak Bi Bj Bk Hi Hj Hk hi hj hk hAi hAj hAk hs hBi d1 d2 d3
    by_cases hBj : 0 ≤ Bj
    · have k1 : Hj < 0 := by
        have := mul_neg_of_pos_of_neg hAj hBi
        have := mul_nonneg hAi.le hBj
        linarith
      have k2 : Hi ≤ 0 := by
        by_contra hc
        have := mul_neg_of_pos_of_neg (not_le.mp hc) k1
        linarith
      have k3 : Bk < 0 := by
        by_contra hc
        have := mul_nonneg hAi.le (not_lt.mp hc)
        have := mul_neg_of_pos_of_neg hAk hBi
        linarith
      have k4 : 0 < Hk := by
        have := mul_nonneg hAk.le hBj
        have := mul_neg_of_pos_of_neg hAj k3
        linarith
      have := mul_neg_of_neg_of_pos k1 k4
      linarith
    · have hBj1 := not_le.mp hBj
      have hBk : 0 < Bk := by linarith
      have k1 : 0 < Hi := by
        have := mul_pos hAi hBk
        have := mul_neg_of_pos_of_neg hAk hBi
        linarith
      have k2 : Hk < 0 := by
        have := mul_neg_of_pos_of_neg hAk hBj1
        have := mul_pos hAj hBk
        linarith
      have := mul_neg_of_neg_of_pos k2 k1
      linarith
  rcases hF with h | h | h
  · exact key hH0 hH1 hH2 hA0 hA1 hA2 hB h hd01 hd12 hd20
  · exact @key A1 A2 A0 B1 B2 B0 H1 H2 H0 hH1 hH2 hH0 hA1 hA2 hA0 (by linarith) h
      hd12 hd20 hd01
  · exact @key A2 A0 A1 B2 B0 B1 H2 H0 H1 hH2 hH0 hH1 hA2 hA0 hA1 (by linarith) h
      hd20 hd01 hd12

theorem par_alone1 {S0 S1 S2 D01 D12 D20 : Prop} (d1 : D01) (d2 : D12) (d3 : ¬ D20) :
    (((D01 ∧ S0) ∧ ¬ (D12 ∧ S1) ∧ ¬ (D20 ∧ S2)) ∨
      (¬ (D01 ∧ S0) ∧ (D12 ∧ S1) ∧ ¬ (D20 ∧ S2)) ∨
      (¬ (D01 ∧ S0) ∧ ¬ (D12 ∧ S1) ∧ (D20 ∧ S2)) ∨
      ((D01 ∧ S0) ∧ (D12 ∧ S1) ∧ (D20 ∧ S2))) ↔ ((S0 ∧ ¬ S1) ∨ (¬ S0 ∧ S1)) := by
  tauto

theorem par_alone2 {S0 S1 S2 D01 D12 D20 : Prop} (d2 : D12) (d3 : D20) (d1 : ¬ D01) :
    (((D01 ∧ S0) ∧ ¬ (D12 ∧ S1) ∧ ¬ (D20 ∧ S2)) ∨
      (¬ (D01 ∧ S0) ∧ (D12 ∧ S1) ∧ ¬ (D20 ∧ S2)) ∨
      (¬ (D01 ∧ S0) ∧ ¬ (D12 ∧ S1) ∧ (D20 ∧ S2)) ∨
      ((D01 ∧ S0) ∧ (D12 ∧ S1) ∧ (D20 ∧ S2))) ↔ ((S1 ∧ ¬ S2) ∨ (¬ S1 ∧ S2)) := by
  tauto

theorem par_alone0 {S0 S1 S2 D01 D12 D20 : Prop} (d3 : D20) (d1 : D01) (d2 : ¬ D12) :
    (((D01 ∧ S0) ∧ ¬ (D12 ∧ S1) ∧ ¬ (D20 ∧ S2)) ∨
      (¬ (D01 ∧ S0) ∧ (D12 ∧ S1) ∧ ¬ (D20 ∧ S2)) ∨
      (¬ (D01 ∧ S0) ∧ ¬ (D12 ∧ S1) ∧ (D20 ∧ S2)) ∨
      ((D01 ∧ S0) ∧ (D12 ∧ S1) ∧ (D20 ∧ S2))) ↔ ((S2 ∧ ¬ S0) ∨ (¬ S2 ∧ S0)) := by
  tauto

theorem par_none {S0 S1 S2 D01 D12 D20 : Prop} (d1 : ¬ D01) (d2 : ¬ D12) (d3 : ¬ D20) :
    ¬ (((D01 ∧ S0) ∧ ¬ (D12 ∧ S1) ∧ ¬ (D20 ∧ S2)) ∨
      (¬ (D01 ∧ S0) ∧ (D12 ∧ S1) ∧ ¬ (D20 ∧ S2)) ∨
      (¬ (D01 ∧ S0) ∧ ¬ (D12 ∧ S1) ∧ (D20 ∧ S2)) ∨
      ((D01 ∧ S0) ∧ (D12 ∧ S1) ∧ (D20 ∧ S2))) := by
  tauto

/-- The parity of the edges counted by the ray-casting test, in signs: an edge counts
when its two vertices lie on different sides of the line through the two points (`D`)
and the two points lie on different sides of the edge (`S`); an odd number of edges
count if and only if the first point is inside. -/
theorem tri_parity {A0 A1 A2 B0 B1 B2 H0 H1 H2 : ℚ} {S0 S1 S2 D01 D12 D20 : Prop}
    (hH0 : H0 = A0 * B2 - A2 * B0) (hH1 : H1 = A1 * B0 - A0 * B1)
    (hH2 : H2 = A2 * B1 - A1 * B2)
    (hA : 0 < A0 + A1 + A2) (hB : 0 < B0 + B1 + B2)
    (hout : ¬ (0 < A0 ∧ 0 < A1 ∧ 0 < A2) → A0 < 0 ∨ A1 < 0 ∨ A2 < 0)
    (hF : B0 < 0 ∨ B1 < 0 ∨ B2 < 0)
    (hV0 : ¬ (H0 = 0 ∧ A2 * B2 ≤ 0 ∧ A0 * B0 ≤ 0))
    (hV1 : ¬ (H1 = 0 ∧ A0 * B0 ≤ 0 ∧ A1 * B1 ≤ 0))
    (hV2 : ¬ (H2 = 0 ∧ A1 * B1 ≤ 0 ∧ A2 * B2 ≤ 0))
    (fS0 : S0 → A0 * B0 ≤ 0 ∧ ¬ (A0 = 0 ∧ B0 = 0)) (gS0 : ¬ S0 → 0 ≤ A0 * B0)
    (fS1 : S1 → A1 * B1 ≤ 0 ∧ ¬ (A1 = 0 ∧ B1 = 0)) (gS1 : ¬ S1 → 0 ≤ A1 * B1)
    (fS2 : S2 → A2 * B2 ≤ 0 ∧ ¬ (A2 = 0 ∧ B2 = 0)) (gS2 : ¬ S2 → 0 ≤ A2 * B2)
    (fD01 : D01 → H0 * H1 ≤ 0) (gD01 : ¬ D01 → 0 ≤ H0 * H1)
    (fD12 : D12 → H1 * H2 ≤ 0) (gD12 : ¬ D12 → 0 ≤ H1 * H2)
    (fD20 : D20 → H2 * H0 ≤ 0) (gD20 : ¬ D20 → 0 ≤ H2 * H0)
    (hD : (D01 ∧ D12 ∧ ¬ D20) ∨ (D12 ∧ D20 ∧ ¬ D01) ∨ (D20 ∧ D01 ∧ ¬ D12) ∨
      (¬ D01 ∧ ¬ D12 ∧ ¬ D20)) :
    (((D01 ∧ S0) ∧ ¬ (D12 ∧ S1) ∧ ¬ (D20 ∧ S2)) ∨
      (¬ (D01 ∧ S0) ∧ (D12 ∧ S1) ∧ ¬ (D20 ∧ S2)) ∨
      (¬ (D01 ∧ S0) ∧ ¬ (D12 ∧ S1) ∧ (D20 ∧ S2)) ∨
      ((D01 ∧ S0) ∧ (D12 ∧ S1) ∧ (D20 ∧ S2))) ↔ (0 < A0 ∧ 0 < A1 ∧ 0 < A2) := by
  rcases hD with ⟨d1, d2, d3⟩ | ⟨d2, d3, d1⟩ | ⟨d3, d1, d2⟩ | ⟨d1, d2, d3⟩
  · exact (par_alone1 d1 d2 d3).trans
      (tri_alone hH0 hH1 hH2 hA hB hout hF hV1 fS0 gS0 fS1 gS1 (fD01 d1) (fD12 d2)
        (gD20 d3))
  · have hout1 : ¬ (0 < A1 ∧ 0 < A2 ∧ 0 < A0) → A1 < 0 ∨ A2 < 0 ∨ A0 < 0 := by
      intro h
      rcases hout (fun hc => h ⟨hc.2.1, hc.2.2, hc.1⟩) with k | k | k
      · exact Or.inr (Or.inr k)
      · exact Or.inl k
      · exact Or.inr (Or.inl k)
    have hF1 : B1 < 0 ∨ B2 < 0 ∨ B0 < 0 := by
      rcases hF with k | k | k
      · exact Or.inr (Or.inr k)
      · exact Or.inl k
      · exact Or.inr (Or.inl k)
    have h := @tri_alone A1 A2 A0 B1 B2 B0 H1 H2 H0 S1 S2
      hH1 hH2 hH0 (by linarith) (by linarith) hout1 hF1 hV2 fS1 gS1 fS2 gS2 (fD12 d2)
      (fD20 d3) (gD01 d1)
    exact ((par_alone2 d2 d3 d1).trans h).trans
      ⟨fun hc => ⟨hc.2.2, hc.1, hc.2.1⟩, fun hc => ⟨hc.2.1, hc.2.2, hc.1⟩⟩
  · have hout1 : ¬ (0 < A2 ∧ 0 < A0 ∧ 0 < A1) → A2 < 0 ∨ A0 < 0 ∨ A1 < 0 := by
      intro h
      rcases hout (fun hc => h ⟨hc.2.2, hc.1, hc.2.1⟩) with k | k | k
      · exact Or.inr (Or.inl k)
      · exact Or.inr (Or.inr k)
      · exact Or.inl k
    have hF1 : B2 < 0 ∨ B0 < 0 ∨ B1 < 0 := by
      rcases hF with k | k | k
      · exact Or.inr (Or.inl k)
      · exact Or.inr (Or.inr k)
      · exact Or.inl k
    have h := @tri_alone A2 A0 A1 B2 B0 B1 H2 H0 H1 S2 S0
      hH2 hH0 hH1 (by linarith) (by linarith) hout1 hF1 hV0 fS2 gS2 fS0 gS0 (fD20 d3)
      (fD01 d1) (gD12 d2)
    exact ((par_alone0 d3 d1 d2).trans h).trans
      ⟨fun hc => ⟨hc.2.1, hc.2.2, hc.1⟩, fun hc => ⟨hc.2.2, hc.1, hc.2.1⟩⟩
  · have h := tri_none hH0 hH1 hH2 hB hF (gD01 d1) (gD12 d2) (gD20 d3)
    exact ⟨fun hc => absurd hc (par_none d1 d2 d3), fun hc => absurd hc h⟩

/-! ### The orientations of a point relative to the edges of a triangle -/

theorem ccw_iff_orient (A B C : v2) :
    Line_segment.__ccw__ A B C = true ↔ 0 < orient A B C :=
  Line_segment.ccw_iff A B C

theorem orient_rot (p0 p1 p2 : v2) : orient p1 p2 p0 = orient p0 p1 p2 := by
  simp only [orient, v2.cross, GJK.sub_x, GJK.sub_y]
  ring

theorem orient_sum (p0 p1 p2 q : v2) :
    orient p0 p1 q + orient p1 p2 q + orient p2 p0 q = orient p0 p1 p2 := by
  simp only [orient, v2.cross, GJK.sub_x, GJK.sub_y]
  ring

theorem orient_bary_x (p0 p1 p2 q : v2) :
    orient p0 p1 p2 * q.x =
      orient p1 p2 q * p0.x + orient p2 p0 q * p1.x + orient p0 p1 q * p2.x := by
  simp only [orient, v2.cross, GJK.sub_x, GJK.sub_y]
  ring

theorem orient_bary_y (p0 p1 p2 q : v2) :
    orient p0 p1 p2 * q.y =
      orient p1 p2 q * p0.y + orient p2 p0 q * p1.y + orient p0 p1 q * p2.y := by
  simp only [orient, v2.cross, GJK.sub_x, GJK.sub_y]
  ring

/-- The side of the vertex `p1` relative to the line through `q` and `f`, from the
orientations of `q` and `f` relative to the two edges at `p1`. -/
theorem orient_side (p0 p1 p2 q f : v2) :
    orient p0 p1 p2 * orient p1 q f =
      -(orient p1 p2 q * orient p0 p1 f - orient p0 p1 q * orient p1 p2 f) := by
  simp only [orient, v2.cross, GJK.sub_x, GJK.sub_y]
  ring

/-- The orientation relative to an edge is affine along a segment. -/
theorem orient_seg (a b q f : v2) (t : ℚ) :
    orient a b (q + (f - q) * t) = orient a b q + t * (orient a b f - orient a b q) := by
  simp only [orient, v2.cross, GJK.sub_x, GJK.sub_y, GJK.add_x, GJK.add_y, GJK.mul_x,
    GJK.mul_y]
  ring

/-- The orientations of a combination of the vertices are its weights, scaled. -/
theorem orient_comb (p0 p1 p2 : v2) (l0 l1 l2 : ℚ) (hl : l0 + l1 + l2 = 1) :
    orient p0 p1 (p0 * l0 + p1 * l1 + p2 * l2) = l2 * orient p0 p1 p2 ∧
    orient p1 p2 (p0 * l0 + p1 * l1 + p2 * l2) = l0 * orient p0 p1 p2 ∧
    orient p2 p0 (p0 * l0 + p1 * l1 + p2 * l2) = l1 * orient p0 p1 p2 := by
  have h0 : l0 = 1 - l1 - l2 := by linarith
  simp only [orient, v2.cross, GJK.sub_x, GJK.sub_y, GJK.add_x, GJK.add_y, GJK.mul_x,
    GJK.mul_y, h0]
  refine ⟨by ring, by ring, by ring⟩

/-- A point is the combination of the vertices weighted by its orientations. -/
theorem comb_of_orient (p0 p1 p2 q : v2) (hT : orient p0 p1 p2 ≠ 0) :
    orient p1 p2 q / orient p0 p1 p2 + orient p2 p0 q / orient p0 p1 p2 +
      orient p0 p1 q / orient p0 p1 p2 = 1 ∧
    q = p0 * (orient p1 p2 q / orient p0 p1 p2) + p1 * (orient p2 p0 q / orient p0 p1 p2) +
      p2 * (orient p0 p1 q / orient p0 p1 p2) := by
  constructor
  · rw [← add_div, ← add_div, div_eq_one_iff_eq hT]
    have := orient_sum p0 p1 p2 q
    linarith
  · apply GJK.v2_ext
    · simp only [GJK.add_x, GJK.mul_x]
      have := orient_bary_x p0 p1 p2 q
      field_simp
      linarith
    · simp only [GJK.add_y, GJK.mul_y]
      have := orient_bary_y p0 p1 p2 q
      field_simp
      linarith

theorem div_pos_of_mul_pos {T a : ℚ} (h : 0 < T * a) : 0 < a / T := by
  have hT : T ≠ 0 := by
    intro h0
    rw [h0] at h
    simp at h
  have : a / T = (T * a) / (T * T) := by
    field_simp
    ring
  rw [this]
  exact div_pos h (mul_self_pos.mpr hT)

theorem div_nonneg_of_mul_nonneg {T a : ℚ} (h : 0 ≤ T * a) : 0 ≤ a / T := by
  by_cases hT : T = 0
  · rw [hT]
    simp
  · have : a / T = (T * a) / (T * T) := by
      field_simp
      ring
    rw [this]
    exact div_nonneg h (mul_self_nonneg T)

/-- Strictly inside, in orientations: each has the sign of the orientation of the
triangle. -/
theorem strictly_in_triangle_iff (p0 p1 p2 q : v2) (hT : orient p0 p1 p2 ≠ 0) :
    strictly_in_triangle p0 p1 p2 q ↔
      (0 < orient p0 p1 p2 * orient p0 p1 q ∧ 0 < orient p0 p1 p2 * orient p1 p2 q ∧
        0 < orient p0 p1 p2 * orient p2 p0 q) := by
  have hTT : 0 < orient p0 p1 p2 * orient p0 p1 p2 := mul_self_pos.mpr hT
  constructor
  · rintro ⟨l0, l1, l2, h0, h1, h2, hs, hq⟩
    obtain ⟨e0, e1, e2⟩ := orient_comb p0 p1 p2 l0 l1 l2 hs
    rw [hq, e0, e1, e2]
    refine ⟨?_, ?_, ?_⟩
    · have := mul_pos h2 hTT
      linarith
    · have := mul_pos h0 hTT
      linarith
    · have := mul_pos h1 hTT
      linarith
  · rintro ⟨h0, h1, h2⟩
    obtain ⟨hs, hq⟩ := comb_of_orient p0 p1 p2 q hT
    exact ⟨_, _, _, div_pos_of_mul_pos h1, div_pos_of_mul_pos h2, div_pos_of_mul_pos h0,
      hs, hq⟩

/-- A point none of whose orientations opposes the triangle lies in the triangle. -/
theorem in_triangle_of_orient (p0 p1 p2 q : v2) (hT : orient p0 p1 p2 ≠ 0)
    (h0 : 0 ≤ orient p0 p1 p2 * orient p0 p1 q)
    (h1 : 0 ≤ orient p0 p1 p2 * orient p1 p2 q)
    (h2 : 0 ≤ orient p0 p1 p2 * orient p2 p0 q) : in_triangle p0 p1 p2 q := by
  obtain ⟨hs, hq⟩ := comb_of_orient p0 p1 p2 q hT
  exact ⟨_, _, _, div_nonneg_of_mul_nonneg h1, div_nonneg_of_mul_nonneg h2,
    div_nonneg_of_mul_nonneg h0, hs, hq⟩

/-- A point on the line of the edge `p0 p1` that neither of the other two orientations
puts outside lies on the edge. -/
theorem on_seg_of_orient (p0 p1 p2 q : v2) (hT : orient p0 p1 p2 ≠ 0)
    (h0 : orient p0 p1 q = 0)
    (h1 : 0 ≤ orient p0 p1 p2 * orient p1 p2 q)
    (h2 : 0 ≤ orient p0 p1 p2 * orient p2 p0 q) : on_seg p0 p1 q := by
  obtain ⟨hs, hq⟩ := comb_of_orient p0 p1 p2 q hT
  rw [h0, zero_div] at hs hq
  have k1 := div_nonneg_of_mul_nonneg h1
  have k2 := div_nonneg_of_mul_nonneg h2
  refine ⟨orient p2 p0 q / orient p0 p1 p2, k2, by linarith, ?_⟩
  have e : orient p1 p2 q / orient p0 p1 p2 = 1 - orient p2 p0 q / orient p0 p1 p2 := by
    linarith
  rw [e] at hq
  nth_rewrite 1 [hq]
  apply GJK.v2_ext
  · simp only [GJK.add_x, GJK.mul_x, GJK.sub_x]
    ring
  · simp only [GJK.add_y, GJK.mul_y, GJK.sub_y]
    ring

/-- A point on the lines of both edges at `p1` is `p1`. -/
theorem eq_vertex_of_orient (p0 p1 p2 x : v2) (hT : orient p0 p1 p2 ≠ 0)
    (h0 : orient p0 p1 x = 0) (h1 : orient p1 p2 x = 0) : x = p1 := by
  have hs := orient_sum p0 p1 p2 x
  rw [h0, h1] at hs
  have hx := orient_bary_x p0 p1 p2 x
  have hy := orient_bary_y p0 p1 p2 x
  rw [h0, h1] at hx hy
  have e2 : orient p2 p0 x = orient p0 p1 p2 := by linarith
  rw [e2] at hx hy
  apply GJK.v2_ext
  · apply mul_left_cancel₀ hT
    linarith
  · apply mul_left_cancel₀ hT
    linarith

/-- The vertex `p1` lies on the segment from `q` to `f` when it lies on the line
through them and neither edge at `p1` has `q` and `f` strictly on one side. -/
theorem vertex_on_seg (p0 p1 p2 q f : v2) (hT : orient p0 p1 p2 ≠ 0)
    (hH : orient p1 p2 q * orient p0 p1 f - orient p0 p1 q * orient p1 p2 f = 0)
    (h0 : orient p0 p1 q * orient p0 p1 f ≤ 0)
    (h1 : orient p1 p2 q * orient p1 p2 f ≤ 0) : on_seg q f p1 := by
  -- a parameter `t` in `[0, 1]` at which both orientations vanish
  have key : ∃ t : ℚ, 0 ≤ t ∧ t ≤ 1 ∧
      orient p0 p1 q + t * (orient p0 p1 f - orient p0 p1 q) = 0 ∧
      orient p1 p2 q + t * (orient p1 p2 f - orient p1 p2 q) = 0 := by
    have param : ∀ a b c d : ℚ, c * b - a * d = 0 → a * b ≤ 0 → a ≠ b →
        ∃ t : ℚ, 0 ≤ t ∧ t ≤ 1 ∧ a + t * (b - a) = 0 ∧ c + t * (d - c) = 0 := by
      intro a b c d hdet hab hne
      have hd : a - b ≠ 0 := sub_ne_zero.mpr hne
      have hpos : 0 < (a - b) * (a - b) := mul_self_pos.mpr hd
      have e : a / (a - b) = (a * (a - b)) / ((a - b) * (a - b)) := by
        field_simp
        ring
      refine ⟨a / (a - b), ?_, ?_, ?_, ?_⟩
      · rw [e]
        apply div_nonneg _ hpos.le
        nlinarith [mul_self_nonneg a]
      · rw [e, div_le_one hpos]
        nlinarith [mul_self_nonneg b]
      · field_simp
        ring
      · field_simp
        linear_combination -hdet
    by_cases hne0 : orient p0 p1 q = orient p0 p1 f
    · by_cases hne1 : orient p1 p2 q = orient p1 p2 f
      · refine ⟨0, le_refl 0, zero_le_one, ?_, ?_⟩
        · rw [← hne0] at h0
          have := mul_self_nonneg (orient p0 p1 q)
          have hz : orient p0 p1 q * orient p0 p1 q = 0 := le_antisymm h0 this
          rw [zero_mul, add_zero]
          exact mul_self_eq_zero.mp hz
        · rw [← hne1] at h1
          have := mul_self_nonneg (orient p1 p2 q)
          have hz : orient p1 p2 q * orient p1 p2 q = 0 := le_antisymm h1 this
          rw [zero_mul, add_zero]
          exact mul_self_eq_zero.mp hz
      · obtain ⟨t, ht0, ht1, e1, e0⟩ := param (orient p1 p2 q) (orient p1 p2 f)
          (orient p0 p1 q) (orient p0 p1 f) (by linarith) h1 hne1
        exact ⟨t, ht0, ht1, e0, e1⟩
    · exact param (orient p0 p1 q) (orient p0 p1 f) (orient p1 p2 q) (orient p1 p2 f)
        hH h0 hne0
  obtain ⟨t, ht0, ht1, e0, e1⟩ := key
  refine ⟨t, ht0, ht1, ?_⟩
  exact (eq_vertex_of_orient p0 p1 p2 (q + (f - q) * t) hT
    (by rw [orient_seg]; exact e0) (by rw [orient_seg]; exact e1)).symm

/-! ### `contains` on a triangle -/

/-- Two strict sign tests that disagree belong to numbers of opposite weak signs, not both
zero; two that agree belong to numbers whose product is not negative. The scale `c` is
any non-zero number. -/
theorem sign_of_bne {u v : Bool} {a b c : ℚ} (hu : u = true ↔ 0 < a) (hv : v = true ↔ 0 < b)
    (hc : c ≠ 0) :
    (u ≠ v → (c * a) * (c * b) ≤ 0 ∧ ¬ (c * a = 0 ∧ c * b = 0)) ∧
    (¬ u ≠ v → 0 ≤ (c * a) * (c * b)) := by
  have hcc : 0 < c * c := mul_self_pos.mpr hc
  have e : (c * a) * (c * b) = (c * c) * (a * b) := by ring
  rw [e]
  cases u with
  | true =>
    have ha : 0 < a := hu.mp rfl
    cases v with
    | true =>
      have hb : 0 < b := hv.mp rfl
      refine ⟨fun h => absurd rfl h, fun _ => ?_⟩
      exact mul_nonneg hcc.le (mul_nonneg ha.le hb.le)
    | false =>
      have hb : b ≤ 0 := by
        by_contra h
        exact absurd (hv.mpr (not_le.mp h)) (by simp)
      refine ⟨fun _ => ⟨?_, ?_⟩, fun h => absurd (by simp) h⟩
      · exact mul_nonpos_of_nonneg_of_nonpos hcc.le (mul_nonpos_of_nonneg_of_nonpos ha.le hb)
      · rintro ⟨h1, _⟩
        rcases mul_eq_zero.mp h1 with h | h
        · exact hc h
        · linarith
  | false =>
    have ha : a ≤ 0 := by
      by_contra h
      exact absurd (hu.mpr (not_le.mp h)) (by simp)
    cases v with
    | true =>
      have hb : 0 < b := hv.mp rfl
      refine ⟨fun _ => ⟨?_, ?_⟩, fun h => absurd (by simp) h⟩
      · exact mul_nonpos_of_nonneg_of_nonpos hcc.le (mul_nonpos_of_nonpos_of_nonneg ha hb.le)
      · rintro ⟨_, h1⟩
        rcases mul_eq_zero.mp h1 with h | h
        · exact hc h
        · linarith
    | false =>
      have hb : b ≤ 0 := by
        by_contra h
        exact absurd (hv.mpr (not_le.mp h)) (by simp)
      refine ⟨fun h => absurd rfl h, fun _ => ?_⟩
      exact mul_nonneg hcc.le (mul_nonneg_of_nonpos_of_nonpos ha hb)

theorem bne_cycle (x0 x1 x2 : Bool) :
    (x0 ≠ x1 ∧ x1 ≠ x2 ∧ ¬ x2 ≠ x0) ∨ (x1 ≠ x2 ∧ x2 ≠ x0 ∧ ¬ x0 ≠ x1) ∨
      (x2 ≠ x0 ∧ x0 ≠ x1 ∧ ¬ x1 ≠ x2) ∨ (¬ x0 ≠ x1 ∧ ¬ x1 ≠ x2 ∧ ¬ x2 ≠ x0) := by
  cases x0 <;> cases x1 <;> cases x2 <;> simp

theorem edges_three (p0 p1 p2 : v2) :
    (Polygon.mk [p0, p1, p2]).edges =
      [Line_segment.mk p0 p1, Line_segment.mk p1 p2, Line_segment.mk p2 p0] := by
  simp [edges, List.finRange]

theorem parity_three (c0 c1 c2 : Bool) (e0 e1 e2 : Line_segment) :
    decide (((match c0 with
      | true => e0 :: (match c1 with
        | true => e1 :: (match c2 with
          | true => [e2]
          | false => [])
        | false => (match c2 with
          | true => [e2]
          | false => []))
      | false => (match c1 with
        | true => e1 :: (match c2 with
          | true => [e2]
          | false => [])
        | false => (match c2 with
          | true => [e2]
          | false => []))).length % 2 = 1)) = true ↔
      ((c0 = true ∧ ¬ c1 = true ∧ ¬ c2 = true) ∨ (¬ c0 = true ∧ c1 = true ∧ ¬ c2 = true) ∨
        (¬ c0 = true ∧ ¬ c1 = true ∧ c2 = true) ∨ (c0 = true ∧ c1 = true ∧ c2 = true)) := by
  cases c0 <;> cases c1 <;> cases c2 <;> simp

/-- `contains` on a polygon of three vertices: the parity of the three tests
`Line_segment::intersects` of an edge with the segment to the far point. -/
theorem contains_three (p0 p1 p2 q : v2) :
    (Polygon.mk [p0, p1, p2]).contains q = true ↔
      ((((Line_segment.mk p0 p1).intersects ⟨q, ⟨300000, 300000⟩⟩ = true) ∧
          ¬ ((Line_segment.mk p1 p2).intersects ⟨q, ⟨300000, 300000⟩⟩ = true) ∧
          ¬ ((Line_segment.mk p2 p0).intersects ⟨q, ⟨300000, 300000⟩⟩ = true)) ∨
        (¬ ((Line_segment.mk p0 p1).intersects ⟨q, ⟨300000, 300000⟩⟩ = true) ∧
          ((Line_segment.mk p1 p2).intersects ⟨q, ⟨300000, 300000⟩⟩ = true) ∧
          ¬ ((Line_segment.mk p2 p0).intersects ⟨q, ⟨300000, 300000⟩⟩ = true)) ∨
        (¬ ((Line_segment.mk p0 p1).intersects ⟨q, ⟨300000, 300000⟩⟩ = true) ∧
          ¬ ((Line_segment.mk p1 p2).intersects ⟨q, ⟨300000, 300000⟩⟩ = true) ∧
          ((Line_segment.mk p2 p0).intersects ⟨q, ⟨300000, 300000⟩⟩ = true)) ∨
        (((Line_segment.mk p0 p1).intersects ⟨q, ⟨300000, 300000⟩⟩ = true) ∧
          ((Line_segment.mk p1 p2).intersects ⟨q, ⟨300000, 300000⟩⟩ = true) ∧
          ((Line_segment.mk p2 p0).intersects ⟨q, ⟨300000, 300000⟩⟩ = true))) := by
  unfold contains
  rw [edges_three]
  simp only [List.filter]
  exact parity_three _ _ _ _ _ _

/-- The test `Line_segment::intersects` of the edge `a b` with the segment `q f`: the
ends of the edge lie on different sides of the line through `q` and `f`, and `q` and `f`
on different sides of the line of the edge, a point on a line counting with the
clockwise side. -/
theorem intersects_iff (a b q f : v2) :
    (Line_segment.mk a b).intersects ⟨q, f⟩ = true ↔
      (Line_segment.__ccw__ a q f ≠ Line_segment.__ccw__ b q f ∧
        Line_segment.__ccw__ a b q ≠ Line_segment.__ccw__ a b f) := by
  simp only [Line_segment.intersects, Bool.and_eq_true, bne_iff_ne]

theorem scaled_nonpos {T a b : ℚ} (hT : T ≠ 0) (h : (T * a) * (T * b) ≤ 0) : a * b ≤ 0 := by
  by_contra hc
  have := mul_pos (mul_self_pos.mpr hT) (not_le.mp hc)
  have e : (T * a) * (T * b) = (T * T) * (a * b) := by ring
  linarith

/-- The parity of the three tests of `contains`, for a triangle and any far point `f`
outside it: odd exactly when `q` is strictly inside. -/
theorem tri_cast (p0 p1 p2 q f : v2) (hT : orient p0 p1 p2 ≠ 0)
    (hfar : ¬ in_triangle p0 p1 p2 f)
    (hedge : ¬ on_seg p0 p1 q ∧ ¬ on_seg p1 p2 q ∧ ¬ on_seg p2 p0 q)
    (hvert : ¬ on_seg q f p0 ∧ ¬ on_seg q f p1 ∧ ¬ on_seg q f p2) :
    ((((Line_segment.mk p0 p1).intersects ⟨q, f⟩ = true) ∧
        ¬ ((Line_segment.mk p1 p2).intersects ⟨q, f⟩ = true) ∧
        ¬ ((Line_segment.mk p2 p0).intersects ⟨q, f⟩ = true)) ∨
      (¬ ((Line_segment.mk p0 p1).intersects ⟨q, f⟩ = true) ∧
        ((Line_segment.mk p1 p2).intersects ⟨q, f⟩ = true) ∧
        ¬ ((Line_segment.mk p2 p0).intersects ⟨q, f⟩ = true)) ∨
      (¬ ((Line_segment.mk p0 p1).intersects ⟨q, f⟩ = true) ∧
        ¬ ((Line_segment.mk p1 p2).intersects ⟨q, f⟩ = true) ∧
        ((Line_segment.mk p2 p0).intersects ⟨q, f⟩ = true)) ∨
      (((Line_segment.mk p0 p1).intersects ⟨q, f⟩ = true) ∧
        ((Line_segment.mk p1 p2).intersects ⟨q, f⟩ = true) ∧
        ((Line_segment.mk p2 p0).intersects ⟨q, f⟩ = true))) ↔
      strictly_in_triangle p0 p1 p2 q := by
  rw [intersects_iff, intersects_iff, intersects_iff, strictly_in_triangle_iff p0 p1 p2 q hT]
  have hr1 : orient p1 p2 p0 = orient p0 p1 p2 := orient_rot p0 p1 p2
  have hr2 : orient p2 p0 p1 = orient p0 p1 p2 := by rw [orient_rot p1 p2 p0, hr1]
  have hT1 : orient p1 p2 p0 ≠ 0 := by rw [hr1]; exact hT
  have hT2 : orient p2 p0 p1 ≠ 0 := by rw [hr2]; exact hT
  have hTT : 0 < orient p0 p1 p2 * orient p0 p1 p2 := mul_self_pos.mpr hT
  have hc : -(orient p0 p1 p2 * orient p0 p1 p2 * orient p0 p1 p2) ≠ 0 := by
    apply neg_ne_zero.mpr
    exact mul_ne_zero (mul_ne_zero hT hT) hT
  have side0 := orient_side p2 p0 p1 q f
  have side1 := orient_side p0 p1 p2 q f
  have side2 := orient_side p1 p2 p0 q f
  rw [hr2] at side0
  rw [hr1] at side2
  have hsq := orient_sum p0 p1 p2 q
  have hsf := orient_sum p0 p1 p2 f
  have sS0 := sign_of_bne (ccw_iff_orient p0 p1 q) (ccw_iff_orient p0 p1 f) hT
  have sS1 := sign_of_bne (ccw_iff_orient p1 p2 q) (ccw_iff_orient p1 p2 f) hT
  have sS2 := sign_of_bne (ccw_iff_orient p2 p0 q) (ccw_iff_orient p2 p0 f) hT
  have sD01 := sign_of_bne (ccw_iff_orient p0 q f) (ccw_iff_orient p1 q f) hc
  have sD12 := sign_of_bne (ccw_iff_orient p1 q f) (ccw_iff_orient p2 q f) hc
  have sD20 := sign_of_bne (ccw_iff_orient p2 q f) (ccw_iff_orient p0 q f) hc
  refine @tri_parity
    (orient p0 p1 p2 * orient p0 p1 q) (orient p0 p1 p2 * orient p1 p2 q)
    (orient p0 p1 p2 * orient p2 p0 q)
    (orient p0 p1 p2 * orient p0 p1 f) (orient p0 p1 p2 * orient p1 p2 f)
    (orient p0 p1 p2 * orient p2 p0 f)
    (-(orient p0 p1 p2 * orient p0 p1 p2 * orient p0 p1 p2) * orient p0 q f)
    (-(orient p0 p1 p2 * orient p0 p1 p2 * orient p0 p1 p2) * orient p1 q f)
    (-(orient p0 p1 p2 * orient p0 p1 p2 * orient p0 p1 p2) * orient p2 q f)
    _ _ _ _ _ _
    ?_ ?_ ?_ ?_ ?_ ?_ ?_ ?_ ?_ ?_ sS0.1 sS0.2 sS1.1 sS1.2 sS2.1 sS2.2
    (fun h => (sD01.1 h).1) sD01.2 (fun h => (sD12.1 h).1) sD12.2
    (fun h => (sD20.1 h).1) sD20.2 (bne_cycle _ _ _)
  · linear_combination (-(orient p0 p1 p2 * orient p0 p1 p2)) * side0
  · linear_combination (-(orient p0 p1 p2 * orient p0 p1 p2)) * side1
  · linear_combination (-(orient p0 p1 p2 * orient p0 p1 p2)) * side2
  · have : orient p0 p1 p2 * orient p0 p1 q + orient p0 p1 p2 * orient p1 p2 q +
        orient p0 p1 p2 * orient p2 p0 q = orient p0 p1 p2 * orient p0 p1 p2 := by
      rw [← hsq]; ring
    linarith
  · have : orient p0 p1 p2 * orient p0 p1 f + orient p0 p1 p2 * orient p1 p2 f +
        orient p0 p1 p2 * orient p2 p0 f = orient p0 p1 p2 * orient p0 p1 p2 := by
      rw [← hsf]; ring
    linarith
  · -- a point not strictly inside and on no edge has an orientation against the triangle
    intro hnot
    by_contra hc1
    push_neg at hc1
    obtain ⟨k0, k1, k2⟩ := hc1
    have hz : orient p0 p1 q = 0 ∨ orient p1 p2 q = 0 ∨ orient p2 p0 q = 0 := by
      by_contra hne
      push_neg at hne
      apply hnot
      refine ⟨lt_of_le_of_ne k0 ?_, lt_of_le_of_ne k1 ?_, lt_of_le_of_ne k2 ?_⟩
      · exact (mul_ne_zero hT hne.1).symm
      · exact (mul_ne_zero hT hne.2.1).symm
      · exact (mul_ne_zero hT hne.2.2).symm
    rcases hz with h | h | h
    · exact hedge.1 (on_seg_of_orient p0 p1 p2 q hT h k1 k2)
    · exact hedge.2.1 (on_seg_of_orient p1 p2 p0 q hT1 h (by rw [hr1]; exact k2)
        (by rw [hr1]; exact k0))
    · exact hedge.2.2 (on_seg_of_orient p2 p0 p1 q hT2 h (by rw [hr2]; exact k0)
        (by rw [hr2]; exact k1))
  · by_contra hc1
    push_neg at hc1
    exact hfar (in_triangle_of_orient p0 p1 p2 f hT hc1.1 hc1.2.1 hc1.2.2)
  · rintro ⟨e, h2, h0⟩
    apply hvert.1
    refine vertex_on_seg p2 p0 p1 q f hT2 ?_ (scaled_nonpos hT h2) (scaled_nonpos hT h0)
    have e1 : orient p0 q f = 0 := (mul_eq_zero.mp e).resolve_left hc
    rw [e1, mul_zero] at side0
    linarith
  · rintro ⟨e, h0, h1⟩
    apply hvert.2.1
    refine vertex_on_seg p0 p1 p2 q f hT ?_ (scaled_nonpos hT h0) (scaled_nonpos hT h1)
    have e1 : orient p1 q f = 0 := (mul_eq_zero.mp e).resolve_left hc
    rw [e1, mul_zero] at side1
    linarith
  · rintro ⟨e, h1, h2⟩
    apply hvert.2.2
    refine vertex_on_seg p1 p2 p0 q f hT1 ?_ (scaled_nonpos hT h1) (scaled_nonpos hT h2)
    have e1 : orient p2 q f = 0 := (mul_eq_zero.mp e).resolve_left hc
    rw [e1, mul_zero] at side2
    linarith

theorem orient_of_on_seg {a b x : v2} (h : on_seg a b x) :
    orient a b x = 0 ∧ 0 ≤ (x - a).dot (b - a) := by
  obtain ⟨t, ht0, _, hx⟩ := h
  rw [hx]
  constructor
  · simp only [orient, v2.cross, GJK.sub_x, GJK.sub_y, GJK.add_x, GJK.add_y, GJK.mul_x,
      GJK.mul_y]
    ring
  · have e : (a + (b - a) * t - a).dot (b - a) = t * (b - a).rsq := by
      simp only [v2.rsq, v2.dot, GJK.sub_x, GJK.sub_y, GJK.add_x, GJK.add_y, GJK.mul_x,
        GJK.mul_y]
      ring
    rw [e]
    exact mul_nonneg ht0 (GJK.rsq_nonneg _)

theorem not_on_seg {a b x : v2} (h : orient a b x ≠ 0 ∨ (x - a).dot (b - a) < 0) :
    ¬ on_seg a b x := by
  intro hs
  obtain ⟨h1, h2⟩ := orient_of_on_seg hs
  rcases h with h | h
  · exact h h1
  · linarith

theorem orient_of_in_triangle {p0 p1 p2 x : v2} (h : in_triangle p0 p1 p2 x) :
    0 ≤ orient p0 p1 p2 * orient p0 p1 x ∧ 0 ≤ orient p0 p1 p2 * orient p1 p2 x ∧
      0 ≤ orient p0 p1 p2 * orient p2 p0 x := by
  obtain ⟨l0, l1, l2, h0, h1, h2, hs, hx⟩ := h
  obtain ⟨e0, e1, e2⟩ := orient_comb p0 p1 p2 l0 l1 l2 hs
  have hTT := mul_self_nonneg (orient p0 p1 p2)
  rw [hx, e0, e1, e2]
  refine ⟨?_, ?_, ?_⟩
  · have := mul_nonneg h2 hTT
    linarith
  · have := mul_nonneg h0 hTT
    linarith
  · have := mul_nonneg h1 hTT
    linarith

/-- C17 as stated fails: the triangle (0,0), (1000000,0), (0,1000000) is not degenerate,
the point (2,1) lies strictly inside it and on no edge, and no vertex lies on the segment
from (2,1) to the far point (300000, 300000); yet `contains` returns false, because the
far point is inside the triangle as well, and `distance_to` is `sqrt(1)`, not 0. In
doubles the claim also fails with the far point outside: for the triangle (0,0), (10,0),
(5,10) and the point (6.35, 7.3), which lies strictly inside and in general position,
`contains` returns false, while it is true over exact arithmetic. -/
theorem contains_misses_inside_point :
    (orient ⟨0, 0⟩ ⟨1000000, 0⟩ ⟨0, 1000000⟩ ≠ 0 ∧
    (¬ on_seg ⟨0, 0⟩ ⟨1000000, 0⟩ ⟨2, 1⟩ ∧ ¬ on_seg ⟨1000000, 0⟩ ⟨0, 1000000⟩ ⟨2, 1⟩ ∧
      ¬ on_seg ⟨0, 1000000⟩ ⟨0, 0⟩ ⟨2, 1⟩) ∧
    (¬ on_seg ⟨2, 1⟩ ⟨300000, 300000⟩ ⟨0, 0⟩ ∧
      ¬ on_seg ⟨2, 1⟩ ⟨300000, 300000⟩ ⟨1000000, 0⟩ ∧
      ¬ on_seg ⟨2, 1⟩ ⟨300000, 300000⟩ ⟨0, 1000000⟩) ∧
    strictly_in_triangle ⟨0, 0⟩ ⟨1000000, 0⟩ ⟨0, 1000000⟩ ⟨2, 1⟩ ∧
    strictly_in_triangle ⟨0, 0⟩ ⟨1000000, 0⟩ ⟨0, 1000000⟩ ⟨300000, 300000⟩ ∧
    (Polygon.mk [⟨0, 0⟩, ⟨1000000, 0⟩, ⟨0, 1000000⟩]).inside ⟨300000, 300000⟩ = true ∧
    (Polygon.mk [⟨0, 0⟩, ⟨1000000, 0⟩, ⟨0, 1000000⟩]).contains ⟨2, 1⟩ = false ∧
    (Polygon.mk [⟨0, 0⟩, ⟨1000000, 0⟩, ⟨0, 1000000⟩]).distance_to_point ⟨2, 1⟩ =
      some (Dist.sqrt 1) ∧
    ¬ ((Polygon.mk [⟨0, 0⟩, ⟨1000000, 0⟩, ⟨0, 1000000⟩]).contains ⟨2, 1⟩ = true ↔
      strictly_in_triangle ⟨0, 0⟩ ⟨1000000, 0⟩ ⟨0, 1000000⟩ ⟨2, 1⟩)) ∧
    ((Rounded.Polygon.mk
        [Rounded.v2.lit 0 0, Rounded.v2.lit 10 0, Rounded.v2.lit 5 10]).contains
      (Rounded.v2.lit (635 / 100) (73 / 10)) = false ∧
    [Rounded.v2.lit 0 0, Rounded.v2.lit 10 0, Rounded.v2.lit 5 10].map Rounded.v2.value =
      [⟨0, 0⟩, ⟨10, 0⟩, ⟨5, 10⟩] ∧
    (Rounded.v2.lit (635 / 100) (73 / 10)).value =
      ⟨3574732204225331 / 562949953421312, 8219069319951155 / 1125899906842624⟩ ∧
    (Polygon.mk [⟨0, 0⟩, ⟨10, 0⟩, ⟨5, 10⟩]).contains
      ⟨3574732204225331 / 562949953421312, 8219069319951155 / 1125899906842624⟩ = true ∧
    (Polygon.mk [⟨0, 0⟩, ⟨10, 0⟩, ⟨5, 10⟩]).inside
      ⟨3574732204225331 / 562949953421312, 8219069319951155 / 1125899906842624⟩ = true ∧
    (Polygon.mk [⟨0, 0⟩, ⟨10, 0⟩, ⟨5, 10⟩]).inside ⟨300000, 300000⟩ = false ∧
    (0 < orient ⟨0, 0⟩ ⟨10, 0⟩ ⟨5, 10⟩ ∧
      0 < orient ⟨0, 0⟩ ⟨10, 0⟩
        ⟨3574732204225331 / 562949953421312, 8219069319951155 / 1125899906842624⟩ ∧
      0 < orient ⟨10, 0⟩ ⟨5, 10⟩
        ⟨3574732204225331 / 562949953421312, 8219069319951155 / 1125899906842624⟩ ∧
      0 < orient ⟨5, 10⟩ ⟨0, 0⟩
        ⟨3574732204225331 / 562949953421312, 8219069319951155 / 1125899906842624⟩) ∧
    (orient ⟨0, 0⟩ ⟨10, 0⟩ ⟨300000, 300000⟩ ≠ 0 ∧
      orient ⟨10, 0⟩ ⟨5, 10⟩ ⟨300000, 300000⟩ ≠ 0 ∧
      orient ⟨5, 10⟩ ⟨0, 0⟩ ⟨300000, 300000⟩ ≠ 0) ∧
    (orient ⟨3574732204225331 / 562949953421312, 8219069319951155 / 1125899906842624⟩
        ⟨300000, 300000⟩ ⟨0, 0⟩ ≠ 0 ∧
      orient ⟨3574732204225331 / 562949953421312, 8219069319951155 / 1125899906842624⟩
        ⟨300000, 300000⟩ ⟨10, 0⟩ ≠ 0 ∧
      orient ⟨3574732204225331 / 562949953421312, 8219069319951155 / 1125899906842624⟩
        ⟨300000, 300000⟩ ⟨5, 10⟩ ≠ 0)) := by
  have hin : strictly_in_triangle ⟨0, 0⟩ ⟨1000000, 0⟩ ⟨0, 1000000⟩ ⟨2, 1⟩ :=
    ⟨999997 / 1000000, 2 / 1000000, 1 / 1000000, by norm_num, by norm_num, by norm_num,
      by norm_num, by decide!⟩
  have hc : (Polygon.mk [⟨0, 0⟩, ⟨1000000, 0⟩, ⟨0, 1000000⟩]).contains ⟨2, 1⟩ = false := by
    decide!
  refine ⟨⟨by decide!, ⟨not_on_seg (Or.inl (by decide!)), not_on_seg (Or.inl (by decide!)),
    not_on_seg (Or.inl (by decide!))⟩, ⟨not_on_seg (Or.inl (by decide!)),
    not_on_seg (Or.inl (by decide!)), not_on_seg (Or.inl (by decide!))⟩, hin,
    ⟨4 / 10, 3 / 10, 3 / 10, by norm_num, by norm_num, by norm_num, by norm_num, by decide!⟩,
    by decide!, hc, by decide!, ?_⟩,
    ⟨by decide!, by decide!, by decide!, by decide!, by decide!, by decide!,
      ⟨by decide!, by decide!, by decide!, by decide!⟩,
      ⟨by decide!, by decide!, by decide!⟩, ⟨by decide!, by decide!, by decide!⟩⟩⟩
  intro h
  have := h.mpr hin
  rw [hc] at this
  exact absurd this (by decide)

end Polygon

namespace sphere

/-- The test of `sphere::intersects(Line_segment&)` gives the same answer for the three
metrics: the field `metric` is not read. -/
theorem intersects_line_metric (c : v2) (r : ℚ) (m : SPHEREMETRIC) (line : Line_segment) :
    (sphere.mk c r m).intersects_line line =
      (sphere.mk c r SPHEREMETRIC.L2).intersects_line line := rfl

/-- C21 fails on the code: `sphere::intersects(Line_segment&)` never reads `metric` and
compares the Euclidean `dist_to` with the radius, whatever the metric. For the `LINFTY`
disk of center (0,0) and radius 5 and the segment (4,4)-(10,10) it returns false,
although the end (4,4) of the segment is at distance 4 from the center in that metric
and `contains` says so; for the `L1` disk of the same center and radius and the segment
(3,3)-(10,10) it returns true, although every point of the segment is at `L1` distance
at least 6 from the center. -/
theorem intersects_line_ignores_metric :
    (∀ (c : v2) (r : ℚ) (m : SPHEREMETRIC) (line : Line_segment),
      (sphere.mk c r m).intersects_line line =
        (sphere.mk c r SPHEREMETRIC.L2).intersects_line line) ∧
    (sphere.mk ⟨0, 0⟩ 5 SPHEREMETRIC.LINFTY).intersects_line
      (Line_segment.mk ⟨4, 4⟩ ⟨10, 10⟩) = false ∧
    on_seg ⟨4, 4⟩ ⟨10, 10⟩ ⟨4, 4⟩ ∧
    ((⟨0, 0⟩ : v2) - ⟨4, 4⟩).linfty = 4 ∧
    (sphere.mk ⟨0, 0⟩ 5 SPHEREMETRIC.LINFTY).contains ⟨4, 4⟩ = true ∧
    (sphere.mk ⟨0, 0⟩ 5 SPHEREMETRIC.L1).intersects_line
      (Line_segment.mk ⟨3, 3⟩ ⟨10, 10⟩) = true ∧
    (∀ q, on_seg ⟨3, 3⟩ ⟨10, 10⟩ q → 6 ≤ ((⟨0, 0⟩ : v2) - q).l1) := by
  refine ⟨fun c r m line => rfl, by decide!, ⟨0, le_refl 0, zero_le_one, by decide!⟩,
    by decide!, by decide!, by decide!, ?_⟩
  intro q hq
  obtain ⟨t, ht0, _, hq⟩ := hq
  rw [hq]
  simp only [v2.l1, GJK.sub_x, GJK.sub_y, GJK.add_x, GJK.add_y, GJK.mul_x, GJK.mul_y]
  have h1 : (0 : ℚ) - (3 + (10 - 3) * t) ≤ 0 := by linarith
  rw [abs_of_nonpos h1]
  linarith

end sphere

namespace Line_segment

/-- The test `__ccw__` is invariant under a cyclic shift of its arguments. -/
theorem ccw_rot (A B C : v2) : __ccw__ A B C = __ccw__ B C A := by
  rw [Bool.eq_iff_iff, ccw_iff, ccw_iff]
  simp only [v2.cross, GJK.sub_x, GJK.sub_y]
  constructor <;> intro h <;> linarith

/-- `intersects` does not depend on the order of the two segments. -/
theorem intersects_comm (s o : Line_segment) : s.intersects o = o.intersects s := by
  simp only [intersects]
  rw [ccw_rot s.start o.start o.end, ccw_rot s.end o.start o.end,
    ← ccw_rot o.start s.start s.end, ← ccw_rot o.end s.start s.end, Bool.and_comm]

/-- `dist_to_line_seg` does not depend on the order of the two segments. -/
theorem dist_to_line_seg_comm (s o : Line_segment) :
    s.dist_to_line_seg o = o.dist_to_line_seg s := by
  simp only [dist_to_line_seg, intersects_comm o s]
  rw [min_comm (min _ _) (min _ _)]

/-- C27, amended: over exact arithmetic, the two segment predicates are symmetric:
`s.intersects(o)` equals `o.intersects(s)`, and `s.dist_to_line_seg(o)` equals
`o.dist_to_line_seg(s)`. -/
theorem segment_predicates_symmetric (s o : Line_segment) :
    s.intersects o = o.intersects s ∧ s.dist_to_line_seg o = o.dist_to_line_seg s :=
  ⟨intersects_comm s o, dist_to_line_seg_comm s o⟩

/-- Two numbers of which exactly one is positive: their difference is not zero, and the
first divided by the difference lies in `[0, 1]`. -/
theorem ratio_unit (a b : ℚ) (h : (0 < a ∧ b ≤ 0) ∨ (0 < b ∧ a ≤ 0)) :
    a - b ≠ 0 ∧ 0 ≤ a / (a - b) ∧ a / (a - b) ≤ 1 := by
  rcases h with ⟨ha, hb⟩ | ⟨hb, ha⟩
  · have hd : 0 < a - b := by linarith
    refine ⟨ne_of_gt hd, div_nonneg (le_of_lt ha) (le_of_lt hd), ?_⟩
    rw [div_le_one hd]
    linarith
  · have hd : a - b < 0 := by linarith
    refine ⟨ne_of_lt hd, div_nonneg_of_nonpos ha (le_of_lt hd), ?_⟩
    rw [div_le_one_of_neg hd]
    linarith

/-- The two tests `__ccw__ X Y Z` and `__ccw__ X Y W` differ exactly when one of the two
cross products is positive and the other is not. -/
theorem ccw_bne (X Y Z W : v2) :
    (__ccw__ X Y Z != __ccw__ X Y W) = true ↔
      (0 < (Y - X).cross (Z - X) ∧ (Y - X).cross (W - X) ≤ 0) ∨
      (0 < (Y - X).cross (W - X) ∧ (Y - X).cross (Z - X) ≤ 0) := by
  have h1 := ccw_iff X Y Z
  have h2 := ccw_iff X Y W
  cases hz : __ccw__ X Y Z <;> cases hw : __ccw__ X Y W <;>
    rw [hz] at h1 <;> rw [hw] at h2 <;> simp at h1 h2 ⊢
  · exact ⟨fun h => absurd h (not_lt.mpr h1), fun h => absurd h (not_lt.mpr h2)⟩
  · exact Or.inr ⟨h2, h1⟩
  · exact Or.inl ⟨h1, h2⟩
  · exact ⟨fun _ => h2, fun _ => h1⟩

end Line_segment

namespace Line_segment

/-- `intersects` in terms of four cross products: of the two ends of each segment, one
is strictly to the left of the other segment and the other end is not. -/
theorem intersects_signs (s o : Line_segment) :
    s.intersects o = true ↔
      ((0 < (o.end - o.start).cross (s.start - o.start) ∧
          (o.end - o.start).cross (s.end - o.start) ≤ 0) ∨
        (0 < (o.end - o.start).cross (s.end - o.start) ∧
          (o.end - o.start).cross (s.start - o.start) ≤ 0)) ∧
      ((0 < (s.end - s.start).cross (o.start - s.start) ∧
          (s.end - s.start).cross (o.end - s.start) ≤ 0) ∨
        (0 < (s.end - s.start).cross (o.end - s.start) ∧
          (s.end - s.start).cross (o.start - s.start) ≤ 0)) := by
  simp only [intersects, Bool.and_eq_true]
  rw [ccw_rot s.start o.start o.end, ccw_rot s.end o.start o.end, ccw_bne, ccw_bne]

/-- The three branches of `intersection_point`, with `delta`, `s` and `t` written out. -/
theorem intersection_point_eq (self other : Line_segment) :
    self.intersection_point other =
      if |other.vec.x * self.vec.y - other.vec.y * self.vec.x| <
          944473296573929 / 9444732965739290427392 then none
      else if ¬ ((0 ≤ (self.vec.x * (other.start.y - self.start.y) +
            self.vec.y * (self.start.x - other.start.x)) /
              (other.vec.x * self.vec.y - other.vec.y * self.vec.x) ∧
          (self.vec.x * (other.start.y - self.start.y) +
            self.vec.y * (self.start.x - other.start.x)) /
              (other.vec.x * self.vec.y - other.vec.y * self.vec.x) ≤ 1) ∧
          (0 ≤ (other.vec.x * (self.start.y - other.start.y) +
            other.vec.y * (other.start.x - self.start.x)) /
              (-1 * (other.vec.x * self.vec.y - other.vec.y * self.vec.x)) ∧
          (other.vec.x * (self.start.y - other.start.y) +
            other.vec.y * (other.start.x - self.start.x)) /
              (-1 * (other.vec.x * self.vec.y - other.vec.y * self.vec.x)) ≤ 1)) then none
      else some ⟨self.start.x + (other.vec.x * (self.start.y - other.start.y) +
            other.vec.y * (other.start.x - self.start.x)) /
              (-1 * (other.vec.x * self.vec.y - other.vec.y * self.vec.x)) * self.vec.x,
          self.start.y + (other.vec.x * (self.start.y - other.start.y) +
            other.vec.y * (other.start.x - self.start.x)) /
              (-1 * (other.vec.x * self.vec.y - other.vec.y * self.vec.x)) * self.vec.y⟩ :=
  rfl

/-- When `intersects` is true the two parameters `s` and `t` of `intersection_point` lie
in `[0, 1]`, the determinant `delta` is not zero, and the point of parameter `t` of the
first segment is the point of parameter `s` of the second. -/
theorem intersects_params (self other : Line_segment) (h : self.intersects other = true) :
    other.vec.x * self.vec.y - other.vec.y * self.vec.x ≠ 0 ∧
    (0 ≤ (self.vec.x * (other.start.y - self.start.y) +
        self.vec.y * (self.start.x - other.start.x)) /
          (other.vec.x * self.vec.y - other.vec.y * self.vec.x) ∧
      (self.vec.x * (other.start.y - self.start.y) +
        self.vec.y * (self.start.x - other.start.x)) /
          (other.vec.x * self.vec.y - other.vec.y * self.vec.x) ≤ 1) ∧
    (0 ≤ (other.vec.x * (self.start.y - other.start.y) +
        other.vec.y * (other.start.x - self.start.x)) /
          (-1 * (other.vec.x * self.vec.y - other.vec.y * self.vec.x)) ∧
      (other.vec.x * (self.start.y - other.start.y) +
        other.vec.y * (other.start.x - self.start.x)) /
          (-1 * (other.vec.x * self.vec.y - other.vec.y * self.vec.x)) ≤ 1) ∧
    self.start + self.vec * ((other.vec.x * (self.start.y - other.start.y) +
        other.vec.y * (other.start.x - self.start.x)) /
          (-1 * (other.vec.x * self.vec.y - other.vec.y * self.vec.x))) =
      other.start + other.vec * ((self.vec.x * (other.start.y - self.start.y) +
        self.vec.y * (self.start.x - other.start.x)) /
          (other.vec.x * self.vec.y - other.vec.y * self.vec.x)) := by
  obtain ⟨h1, h2⟩ := (intersects_signs self other).mp h
  have r1 := ratio_unit _ _ h1
  have r2 := ratio_unit _ _ h2
  have e1 : (other.end - other.start).cross (self.start - other.start) -
      (other.end - other.start).cross (self.end - other.start) =
      -1 * (other.vec.x * self.vec.y - other.vec.y * self.vec.x) := by
    simp only [v2.cross, GJK.sub_x, GJK.sub_y, vec_x, vec_y]
    ring
  have e2 : (self.end - self.start).cross (other.start - self.start) -
      (self.end - self.start).cross (other.end - self.start) =
      other.vec.x * self.vec.y - other.vec.y * self.vec.x := by
    simp only [v2.cross, GJK.sub_x, GJK.sub_y, vec_x, vec_y]
    ring
  have n1 : (other.end - other.start).cross (self.start - other.start) =
      other.vec.x * (self.start.y - other.start.y) +
        other.vec.y * (other.start.x - self.start.x) := by
    simp only [v2.cross, GJK.sub_x, GJK.sub_y, vec_x, vec_y]
    ring
  have n2 : (self.end - self.start).cross (other.start - self.start) =
      self.vec.x * (other.start.y - self.start.y) +
        self.vec.y * (self.start.x - other.start.x) := by
    simp only [v2.cross, GJK.sub_x, GJK.sub_y, vec_x, vec_y]
    ring
  rw [e1, n1] at r1
  rw [e2, n2] at r2
  refine ⟨r2.1, r2.2, r1.2, ?_⟩
  have hd := r2.1
  have hd1 := r1.1
  have hs1 : (self.vec.x * (other.start.y - self.start.y) +
      self.vec.y * (self.start.x - other.start.x)) /
        (other.vec.x * self.vec.y - other.vec.y * self.vec.x) *
      (other.vec.x * self.vec.y - other.vec.y * self.vec.x) =
      self.vec.x * (other.start.y - self.start.y) +
        self.vec.y * (self.start.x - other.start.x) := div_mul_cancel₀ _ hd
  have ht1 : (other.vec.x * (self.start.y - other.start.y) +
      other.vec.y * (other.start.x - self.start.x)) /
        (-1 * (other.vec.x * self.vec.y - other.vec.y * self.vec.x)) *
      (-1 * (other.vec.x * self.vec.y - other.vec.y * self.vec.x)) =
      other.vec.x * (self.start.y - other.start.y) +
        other.vec.y * (other.start.x - self.start.x) := div_mul_cancel₀ _ hd1
  generalize (self.vec.x * (other.start.y - self.start.y) +
      self.vec.y * (self.start.x - other.start.x)) /
        (other.vec.x * self.vec.y - other.vec.y * self.vec.x) = ss at hs1 ⊢
  generalize (other.vec.x * (self.start.y - other.start.y) +
      other.vec.y * (other.start.x - self.start.x)) /
        (-1 * (other.vec.x * self.vec.y - other.vec.y * self.vec.x)) = tt at ht1 ⊢
  apply GJK.v2_ext
  · simp only [GJK.add_x, GJK.mul_x]
    apply mul_right_cancel₀ hd
    linear_combination (-self.vec.x) * ht1 - (other.vec.x) * hs1
  · simp only [GJK.add_y, GJK.mul_y]
    apply mul_right_cancel₀ hd
    linear_combination (-self.vec.y) * ht1 - (other.vec.y) * hs1

/-- C28 fails on the code, in two ways. The segments (-1/10000, 0)-(1/10000, 0) and
(0, -1/10000)-(0, 1/10000) cross at the origin and `intersects` is true, but the
determinant is `-4e-8`, below the threshold in magnitude, and `intersection_point`
returns the sentinel. In doubles, for the segments (-1.3,2.0)-(0.0,-0.8) and
(-0.6,-1.7)-(1.6,1.6), whose determinant is far from the threshold and which the exact
arithmetic gives a point, `intersects` is true and `intersection_point` returns the
sentinel: the quotient `t` is rounded to a double above 1. -/
theorem intersects_without_point :
    ((Line_segment.mk ⟨-1 / 10000, 0⟩ ⟨1 / 10000, 0⟩).intersects
      (Line_segment.mk ⟨0, -1 / 10000⟩ ⟨0, 1 / 10000⟩) = true ∧
    (Line_segment.mk ⟨-1 / 10000, 0⟩ ⟨1 / 10000, 0⟩).intersection_point
      (Line_segment.mk ⟨0, -1 / 10000⟩ ⟨0, 1 / 10000⟩) = none ∧
    ¬ ((Line_segment.mk ⟨-1 / 10000, 0⟩ ⟨1 / 10000, 0⟩).intersects
        (Line_segment.mk ⟨0, -1 / 10000⟩ ⟨0, 1 / 10000⟩) = true →
      (Line_segment.mk ⟨-1 / 10000, 0⟩ ⟨1 / 10000, 0⟩).intersection_point
        (Line_segment.mk ⟨0, -1 / 10000⟩ ⟨0, 1 / 10000⟩) ≠ none)) ∧
    ((Rounded.Line_segment.mk (Rounded.v2.lit (-13 / 10) 2)
        (Rounded.v2.lit 0 (-8 / 10))).intersects
      (Rounded.Line_segment.mk (Rounded.v2.lit (-6 / 10) (-17 / 10))
        (Rounded.v2.lit (16 / 10) (16 / 10))) = true ∧
    (Rounded.Line_segment.mk (Rounded.v2.lit (-13 / 10) 2)
        (Rounded.v2.lit 0 (-8 / 10))).intersection_point
      (Rounded.Line_segment.mk (Rounded.v2.lit (-6 / 10) (-17 / 10))
        (Rounded.v2.lit (16 / 10) (16 / 10))) = Rounded.Line_segment.INFINITE_POINT ∧
    (10 : ℚ) < |(Line_segment.mk (Rounded.v2.lit (-6 / 10) (-17 / 10)).value
          (Rounded.v2.lit (16 / 10) (16 / 10)).value).vec.x *
        (Line_segment.mk (Rounded.v2.lit (-13 / 10) 2).value
          (Rounded.v2.lit 0 (-8 / 10)).value).vec.y -
      (Line_segment.mk (Rounded.v2.lit (-6 / 10) (-17 / 10)).value
          (Rounded.v2.lit (16 / 10) (16 / 10)).value).vec.y *
        (Line_segment.mk (Rounded.v2.lit (-13 / 10) 2).value
          (Rounded.v2.lit 0 (-8 / 10)).value).vec.x| ∧
    (Line_segment.mk (Rounded.v2.lit (-13 / 10) 2).value
        (Rounded.v2.lit 0 (-8 / 10)).value).intersection_point
      (Line_segment.mk (Rounded.v2.lit (-6 / 10) (-17 / 10)).value
        (Rounded.v2.lit (16 / 10) (16 / 10)).value) ≠ none) := by
  have h1 : (Line_segment.mk ⟨-1 / 10000, 0⟩ ⟨1 / 10000, 0⟩).intersects
      (Line_segment.mk ⟨0, -1 / 10000⟩ ⟨0, 1 / 10000⟩) = true := by decide!
  have h2 : (Line_segment.mk ⟨-1 / 10000, 0⟩ ⟨1 / 10000, 0⟩).intersection_point
      (Line_segment.mk ⟨0, -1 / 10000⟩ ⟨0, 1 / 10000⟩) = none := by decide!
  exact ⟨⟨h1, h2, fun hc => hc h1 h2⟩, by decide!, by decide!, by decide!, by decide!⟩

/-- C28, amended: over exact arithmetic, if `s.intersects(o)` is true and the determinant
`delta = dx2 * dy1 - dy2 * dx1` is not below the threshold, the double `0.0000001`, in
magnitude, then `s.intersection_point(o)` is not the sentinel, and the returned point
lies on both segments. -/
theorem intersects_gives_point (s o : Line_segment) (h : s.intersects o = true)
    (hd : ¬ |o.vec.x * s.vec.y - o.vec.y * s.vec.x| <
      944473296573929 / 9444732965739290427392) :
    s.intersection_point o ≠ none ∧
    ∃ P, s.intersection_point o = some P ∧
      on_seg s.start s.end P ∧ on_seg o.start o.end P := by
  obtain ⟨_, hs, ht, he⟩ := intersects_params s o h
  have hP : s.intersection_point o = some (s.start + s.vec *
      ((o.vec.x * (s.start.y - o.start.y) + o.vec.y * (o.start.x - s.start.x)) /
        (-1 * (o.vec.x * s.vec.y - o.vec.y * s.vec.x)))) := by
    rw [intersection_point_eq, if_neg hd, if_neg (not_not.mpr ⟨hs, ht⟩)]
    congr 1
    apply GJK.v2_ext
    · simp only [GJK.add_x, GJK.mul_x]
      ring
    · simp only [GJK.add_y, GJK.mul_y]
      ring
  refine ⟨by rw [hP]; simp, _, hP, ⟨_, ht.1, ht.2, rfl⟩, ⟨_, hs.1, hs.2, he⟩⟩

/-- C28, amended, at the segments (0,0)-(10,10) and (0,10)-(10,0), whose determinant is
200: the point returned is (5,5). -/
theorem intersects_gives_point_witness :
    (Line_segment.mk ⟨0, 0⟩ ⟨10, 10⟩).intersects (Line_segment.mk ⟨0, 10⟩ ⟨10, 0⟩) = true ∧
    (Line_segment.mk ⟨0, 0⟩ ⟨10, 10⟩).intersection_point
      (Line_segment.mk ⟨0, 10⟩ ⟨10, 0⟩) = some ⟨5, 5⟩ ∧
    ((Line_segment.mk ⟨0, 0⟩ ⟨10, 10⟩).intersection_point
        (Line_segment.mk ⟨0, 10⟩ ⟨10, 0⟩) ≠ none ∧
      ∃ P, (Line_segment.mk ⟨0, 0⟩ ⟨10, 10⟩).intersection_point
          (Line_segment.mk ⟨0, 10⟩ ⟨10, 0⟩) = some P ∧
        on_seg ⟨0, 0⟩ ⟨10, 10⟩ P ∧ on_seg ⟨0, 10⟩ ⟨10, 0⟩ P) :=
  ⟨by decide!, by decide!,
    intersects_gives_point (Line_segment.mk ⟨0, 0⟩ ⟨10, 10⟩)
      (Line_segment.mk ⟨0, 10⟩ ⟨10, 0⟩) (by decide!) (by decide!)⟩

end Line_segment

namespace Line_segment

/-- `project_in` returns a point of the segment, whatever the segment. -/
theorem project_in_on_seg (self : Line_segment) (pt : v2) :
    on_seg self.start self.end (self.project_in pt) :=
  ⟨max 0 (min ((pt - self.start).dot (self.end - self.start) /
      (self.end - self.start).rsq) 1),
    le_max_left _ _, max_le zero_le_one (min_le_right _ _), rfl⟩

/-- No point of the segment is nearer to `pt` than `project_in(pt)`, whatever the
segment. -/
theorem project_in_le (self : Line_segment) (pt q : v2)
    (hq : on_seg self.start self.end q) :
    (pt - self.project_in pt).rsq ≤ (pt - q).rsq := by
  have hL : 0 ≤ (self.end - self.start).rsq := GJK.rsq_nonneg _
  have hu : (self.end - self.start).rsq = 0 →
      -(pt - self.start).dot (self.end - self.start) = 0 := by
    intro h0
    obtain ⟨hx, hy⟩ := GJK.rsq_eq_zero h0
    simp only [v2.dot, hx, hy]
    ring
  have hc := GJK.clamp_props (-(pt - self.start).dot (self.end - self.start))
    (self.end - self.start).rsq hL hu
  rw [neg_neg] at hc
  have hp : self.project_in pt = self.start + (self.end - self.start) *
      max 0 (min ((pt - self.start).dot (self.end - self.start) /
        (self.end - self.start).rsq) 1) := rfl
  generalize max 0 (min ((pt - self.start).dot (self.end - self.start) /
    (self.end - self.start).rsq) 1) = t at hc hp
  obtain ⟨ht0, ht1, hg1, hg2⟩ := hc
  obtain ⟨s, hs0, hs1, hqs⟩ := hq
  rw [hp, hqs, rsq_to_param, rsq_to_param]
  have k1 := mul_nonneg hs0 hg2
  have k2 := mul_nonneg (sub_nonneg.mpr hs1) (neg_nonneg.mpr hg1)
  have k3 := mul_nonneg (mul_self_nonneg (s - t)) hL
  linarith

/-- Moving from a number `x` of `[0, 1]` towards `x0`: up to some `c` the moving point
stays in `[0, 1]`, and at `c` it is at an end of the interval unless `c = 1`. -/
theorem clip (x x0 : ℚ) (h0 : 0 ≤ x) (h1 : x ≤ 1) :
    ∃ c : ℚ, 0 ≤ c ∧ c ≤ 1 ∧
      (∀ σ : ℚ, 0 ≤ σ → σ ≤ c → 0 ≤ x + σ * (x0 - x) ∧ x + σ * (x0 - x) ≤ 1) ∧
      (c = 1 ∨ x + c * (x0 - x) = 0 ∨ x + c * (x0 - x) = 1) := by
  rcases lt_trichotomy x0 0 with hneg | hz | hpos
  · have hd : 0 < x - x0 := by linarith
    refine ⟨x / (x - x0), div_nonneg h0 (le_of_lt hd), ?_, ?_, ?_⟩
    · rw [div_le_one hd]
      linarith
    · intro σ hσ0 hσ
      have h2 : σ * (x - x0) ≤ x := by
        have := mul_le_mul_of_nonneg_right hσ (le_of_lt hd)
        rwa [div_mul_cancel₀ _ (ne_of_gt hd)] at this
      have h3 := mul_nonneg hσ0 (le_of_lt hd)
      constructor <;> linarith
    · right; left
      have : x / (x - x0) * (x - x0) = x := div_mul_cancel₀ _ (ne_of_gt hd)
      linarith
  · refine ⟨1, zero_le_one, le_refl 1, ?_, Or.inl rfl⟩
    intro σ hσ0 hσ
    have h3 := mul_nonneg hσ0 h0
    have h4 := mul_nonneg (sub_nonneg.mpr hσ) h0
    rw [hz]
    constructor <;> nlinarith
  · rcases le_or_lt x0 1 with hle | hgt
    · refine ⟨1, zero_le_one, le_refl 1, ?_, Or.inl rfl⟩
      intro σ hσ0 hσ
      have e : x + σ * (x0 - x) = (1 - σ) * x + σ * x0 := by ring
      rw [e]
      have h3 := mul_nonneg (sub_nonneg.mpr hσ) h0
      have h4 := mul_nonneg hσ0 (le_of_lt hpos)
      have h5 := mul_nonneg (sub_nonneg.mpr hσ) (sub_nonneg.mpr h1)
      have h6 := mul_nonneg hσ0 (sub_nonneg.mpr hle)
      constructor <;> linarith
    · have hd : 0 < x0 - x := by linarith
      refine ⟨(1 - x) / (x0 - x), div_nonneg (sub_nonneg.mpr h1) (le_of_lt hd), ?_, ?_, ?_⟩
      · rw [div_le_one hd]
        linarith
      · intro σ hσ0 hσ
        have h2 : σ * (x0 - x) ≤ 1 - x := by
          have := mul_le_mul_of_nonneg_right hσ (le_of_lt hd)
          rwa [div_mul_cancel₀ _ (ne_of_gt hd)] at this
        have h3 := mul_nonneg hσ0 (le_of_lt hd)
        constructor <;> linarith
      · right; right
        have : (1 - x) / (x0 - x) * (x0 - x) = 1 - x := div_mul_cancel₀ _ (ne_of_gt hd)
        linarith

/-- Moving from a point `(t, u)` of the unit square towards a point `(t0, u0)` that is
not inside it, one meets the boundary of the square. -/
theorem exit_square (t u t0 u0 : ℚ) (ht0 : 0 ≤ t) (ht1 : t ≤ 1) (hu0 : 0 ≤ u) (hu1 : u ≤ 1)
    (hout : ¬ ((0 < t0 ∧ t0 < 1) ∧ (0 < u0 ∧ u0 < 1))) :
    ∃ σ : ℚ, 0 ≤ σ ∧ σ ≤ 1 ∧
      (0 ≤ t + σ * (t0 - t) ∧ t + σ * (t0 - t) ≤ 1) ∧
      (0 ≤ u + σ * (u0 - u) ∧ u + σ * (u0 - u) ≤ 1) ∧
      (t + σ * (t0 - t) = 0 ∨ t + σ * (t0 - t) = 1 ∨
        u + σ * (u0 - u) = 0 ∨ u + σ * (u0 - u) = 1) := by
  obtain ⟨c, hc0, hc1, hcin, hcb⟩ := clip t t0 ht0 ht1
  obtain ⟨e, he0, he1, hein, heb⟩ := clip u u0 hu0 hu1
  rcases le_total c e with hce | hec
  · rcases hcb with h | h | h
    · have he : e = 1 := le_antisymm he1 (by rw [← h]; exact hce)
      subst h
      subst he
      have a1 := hcin 1 zero_le_one (le_refl 1)
      have a2 := hein 1 zero_le_one (le_refl 1)
      refine ⟨1, zero_le_one, le_refl 1, a1, a2, ?_⟩
      have e1 : t + 1 * (t0 - t) = t0 := by ring
      have e2 : u + 1 * (u0 - u) = u0 := by ring
      rw [e1] at a1
      rw [e2] at a2
      rw [e1, e2]
      by_contra hc
      push_neg at hc
      exact hout ⟨⟨lt_of_le_of_ne a1.1 (Ne.symm hc.1), lt_of_le_of_ne a1.2 hc.2.1⟩,
        ⟨lt_of_le_of_ne a2.1 (Ne.symm hc.2.2.1), lt_of_le_of_ne a2.2 hc.2.2.2⟩⟩
    · exact ⟨c, hc0, hc1, hcin c hc0 (le_refl c), hein c hc0 hce, Or.inl h⟩
    · exact ⟨c, hc0, hc1, hcin c hc0 (le_refl c), hein c hc0 hce, Or.inr (Or.inl h)⟩
  · rcases heb with h | h | h
    · have hc : c = 1 := le_antisymm hc1 (by rw [← h]; exact hec)
      subst h
      subst hc
      have a1 := hcin 1 zero_le_one (le_refl 1)
      have a2 := hein 1 zero_le_one (le_refl 1)
      refine ⟨1, zero_le_one, le_refl 1, a1, a2, ?_⟩
      have e1 : t + 1 * (t0 - t) = t0 := by ring
      have e2 : u + 1 * (u0 - u) = u0 := by ring
      rw [e1] at a1
      rw [e2] at a2
      rw [e1, e2]
      by_contra hc
      push_neg at hc
      exact hout ⟨⟨lt_of_le_of_ne a1.1 (Ne.symm hc.1), lt_of_le_of_ne a1.2 hc.2.1⟩,
        ⟨lt_of_le_of_ne a2.1 (Ne.symm hc.2.2.1), lt_of_le_of_ne a2.2 hc.2.2.2⟩⟩
    · exact ⟨e, he0, he1, hcin e he0 hec, hein e he0 (le_refl e), Or.inr (Or.inr (Or.inl h))⟩
    · exact ⟨e, he0, he1, hcin e he0 hec, hein e he0 (le_refl e), Or.inr (Or.inr (Or.inr h))⟩

end Line_segment

namespace Line_segment

/-- If the point where the lines of two segments meet has parameters strictly inside
`(0, 1)` on both, then `intersects` is true. -/
theorem intersects_of_inside (s o : Line_segment) (t0 u0 : ℚ)
    (h1 : t0 * (s.end - s.start).cross (o.end - o.start) =
      (o.end - o.start).cross (s.start - o.start))
    (h2 : u0 * (s.end - s.start).cross (o.end - o.start) =
      (s.end - s.start).cross (s.start - o.start))
    (ht : 0 < t0 ∧ t0 < 1) (hu : 0 < u0 ∧ u0 < 1)
    (hd : (s.end - s.start).cross (o.end - o.start) ≠ 0) :
    s.intersects o = true := by
  rw [intersects_signs]
  have e2 : (o.end - o.start).cross (s.end - o.start) =
      (o.end - o.start).cross (s.start - o.start) -
        (s.end - s.start).cross (o.end - o.start) := by
    simp only [v2.cross, GJK.sub_x, GJK.sub_y]
    ring
  have e3 : (s.end - s.start).cross (o.start - s.start) =
      -(s.end - s.start).cross (s.start - o.start) := by
    simp only [v2.cross, GJK.sub_x, GJK.sub_y]
    ring
  have e4 : (s.end - s.start).cross (o.end - s.start) =
      (s.end - s.start).cross (o.end - o.start) -
        (s.end - s.start).cross (s.start - o.start) := by
    simp only [v2.cross, GJK.sub_x, GJK.sub_y]
    ring
  rw [e2, e3, e4, ← h1, ← h2]
  generalize (s.end - s.start).cross (o.end - o.start) = Δ at hd ⊢
  rcases lt_or_gt_of_ne hd with hneg | hpos
  · have a1 := mul_pos_of_neg_of_neg (sub_neg.mpr ht.2) hneg
    have a2 := mul_neg_of_pos_of_neg ht.1 hneg
    have a3 := mul_pos_of_neg_of_neg (sub_neg.mpr hu.2) hneg
    have a4 := mul_neg_of_pos_of_neg hu.1 hneg
    refine ⟨Or.inr ⟨by linarith, by linarith⟩, Or.inl ⟨by linarith, by linarith⟩⟩
  · have a1 := mul_neg_of_neg_of_pos (sub_neg.mpr ht.2) hpos
    have a2 := mul_pos ht.1 hpos
    have a3 := mul_neg_of_neg_of_pos (sub_neg.mpr hu.2) hpos
    have a4 := mul_pos hu.1 hpos
    refine ⟨Or.inl ⟨by linarith, by linarith⟩, Or.inr ⟨by linarith, by linarith⟩⟩

/-- Scaling a vector by a factor of square at most 1 does not lengthen it. -/
theorem shrink_le (c X Y : ℚ) (hc : c * c ≤ 1) :
    c * X * (c * X) + c * Y * (c * Y) ≤ X * X + Y * Y := by
  have h := mul_nonneg (sub_nonneg.mpr hc) (add_nonneg (mul_self_nonneg X) (mul_self_nonneg Y))
  linarith

/-- For two segments that `intersects` does not report, every pair of points of the two
segments is at least as far apart as some pair in which one of the points is an end of
its segment. -/
theorem to_boundary (s o : Line_segment) (hni : s.intersects o = false) (t u : ℚ)
    (ht0 : 0 ≤ t) (ht1 : t ≤ 1) (hu0 : 0 ≤ u) (hu1 : u ≤ 1) :
    ∃ t1 u1 : ℚ, (0 ≤ t1 ∧ t1 ≤ 1) ∧ (0 ≤ u1 ∧ u1 ≤ 1) ∧
      (t1 = 0 ∨ t1 = 1 ∨ u1 = 0 ∨ u1 = 1) ∧
      ((s.start + (s.end - s.start) * t1) - (o.start + (o.end - o.start) * u1)).rsq ≤
        ((s.start + (s.end - s.start) * t) - (o.start + (o.end - o.start) * u)).rsq := by
  by_cases hΔ : (s.end - s.start).cross (o.end - o.start) = 0
  · by_cases he : (s.end - s.start).rsq = 0
    · obtain ⟨hx, hy⟩ := GJK.rsq_eq_zero he
      rw [GJK.sub_x] at hx
      rw [GJK.sub_y] at hy
      have hout : ¬ ((0 < t + 2 ∧ t + 2 < 1) ∧ (0 < u ∧ u < 1)) := by
        intro hc
        linarith [hc.1.2]
      obtain ⟨σ, _, _, a1, a2, a3⟩ := exit_square t u (t + 2) u ht0 ht1 hu0 hu1 hout
      refine ⟨_, _, a1, a2, a3, le_of_eq ?_⟩
      simp only [v2.rsq, v2.dot, GJK.sub_x, GJK.sub_y, GJK.add_x, GJK.add_y, GJK.mul_x,
        GJK.mul_y, hx, hy]
      ring
    · have hL : 0 < (s.end - s.start).rsq :=
        lt_of_le_of_ne (GJK.rsq_nonneg _) (Ne.symm he)
      have hlam : (o.end - o.start).dot (s.end - s.start) / (s.end - s.start).rsq *
          (s.end - s.start).rsq = (o.end - o.start).dot (s.end - s.start) :=
        div_mul_cancel₀ _ he
      generalize (o.end - o.start).dot (s.end - s.start) / (s.end - s.start).rsq = lam
        at hlam
      have kx : (s.end.x - s.start.x) * lam = o.end.x - o.start.x := by
        apply mul_right_cancel₀ he
        simp only [v2.rsq, v2.dot, v2.cross, GJK.sub_x, GJK.sub_y] at hlam hΔ ⊢
        linear_combination (s.end.x - s.start.x) * hlam + (s.end.y - s.start.y) * hΔ
      have ky : (s.end.y - s.start.y) * lam = o.end.y - o.start.y := by
        apply mul_right_cancel₀ he
        simp only [v2.rsq, v2.dot, v2.cross, GJK.sub_x, GJK.sub_y] at hlam hΔ ⊢
        linear_combination (s.end.y - s.start.y) * hlam - (s.end.x - s.start.x) * hΔ
      have hout : ¬ ((0 < t + 2 * lam ∧ t + 2 * lam < 1) ∧ (0 < u + 2 ∧ u + 2 < 1)) := by
        intro hc
        linarith [hc.2.2]
      obtain ⟨σ, _, _, a1, a2, a3⟩ :=
        exit_square t u (t + 2 * lam) (u + 2) ht0 ht1 hu0 hu1 hout
      refine ⟨_, _, a1, a2, a3, le_of_eq ?_⟩
      simp only [v2.rsq, v2.dot, GJK.sub_x, GJK.sub_y, GJK.add_x, GJK.add_y, GJK.mul_x,
        GJK.mul_y, ← kx, ← ky]
      ring
  · have h1 : (o.end - o.start).cross (s.start - o.start) /
        (s.end - s.start).cross (o.end - o.start) *
        (s.end - s.start).cross (o.end - o.start) =
        (o.end - o.start).cross (s.start - o.start) := div_mul_cancel₀ _ hΔ
    have h2 : (s.end - s.start).cross (s.start - o.start) /
        (s.end - s.start).cross (o.end - o.start) *
        (s.end - s.start).cross (o.end - o.start) =
        (s.end - s.start).cross (s.start - o.start) := div_mul_cancel₀ _ hΔ
    generalize (o.end - o.start).cross (s.start - o.start) /
        (s.end - s.start).cross (o.end - o.start) = t0 at h1
    generalize (s.end - s.start).cross (s.start - o.start) /
        (s.end - s.start).cross (o.end - o.start) = u0 at h2
    have hout : ¬ ((0 < t0 ∧ t0 < 1) ∧ (0 < u0 ∧ u0 < 1)) := by
      intro hc
      have := intersects_of_inside s o t0 u0 h1 h2 hc.1 hc.2 hΔ
      rw [hni] at this
      exact Bool.noConfusion this
    obtain ⟨σ, hσ0, hσ1, a1, a2, a3⟩ := exit_square t u t0 u0 ht0 ht1 hu0 hu1 hout
    have zx : s.start.x + (s.end.x - s.start.x) * t0 -
        (o.start.x + (o.end.x - o.start.x) * u0) = 0 := by
      apply mul_right_cancel₀ hΔ
      simp only [v2.cross, GJK.sub_x, GJK.sub_y] at h1 h2 ⊢
      linear_combination (s.end.x - s.start.x) * h1 - (o.end.x - o.start.x) * h2
    have zy : s.start.y + (s.end.y - s.start.y) * t0 -
        (o.start.y + (o.end.y - o.start.y) * u0) = 0 := by
      apply mul_right_cancel₀ hΔ
      simp only [v2.cross, GJK.sub_x, GJK.sub_y] at h1 h2 ⊢
      linear_combination (s.end.y - s.start.y) * h1 - (o.end.y - o.start.y) * h2
    refine ⟨_, _, a1, a2, a3, ?_⟩
    have hx : s.start.x + (s.end.x - s.start.x) * (t + σ * (t0 - t)) -
        (o.start.x + (o.end.x - o.start.x) * (u + σ * (u0 - u))) =
        (1 - σ) * (s.start.x + (s.end.x - s.start.x) * t -
          (o.start.x + (o.end.x - o.start.x) * u)) := by
      linear_combination σ * zx
    have hy : s.start.y + (s.end.y - s.start.y) * (t + σ * (t0 - t)) -
        (o.start.y + (o.end.y - o.start.y) * (u + σ * (u0 - u))) =
        (1 - σ) * (s.start.y + (s.end.y - s.start.y) * t -
          (o.start.y + (o.end.y - o.start.y) * u)) := by
      linear_combination σ * zy
    simp only [v2.rsq, v2.dot, GJK.sub_x, GJK.sub_y, GJK.add_x, GJK.add_y, GJK.mul_x,
      GJK.mul_y]
    rw [hx, hy]
    have hs1 : (1 - σ) * (1 - σ) ≤ 1 := by
      have := mul_nonneg hσ0 (sub_nonneg.mpr hσ1)
      nlinarith
    exact shrink_le _ _ _ hs1

end Line_segment

namespace Line_segment

theorem rsq_sub_comm (a b : v2) : (a - b).rsq = (b - a).rsq := by
  simp only [v2.rsq, v2.dot, GJK.sub_x, GJK.sub_y]
  ring

theorem on_seg_start (a b : v2) : on_seg a b a :=
  ⟨0, le_refl 0, zero_le_one, by
    apply GJK.v2_ext
    · simp only [GJK.add_x, GJK.mul_x]
      ring
    · simp only [GJK.add_y, GJK.mul_y]
      ring⟩

theorem on_seg_end (a b : v2) : on_seg a b b :=
  ⟨1, zero_le_one, le_refl 1, by
    apply GJK.v2_ext
    · simp only [GJK.add_x, GJK.mul_x, GJK.sub_x]
      ring
    · simp only [GJK.add_y, GJK.mul_y, GJK.sub_y]
      ring⟩

theorem param_zero (a e : v2) : a + e * (0 : ℚ) = a := by
  apply GJK.v2_ext
  · simp only [GJK.add_x, GJK.mul_x]
    ring
  · simp only [GJK.add_y, GJK.mul_y]
    ring

theorem param_one (a b : v2) : a + (b - a) * (1 : ℚ) = b := by
  apply GJK.v2_ext
  · simp only [GJK.add_x, GJK.mul_x, GJK.sub_x]
    ring
  · simp only [GJK.add_y, GJK.mul_y, GJK.sub_y]
    ring

/-- The value of `dist_to_line_seg` when `intersects` is false. -/
theorem dist_to_line_seg_of_false (s o : Line_segment) (h : s.intersects o = false) :
    s.dist_to_line_seg o = Dist.sqrt (min
      (min (s.project_in o.start - o.start).rsq (s.project_in o.end - o.end).rsq)
      (min (o.project_in s.start - s.start).rsq (o.project_in s.end - s.end).rsq)) := by
  simp only [dist_to_line_seg, h]
  rfl

/-- The value of `dist_to_line_seg` when `intersects` is true. -/
theorem dist_to_line_seg_of_true (s o : Line_segment) (h : s.intersects o = true) :
    s.dist_to_line_seg o = Dist.zero := by
  simp only [dist_to_line_seg, h]
  rfl

/-- The least of the four radicands is the squared distance of a pair of points of the
two segments. -/
theorem four_attained (s o : Line_segment) :
    ∃ p q, on_seg s.start s.end p ∧ on_seg o.start o.end q ∧
      (p - q).rsq = min
        (min (s.project_in o.start - o.start).rsq (s.project_in o.end - o.end).rsq)
        (min (o.project_in s.start - s.start).rsq (o.project_in s.end - s.end).rsq) := by
  rcases min_choice
      (min (s.project_in o.start - o.start).rsq (s.project_in o.end - o.end).rsq)
      (min (o.project_in s.start - s.start).rsq (o.project_in s.end - s.end).rsq)
    with h | h <;> rw [h]
  · rcases min_choice (s.project_in o.start - o.start).rsq
      (s.project_in o.end - o.end).rsq with h1 | h1 <;> rw [h1]
    · exact ⟨_, _, project_in_on_seg s o.start, on_seg_start _ _, rfl⟩
    · exact ⟨_, _, project_in_on_seg s o.end, on_seg_end _ _, rfl⟩
  · rcases min_choice (o.project_in s.start - s.start).rsq
      (o.project_in s.end - s.end).rsq with h1 | h1 <;> rw [h1]
    · exact ⟨_, _, on_seg_start _ _, project_in_on_seg o s.start, rsq_sub_comm _ _⟩
    · exact ⟨_, _, on_seg_end _ _, project_in_on_seg o s.end, rsq_sub_comm _ _⟩

/-- For two segments that `intersects` does not report, no pair of points of the two
segments is nearer than the least of the four radicands. -/
theorem four_le (s o : Line_segment) (hni : s.intersects o = false) (p q : v2)
    (hp : on_seg s.start s.end p) (hq : on_seg o.start o.end q) :
    min (min (s.project_in o.start - o.start).rsq (s.project_in o.end - o.end).rsq)
      (min (o.project_in s.start - s.start).rsq (o.project_in s.end - s.end).rsq) ≤
      (p - q).rsq := by
  obtain ⟨t, ht0, ht1, hpt⟩ := hp
  obtain ⟨u, hu0, hu1, hqu⟩ := hq
  obtain ⟨t1, u1, ⟨a0, a1⟩, ⟨b0, b1⟩, hb, hle⟩ := to_boundary s o hni t u ht0 ht1 hu0 hu1
  rw [hpt, hqu]
  refine le_trans ?_ hle
  rcases hb with h | h | h | h
  · rw [h, param_zero]
    refine le_trans (le_trans (min_le_right _ _) (min_le_left _ _)) ?_
    rw [rsq_sub_comm]
    exact project_in_le o s.start _ ⟨u1, b0, b1, rfl⟩
  · rw [h, param_one]
    refine le_trans (le_trans (min_le_right _ _) (min_le_right _ _)) ?_
    rw [rsq_sub_comm]
    exact project_in_le o s.end _ ⟨u1, b0, b1, rfl⟩
  · rw [h, param_zero]
    refine le_trans (le_trans (min_le_left _ _) (min_le_left _ _)) ?_
    rw [rsq_sub_comm (s.project_in o.start) o.start,
      rsq_sub_comm (s.start + (s.end - s.start) * t1) o.start]
    exact project_in_le s o.start _ ⟨t1, a0, a1, rfl⟩
  · rw [h, param_one]
    refine le_trans (le_trans (min_le_left _ _) (min_le_right _ _)) ?_
    rw [rsq_sub_comm (s.project_in o.end) o.end,
      rsq_sub_comm (s.start + (s.end - s.start) * t1) o.end]
    exact project_in_le s o.end _ ⟨t1, a0, a1, rfl⟩

/-- When `intersects` is true the two segments share a point. -/
theorem shared_of_intersects (s o : Line_segment) (h : s.intersects o = true) :
    ∃ p, on_seg s.start s.end p ∧ on_seg o.start o.end p := by
  obtain ⟨_, hs, ht, he⟩ := intersects_params s o h
  exact ⟨_, ⟨_, ht.1, ht.2, rfl⟩, ⟨_, hs.1, hs.2, he⟩⟩

/-- C26: `s.dist_to_line_seg(o)` is the least distance between a point of `s` and a point
of `o`: it is the root of a radicand `r` that is the squared distance of some pair of
points of the two segments and is at most the squared distance of every pair; and it is
0 exactly when the two segments share a point, whether `intersects` reports it or
not. -/
theorem dist_to_line_seg_is_min (s o : Line_segment) :
    ((s.dist_to_line_seg o).is_zero = true ↔
      ∃ p, on_seg s.start s.end p ∧ on_seg o.start o.end p) ∧
    ∃ r : ℚ, 0 ≤ r ∧ (s.dist_to_line_seg o).denotes (Real.sqrt (r : ℝ)) ∧
      (∃ p q, on_seg s.start s.end p ∧ on_seg o.start o.end q ∧ (p - q).rsq = r) ∧
      (∀ p q, on_seg s.start s.end p → on_seg o.start o.end q → r ≤ (p - q).rsq) ∧
      (∀ p q, on_seg s.start s.end p → on_seg o.start o.end q →
        Real.sqrt (r : ℝ) ≤ Real.sqrt (((p - q).rsq : ℚ) : ℝ)) := by
  cases hi : s.intersects o
  · obtain ⟨p0, q0, hp0, hq0, hpq⟩ := four_attained s o
    have hlow := four_le s o hi
    rw [dist_to_line_seg_of_false s o hi]
    generalize min
      (min (s.project_in o.start - o.start).rsq (s.project_in o.end - o.end).rsq)
      (min (o.project_in s.start - s.start).rsq (o.project_in s.end - s.end).rsq) = m
      at hpq hlow
    have hm0 : 0 ≤ m := by
      rw [← hpq]
      exact GJK.rsq_nonneg _
    constructor
    · simp only [Dist.is_zero, decide_eq_true_eq]
      constructor
      · intro hz
        rw [hz] at hpq
        have := (rsq_eq_zero_iff q0 p0).mp hpq
        subst this
        exact ⟨_, hp0, hq0⟩
      · rintro ⟨p, hp, hq⟩
        have h1 := hlow p p hp hq
        have h2 : (p - p).rsq = 0 := (rsq_eq_zero_iff p p).mpr rfl
        linarith
    · refine ⟨m, hm0, ⟨hm0, rfl⟩, ⟨p0, q0, hp0, hq0, hpq⟩, hlow, ?_⟩
      intro p q hp hq
      exact Real.sqrt_le_sqrt (by exact_mod_cast hlow p q hp hq)
  · obtain ⟨p0, hp0, hq0⟩ := shared_of_intersects s o hi
    have h0 : (p0 - p0).rsq = 0 := (rsq_eq_zero_iff p0 p0).mpr rfl
    rw [dist_to_line_seg_of_true s o hi]
    constructor
    · simp only [Dist.is_zero, true_iff]
      exact ⟨_, hp0, hq0⟩
    · refine ⟨0, le_refl 0, ?_, ⟨p0, p0, hp0, hq0, h0⟩, fun p q _ _ => GJK.rsq_nonneg _, ?_⟩
      · show Real.sqrt ((0 : ℚ) : ℝ) = 0
        simp
      · intro p q _ _
        exact Real.sqrt_le_sqrt (by exact_mod_cast GJK.rsq_nonneg (p - q))

end Line_segment

namespace GJK

theorem dot_add_left (a b d : v2) : (a + b).dot d = a.dot d + b.dot d := by
  simp only [v2.dot, add_x, add_y]
  ring

/-- The scan of `farest_point_in_dir` over a translated list: every dot product is
shifted by the same amount, so the same index is kept. -/
theorem farest_scan_translate (dir v : v2) (l : List v2) (i index : Nat) (max_dot dot : ℚ) :
    farest_scan dir (l.map (fun p => p + v)) i index (max_dot + v.dot dir)
        (dot + v.dot dir) =
      ((farest_scan dir l i index max_dot dot).1,
        (farest_scan dir l i index max_dot dot).2.1 + v.dot dir,
        (farest_scan dir l i index max_dot dot).2.2 + v.dot dir) := by
  induction l generalizing i index max_dot dot with
  | nil => rfl
  | cons p rest ih =>
    simp only [List.map_cons, farest_scan, dot_add_left, gt_iff_lt, add_lt_add_iff_right]
    split_ifs with h
    · exact ih _ _ _ _
    · exact ih _ _ _ _

/-- The farthest point of a translated list is the translate of the farthest point. -/
theorem farest_point_in_dir_translate (points : List v2) (dir v : v2) :
    farest_point_in_dir (points.map (fun p => p + v)) dir =
      match farest_point_in_dir points dir with
      | Except.ok p => Except.ok (p + v)
      | Except.error e => Except.error e := by
  unfold farest_point_in_dir
  simp only [List.getElem?_map, List.length_map]
  cases h0 : points[0]? with
  | none => rfl
  | some p0 =>
    cases h1 : points[1]? with
    | none => rfl
    | some p1 =>
      simp only [Option.map_some']
      rw [← List.map_drop, dot_add_left, dot_add_left, farest_scan_translate]
      simp only [gt_iff_lt, add_lt_add_iff_right]
      cases hk : points[if (farest_scan dir (List.drop 2 points) 2 0 (p0.dot dir)
          (p1.dot dir)).2.1 < (farest_scan dir (List.drop 2 points) 2 0 (p0.dot dir)
          (p1.dot dir)).2.2 then points.length - 1
        else (farest_scan dir (List.drop 2 points) 2 0 (p0.dot dir) (p1.dot dir)).1]? with
      | none => rfl
      | some p => rfl

/-- The support point of two lists translated by the same vector is the support point
of the lists. -/
theorem support_func_translate (A B : List v2) (dir v : v2) :
    support_func (A.map (fun p => p + v)) (B.map (fun p => p + v)) dir =
      support_func A B dir := by
  unfold support_func
  rw [farest_point_in_dir_translate, farest_point_in_dir_translate]
  cases farest_point_in_dir A dir with
  | error e => rfl
  | ok f1 =>
    cases farest_point_in_dir B (-dir) with
    | error e => rfl
    | ok f2 =>
      show Except.ok (f1 + v - (f2 + v)) = Except.ok (f1 - f2)
      congr 1
      apply v2_ext
      · simp only [sub_x, add_x]
        ring
      · simp only [sub_y, add_y]
        ring

theorem intersects_loop_translate (A B : List v2) (v : v2) (fuel : Nat) (s : Simplex)
    (c : Nat) (d : v2) :
    intersects_loop (A.map (fun p => p + v)) (B.map (fun p => p + v)) fuel s c d =
      intersects_loop A B fuel s c d := by
  induction fuel generalizing s c d with
  | zero => rfl
  | succ n ih =>
    simp only [intersects_loop, support_func_translate, ih]

theorem intersects_translate (A B : List v2) (v : v2) (fuel : Nat) :
    intersects fuel (A.map (fun p => p + v)) (B.map (fun p => p + v)) =
      intersects fuel A B := by
  simp only [intersects, intersects_exit, support_func_translate, intersects_loop_translate]

theorem distance_loop_translate (A B : List v2) (v : v2) (fuel : Nat) (a b d : v2) :
    distance_loop (A.map (fun p => p + v)) (B.map (fun p => p + v)) fuel a b d =
      distance_loop A B fuel a b d := by
  induction fuel generalizing a b d with
  | zero => rfl
  | succ n ih =>
    simp only [distance_loop, support_func_translate, ih]

theorem distance_translate (A B : List v2) (v : v2) (fuel : Nat) :
    distance fuel (A.map (fun p => p + v)) (B.map (fun p => p + v)) =
      distance fuel A B := by
  simp only [distance, distance_exit, support_func_translate, distance_loop_translate]

theorem intersects_body_translate (A B : List v2) (v : v2) (s : Simplex) (c : Nat)
    (d : v2) :
    intersects_body (A.map (fun p => p + v)) (B.map (fun p => p + v)) s c d =
      intersects_body A B s c d := by
  simp only [intersects_body, support_func_translate]

theorem loop_head_translate (A B : List v2) (v : v2) (n : Nat) :
    loop_head (A.map (fun p => p + v)) (B.map (fun p => p + v)) n = loop_head A B n := by
  induction n with
  | zero => simp only [loop_head, support_func_translate]
  | succ n ih => simp only [loop_head, ih, intersects_body_translate]

end GJK

namespace Polygon

/-- C30: the GJK queries are invariant under translation: for two polygons translated by
`self_translate` with the same vector, every support point is the support point of the
untranslated polygons, the loop of `intersects` goes through the same states, and
`intersects` and `distance` return the same results, whatever the number of iterations
allowed. -/
theorem gjk_translation_invariant (fuel : Nat) (P Q : Polygon) (v : v2) :
    GJK.intersects fuel (P.self_translate v).vertices (Q.self_translate v).vertices =
      GJK.intersects fuel P.vertices Q.vertices ∧
    GJK.distance fuel (P.self_translate v).vertices (Q.self_translate v).vertices =
      GJK.distance fuel P.vertices Q.vertices ∧
    (∀ dir, GJK.support_func (P.self_translate v).vertices (Q.self_translate v).vertices dir =
      GJK.support_func P.vertices Q.vertices dir) ∧
    (∀ n, GJK.loop_head (P.self_translate v).vertices (Q.self_translate v).vertices n =
      GJK.loop_head P.vertices Q.vertices n) :=
  ⟨GJK.intersects_translate _ _ _ _, GJK.distance_translate _ _ _ _,
    fun dir => GJK.support_func_translate _ _ dir v,
    fun n => GJK.loop_head_translate _ _ v n⟩

/-- C29 fails on the code: `distance_to(const Line_segment&)` has no containment test.
For the square (0,0), (10,0), (10,10), (0,10) and the segment (4,5)-(6,5), which lies
inside the square and crosses no edge, `intersects` is true, because the square contains
the start of the segment, and `distance_to` is 4, the distance from the segment to the
nearest edge. -/
theorem distance_to_line_inside :
    (Polygon.mk [⟨0, 0⟩, ⟨10, 0⟩, ⟨10, 10⟩, ⟨0, 10⟩]).contains ⟨4, 5⟩ = true ∧
    (Polygon.mk [⟨0, 0⟩, ⟨10, 0⟩, ⟨10, 10⟩, ⟨0, 10⟩]).intersects_line
      (Line_segment.mk ⟨4, 5⟩ ⟨6, 5⟩) = true ∧
    (Polygon.mk [⟨0, 0⟩, ⟨10, 0⟩, ⟨10, 10⟩, ⟨0, 10⟩]).edges.any
      (fun li => li.intersects (Line_segment.mk ⟨4, 5⟩ ⟨6, 5⟩)) = false ∧
    (Polygon.mk [⟨0, 0⟩, ⟨10, 0⟩, ⟨10, 10⟩, ⟨0, 10⟩]).distance_to_line
      (Line_segment.mk ⟨4, 5⟩ ⟨6, 5⟩) = some (Dist.sqrt 16) ∧
    (Dist.sqrt 16).is_zero = false ∧
    (Polygon.mk [⟨0, 0⟩, ⟨10, 0⟩, ⟨10, 10⟩, ⟨0, 10⟩]).distance_to_point ⟨4, 5⟩ =
      some Dist.zero := by
  refine ⟨by decide!, by decide!, by decide!, by decide!, by decide!, by decide!⟩

end Polygon

namespace GJK

/-- One more iteration of the loop of `intersects` is one pass through its body, then the
rest of the loop. -/
theorem intersects_loop_body (A B : List v2) (fuel : Nat) (s : Simplex) (c : Nat) (d : v2) :
    intersects_loop A B (fuel + 1) s c d =
      match intersects_body A B s c d with
      | Except.error e => Except.error e
      | Except.ok (Sum.inl r) => Except.ok r
      | Except.ok (Sum.inr (s2, c2, d2)) => intersects_loop A B fuel s2 c2 d2 := by
  simp only [intersects_loop, intersects_body]
  cases support_func A B d with
  | error e => rfl
  | ok p =>
    simp only []
    cases s.write c p with
    | error e => rfl
    | ok s1 =>
      simp only []
      cases s1.read (c + 1 - 1) with
      | error e => rfl
      | ok last =>
        simp only []
        split_ifs
        · rfl
        · rcases hco : contains_origin s1 (c + 1) d with ⟨b, s2, c2, d2⟩
          cases b <;> rfl

/-- A state given by `loop_head` is a state of the run of `intersects`: with `n` more
iterations allowed, the run is the run of the loop from that state. -/
theorem loop_head_run (A B : List v2) (n : Nat) (s : Simplex) (c : Nat) (d : v2)
    (h : loop_head A B n = some (s, c, d)) (fuel : Nat) :
    intersects_exit (n + fuel) A B = intersects_loop A B fuel s c d := by
  induction n generalizing s c d fuel with
  | zero =>
    simp only [loop_head] at h
    simp only [intersects_exit, Nat.zero_add]
    cases hs : support_func A B (-(⟨1, -1⟩ : v2)) with
    | error e =>
      rw [hs] at h
      exact absurd h (by simp)
    | ok p =>
      rw [hs] at h
      simp only [Simplex.write, Option.some.injEq, Prod.mk.injEq] at h ⊢
      obtain ⟨h1, h2, h3⟩ := h
      rw [← h1, ← h2, ← h3]
  | succ n ih =>
    simp only [loop_head] at h
    cases hn : loop_head A B n with
    | none =>
      rw [hn] at h
      exact absurd h (by simp)
    | some st =>
      obtain ⟨s0, c0, d0⟩ := st
      rw [hn] at h
      simp only [] at h
      have e : n + 1 + fuel = n + (fuel + 1) := by omega
      rw [e, ih s0 c0 d0 hn (fuel + 1), intersects_loop_body]
      cases hb : intersects_body A B s0 c0 d0 with
      | error e1 =>
        rw [hb] at h
        exact absurd h (by simp)
      | ok r =>
        rw [hb] at h
        cases r with
        | inl r1 => exact absurd h (by simp)
        | inr st2 =>
          simp only [Option.some.injEq] at h
          rw [h]

/-- At the head of every iteration of the loop of `intersects` the live count is 1 or
2. -/
theorem loop_head_count (A B : List v2) (n : Nat) (s : Simplex) (c : Nat) (d : v2)
    (h : loop_head A B n = some (s, c, d)) : c = 1 ∨ c = 2 := by
  induction n generalizing s c d with
  | zero =>
    simp only [loop_head] at h
    cases hs : support_func A B (-(⟨1, -1⟩ : v2)) with
    | error e =>
      rw [hs] at h
      exact absurd h (by simp)
    | ok p =>
      rw [hs] at h
      simp only [Simplex.write, Option.some.injEq, Prod.mk.injEq] at h
      exact Or.inl h.2.1.symm
  | succ n ih =>
    simp only [loop_head] at h
    cases hn : loop_head A B n with
    | none =>
      rw [hn] at h
      exact absurd h (by simp)
    | some st =>
      obtain ⟨s0, c0, d0⟩ := st
      rw [hn] at h
      simp only [intersects_body] at h
      have hc0 := ih s0 c0 d0 hn
      cases hsup : support_func A B d0 with
      | error e =>
        rw [hsup] at h
        exact absurd h (by simp)
      | ok p =>
        rw [hsup] at h
        simp only [] at h
        cases hw : s0.write c0 p with
        | error e =>
          rw [hw] at h
          exact absurd h (by simp)
        | ok s1 =>
          rw [hw] at h
          simp only [] at h
          cases hr : s1.read (c0 + 1 - 1) with
          | error e =>
            rw [hr] at h
            exact absurd h (by simp)
          | ok last =>
            rw [hr] at h
            simp only [] at h
            split_ifs at h
            rcases hc0 with hc | hc
            · subst hc
              rw [show (1 + 1 : Nat) = 2 from rfl, contains_origin_two] at h
              simp only [Option.some.injEq, Prod.mk.injEq] at h
              exact Or.inr h.2.1.symm
            · subst hc
              right
              rw [show (2 + 1 : Nat) = 3 from rfl] at h
              by_cases t0 : s1.s2.dot (edge_dir s1.s0 s1.s1 s1.s2) < 0
              · rw [contains_origin_drop0 s1 d0 t0] at h
                simp only [Option.some.injEq, Prod.mk.injEq] at h
                exact h.2.1.symm
              · by_cases t1 : s1.s2.dot (edge_dir s1.s1 s1.s0 s1.s2) < 0
                · rw [contains_origin_drop1 s1 d0 t0 t1] at h
                  simp only [Option.some.injEq, Prod.mk.injEq] at h
                  exact h.2.1.symm
                · rw [contains_origin_inside s1 d0 t0 t1] at h
                  exact absurd h (by simp)

/-- What a call `contains_origin(simplex, n, dir)` with `n` equal to 2 or 3 leaves in `n`:
2 when it returns false, 3 when it returns true; and with `n = 2` it returns false and
leaves the simplex as it was. -/
theorem contains_origin_count (s : Simplex) (n : Nat) (d : v2) (hn : n = 2 ∨ n = 3) :
    ((contains_origin s n d).1 = false → (contains_origin s n d).2.2.1 = 2) ∧
    ((contains_origin s n d).1 = true → (contains_origin s n d).2.2.1 = 3) ∧
    (n = 2 → (contains_origin s n d).1 = false ∧ (contains_origin s n d).2.1 = s) := by
  rcases hn with hn | hn
  · subst hn
    rw [contains_origin_two]
    exact ⟨fun _ => rfl, fun h => absurd h (by simp), fun _ => ⟨rfl, rfl⟩⟩
  · subst hn
    by_cases t0 : s.s2.dot (edge_dir s.s0 s.s1 s.s2) < 0
    · rw [contains_origin_drop0 s d t0]
      exact ⟨fun _ => rfl, fun h => absurd h (by simp), fun h => absurd h (by decide)⟩
    · by_cases t1 : s.s2.dot (edge_dir s.s1 s.s0 s.s2) < 0
      · rw [contains_origin_drop1 s d t0 t1]
        exact ⟨fun _ => rfl, fun h => absurd h (by simp), fun h => absurd h (by decide)⟩
      · rw [contains_origin_inside s d t0 t1]
        exact ⟨fun h => absurd h (by simp), fun _ => rfl, fun h => absurd h (by decide)⟩

/-- C23: in every execution of `intersects`, at the head of every iteration of the loop,
where the next support point is appended, the live count is 1 or 2: the write
`simplex[count++]` is inside the array, and the count after it is at most 3. The call of
`contains_origin` that follows leaves the count at 2 when it returns false and at 3 when
it returns true, and with two live points it returns false and leaves the simplex as it
was. -/
theorem simplex_capacity (A B : List v2) (n : Nat) (s : Simplex) (c : Nat) (d : v2)
    (h : loop_head A B n = some (s, c, d)) :
    (c = 1 ∨ c = 2) ∧ c < 3 ∧ c + 1 ≤ 3 ∧
    (∀ p, ∃ s1, s.write c p = Except.ok s1) ∧
    (∀ fuel, intersects_exit (n + fuel) A B = intersects_loop A B fuel s c d) ∧
    (∀ s1 : Simplex,
      ((contains_origin s1 (c + 1) d).1 = false → (contains_origin s1 (c + 1) d).2.2.1 = 2) ∧
      ((contains_origin s1 (c + 1) d).1 = true → (contains_origin s1 (c + 1) d).2.2.1 = 3) ∧
      (c + 1 = 2 → (contains_origin s1 (c + 1) d).1 = false ∧
        (contains_origin s1 (c + 1) d).2.1 = s1)) := by
  have hc := loop_head_count A B n s c d h
  refine ⟨hc, by omega, by omega, ?_, loop_head_run A B n s c d h, ?_⟩
  · intro p
    rcases hc with hc | hc <;> subst hc
    · exact ⟨_, rfl⟩
    · exact ⟨_, rfl⟩
  · intro s1
    exact contains_origin_count s1 (c + 1) d (by omega)

/-- C23 at the triangles (0,0), (1,0), (1,1) and (-2,0), (-1,0), (-1,1): the state at the
head of the second iteration (number 1) holds two points. -/
theorem simplex_capacity_witness :
    loop_head [⟨0, 0⟩, ⟨1, 0⟩, ⟨1, 1⟩] [⟨-2, 0⟩, ⟨-1, 0⟩, ⟨-1, 1⟩] 1 =
      some (⟨⟨1, 0⟩, ⟨3, 0⟩, ⟨0, 0⟩⟩, 2, ⟨0, -2⟩) ∧
    ((2 = 1 ∨ 2 = 2) ∧ 2 < 3 ∧ 2 + 1 ≤ 3 ∧
    (∀ p, ∃ s1, (⟨⟨1, 0⟩, ⟨3, 0⟩, ⟨0, 0⟩⟩ : Simplex).write 2 p = Except.ok s1) ∧
    (∀ fuel, intersects_exit (1 + fuel) [⟨0, 0⟩, ⟨1, 0⟩, ⟨1, 1⟩]
        [⟨-2, 0⟩, ⟨-1, 0⟩, ⟨-1, 1⟩] =
      intersects_loop [⟨0, 0⟩, ⟨1, 0⟩, ⟨1, 1⟩] [⟨-2, 0⟩, ⟨-1, 0⟩, ⟨-1, 1⟩] fuel
        ⟨⟨1, 0⟩, ⟨3, 0⟩, ⟨0, 0⟩⟩ 2 ⟨0, -2⟩) ∧
    (∀ s1 : Simplex,
      ((contains_origin s1 (2 + 1) ⟨0, -2⟩).1 = false →
        (contains_origin s1 (2 + 1) ⟨0, -2⟩).2.2.1 = 2) ∧
      ((contains_origin s1 (2 + 1) ⟨0, -2⟩).1 = true →
        (contains_origin s1 (2 + 1) ⟨0, -2⟩).2.2.1 = 3) ∧
      (2 + 1 = 2 → (contains_origin s1 (2 + 1) ⟨0, -2⟩).1 = false ∧
        (contains_origin s1 (2 + 1) ⟨0, -2⟩).2.1 = s1))) :=
  ⟨by decide!, simplex_capacity [⟨0, 0⟩, ⟨1, 0⟩, ⟨1, 1⟩] [⟨-2, 0⟩, ⟨-1, 0⟩, ⟨-1, 1⟩] 1
    ⟨⟨1, 0⟩, ⟨3, 0⟩, ⟨0, 0⟩⟩ 2 ⟨0, -2⟩ (by decide!)⟩

/-- C24 fails on the code: `contains_origin` orients the perpendicular of the edge
`simplex[2]-simplex[1]` by the sign of `simplex[0].dot(dir)`, the position of the third
vertex relative to the origin, not relative to the edge. For the triangles (0,0), (1,0),
(1,1) and (-2,0), (-1,0), (-1,1) the simplex of the second iteration is (1,0), (3,0),
(1,-1); the perpendicular computed for the edge `simplex[2]-simplex[1]` is (-1,2), and
`dot(simplex[0] - simplex[2], dir)` is 2, positive: the direction points to the side of
the edge where the third vertex lies, and `simplex[0]` is dropped. -/
theorem triangle_perp_towards_third :
    loop_head [⟨0, 0⟩, ⟨1, 0⟩, ⟨1, 1⟩] [⟨-2, 0⟩, ⟨-1, 0⟩, ⟨-1, 1⟩] 1 =
      some (⟨⟨1, 0⟩, ⟨3, 0⟩, ⟨0, 0⟩⟩, 2, ⟨0, -2⟩) ∧
    support_func [⟨0, 0⟩, ⟨1, 0⟩, ⟨1, 1⟩] [⟨-2, 0⟩, ⟨-1, 0⟩, ⟨-1, 1⟩] ⟨0, -2⟩ =
      Except.ok ⟨1, -1⟩ ∧
    (⟨⟨1, 0⟩, ⟨3, 0⟩, ⟨0, 0⟩⟩ : Simplex).write 2 ⟨1, -1⟩ =
      Except.ok ⟨⟨1, 0⟩, ⟨3, 0⟩, ⟨1, -1⟩⟩ ∧
    ¬ ((⟨1, -1⟩ : v2).dot ⟨0, -2⟩ ≤ 0) ∧
    contains_origin ⟨⟨1, 0⟩, ⟨3, 0⟩, ⟨1, -1⟩⟩ 3 ⟨0, -2⟩ =
      (false, ⟨⟨1, -1⟩, ⟨3, 0⟩, ⟨1, -1⟩⟩, 2, ⟨-1, 2⟩) ∧
    edge_dir ⟨1, 0⟩ ⟨3, 0⟩ ⟨1, -1⟩ = ⟨-1, 2⟩ ∧
    ((⟨1, 0⟩ : v2) - ⟨1, -1⟩).dot ⟨-1, 2⟩ = 2 ∧
    ¬ (((⟨1, 0⟩ : v2) - ⟨1, -1⟩).dot (edge_dir ⟨1, 0⟩ ⟨3, 0⟩ ⟨1, -1⟩) ≤ 0) ∧
    loop_head [⟨0, 0⟩, ⟨1, 0⟩, ⟨1, 1⟩] [⟨-2, 0⟩, ⟨-1, 0⟩, ⟨-1, 1⟩] 2 =
      some (⟨⟨1, -1⟩, ⟨3, 0⟩, ⟨1, -1⟩⟩, 2, ⟨-1, 2⟩) := by
  refine ⟨by decide!, by decide!, by decide!, by decide!, by decide!, by decide!,
    by decide!, by decide!, by decide!⟩

end GJK

namespace GJK

/-! ## Termination of the loop of `intersects` -/

/-- The cross products of three vectors, weighted by the dot products with a fourth. -/
theorem cross_triple (a b c w : v2) :
    a.cross b * c.dot w + b.cross c * a.dot w + c.cross a * b.dot w = 0 := by
  simp only [v2.cross, v2.dot]
  ring

/-- The relation between the six cross products of four vectors of the plane. -/
theorem cross_pluecker (g x o r : v2) :
    g.cross x * o.cross r - g.cross o * x.cross r + g.cross r * x.cross o = 0 := by
  simp only [v2.cross]
  ring

/-- In a state reached by a proper drop, the kept vertex `x` lies strictly below the pivot
along the witness direction. -/
theorem sc_strict (GX GO XO gw xw ow : ℚ) (h1 : GO ≤ GX) (h2 : 0 ≤ GO)
    (h3 : GO < GX ∨ gw < 0) (hXO : 0 < XO) (hg : gw ≤ 0) (hx : xw ≤ 0) (ho : ow < 0)
    (T : GX * ow + XO * gw - GO * xw = 0) : xw < 0 := by
  by_contra h
  have hx0 : xw = 0 := le_antisymm hx (not_lt.mp h)
  rw [hx0] at T
  have a : GX * ow ≤ 0 := mul_nonpos_of_nonneg_of_nonpos (le_trans h2 h1) (le_of_lt ho)
  have b : XO * gw ≤ 0 := mul_nonpos_of_nonneg_of_nonpos (le_of_lt hXO) hg
  have a0 : GX * ow = 0 := by linarith
  have b0 : XO * gw = 0 := by linarith
  have hGX : GX = 0 := (mul_eq_zero.mp a0).resolve_right (ne_of_lt ho)
  have hgw : gw = 0 := (mul_eq_zero.mp b0).resolve_left (ne_of_gt hXO)
  rcases h3 with h3 | h3
  · linarith
  · linarith

/-- From a state reached by a proper drop no improper drop is possible. -/
theorem sc_exclusion (GX GO GR XO XR OR gw xw rw ow : ℚ) (h1 : GO ≤ GX) (h2 : 0 ≤ GO)
    (h3 : GO < GX ∨ gw < 0) (hXO : 0 < XO) (hXR : XO < XR) (hOR : XR ≤ OR)
    (hg : gw ≤ 0) (hx : xw ≤ 0) (hr : rw ≤ 0) (ho : ow < 0)
    (Pl : GX * OR - GO * XR + GR * XO = 0)
    (T1 : GX * rw + XR * gw - GR * xw = 0)
    (T3 : GX * ow + XO * gw - GO * xw = 0) : False := by
  have hxs := sc_strict GX GO XO gw xw ow h1 h2 h3 hXO hg hx ho T3
  have hXR0 : 0 < XR := lt_trans hXO hXR
  have hGX0 : 0 ≤ GX := le_trans h2 h1
  have c1 : GO * XR ≤ GX * XR := mul_le_mul_of_nonneg_right h1 (le_of_lt hXR0)
  have c2 : GX * XR ≤ GX * OR := mul_le_mul_of_nonneg_left hOR hGX0
  have hGRXO : GR * XO ≤ 0 := by linarith
  have hGR : GR ≤ 0 := by
    by_contra hc
    have := mul_pos (not_le.mp hc) hXO
    linarith
  have t1 : GX * rw ≤ 0 := mul_nonpos_of_nonneg_of_nonpos hGX0 hr
  have t2 : XR * gw ≤ 0 := mul_nonpos_of_nonneg_of_nonpos (le_of_lt hXR0) hg
  have t3 : 0 ≤ GR * xw := mul_nonneg_of_nonpos_of_nonpos hGR hx
  have t30 : GR * xw = 0 := by linarith
  have t20 : XR * gw = 0 := by linarith
  have hGR0 : GR = 0 := (mul_eq_zero.mp t30).resolve_right (ne_of_lt hxs)
  have hgw : gw = 0 := (mul_eq_zero.mp t20).resolve_left (ne_of_gt hXR0)
  rw [hGR0] at Pl
  have c3 : (GX - GO) * XR = 0 := by linarith
  have hGXGO : GX - GO = 0 := (mul_eq_zero.mp c3).resolve_right (ne_of_gt hXR0)
  rcases h3 with h3 | h3
  · linarith
  · linarith

/-- A point beyond the new edge of a proper drop of `simplex[0]` was beyond the old
edge. -/
theorem sc_cap0 (XR RM XM xw rw mw : ℚ) (hXR : 0 < XR) (hRM : 0 < RM) (hx : xw < 0)
    (hr : rw ≤ 0) (hm : mw ≤ 0) (T : XR * mw + RM * xw - XM * rw = 0) : 0 < XM := by
  by_contra hc
  have a : XR * mw ≤ 0 := mul_nonpos_of_nonneg_of_nonpos (le_of_lt hXR) hm
  have b : RM * xw < 0 := mul_neg_of_pos_of_neg hRM hx
  have c : 0 ≤ XM * rw := mul_nonneg_of_nonpos_of_nonpos (not_lt.mp hc) hr
  linarith

/-- A point beyond the new edge of a drop of `simplex[1]` was beyond the old edge. -/
theorem sc_cap1 (RV VM MR mw rw vw : ℚ) (hRV : 0 < RV) (hVM : 0 ≤ VM) (hMR : 0 < MR)
    (hm : mw ≤ 0) (hr : rw ≤ 0) (hv : vw < 0)
    (T : RV * mw + VM * rw + MR * vw = 0) : False := by
  have a : RV * mw ≤ 0 := mul_nonpos_of_nonneg_of_nonpos (le_of_lt hRV) hm
  have b : VM * rw ≤ 0 := mul_nonpos_of_nonneg_of_nonpos hVM hr
  have c : MR * vw < 0 := mul_neg_of_pos_of_neg hMR hv
  linarith

/-- When the new pivot ties with the kept vertex along its witness direction, no point
lies beyond the new edge. -/
theorem sc_dead (RV VM MR mw rw vw : ℚ) (hRV : 0 < RV) (hm : mw ≤ 0) (hr : rw = 0)
    (hv : vw < 0) (T : RV * mw + VM * rw + MR * vw = 0) : MR ≤ 0 := by
  by_contra hc
  have a : RV * mw ≤ 0 := mul_nonpos_of_nonneg_of_nonpos (le_of_lt hRV) hm
  have c : MR * vw < 0 := mul_neg_of_pos_of_neg (not_le.mp hc) hv
  rw [hr] at T
  linarith

end GJK

namespace GJK

/-- The direction `edge_dir other q r` as a signed perpendicular of `q - r`. -/
theorem edge_dir_form (other q r : v2) :
    ∃ ε : ℚ, (ε = 1 ∨ ε = -1) ∧ ∀ p : v2, p.dot (edge_dir other q r) = ε * (q - r).cross p := by
  rcases edge_dir_cases other q r with h | h
  · refine ⟨1, Or.inl rfl, fun p => ?_⟩
    rw [h]
    simp only [v2.dot, v2.cross]
    ring
  · refine ⟨-1, Or.inr rfl, fun p => ?_⟩
    rw [h]
    simp only [v2.dot, v2.cross, neg_x, neg_y]
    ring

/-- A count over a list decreases strictly when the counted property gets stronger and
some element of the list loses it. -/
theorem countP_lt_of_imp {α : Type} (l : List α) (p q : α → Bool)
    (himp : ∀ m ∈ l, q m = true → p m = true)
    (hex : ∃ m ∈ l, p m = true ∧ q m = false) : l.countP q < l.countP p := by
  induction l with
  | nil =>
    obtain ⟨m, hm, _⟩ := hex
    exact absurd hm (List.not_mem_nil m)
  | cons a l ih =>
    have hle : l.countP q ≤ l.countP p := by
      apply List.countP_mono_left
      intro m hm
      exact himp m (List.mem_cons_of_mem a hm)
    obtain ⟨m, hm, hpm, hqm⟩ := hex
    rw [List.countP_cons, List.countP_cons]
    rcases List.mem_cons.mp hm with rfl | hml
    · simp only [hpm, hqm, if_true]
      simp
      omega
    · have hlt := ih (fun m hm => himp m (List.mem_cons_of_mem a hm)) ⟨m, hml, hpm, hqm⟩
      have ha := himp a (List.mem_cons_self a l)
      cases hq : q a
      · cases hp : p a <;> simp <;> omega
      · rw [ha hq]
        simp
        omega

/-- The first test of the triangle case passes: the new direction points strictly away
from the kept vertex `V`, and either the dropped vertex `X` lies behind the new edge, or
it lies strictly on the side of the origin and the triangle of `R`, `V` and the origin is
larger than the triangle of `X`, `V` and the origin. -/
theorem drop0_cases (X V R d n : v2) (η ε : ℚ) (hη : η = 1 ∨ η = -1) (hε : ε = 1 ∨ ε = -1)
    (hd : ∀ p : v2, p.dot d = η * (X - V).cross p)
    (hn : ∀ p : v2, p.dot n = ε * (V - R).cross p)
    (hVd : V.dot d ≤ 0) (hRd : 0 < R.dot d) (hXn : X.dot n ≤ 0) (hRn : R.dot n < 0) :
    V.dot n < 0 ∧
    ((ε = -η ∧ X.dot n ≤ V.dot n) ∨
      (ε = η ∧ V.dot n < X.dot n ∧ |(X - V).cross V| < |(R - V).cross V|)) := by
  have e1 := hd V
  have e2 := hd R
  have e3 := hn X
  have e4 := hn R
  have e5 := hn V
  simp only [v2.cross, sub_x, sub_y] at e1 e2 e3 e4 e5 ⊢
  rcases hη with rfl | rfl <;> rcases hε with rfl | rfl
  · refine ⟨by linarith, Or.inr ⟨rfl, by linarith, ?_⟩⟩
    rw [abs_of_nonpos (by linarith), abs_of_nonneg (by linarith)]
    linarith
  · exact ⟨by linarith, Or.inl ⟨rfl, by linarith⟩⟩
  · exact ⟨by linarith, Or.inl ⟨by norm_num, by linarith⟩⟩
  · refine ⟨by linarith, Or.inr ⟨rfl, by linarith, ?_⟩⟩
    rw [abs_of_nonneg (by linarith), abs_of_nonpos (by linarith)]
    linarith

end GJK

namespace GJK

/-- The second test of the triangle case passes after the first has failed, in terms of
the cross products `XO = [x, o]`, `XR = [x, r]` and `OR = [o, r]` of the vectors from
the pivot `V` to `X`, to the new point `R` and to the origin. -/
theorem sc_drop1 (η ε ε2 XO XR OR xw rw ow : ℚ) (hη : η = 1 ∨ η = -1)
    (hε : ε = 1 ∨ ε = -1) (hε2 : ε2 = 1 ∨ ε2 = -1)
    (hVd : -(η * XO) ≤ 0) (hRd : 0 < η * (XR - XO))
    (hXn1 : ε * (XR - OR) ≤ 0) (hRn1 : ¬ (-(ε * OR) < 0))
    (hVn2 : -(ε2 * (XO + OR)) ≤ 0) (hRn2 : ε2 * (XR - XO - OR) < 0) (ho : ow < 0)
    (T : XR * ow - OR * xw - XO * rw = 0) :
    ε2 = η ∧ 0 ≤ η * OR ∧ η * OR ≤ η * XR ∧ 0 < η * XR := by
  have hRn1' := not_lt.mp hRn1
  rcases hη with rfl | rfl <;> rcases hε with rfl | rfl <;> rcases hε2 with rfl | rfl
  · exfalso; linarith
  · exfalso; linarith
  · exact ⟨rfl, by linarith, by linarith, by linarith⟩
  · exfalso
    have h1 : XO = 0 := by linarith
    have h2 : OR = 0 := by linarith
    rw [h1, h2] at T
    have h3 : 0 < XR := by linarith
    have := mul_neg_of_pos_of_neg h3 ho
    linarith
  · exfalso
    have h1 : XO = 0 := by linarith
    have h2 : OR = 0 := by linarith
    rw [h1, h2] at T
    have h3 : XR < 0 := by linarith
    have := mul_pos_of_neg_of_neg h3 ho
    linarith
  · exact ⟨rfl, by linarith, by linarith, by linarith⟩
  · exfalso; linarith
  · exfalso; linarith

/-- The second test of the triangle case passes after the first has failed: the new
direction has the orientation of the old one, the dropped pivot `V` and the origin lie
on the same side of the line through `R` and `V` as `X`, the origin not farther from it
than `X`, and `R` is strictly beyond the old edge. -/
theorem drop1_cases (X V R d n1 n2 w : v2) (η ε ε2 : ℚ) (hη : η = 1 ∨ η = -1)
    (hε : ε = 1 ∨ ε = -1) (hε2 : ε2 = 1 ∨ ε2 = -1)
    (hd : ∀ p : v2, p.dot d = η * (X - V).cross p)
    (hn1 : ∀ p : v2, p.dot n1 = ε * (V - R).cross p)
    (hn2 : ∀ p : v2, p.dot n2 = ε2 * (X - R).cross p)
    (hVd : V.dot d ≤ 0) (hRd : 0 < R.dot d) (hXn1 : X.dot n1 ≤ 0)
    (hRn1 : ¬ R.dot n1 < 0) (hVn2 : V.dot n2 ≤ 0) (hRn2 : R.dot n2 < 0)
    (hVw : 0 < V.dot w) :
    ε2 = η ∧ 0 ≤ η * (V - R).cross (-R) ∧
    η * (V - R).cross (-R) ≤ η * (V - R).cross (X - R) ∧
    0 < η * (X - V).cross (R - V) := by
  have a1 : V.dot d = -(η * (X - V).cross (-V)) := by
    rw [hd]
    simp only [v2.cross, sub_x, sub_y, neg_x, neg_y]
    ring
  have a2 : R.dot d = η * ((X - V).cross (R - V) - (X - V).cross (-V)) := by
    rw [hd]
    simp only [v2.cross, sub_x, sub_y, neg_x, neg_y]
    ring
  have a3 : X.dot n1 = ε * ((X - V).cross (R - V) - (-V).cross (R - V)) := by
    rw [hn1]
    simp only [v2.cross, sub_x, sub_y, neg_x, neg_y]
    ring
  have a4 : R.dot n1 = -(ε * (-V).cross (R - V)) := by
    rw [hn1]
    simp only [v2.cross, sub_x, sub_y, neg_x, neg_y]
    ring
  have a5 : V.dot n2 = -(ε2 * ((X - V).cross (-V) + (-V).cross (R - V))) := by
    rw [hn2]
    simp only [v2.cross, sub_x, sub_y, neg_x, neg_y]
    ring
  have a6 : R.dot n2 = ε2 * ((X - V).cross (R - V) - (X - V).cross (-V) -
      (-V).cross (R - V)) := by
    rw [hn2]
    simp only [v2.cross, sub_x, sub_y, neg_x, neg_y]
    ring
  have T : (X - V).cross (R - V) * (-V).dot w - (-V).cross (R - V) * (X - V).dot w -
      (X - V).cross (-V) * (R - V).dot w = 0 := by
    simp only [v2.cross, v2.dot, sub_x, sub_y, neg_x, neg_y]
    ring
  have ho : (-V).dot w < 0 := by
    rw [dot_neg_left]
    linarith
  rw [a1] at hVd
  rw [a2] at hRd
  rw [a3] at hXn1
  rw [a4] at hRn1
  rw [a5] at hVn2
  rw [a6] at hRn2
  obtain ⟨c1, c2, c3, c4⟩ := sc_drop1 η ε ε2 _ _ _ _ _ _ hη hε hε2 hVd hRd hXn1 hRn1
    hVn2 hRn2 ho T
  have b1 : (V - R).cross (-R) = (-V).cross (R - V) := by
    simp only [v2.cross, sub_x, sub_y, neg_x, neg_y]
    ring
  have b2 : (V - R).cross (X - R) = (X - V).cross (R - V) := by
    simp only [v2.cross, sub_x, sub_y, neg_x, neg_y]
    ring
  rw [b1, b2]
  exact ⟨c1, c2, c3, c4⟩

/-- After a proper drop of `simplex[0]` from a state reached by a proper drop, a point
of the Minkowski difference strictly beyond the new edge was strictly beyond the old
edge. -/
theorem cap0_imp (X V R G d n w m : v2) (η : ℚ)
    (hd : ∀ p : v2, p.dot d = η * (X - V).cross p)
    (hn : ∀ p : v2, p.dot n = -η * (V - R).cross p)
    (hVd : V.dot d < 0) (hRd : 0 < R.dot d)
    (h1 : η * (G - V).cross (-V) ≤ η * (G - V).cross (X - V))
    (h2 : 0 ≤ η * (G - V).cross (-V))
    (h3 : η * (G - V).cross (-V) < η * (G - V).cross (X - V) ∨ (G - V).dot w < 0)
    (hGw : G.dot w ≤ V.dot w) (hXw : X.dot w ≤ V.dot w) (hRw : R.dot w ≤ V.dot w)
    (hmw : m.dot w ≤ V.dot w) (hVw : 0 < V.dot w)
    (hm : V.dot n < m.dot n) : V.dot d < m.dot d := by
  have hg : (G - V).dot w ≤ 0 := by rw [dot_sub_left]; linarith
  have hx : (X - V).dot w ≤ 0 := by rw [dot_sub_left]; linarith
  have hr : (R - V).dot w ≤ 0 := by rw [dot_sub_left]; linarith
  have hmv : (m - V).dot w ≤ 0 := by rw [dot_sub_left]; linarith
  have ho : (-V).dot w < 0 := by rw [dot_neg_left]; linarith
  have a1 : V.dot d = -(η * (X - V).cross (-V)) := by
    rw [hd]
    simp only [v2.cross, sub_x, sub_y, neg_x, neg_y]
    ring
  have a2 : R.dot d = η * (X - V).cross (R - V) - η * (X - V).cross (-V) := by
    rw [hd]
    simp only [v2.cross, sub_x, sub_y, neg_x, neg_y]
    ring
  have a3 : m.dot n - V.dot n = η * (R - V).cross (m - V) := by
    rw [hn, hn]
    simp only [v2.cross, sub_x, sub_y]
    ring
  have a4 : m.dot d - V.dot d = η * (X - V).cross (m - V) := by
    rw [hd, hd]
    simp only [v2.cross, sub_x, sub_y]
    ring
  have T3 : η * (G - V).cross (X - V) * (-V).dot w + η * (X - V).cross (-V) * (G - V).dot w -
      η * (G - V).cross (-V) * (X - V).dot w = 0 := by
    simp only [v2.cross, v2.dot, sub_x, sub_y, neg_x, neg_y]
    ring
  have T1 : η * (X - V).cross (R - V) * (m - V).dot w +
      η * (R - V).cross (m - V) * (X - V).dot w -
      η * (X - V).cross (m - V) * (R - V).dot w = 0 := by
    simp only [v2.cross, v2.dot, sub_x, sub_y, neg_x, neg_y]
    ring
  have hXO : 0 < η * (X - V).cross (-V) := by linarith
  have hxs := sc_strict _ _ _ _ _ _ h1 h2 h3 hXO hg hx ho T3
  have hXR : 0 < η * (X - V).cross (R - V) := by linarith
  have hRM : 0 < η * (R - V).cross (m - V) := by linarith
  have := sc_cap0 _ _ _ _ _ _ hXR hRM hxs hr hmv T1
  linarith

/-- After a drop of `simplex[1]`, a point of the Minkowski difference strictly beyond the
new edge was strictly beyond the old edge. -/
theorem cap1_imp (X V R d n w m : v2) (η : ℚ)
    (hd : ∀ p : v2, p.dot d = η * (X - V).cross p)
    (hn : ∀ p : v2, p.dot n = η * (X - R).cross p)
    (hXR : 0 < η * (X - V).cross (R - V))
    (hVw : V.dot w < X.dot w) (hRw : R.dot w ≤ X.dot w) (hmw : m.dot w ≤ X.dot w)
    (hm : R.dot n < m.dot n) : V.dot d < m.dot d := by
  by_contra hc
  have hc' := not_lt.mp hc
  have hv : (V - X).dot w < 0 := by rw [dot_sub_left]; linarith
  have hr : (R - X).dot w ≤ 0 := by rw [dot_sub_left]; linarith
  have hmx : (m - X).dot w ≤ 0 := by rw [dot_sub_left]; linarith
  have a1 : η * (R - X).cross (V - X) = η * (X - V).cross (R - V) := by
    simp only [v2.cross, sub_x, sub_y]
    ring
  have a2 : η * (V - X).cross (m - X) = V.dot d - m.dot d := by
    rw [hd, hd]
    simp only [v2.cross, sub_x, sub_y]
    ring
  have a3 : η * (m - X).cross (R - X) = m.dot n - R.dot n := by
    rw [hn, hn]
    simp only [v2.cross, sub_x, sub_y]
    ring
  have T : η * (R - X).cross (V - X) * (m - X).dot w +
      η * (V - X).cross (m - X) * (R - X).dot w +
      η * (m - X).cross (R - X) * (V - X).dot w = 0 := by
    simp only [v2.cross, v2.dot, sub_x, sub_y]
    ring
  exact sc_cap1 _ _ _ _ _ _ (by rw [a1]; exact hXR) (by rw [a2]; linarith)
    (by rw [a3]; linarith) hmx hr hv T

/-- After a drop of `simplex[1]` to a new pivot that ties with the kept vertex along
its witness direction, no point of the Minkowski difference is beyond the new edge. -/
theorem dead1_imp (X V R n w m : v2) (η : ℚ)
    (hn : ∀ p : v2, p.dot n = η * (X - R).cross p)
    (hXR : 0 < η * (X - V).cross (R - V))
    (hVw : V.dot w < X.dot w) (hRw : R.dot w = X.dot w) (hmw : m.dot w ≤ X.dot w) :
    m.dot n ≤ R.dot n := by
  have hv : (V - X).dot w < 0 := by rw [dot_sub_left]; linarith
  have hr : (R - X).dot w = 0 := by rw [dot_sub_left]; linarith
  have hmx : (m - X).dot w ≤ 0 := by rw [dot_sub_left]; linarith
  have a1 : η * (R - X).cross (V - X) = η * (X - V).cross (R - V) := by
    simp only [v2.cross, sub_x, sub_y]
    ring
  have a3 : η * (m - X).cross (R - X) = m.dot n - R.dot n := by
    rw [hn, hn]
    simp only [v2.cross, sub_x, sub_y]
    ring
  have T : η * (R - X).cross (V - X) * (m - X).dot w +
      η * (V - X).cross (m - X) * (R - X).dot w +
      η * (m - X).cross (R - X) * (V - X).dot w = 0 := by
    simp only [v2.cross, v2.dot, sub_x, sub_y]
    ring
  have := sc_dead _ _ _ _ _ _ (by rw [a1]; exact hXR) hmx hr hv T
  linarith

end GJK

namespace GJK

/-- From a state reached by a proper drop, the first test of the triangle case cannot
pass with the dropped vertex on the side of the origin. -/
theorem excl0 (X V R G d n w : v2) (η : ℚ)
    (hd : ∀ p : v2, p.dot d = η * (X - V).cross p)
    (hn : ∀ p : v2, p.dot n = η * (V - R).cross p)
    (hVd : V.dot d < 0) (hRd : 0 < R.dot d) (hXn : X.dot n ≤ 0)
    (h1 : η * (G - V).cross (-V) ≤ η * (G - V).cross (X - V))
    (h2 : 0 ≤ η * (G - V).cross (-V))
    (h3 : η * (G - V).cross (-V) < η * (G - V).cross (X - V) ∨ (G - V).dot w < 0)
    (hGw : G.dot w ≤ V.dot w) (hXw : X.dot w ≤ V.dot w) (hRw : R.dot w ≤ V.dot w)
    (hVw : 0 < V.dot w) : False := by
  have hg : (G - V).dot w ≤ 0 := by rw [dot_sub_left]; linarith
  have hx : (X - V).dot w ≤ 0 := by rw [dot_sub_left]; linarith
  have hr : (R - V).dot w ≤ 0 := by rw [dot_sub_left]; linarith
  have ho : (-V).dot w < 0 := by rw [dot_neg_left]; linarith
  have a1 : V.dot d = -(η * (X - V).cross (-V)) := by
    rw [hd]
    simp only [v2.cross, sub_x, sub_y, neg_x, neg_y]
    ring
  have a2 : R.dot d = η * (X - V).cross (R - V) - η * (X - V).cross (-V) := by
    rw [hd]
    simp only [v2.cross, sub_x, sub_y, neg_x, neg_y]
    ring
  have a3 : X.dot n = η * (X - V).cross (R - V) - η * (-V).cross (R - V) := by
    rw [hn]
    simp only [v2.cross, sub_x, sub_y, neg_x, neg_y]
    ring
  have Pl : η * (G - V).cross (X - V) * (η * (-V).cross (R - V)) -
      η * (G - V).cross (-V) * (η * (X - V).cross (R - V)) +
      η * (G - V).cross (R - V) * (η * (X - V).cross (-V)) = 0 := by
    simp only [v2.cross, sub_x, sub_y, neg_x, neg_y]
    ring
  have T1 : η * (G - V).cross (X - V) * (R - V).dot w +
      η * (X - V).cross (R - V) * (G - V).dot w -
      η * (G - V).cross (R - V) * (X - V).dot w = 0 := by
    simp only [v2.cross, v2.dot, sub_x, sub_y, neg_x, neg_y]
    ring
  have T3 : η * (G - V).cross (X - V) * (-V).dot w + η * (X - V).cross (-V) * (G - V).dot w -
      η * (G - V).cross (-V) * (X - V).dot w = 0 := by
    simp only [v2.cross, v2.dot, sub_x, sub_y, neg_x, neg_y]
    ring
  exact sc_exclusion _ _ _ _ _ _ _ _ _ _ h1 h2 h3 (by linarith) (by linarith) (by linarith)
    hg hx hr ho Pl T1 T3

/-- A bound on the dot products of all pairs holds for a point of the Minkowski
difference. -/
theorem mink_le {A B : List v2} {w : v2} {c : ℚ}
    (hw : ∀ a ∈ A, ∀ b ∈ B, (a - b).dot w ≤ c) {m : v2} (hm : in_mink A B m) :
    m.dot w ≤ c := by
  obtain ⟨a, ha, b, hb, rfl⟩ := hm
  exact hw a ha b hb

theorem cap_count_le (A B : List v2) (V d : v2) :
    cap_count A B V d ≤ (mink_diff A B).length :=
  List.countP_le_length _

/-- The loop of `intersects` drops `simplex[0]`: the new state satisfies the invariant,
with a smaller measure. -/
theorem inv_drop0 (A B : List v2) (X V d R : v2) (proper : Bool)
    (h : term_inv A B X V d proper) (hR : in_mink A B R)
    (hmax : ∀ a ∈ A, ∀ b ∈ B, (a - b).dot d ≤ R.dot d) (hRd : 0 < R.dot d)
    (t0 : R.dot (edge_dir X V R) < 0) :
    ∃ proper2, term_inv A B R V (edge_dir X V R) proper2 ∧
      term_measure A B R V (edge_dir X V R) proper2 < term_measure A B X V d proper := by
  obtain ⟨hX, hV, hVd, η, wV, wX, hη, hd, hwV, hVw, hwX, hVX, hprop⟩ := h
  obtain ⟨ε, hε, hn⟩ := edge_dir_form X V R
  have hXn := edge_dir_other X V R
  have hperp := edge_dir_perp X V R
  obtain ⟨hVn, hcase⟩ := drop0_cases X V R d _ η ε hη hε hd hn hVd hRd hXn t0
  have hRmem : R ∈ mink_diff A B := mem_mink_diff.mpr hR
  have a1 : V.dot d = -(η * (X - V).cross (-V)) := by
    rw [hd]
    simp only [v2.cross, sub_x, sub_y, neg_x, neg_y]
    ring
  have a2 : R.dot d = η * (X - V).cross (R - V) - η * (X - V).cross (-V) := by
    rw [hd]
    simp only [v2.cross, sub_x, sub_y, neg_x, neg_y]
    ring
  rcases hcase with ⟨hεη, _⟩ | ⟨hεη, himp, harea⟩
  · -- the dropped vertex lies behind the new edge
    subst hεη
    have hn' : ∀ p : v2, p.dot (edge_dir X V R) = η * (R - V).cross p := by
      intro p
      rw [hn]
      simp only [v2.cross, sub_x, sub_y]
      ring
    refine ⟨true, ⟨hR, hV, le_of_lt hVn, η, wV, d, hη, hn', hwV, hVw, hmax, by linarith,
      fun _ => ⟨hVn, X, hX, by linarith, by linarith, Or.inl (by linarith)⟩⟩, ?_⟩
    cases proper
    · simp only [term_measure, if_true, Bool.false_eq_true, if_false]
      have := cap_count_le A B V (edge_dir X V R)
      omega
    · obtain ⟨hVd', G, hG, h1, h2, h3⟩ := hprop rfl
      simp only [term_measure, if_true]
      apply countP_lt_of_imp
      · intro m hm hq
        have hmm := mem_mink_diff.mp hm
        simp only [decide_eq_true_eq] at hq ⊢
        exact cap0_imp X V R G d _ wV m η hd hn hVd' hRd h1 h2 h3 (mink_le hwV hG)
          (mink_le hwV hX) (mink_le hwV hR) (mink_le hwV hmm) hVw hq
      · refine ⟨R, hRmem, ?_, ?_⟩
        · simp only [decide_eq_true_eq]
          linarith
        · simp only [decide_eq_false_iff_not, not_lt]
          exact le_of_eq hperp.symm
  · -- the dropped vertex lies on the side of the origin
    subst hεη
    cases proper
    · have hn' : ∀ p : v2, p.dot (edge_dir X V R) = -ε * (R - V).cross p := by
        intro p
        rw [hn]
        simp only [v2.cross, sub_x, sub_y]
        ring
      have hη' : -ε = 1 ∨ -ε = -1 := by
        rcases hη with h | h
        · right; rw [h]
        · left; rw [h]; norm_num
      refine ⟨false, ⟨hR, hV, le_of_lt hVn, -ε, wV, d, hη', hn', hwV, hVw, hmax,
        by linarith, fun hc => absurd hc (by simp)⟩, ?_⟩
      simp only [term_measure, Bool.false_eq_true, if_false]
      have : far_count A B R V < far_count A B X V := by
        apply countP_lt_of_imp
        · intro m _ hq
          simp only [decide_eq_true_eq] at hq ⊢
          exact lt_trans harea hq
        · refine ⟨R, hRmem, ?_, ?_⟩
          · simp only [decide_eq_true_eq]
            exact harea
          · simp only [decide_eq_false_iff_not, not_lt]
            exact le_refl _
      omega
    · exfalso
      obtain ⟨hVd', G, hG, h1, h2, h3⟩ := hprop rfl
      exact excl0 X V R G d _ wV ε hd hn hVd' hRd hXn h1 h2 h3 (mink_le hwV hG)
        (mink_le hwV hX) (mink_le hwV hR) hVw

/-- The loop of `intersects` drops `simplex[1]`: either no point of the Minkowski
difference lies on the positive side of the new direction, or the new state satisfies the
invariant, with a smaller measure. -/
theorem inv_drop1 (A B : List v2) (X V d R : v2) (proper : Bool)
    (h : term_inv A B X V d proper) (hR : in_mink A B R)
    (hmax : ∀ a ∈ A, ∀ b ∈ B, (a - b).dot d ≤ R.dot d) (hRd : 0 < R.dot d)
    (t0 : ¬ R.dot (edge_dir X V R) < 0) (t1 : R.dot (edge_dir V X R) < 0) :
    separates A B (edge_dir V X R) ∨
    (term_inv A B X R (edge_dir V X R) true ∧
      term_measure A B X R (edge_dir V X R) true < term_measure A B X V d proper) := by
  obtain ⟨hX, hV, hVd, η, wV, wX, hη, hd, hwV, hVw, hwX, hVX, hprop⟩ := h
  obtain ⟨ε, hε, hn1⟩ := edge_dir_form X V R
  obtain ⟨ε2, hε2, hn2⟩ := edge_dir_form V X R
  have hXn1 := edge_dir_other X V R
  have hVn2 := edge_dir_other V X R
  obtain ⟨c1, c2, c3, c4⟩ := drop1_cases X V R d _ _ wV η ε ε2 hη hε hε2 hd hn1 hn2 hVd hRd
    hXn1 t0 hVn2 t1 hVw
  subst c1
  have hRmem : R ∈ mink_diff A B := mem_mink_diff.mpr hR
  have hRX : R.dot wX ≤ X.dot wX := mink_le hwX hR
  by_cases tie : R.dot wX = X.dot wX
  · left
    intro a ha b hb
    have := dead1_imp X V R _ wX (a - b) ε2 hn2 c4 hVX tie (hwX a ha b hb)
    linarith
  · right
    have hlt : R.dot wX < X.dot wX := lt_of_le_of_ne hRX tie
    refine ⟨⟨hX, hR, le_of_lt t1, ε2, d, wX, hη, hn2, hmax, hRd, hwX, hlt,
      fun _ => ⟨t1, V, hV, c3, c2, Or.inr (by rw [dot_sub_left]; linarith)⟩⟩, ?_⟩
    cases proper
    · simp only [term_measure, if_true, Bool.false_eq_true, if_false]
      have := cap_count_le A B R (edge_dir V X R)
      omega
    · simp only [term_measure, if_true]
      apply countP_lt_of_imp
      · intro m hm hq
        have hmm := mem_mink_diff.mp hm
        simp only [decide_eq_true_eq] at hq ⊢
        exact cap1_imp X V R d _ wX m ε2 hd hn2 c4 hVX hRX (mink_le hwX hmm) hq
      · refine ⟨R, hRmem, ?_, ?_⟩
        · simp only [decide_eq_true_eq]
          linarith
        · simp only [decide_eq_false_iff_not, not_lt]
          exact le_refl _

end GJK

namespace GJK

/-- The body of the loop of `intersects` from a state with two live points. -/
theorem body_two (A B : List v2) (s : Simplex) (d R : v2)
    (hs : support_func A B d = Except.ok R) :
    intersects_body A B s 2 d =
      if R.dot d ≤ 0 then Except.ok (Sum.inl (false, d))
      else
        match contains_origin { s with s2 := R } 3 d with
        | (true, _, _, dir2) => Except.ok (Sum.inl (true, dir2))
        | (false, simplex2, count2, dir2) => Except.ok (Sum.inr (simplex2, count2, dir2)) := by
  simp only [intersects_body, hs, Simplex.write, Simplex.read]

/-- The body of the loop of `intersects` from a state with one live point. -/
theorem body_one (A B : List v2) (s : Simplex) (d R : v2)
    (hs : support_func A B d = Except.ok R) :
    intersects_body A B s 1 d =
      if R.dot d ≤ 0 then Except.ok (Sum.inl (false, d))
      else Except.ok (Sum.inr ({ s with s1 := R }, 2, edge_dir R s.s0 R)) := by
  simp only [intersects_body, hs, Simplex.write, Simplex.read]
  split_ifs
  · rfl
  · rw [show (1 + 1 : Nat) = 2 from rfl, contains_origin_two]

/-- From a state whose direction has no point of the Minkowski difference on its positive
side, the loop of `intersects` returns false at once. -/
theorem dead_step (A B : List v2) (hA : 2 ≤ A.length) (hB : 2 ≤ B.length) (s : Simplex)
    (d : v2) (h : separates A B d) :
    intersects_body A B s 2 d = Except.ok (Sum.inl (false, d)) := by
  obtain ⟨a, b, ha, hb, hs, _⟩ := support_func_spec A B d hA hB
  rw [body_two A B s d _ hs, if_pos (h a ha b hb)]

/-- One iteration of the loop of `intersects` from a state that satisfies the invariant:
it returns, or it reaches a state whose direction has no point of the Minkowski
difference on its positive side, or a state that satisfies the invariant with a smaller
measure. -/
theorem term_step (A B : List v2) (hA : 2 ≤ A.length) (hB : 2 ≤ B.length) (s : Simplex)
    (d : v2) (proper : Bool) (h : term_inv A B s.s0 s.s1 d proper) :
    (∃ r, intersects_body A B s 2 d = Except.ok (Sum.inl r)) ∨
    (∃ s2 d2, intersects_body A B s 2 d = Except.ok (Sum.inr (s2, 2, d2)) ∧
      (separates A B d2 ∨ ∃ proper2, term_inv A B s2.s0 s2.s1 d2 proper2 ∧
        term_measure A B s2.s0 s2.s1 d2 proper2 < term_measure A B s.s0 s.s1 d proper)) := by
  obtain ⟨a, b, ha, hb, hs, hmax⟩ := support_func_spec A B d hA hB
  have hR : in_mink A B (a - b) := ⟨a, ha, b, hb, rfl⟩
  rw [body_two A B s d _ hs]
  by_cases hle : (a - b).dot d ≤ 0
  · left
    rw [if_pos hle]
    exact ⟨_, rfl⟩
  · rw [if_neg hle]
    have hRd : 0 < (a - b).dot d := not_le.mp hle
    by_cases t0 : (a - b).dot (edge_dir s.s0 s.s1 (a - b)) < 0
    · right
      rw [contains_origin_drop0 ⟨s.s0, s.s1, a - b⟩ d t0]
      exact ⟨_, _, rfl, Or.inr (inv_drop0 A B s.s0 s.s1 d (a - b) proper h hR hmax hRd t0)⟩
    · by_cases t1 : (a - b).dot (edge_dir s.s1 s.s0 (a - b)) < 0
      · right
        rw [contains_origin_drop1 ⟨s.s0, s.s1, a - b⟩ d t0 t1]
        refine ⟨_, _, rfl, ?_⟩
        rcases inv_drop1 A B s.s0 s.s1 d (a - b) proper h hR hmax hRd t0 t1 with h1 | h1
        · exact Or.inl h1
        · exact Or.inr ⟨true, h1⟩
      · left
        rw [contains_origin_inside ⟨s.s0, s.s1, a - b⟩ d t0 t1]
        exact ⟨_, rfl⟩

/-- From a state that satisfies the invariant with measure at most `n`, the loop of
`intersects` returns within `n + 2` iterations. -/
theorem term_loop (A B : List v2) (hA : 2 ≤ A.length) (hB : 2 ≤ B.length) (n : Nat) :
    ∀ (s : Simplex) (d : v2) (proper : Bool), term_inv A B s.s0 s.s1 d proper →
      term_measure A B s.s0 s.s1 d proper ≤ n →
      ∃ r, intersects_loop A B (n + 2) s 2 d = Except.ok r := by
  induction n with
  | zero =>
    intro s d proper h hm
    rcases term_step A B hA hB s d proper h with ⟨r, hr⟩ | ⟨s2, d2, hb, hsep | ⟨p2, _, hlt⟩⟩
    · exact ⟨r, by rw [intersects_loop_body, hr]⟩
    · refine ⟨(false, d2), ?_⟩
      rw [intersects_loop_body, hb]
      simp only []
      rw [intersects_loop_body, dead_step A B hA hB s2 d2 hsep]
    · omega
  | succ k ih =>
    intro s d proper h hm
    rcases term_step A B hA hB s d proper h with ⟨r, hr⟩ | ⟨s2, d2, hb, hsep | ⟨p2, h2, hlt⟩⟩
    · exact ⟨r, by rw [intersects_loop_body, hr]⟩
    · refine ⟨(false, d2), ?_⟩
      rw [intersects_loop_body, hb]
      simp only []
      rw [intersects_loop_body, dead_step A B hA hB s2 d2 hsep]
    · obtain ⟨r, hr⟩ := ih s2 d2 p2 h2 (by omega)
      refine ⟨r, ?_⟩
      rw [intersects_loop_body, hb]
      exact hr

/-- Two vectors with equal coordinates each (perpendicular to `(1, -1)`) have cross
product zero. -/
theorem cross_of_diag (u v : v2) (hu : u.dot ⟨1, -1⟩ = 0) (hv : v.dot ⟨1, -1⟩ = 0) :
    u.cross v = 0 := by
  simp only [v2.dot] at hu hv
  have h1 : u.y = u.x := by linarith
  have h2 : v.y = v.x := by linarith
  simp only [v2.cross, h1, h2]
  ring

/-- The loop of `intersects` returns: with `2 * n + 4` iterations allowed, where `n` is
the number of pairs of the Minkowski difference, `intersects_exit` gives a result. -/
theorem intersects_exit_terminates (A B : List v2) (hA : 2 ≤ A.length)
    (hB : 2 ≤ B.length) :
    ∃ r, intersects_exit (2 * (mink_diff A B).length + 4) A B = Except.ok r := by
  obtain ⟨a0, b0, ha0, hb0, hs0, hmax0⟩ := support_func_spec A B (-(⟨1, -1⟩ : v2)) hA hB
  obtain ⟨a1, b1, ha1, hb1, hs1, hmax1⟩ := support_func_spec A B (⟨1, -1⟩ : v2) hA hB
  have hP : in_mink A B (a0 - b0) := ⟨a0, ha0, b0, hb0, rfl⟩
  have hQ : in_mink A B (a1 - b1) := ⟨a1, ha1, b1, hb1, rfl⟩
  simp only [intersects_exit, hs0, Simplex.write]
  rw [show 2 * (mink_diff A B).length + 4 = (2 * (mink_diff A B).length + 3) + 1 from rfl,
    intersects_loop_body, body_one A B _ _ _ hs1]
  by_cases hle : (a1 - b1).dot ⟨1, -1⟩ ≤ 0
  · rw [if_pos hle]
    exact ⟨_, rfl⟩
  · rw [if_neg hle]
    simp only []
    have hQd : 0 < (a1 - b1).dot ⟨1, -1⟩ := not_le.mp hle
    obtain ⟨ε, hε, hn⟩ := edge_dir_form (a1 - b1) (a0 - b0) (a1 - b1)
    have hVd := edge_dir_other (a1 - b1) (a0 - b0) (a1 - b1)
    have hmin : ∀ a ∈ A, ∀ b ∈ B, (a0 - b0).dot ⟨1, -1⟩ ≤ (a - b).dot ⟨1, -1⟩ := by
      intro a ha b hb
      have := hmax0 a ha b hb
      rw [dot_neg_right, dot_neg_right] at this
      linarith
    by_cases strict : (a0 - b0).dot ⟨1, -1⟩ < (a1 - b1).dot ⟨1, -1⟩
    · have hinv : term_inv A B (a0 - b0) (a1 - b1)
          (edge_dir (a1 - b1) (a0 - b0) (a1 - b1)) false :=
        ⟨hP, hQ, hVd, ε, ⟨1, -1⟩, -(⟨1, -1⟩ : v2), hε, hn, hmax1, hQd, hmax0,
          by rw [dot_neg_right, dot_neg_right]; linarith, fun hc => absurd hc (by simp)⟩
      have hmeas : term_measure A B (a0 - b0) (a1 - b1)
          (edge_dir (a1 - b1) (a0 - b0) (a1 - b1)) false ≤
          2 * (mink_diff A B).length + 1 := by
        simp only [term_measure, Bool.false_eq_true, if_false]
        have : far_count A B (a0 - b0) (a1 - b1) ≤ (mink_diff A B).length :=
          List.countP_le_length _
        omega
      exact term_loop A B hA hB _ ⟨a0 - b0, a1 - b1, ⟨0, 0⟩⟩ _ false hinv hmeas
    · have hsep : separates A B (edge_dir (a1 - b1) (a0 - b0) (a1 - b1)) := by
        intro a ha b hb
        have h1 := hmin a ha b hb
        have h2 := hmax1 a ha b hb
        have h3 := not_lt.mp strict
        have hu : ((a0 - b0) - (a1 - b1)).dot ⟨1, -1⟩ = 0 := by
          rw [dot_sub_left]
          linarith
        have hv : ((a - b) - (a1 - b1)).dot ⟨1, -1⟩ = 0 := by
          rw [dot_sub_left]
          linarith
        have hc := cross_of_diag _ _ hu hv
        have e : (a - b).dot (edge_dir (a1 - b1) (a0 - b0) (a1 - b1)) =
            (a1 - b1).dot (edge_dir (a1 - b1) (a0 - b0) (a1 - b1)) +
              ε * ((a0 - b0) - (a1 - b1)).cross ((a - b) - (a1 - b1)) := by
          rw [hn, hn]
          simp only [v2.cross, sub_x, sub_y]
          ring
        rw [e, hc]
        linarith
      refine ⟨(false, edge_dir (a1 - b1) (a0 - b0) (a1 - b1)), ?_⟩
      rw [show 2 * (mink_diff A B).length + 3 = (2 * (mink_diff A B).length + 2) + 1 from rfl,
        intersects_loop_body, dead_step A B hA hB _ _ hsep]

/-- C25: the loop of `intersects` terminates: for two lists of at least two points each,
`intersects` returns true or false within `2 * n + 4` iterations, where `n` is the number
of pairs of the Minkowski difference, and allowing more iterations gives the same
result. -/
theorem intersects_terminates (A B : List v2) (hA : 2 ≤ A.length) (hB : 2 ≤ B.length) :
    ∃ r : Bool, ∀ k, intersects (k + (2 * (mink_diff A B).length + 4)) A B = Except.ok r := by
  obtain ⟨⟨r, d⟩, hr⟩ := intersects_exit_terminates A B hA hB
  refine ⟨r, fun k => intersects_fuel_add A B _ k r ?_⟩
  unfold intersects
  rw [hr]

/-- C25 at the squares (0,0)-(1,1) and (2,2)-(3,3): `intersects` returns false. -/
theorem intersects_terminates_witness :
    2 ≤ ([⟨0, 0⟩, ⟨1, 0⟩, ⟨1, 1⟩, ⟨0, 1⟩] : List v2).length ∧
    2 ≤ ([⟨2, 2⟩, ⟨3, 2⟩, ⟨3, 3⟩, ⟨2, 3⟩] : List v2).length ∧
    intersects 2 [⟨0, 0⟩, ⟨1, 0⟩, ⟨1, 1⟩, ⟨0, 1⟩] [⟨2, 2⟩, ⟨3, 2⟩, ⟨3, 3⟩, ⟨2, 3⟩] =
      Except.ok false ∧
    ∃ r : Bool, ∀ k, intersects
      (k + (2 * (mink_diff [⟨0, 0⟩, ⟨1, 0⟩, ⟨1, 1⟩, ⟨0, 1⟩]
        [⟨2, 2⟩, ⟨3, 2⟩, ⟨3, 3⟩, ⟨2, 3⟩]).length + 4))
      [⟨0, 0⟩, ⟨1, 0⟩, ⟨1, 1⟩, ⟨0, 1⟩] [⟨2, 2⟩, ⟨3, 2⟩, ⟨3, 3⟩, ⟨2, 3⟩] = Except.ok r :=
  ⟨by decide, by decide, by decide!,
    intersects_terminates [⟨0, 0⟩, ⟨1, 0⟩, ⟨1, 1⟩, ⟨0, 1⟩]
      [⟨2, 2⟩, ⟨3, 2⟩, ⟨3, 3⟩, ⟨2, 3⟩] (by decide) (by decide)⟩

end GJK

namespace GJK

/-- A combination of three points of a list with weights that are not negative and sum
to 1 is a point of its hull. -/
theorem in_hull_three {P : List v2} {a0 a1 a2 : v2} (h0 : a0 ∈ P) (h1 : a1 ∈ P)
    (h2 : a2 ∈ P) {l0 l1 l2 : ℚ} (p0 : 0 ≤ l0) (p1 : 0 ≤ l1) (p2 : 0 ≤ l2)
    (hs : l0 + l1 + l2 = 1) : in_hull P (a0 * l0 + a1 * l1 + a2 * l2) := by
  by_cases hz : l0 + l1 = 0
  · have e0 : l0 = 0 := by linarith
    have e1 : l1 = 0 := by linarith
    have e2 : l2 = 1 := by linarith
    have e : a0 * l0 + a1 * l1 + a2 * l2 = a2 := by
      apply v2_ext
      · simp only [add_x, mul_x, e0, e1, e2]
        ring
      · simp only [add_y, mul_y, e0, e1, e2]
        ring
    rw [e]
    exact in_hull.vertex a2 h2
  · have hpos : 0 < l0 + l1 := lt_of_le_of_ne (by linarith) (Ne.symm hz)
    have hx : in_hull P (a0 + (a1 - a0) * (l1 / (l0 + l1))) :=
      in_hull.segment a0 a1 _ (in_hull.vertex a0 h0) (in_hull.vertex a1 h1)
        (div_nonneg p1 (le_of_lt hpos)) ((div_le_one hpos).mpr (by linarith))
    have hy := in_hull.segment _ a2 l2 hx (in_hull.vertex a2 h2) p2 (by linarith)
    have e : a0 * l0 + a1 * l1 + a2 * l2 =
        a0 + (a1 - a0) * (l1 / (l0 + l1)) +
          (a2 - (a0 + (a1 - a0) * (l1 / (l0 + l1)))) * l2 := by
      apply v2_ext
      · simp only [add_x, mul_x, sub_x]
        field_simp
        linear_combination (a0.x * (l0 + l1) + (a1.x - a0.x) * l1) * hs
      · simp only [add_y, mul_y, sub_y]
        field_simp
        linear_combination (a0.y * (l0 + l1) + (a1.y - a0.y) * l1) * hs
    rw [e]
    exact hy

/-- Hulls that share a point are within every distance. -/
theorem hulls_within_of_meet {A B : List v2} (h : hulls_meet A B) {r : ℚ} (hr : 0 ≤ r) :
    hulls_within A B r := by
  obtain ⟨a0, ha0, a1, ha1, a2, ha2, b0, hb0, b1, hb1, b2, hb2, l0, l1, l2, p0, p1, p2, hs,
    _, _, _, _, he⟩ := h
  refine ⟨_, _, in_hull_three ha0 ha1 ha2 p0 p1 p2 hs, in_hull_three hb0 hb1 hb2 p0 p1 p2 hs,
    ?_⟩
  rw [he]
  simp only [v2.rsq, v2.dot, sub_x, sub_y, sub_self, mul_zero, add_zero]
  exact hr

/-- The closest point of a segment between two points of the Minkowski difference is a
difference of hull points. -/
theorem hulls_within_of_closest {A B : List v2} {a1 b1 a2 b2 : v2} (ha1 : a1 ∈ A)
    (hb1 : b1 ∈ B) (ha2 : a2 ∈ A) (hb2 : b2 ∈ B) {r : ℚ}
    (h : (closest_to_origin (a1 - b1) (a2 - b2)).rsq ≤ r) : hulls_within A B r := by
  obtain ⟨t, h0, h1, hq, _, _⟩ := closest_to_origin_spec (a1 - b1) (a2 - b2)
  obtain ⟨x, y, hx, hy, hxy⟩ := in_hull_pair ha1 hb1 ha2 hb2 t h0 h1
  refine ⟨x, y, hx, hy, ?_⟩
  rw [hxy, ← hq]
  exact h

/-- A triangle of points of the Minkowski difference with the origin strictly inside:
the hulls share a point. -/
theorem hulls_meet_of_inside {A B : List v2} {a b c : v2} (ha : in_mink A B a)
    (hb : in_mink A B b) (hc : in_mink A B c)
    (h : min (a.cross b * b.cross c) (a.cross b * c.cross a) > 0) : hulls_meet A B := by
  have h1 : 0 < a.cross b * b.cross c := lt_of_lt_of_le h (min_le_left _ _)
  have h2 : 0 < a.cross b * c.cross a := lt_of_lt_of_le h (min_le_right _ _)
  have hS : 0 < a.cross b * (a.cross b + b.cross c + c.cross a) := by
    have := mul_self_nonneg (a.cross b)
    have hne : a.cross b ≠ 0 := by
      intro hz
      rw [hz, zero_mul] at h1
      exact lt_irrefl 0 h1
    have := mul_self_pos.mpr hne
    nlinarith
  have hSne : a.cross b + b.cross c + c.cross a ≠ 0 := by
    intro hz
    rw [hz, mul_zero] at hS
    exact lt_irrefl 0 hS
  have hpos : ∀ z : ℚ, 0 < a.cross b * z → 0 ≤ z / (a.cross b + b.cross c + c.cross a) := by
    intro z hz
    rcases lt_or_gt_of_ne hSne with hneg | hp
    · have hab : a.cross b < 0 := by
        by_contra hc1
        have := mul_nonneg (not_lt.mp hc1) (le_of_lt (neg_pos.mpr hneg))
        linarith
      have hzn : z < 0 := by
        by_contra hc1
        have := mul_nonneg (le_of_lt (neg_pos.mpr hab)) (not_lt.mp hc1)
        linarith
      exact le_of_lt (div_pos_of_neg_of_neg hzn hneg)
    · have hab : 0 < a.cross b := by
        by_contra hc1
        have := mul_nonneg (neg_nonneg.mpr (not_lt.mp hc1)) (le_of_lt hp)
        linarith
      have hzn : 0 < z := by
        by_contra hc1
        have := mul_nonneg (le_of_lt hab) (neg_nonneg.mpr (not_lt.mp hc1))
        linarith
      exact le_of_lt (div_pos hzn hp)
  refine hulls_meet_of_triangle ha hb hc
    ⟨b.cross c / (a.cross b + b.cross c + c.cross a),
      c.cross a / (a.cross b + b.cross c + c.cross a),
      a.cross b / (a.cross b + b.cross c + c.cross a), hpos _ h1, hpos _ h2,
      hpos _ (mul_self_pos.mpr (by
        intro hz
        rw [hz, zero_mul] at h1
        exact lt_irrefl 0 h1)), ?_, ?_, ?_⟩
  · field_simp
    ring
  · field_simp
    simp only [v2.cross]
    ring
  · field_simp
    simp only [v2.cross]
    ring

/-- The loop of `distance` returns `0.0` only when the hulls are within `EPSILON`: a
result returned from a state satisfying `dist_inv` through another `return` than the
progress check comes with two hull points at squared distance at most `EPSILON`. -/
theorem distance_loop_zero (A B : List v2) (hA : 2 ≤ A.length) (hB : 2 ≤ B.length) :
    ∀ (fuel : Nat) (a b dir : v2) (e : Exit) (d : v2) (v : Dist),
      dist_inv A B a b dir →
      distance_loop A B fuel a b dir = Except.ok (e, d, v) →
      e ≠ Exit.no_progress → hulls_within A B EPSILON := by
  intro fuel
  induction fuel with
  | zero =>
    intro a b dir e d v _ h
    simp [distance_loop] at h
  | succ n ih =>
    intro a b dir e d v hinv h hne
    obtain ⟨ac, bc, hac, hbc, hs, hmax⟩ := support_func_spec A B dir hA hB
    obtain ⟨⟨a1, ha1, b1, hb1, a2, ha2, b2, hb2, t, ea, eb, ht0, ht1, hseg⟩, heps, hda, hdb⟩ :=
      hinv
    simp only [distance_loop, hs] at h
    split_ifs at h with hin hprog hclose hle
    · exact hulls_within_of_meet (hulls_meet_of_inside ⟨a1, ha1, b1, hb1, ea⟩
        ⟨a2, ha2, b2, hb2, eb⟩ ⟨ac, hac, bc, hbc, rfl⟩ hin) (le_of_lt EPSILON_pos)
    · have h2 := Except.ok.inj h
      simp only [Prod.mk.injEq] at h2
      exact absurd h2.1.symm hne
    · rcases min_le_iff.mp hclose with hc | hc
      · rw [ea] at hc
        exact hulls_within_of_closest ha1 hb1 hac hbc hc
      · rw [eb] at hc
        exact hulls_within_of_closest ha2 hb2 hac hbc hc
    · refine ih _ _ _ e d v ?_ h hne
      have hgt : EPSILON < (closest_to_origin a (ac - bc)).rsq := by
        have := not_le.mp hclose
        exact lt_of_lt_of_le this (min_le_left _ _)
      rw [ea] at hgt ⊢
      exact dist_inv_of_closest ha1 hb1 hac hbc hgt
    · refine ih _ _ _ e d v ?_ h hne
      have hgt : EPSILON < (closest_to_origin b (ac - bc)).rsq := by
        have := not_le.mp hclose
        exact lt_of_lt_of_le this (min_le_right _ _)
      rw [eb] at hgt ⊢
      exact dist_inv_of_closest_swap ha2 hb2 hac hbc hgt

/-- `GJK::distance` returns `0.0` only when the hulls are within `EPSILON`. -/
theorem distance_exit_zero (fuel : Nat) (A B : List v2) (hA : 2 ≤ A.length)
    (hB : 2 ≤ B.length) (e : Exit) (d : v2) (v : Dist)
    (h : distance_exit fuel A B = Except.ok (e, d, v)) (hne : e ≠ Exit.no_progress) :
    hulls_within A B EPSILON := by
  obtain ⟨a1, b1, ha1, hb1, hs1, _⟩ := support_func_spec A B ⟨1, -1⟩ hA hB
  obtain ⟨a2, b2, ha2, hb2, hs2, _⟩ := support_func_spec A B (-(⟨1, -1⟩ : v2)) hA hB
  simp only [distance_exit, hs1, hs2] at h
  split_ifs at h with hclose
  · rw [rsq_neg] at hclose
    exact hulls_within_of_closest ha1 hb1 ha2 hb2 hclose
  · refine distance_loop_zero A B hA hB fuel _ _ _ e d v ?_ h hne
    have hgt := not_le.mp hclose
    rw [rsq_neg] at hgt
    exact dist_inv_of_closest ha1 hb1 ha2 hb2 hgt

/-! ### Termination of the loop of `distance` -/

/-- Moving from `p` towards a point `c` that is lower along `p` by at least `ε` shortens
the squared length by at least `ε² / (ε + L)`, where `L` bounds `|c - p|²`. -/
theorem seg_decrease {p c : v2} {ε L : ℚ} (hε : 0 < ε) (hg : ε ≤ p.rsq - c.dot p)
    (hL : (c - p).rsq ≤ L) :
    (p + (c - p) * (ε / (ε + L))).rsq ≤ p.rsq - ε * ε / (ε + L) := by
  have hl0 : 0 ≤ (c - p).rsq := rsq_nonneg _
  have hs : 0 < ε + L := by linarith
  have hτ0 : 0 < ε / (ε + L) := div_pos hε hs
  have hτL : ε / (ε + L) * (c - p).rsq ≤ ε := by
    have h1 : ε / (ε + L) * (c - p).rsq ≤ ε / (ε + L) * (ε + L) :=
      mul_le_mul_of_nonneg_left (by linarith) (le_of_lt hτ0)
    rw [div_mul_cancel₀ _ (ne_of_gt hs)] at h1
    exact h1
  have e : (p + (c - p) * (ε / (ε + L))).rsq =
      p.rsq - (ε / (ε + L)) * (2 * (p.rsq - c.dot p) - ε / (ε + L) * (c - p).rsq) := by
    simp only [v2.rsq, v2.dot, add_x, add_y, mul_x, mul_y, sub_x, sub_y]
    ring
  have e2 : ε * ε / (ε + L) = ε / (ε + L) * ε := by ring
  rw [e, e2]
  have := mul_le_mul_of_nonneg_left
    (show ε ≤ 2 * (p.rsq - c.dot p) - ε / (ε + L) * (c - p).rsq by linarith) (le_of_lt hτ0)
  linarith

/-- A point `u` that no vertex of the triangle `a b c` is nearer than along `u` is not
farther from the origin than any point of a segment from a point of `a b` to `c`. -/
theorem triangle_closest_le {a b c p u : v2} {t s : ℚ} (hp : p = a + (b - a) * t)
    (ht0 : 0 ≤ t) (ht1 : t ≤ 1) (hs0 : 0 ≤ s) (hs1 : s ≤ 1) (hua : u.rsq ≤ a.dot u)
    (hub : u.rsq ≤ b.dot u) (huc : u.rsq ≤ c.dot u) : u.rsq ≤ (p + (c - p) * s).rsq :=
  rsq_le_of_dot (seg_dot_ge rfl hs0 hs1 (seg_dot_ge hp ht0 ht1 hua hub) huc)

/-- The squared lengths of the differences `a - b` are bounded. -/
theorem mink_bounded (A B : List v2) : ∃ M : ℚ, 0 ≤ M ∧ ∀ a ∈ A, ∀ b ∈ B, (a - b).rsq ≤ M := by
  have hb : ∀ l : List v2, ∃ K : ℚ, 0 ≤ K ∧ ∀ m ∈ l, m.rsq ≤ K := by
    intro l
    induction l with
    | nil => exact ⟨0, le_refl 0, fun m hm => absurd hm (List.not_mem_nil m)⟩
    | cons x l ih =>
      obtain ⟨K, hK0, hK⟩ := ih
      refine ⟨max K x.rsq, le_max_of_le_left hK0, ?_⟩
      intro m hm
      rcases List.mem_cons.mp hm with h | h
      · rw [h]
        exact le_max_right _ _
      · exact le_trans (hK m h) (le_max_left _ _)
  obtain ⟨KA, hA0, hKA⟩ := hb A
  obtain ⟨KB, hB0, hKB⟩ := hb B
  refine ⟨2 * KA + 2 * KB, by linarith, ?_⟩
  intro a ha b hb1
  have h1 := hKA a ha
  have h2 := hKB b hb1
  simp only [v2.rsq, v2.dot, sub_x, sub_y] at h1 h2 ⊢
  nlinarith [sq_nonneg (a.x + b.x), sq_nonneg (a.y + b.y)]

/-- An iteration of the loop of `distance` that does not return shortens the squared
length of the closest point by at least `ε² / (ε + 4 M)`, where `M` bounds the squared
lengths of the points of the Minkowski difference. -/
theorem step_decrease {a b c p : v2} {M : ℚ} (hp : is_closest a b p) (ha : a.rsq ≤ M)
    (hc : c.rsq ≤ M)
    (hin : ¬ min (a.cross b * b.cross c) (a.cross b * c.cross a) > 0)
    (hpa : EPSILON < a.dot p - c.dot p) (hpb : EPSILON < b.dot p - c.dot p)
    (hclose : ¬ min (closest_to_origin a c).rsq (closest_to_origin b c).rsq ≤ EPSILON) :
    min (closest_to_origin a c).rsq (closest_to_origin b c).rsq ≤
      p.rsq - EPSILON * EPSILON / (EPSILON + 4 * M) := by
  have he := EPSILON_pos
  have hu := closest_to_origin_is_closest a c
  have hv := closest_to_origin_is_closest b c
  have hgt := not_le.mp hclose
  rw [lt_min_iff] at hgt
  have hprog : c.dot p < p.rsq :=
    progress_lt hp (by linarith) (by linarith)
  obtain ⟨⟨t, ht0, ht1, hpt⟩, hpa1, hpb1⟩ := hp
  have hg : EPSILON ≤ p.rsq - c.dot p := by
    have e := seg_dot hpt p
    have hpp : p.dot p = p.rsq := rfl
    have e1 : p.rsq - c.dot p = (1 - t) * (a.dot p - c.dot p) + t * (b.dot p - c.dot p) := by
      have e3 : b.dot p - c.dot p = (b.dot p - a.dot p) + (a.dot p - c.dot p) := by ring
      have e4 : p.dot p = a.dot p + t * (b.dot p - a.dot p) := by
        rw [hpt]
        simp only [v2.dot, add_x, add_y, mul_x, mul_y, sub_x, sub_y]
        ring
      rw [← hpp, e4]
      ring
    rw [e1]
    have k1 := mul_nonneg (sub_nonneg.mpr ht1) (le_of_lt (sub_pos.mpr hpa))
    have k2 := mul_nonneg ht0 (le_of_lt (sub_pos.mpr hpb))
    linarith
  have hpM : p.rsq ≤ M := le_trans (rsq_le_of_dot hpa1) ha
  have hL : (c - p).rsq ≤ 4 * M := by
    simp only [v2.rsq, v2.dot, sub_x, sub_y] at hpM hc ⊢
    nlinarith [sq_nonneg (c.x + p.x), sq_nonneg (c.y + p.y)]
  have hM0 : 0 ≤ 4 * M := le_trans (rsq_nonneg _) hL
  have hτ0 : 0 ≤ EPSILON / (EPSILON + 4 * M) := le_of_lt (div_pos he (by linarith))
  have hτ1 : EPSILON / (EPSILON + 4 * M) ≤ 1 := (div_le_one (by linarith)).mpr (by linarith)
  have hdec := seg_decrease he hg hL
  rcases le_total (closest_to_origin a c).rsq (closest_to_origin b c).rsq with hle | hle
  · rw [min_eq_left hle]
    have hub := closer_candidate ⟨⟨t, ht0, ht1, hpt⟩, hpa1, hpb1⟩ hprog hu hv hle
      (lt_trans he hgt.1) hin
    exact le_trans (triangle_closest_le hpt ht0 ht1 hτ0 hτ1 hu.2.1 hub hu.2.2) hdec
  · rw [min_eq_right hle]
    have hin1 : ¬ min (b.cross a * a.cross c) (b.cross a * c.cross b) > 0 := by
      rw [inside_swap]
      exact hin
    have hua := closer_candidate (is_closest_symm ⟨⟨t, ht0, ht1, hpt⟩, hpa1, hpb1⟩) hprog hv hu
      hle (lt_trans he hgt.2) hin1
    exact le_trans (triangle_closest_le hpt ht0 ht1 hτ0 hτ1 hua hv.2.1 hv.2.2) hdec

/-- The loop of `distance` returns: from a state satisfying `dist_inv` whose closest
point has squared length at most `n` times the decrease of one iteration, `n` iterations
are enough. -/
theorem distance_loop_returns (A B : List v2) (hA : 2 ≤ A.length) (hB : 2 ≤ B.length)
    (M : ℚ) (hM : ∀ a ∈ A, ∀ b ∈ B, (a - b).rsq ≤ M) :
    ∀ (n : Nat) (a b dir : v2), dist_inv A B a b dir →
      dir.rsq ≤ n * (EPSILON * EPSILON / (EPSILON + 4 * M)) →
      ∀ fuel, n ≤ fuel → ∃ r, distance_loop A B fuel a b dir = Except.ok r := by
  intro n
  induction n with
  | zero =>
    intro a b dir hinv hle
    exfalso
    have := hinv.2.1
    have he := EPSILON_pos
    simp only [Nat.cast_zero, zero_mul] at hle
    linarith
  | succ n ih =>
    intro a b dir hinv hle fuel hfuel
    obtain ⟨k, rfl⟩ : ∃ k, fuel = k + 1 := ⟨fuel - 1, by omega⟩
    have hk : n ≤ k := by omega
    obtain ⟨ac, bc, hac, hbc, hs, hmax⟩ := support_func_spec A B dir hA hB
    obtain ⟨⟨a1, ha1, b1, hb1, a2, ha2, b2, hb2, t, ea, eb, ht0, ht1, hseg⟩, heps, hda, hdb⟩ :=
      hinv
    rw [distance_loop_succ k a b dir hs]
    split_ifs with hin hprog hclose hle2
    · exact ⟨_, rfl⟩
    · exact ⟨_, rfl⟩
    · exact ⟨_, rfl⟩
    · have hcl : is_closest a b (-dir) := by
        refine ⟨⟨t, ht0, ht1, hseg⟩, ?_, ?_⟩
        · rw [rsq_neg, dot_neg_right]
          linarith
        · rw [rsq_neg, dot_neg_right]
          linarith
      have hpr := not_le.mp hprog
      rw [lt_min_iff] at hpr
      have hdec := step_decrease hcl (by rw [ea]; exact hM a1 ha1 b1 hb1)
        (hM ac hac bc hbc) hin
        (by rw [dot_neg_right, dot_neg_right]; linarith [hpr.1])
        (by rw [dot_neg_right, dot_neg_right]; linarith [hpr.2]) hclose
      rw [min_eq_left hle2, rsq_neg] at hdec
      have hgt : EPSILON < (closest_to_origin a (ac - bc)).rsq :=
        lt_of_lt_of_le (not_le.mp hclose) (min_le_left _ _)
      refine ih _ _ _ ?_ ?_ k hk
      · rw [ea] at hgt ⊢
        exact dist_inv_of_closest ha1 hb1 hac hbc hgt
      · rw [rsq_neg]
        push_cast at hle
        linarith
    · have hcl : is_closest a b (-dir) := by
        refine ⟨⟨t, ht0, ht1, hseg⟩, ?_, ?_⟩
        · rw [rsq_neg, dot_neg_right]
          linarith
        · rw [rsq_neg, dot_neg_right]
          linarith
      have hpr := not_le.mp hprog
      rw [lt_min_iff] at hpr
      have hdec := step_decrease hcl (by rw [ea]; exact hM a1 ha1 b1 hb1)
        (hM ac hac bc hbc) hin
        (by rw [dot_neg_right, dot_neg_right]; linarith [hpr.1])
        (by rw [dot_neg_right, dot_neg_right]; linarith [hpr.2]) hclose
      rw [min_eq_right (le_of_lt (not_le.mp hle2)), rsq_neg] at hdec
      have hgt : EPSILON < (closest_to_origin b (ac - bc)).rsq :=
        lt_of_lt_of_le (not_le.mp hclose) (min_le_right _ _)
      refine ih _ _ _ ?_ ?_ k hk
      · rw [eb] at hgt ⊢
        exact dist_inv_of_closest_swap ha2 hb2 hac hbc hgt
      · rw [rsq_neg]
        push_cast at hle
        linarith

/-- `GJK::distance` returns: some number of iterations is enough, and so is every
larger number. -/
theorem distance_exit_returns (A B : List v2) (hA : 2 ≤ A.length) (hB : 2 ≤ B.length) :
    ∃ N : Nat, ∀ fuel, N ≤ fuel → ∃ r, distance_exit fuel A B = Except.ok r := by
  obtain ⟨M, hM0, hM⟩ := mink_bounded A B
  have he := EPSILON_pos
  have hκ : 0 < EPSILON * EPSILON / (EPSILON + 4 * M) :=
    div_pos (mul_pos he he) (by linarith)
  refine ⟨⌈M / (EPSILON * EPSILON / (EPSILON + 4 * M))⌉₊, ?_⟩
  intro fuel hfuel
  obtain ⟨a1, b1, ha1, hb1, hs1, _⟩ := support_func_spec A B ⟨1, -1⟩ hA hB
  obtain ⟨a2, b2, ha2, hb2, hs2, _⟩ := support_func_spec A B (-(⟨1, -1⟩ : v2)) hA hB
  simp only [distance_exit, hs1, hs2]
  split_ifs with hclose
  · exact ⟨_, rfl⟩
  · have hgt := not_le.mp hclose
    rw [rsq_neg] at hgt
    refine distance_loop_returns A B hA hB M hM _ _ _ _
      (dist_inv_of_closest ha1 hb1 ha2 hb2 hgt) ?_ fuel hfuel
    rw [rsq_neg]
    have h1 : (closest_to_origin (a1 - b1) (a2 - b2)).rsq ≤ M :=
      le_trans (rsq_le_of_dot (closest_to_origin_is_closest _ _).2.1) (hM a1 ha1 b1 hb1)
    have h2 := Nat.le_ceil (M / (EPSILON * EPSILON / (EPSILON + 4 * M)))
    rw [div_le_iff₀ hκ] at h2
    linarith

/-- `GJK::distance` returns a value: some number of iterations is enough, and so is
every larger number. -/
theorem distance_returns (A B : List v2) (hA : 2 ≤ A.length) (hB : 2 ≤ B.length) :
    ∃ N : Nat, ∀ fuel, N ≤ fuel → ∃ v, distance fuel A B = Except.ok v := by
  obtain ⟨N, hN⟩ := distance_exit_returns A B hA hB
  refine ⟨N, fun fuel hfuel => ?_⟩
  obtain ⟨⟨e, d, v⟩, hr⟩ := hN fuel hfuel
  refine ⟨v, ?_⟩
  unfold distance
  rw [hr]

/-- When the hulls share a point, `distance` returns `0.0` if it returns. -/
theorem distance_zero_of_shared (fuel : Nat) (A B : List v2) (hA : 2 ≤ A.length)
    (hB : 2 ≤ B.length) (x : v2) (hxA : in_hull A x) (hxB : in_hull B x) (v : Dist)
    (h : distance fuel A B = Except.ok v) : v = Dist.zero := by
  obtain ⟨e, d, he⟩ := distance_eq_ok h
  rcases distance_exit_sound fuel A B hA hB e d v he with
    ⟨_, q, _, hq, _, heps, hall, _⟩ | ⟨_, hv⟩
  · exfalso
    have h1 := hull_pair_dot_ge hall x x hxA hxB
    have e0 : (x - x).dot (-d) = 0 := by
      simp only [v2.dot, sub_x, sub_y, sub_self, zero_mul, add_zero]
    rw [e0] at h1
    linarith
  · exact hv

end GJK

namespace GJK

/-- No two lists strictly separated by a direction have hulls that meet. -/
theorem not_hulls_meet_of_separated {A B : List v2} {d : v2}
    (h : ∀ a ∈ A, ∀ b ∈ B, (a - b).dot d < 0) : ¬ hulls_meet A B := by
  rintro ⟨a0, ha0, a1, ha1, a2, ha2, b0, hb0, b1, hb1, b2, hb2, l0, l1, l2, h0, h1, h2, hs,
    -, -, -, hz, -⟩
  have e := congrArg (fun p : v2 => p.dot d) hz
  simp only [v2.dot, add_x, add_y, mul_x, mul_y] at e
  have x0 := h a0 ha0 b0 hb0
  have x1 := h a1 ha1 b1 hb1
  have x2 := h a2 ha2 b2 hb2
  simp only [v2.dot] at x0 x1 x2
  have y0 := mul_nonneg h0 (le_of_lt (neg_pos.mpr x0))
  have y1 := mul_nonneg h1 (le_of_lt (neg_pos.mpr x1))
  have y2 := mul_nonneg h2 (le_of_lt (neg_pos.mpr x2))
  have z0 : l0 * (-((a0 - b0).x * d.x + (a0 - b0).y * d.y)) = 0 := by linarith
  have z1 : l1 * (-((a1 - b1).x * d.x + (a1 - b1).y * d.y)) = 0 := by linarith
  have z2 : l2 * (-((a2 - b2).x * d.x + (a2 - b2).y * d.y)) = 0 := by linarith
  rcases mul_eq_zero.mp z0 with w0 | w0
  · rcases mul_eq_zero.mp z1 with w1 | w1
    · rcases mul_eq_zero.mp z2 with w2 | w2
      · linarith
      · linarith
    · linarith
  · linarith

/-- The segments from (-0.9, -0.5) to (-0.3, 0.3) and from (-0.5, 0.9) to (0.1, -0.9),
with the values of the doubles for their ends, cross: no non-zero direction weakly
separates the two pairs of points. -/
theorem crossing_not_separated :
    ¬ ∃ d1 : v2, d1 ≠ ⟨0, 0⟩ ∧
      separates [⟨-8106479329266893 / 9007199254740992, -1 / 2⟩,
          ⟨-5404319552844595 / 18014398509481984, 5404319552844595 / 18014398509481984⟩]
        [⟨-1 / 2, 8106479329266893 / 9007199254740992⟩,
          ⟨3602879701896397 / 36028797018963968, -8106479329266893 / 9007199254740992⟩]
        d1 := by
  rintro ⟨d1, hne, h⟩
  have h11 := h _ (List.mem_cons_self _ _) _ (List.mem_cons_self _ _)
  have h12 := h _ (List.mem_cons_self _ _) _ (List.mem_cons_of_mem _ (List.mem_cons_self _ _))
  have h21 := h _ (List.mem_cons_of_mem _ (List.mem_cons_self _ _)) _ (List.mem_cons_self _ _)
  have h22 := h _ (List.mem_cons_of_mem _ (List.mem_cons_self _ _)) _
    (List.mem_cons_of_mem _ (List.mem_cons_self _ _))
  simp only [v2.dot, sub_x, sub_y] at h11 h12 h21 h22
  apply hne
  apply v2_ext
  · show d1.x = 0
    linarith
  · show d1.y = 0
    linarith

end GJK

namespace Rounded

namespace GJK

/-- C1 as stated fails: in doubles, for `A` = (-0.3,0.6), (0.1,-0.3) and `B` =
(0.4,0), (-0.3,-0.7), `GJK::intersects` returns true at the second iteration, although
the hulls of the two lists share no point: both points of `A` lie strictly on one side
of the line through the points of `B`, the second one by less than `3e-18`. -/
theorem intersects_true_disjoint :
    intersects 2 [v2.lit (-3 / 10) (6 / 10), v2.lit (1 / 10) (-3 / 10)]
      [v2.lit (4 / 10) 0, v2.lit (-3 / 10) (-7 / 10)] = Except.ok true ∧
    [v2.lit (-3 / 10) (6 / 10), v2.lit (1 / 10) (-3 / 10)].map v2.value =
      [⟨-5404319552844595 / 18014398509481984, 5404319552844595 / 9007199254740992⟩,
        ⟨3602879701896397 / 36028797018963968, -5404319552844595 / 18014398509481984⟩] ∧
    [v2.lit (4 / 10) 0, v2.lit (-3 / 10) (-7 / 10)].map v2.value =
      [⟨3602879701896397 / 9007199254740992, 0⟩,
        ⟨-5404319552844595 / 18014398509481984, -3152519739159347 / 4503599627370496⟩] ∧
    (∀ a ∈ ([⟨-5404319552844595 / 18014398509481984, 5404319552844595 / 9007199254740992⟩,
        ⟨3602879701896397 / 36028797018963968, -5404319552844595 / 18014398509481984⟩] :
          List N2D.v2),
      ∀ b ∈ ([⟨3602879701896397 / 9007199254740992, 0⟩,
        ⟨-5404319552844595 / 18014398509481984, -3152519739159347 / 4503599627370496⟩] :
          List N2D.v2),
        (a - b).dot ⟨3152519739159347 / 4503599627370496,
          -12610078956637389 / 18014398509481984⟩ < 0) ∧
    ¬ N2D.GJK.hulls_meet
      [⟨-5404319552844595 / 18014398509481984, 5404319552844595 / 9007199254740992⟩,
        ⟨3602879701896397 / 36028797018963968, -5404319552844595 / 18014398509481984⟩]
      [⟨3602879701896397 / 9007199254740992, 0⟩,
        ⟨-5404319552844595 / 18014398509481984, -3152519739159347 / 4503599627370496⟩] := by
  have hsep : ∀ a ∈ ([⟨-5404319552844595 / 18014398509481984,
        5404319552844595 / 9007199254740992⟩,
      ⟨3602879701896397 / 36028797018963968, -5404319552844595 / 18014398509481984⟩] :
        List N2D.v2),
      ∀ b ∈ ([⟨3602879701896397 / 9007199254740992, 0⟩,
        ⟨-5404319552844595 / 18014398509481984, -3152519739159347 / 4503599627370496⟩] :
          List N2D.v2),
        (a - b).dot ⟨3152519739159347 / 4503599627370496,
          -12610078956637389 / 18014398509481984⟩ < 0 := by
    decide!
  exact ⟨by decide!, by decide!, by decide!, hsep, N2D.GJK.not_hulls_meet_of_separated hsep⟩

/-- C2 as stated fails: in doubles, for `A` = (-0.9,-0.5), (-0.3,0.3) and `B` =
(-0.5,0.9), (0.1,-0.9), `GJK::intersects` returns false at the third iteration with the
direction (1.8, 0.6000000000000001), although the difference of the second points has a
positive dot product with that direction and no non-zero direction separates the lists:
the two segments cross. -/
theorem intersects_false_crossing :
    intersects_exit 3 [v2.lit (-9 / 10) (-5 / 10), v2.lit (-3 / 10) (3 / 10)]
      [v2.lit (-5 / 10) (9 / 10), v2.lit (1 / 10) (-9 / 10)] =
        Except.ok (false, ⟨Double.finite (8106479329266893 / 4503599627370496),
          Double.finite (1351079888211149 / 2251799813685248)⟩) ∧
    [v2.lit (-9 / 10) (-5 / 10), v2.lit (-3 / 10) (3 / 10)].map v2.value =
      [⟨-8106479329266893 / 9007199254740992, -1 / 2⟩,
        ⟨-5404319552844595 / 18014398509481984, 5404319552844595 / 18014398509481984⟩] ∧
    [v2.lit (-5 / 10) (9 / 10), v2.lit (1 / 10) (-9 / 10)].map v2.value =
      [⟨-1 / 2, 8106479329266893 / 9007199254740992⟩,
        ⟨3602879701896397 / 36028797018963968, -8106479329266893 / 9007199254740992⟩] ∧
    0 < ((⟨-5404319552844595 / 18014398509481984,
          5404319552844595 / 18014398509481984⟩ : N2D.v2) -
        ⟨3602879701896397 / 36028797018963968, -8106479329266893 / 9007199254740992⟩).dot
      ⟨8106479329266893 / 4503599627370496, 1351079888211149 / 2251799813685248⟩ ∧
    ¬ ∃ d1 : N2D.v2, d1 ≠ ⟨0, 0⟩ ∧
      ∀ a ∈ ([⟨-8106479329266893 / 9007199254740992, -1 / 2⟩,
          ⟨-5404319552844595 / 18014398509481984, 5404319552844595 / 18014398509481984⟩] :
            List N2D.v2),
        ∀ b ∈ ([⟨-1 / 2, 8106479329266893 / 9007199254740992⟩,
          ⟨3602879701896397 / 36028797018963968, -8106479329266893 / 9007199254740992⟩] :
            List N2D.v2), (a - b).dot d1 ≤ 0 := by
  exact ⟨by decide!, by decide!, by decide!, by decide!, N2D.GJK.crossing_not_separated⟩

end GJK

end Rounded

/-! ## polygon.h: `distance_to(const Polygon&)` -/

namespace Polygon

/-- A true result of the GJK path `intersects`: the hulls share a point. -/
theorem hulls_meet_of_intersects {fuel : Nat} {P Q : Polygon} (hP : 2 ≤ P.vertices.length)
    (hQ : 2 ≤ Q.vertices.length) (h : P.intersects fuel Q = Except.ok true) :
    GJK.hulls_meet P.vertices Q.vertices := by
  obtain ⟨d, hd⟩ := GJK.intersects_eq_ok h
  exact (GJK.intersects_exit_sound fuel _ _ hP hQ true d hd).1 rfl

/-- A false result of the GJK path `intersects`: a non-zero direction weakly separates
the vertex lists. -/
theorem separates_of_not_intersects {fuel : Nat} {P Q : Polygon}
    (hP : 2 ≤ P.vertices.length) (hQ : 2 ≤ Q.vertices.length)
    (h : P.intersects fuel Q = Except.ok false) :
    ∃ d : v2, d ≠ ⟨0, 0⟩ ∧ GJK.separates P.vertices Q.vertices d := by
  obtain ⟨d, hd⟩ := GJK.intersects_eq_ok h
  exact ((GJK.intersects_exit_sound fuel _ _ hP hQ false d hd).2 rfl).2

/-- The GJK path `intersects` returns with `2 * n + 4` iterations or more, `n` being the
number of pairs of the Minkowski difference. -/
theorem intersects_returns (P Q : Polygon) (hP : 2 ≤ P.vertices.length)
    (hQ : 2 ≤ Q.vertices.length) :
    ∃ r : Bool, ∀ fuel, 2 * (GJK.mink_diff P.vertices Q.vertices).length + 4 ≤ fuel →
      P.intersects fuel Q = Except.ok r := by
  obtain ⟨⟨r, d⟩, hr⟩ := GJK.intersects_exit_terminates _ _ hP hQ
  refine ⟨r, fun fuel hfuel => ?_⟩
  obtain ⟨k, rfl⟩ : ∃ k, fuel = k + (2 * (GJK.mink_diff P.vertices Q.vertices).length + 4) :=
    ⟨fuel - (2 * (GJK.mink_diff P.vertices Q.vertices).length + 4), by omega⟩
  refine GJK.intersects_fuel_add _ _ _ k r ?_
  unfold GJK.intersects
  rw [hr]

/-- The polygon path `distance_to` returns a value: some number of iterations is enough,
and so is every larger number. -/
theorem distance_to_returns (P Q : Polygon) (hP : 2 ≤ P.vertices.length)
    (hQ : 2 ≤ Q.vertices.length) :
    ∃ N : Nat, ∀ fuel, N ≤ fuel → ∃ v, P.distance_to fuel Q = Except.ok v := by
  obtain ⟨r, hr⟩ := intersects_returns P Q hP hQ
  obtain ⟨N, hN⟩ := GJK.distance_returns _ _ hP hQ
  refine ⟨max N (2 * (GJK.mink_diff P.vertices Q.vertices).length + 4), ?_⟩
  intro fuel hfuel
  have h1 := hr fuel (le_trans (le_max_right _ _) hfuel)
  obtain ⟨v, hv⟩ := hN fuel (le_trans (le_max_left _ _) hfuel)
  unfold distance_to gjk_intersects
  rw [h1]
  cases r with
  | true => exact ⟨_, rfl⟩
  | false => exact ⟨v, hv⟩

/-- The values `distance_to(P, Q)` and `distance_to(Q, P)` return are equal, whatever
the numbers of iterations allowed. -/
theorem distance_to_agree (P Q : Polygon) (hP : 2 ≤ P.vertices.length)
    (hQ : 2 ≤ Q.vertices.length) (f1 f2 : Nat) (v1 v2 : Dist)
    (h1 : P.distance_to f1 Q = Except.ok v1) (h2 : Q.distance_to f2 P = Except.ok v2) :
    v1 = v2 := by
  unfold distance_to gjk_intersects at h1 h2
  cases hi1 : P.intersects f1 Q with
  | error e =>
    rw [hi1] at h1
    exact absurd h1 (by simp)
  | ok r1 =>
    cases hi2 : Q.intersects f2 P with
    | error e =>
      rw [hi2] at h2
      exact absurd h2 (by simp)
    | ok r2 =>
      rw [hi1] at h1
      rw [hi2] at h2
      cases r1 with
      | true =>
        have e1 : Dist.zero = v1 := Except.ok.inj h1
        cases r2 with
        | true =>
          have e2 : Dist.zero = v2 := Except.ok.inj h2
          rw [← e1, ← e2]
        | false =>
          simp only at h2
          rw [← GJK.distance_comm f2 _ _ hP hQ] at h2
          rw [← e1, GJK.distance_zero_of_meet f2 _ _ hP hQ
            (hulls_meet_of_intersects hP hQ hi1) v2 h2]
      | false =>
        simp only at h1
        cases r2 with
        | true =>
          have e2 : Dist.zero = v2 := Except.ok.inj h2
          rw [GJK.distance_comm f1 _ _ hP hQ] at h1
          rw [← e2, GJK.distance_zero_of_meet f1 _ _ hQ hP
            (hulls_meet_of_intersects hQ hP hi2) v1 h1]
        | false =>
          simp only at h2
          rw [← GJK.distance_comm f2 _ _ hP hQ] at h2
          exact GJK.distance_fuel_indep _ _ hP hQ h1 h2

/-- C4 as stated fails: the unit square and the square (1.0001, 0)-(2, 1) are disjoint
and `intersects` is false on them, yet `distance_to` returns `0.0` (a candidate point
is within `EPSILON` of the origin); the unit square and the square (1, 1)-(2, 2) touch
at a corner, `intersects` is false and `distance_to` returns `0.0`. In doubles the
equivalence also fails for polygons that cross: for (-0.9, -0.5), (-0.3, 0.3) and
(-0.5, 0.9), (0.1, -0.9) `intersects` returns false and `distance_to` returns `0.0`,
although no line weakly separates the two. -/
theorem distance_to_zero_not_intersects :
    ((Polygon.mk [⟨0, 0⟩, ⟨1, 0⟩, ⟨1, 1⟩, ⟨0, 1⟩]).intersects 8
      (Polygon.mk [⟨10001 / 10000, 0⟩, ⟨2, 0⟩, ⟨2, 1⟩, ⟨10001 / 10000, 1⟩]) =
        Except.ok false ∧
    (Polygon.mk [⟨0, 0⟩, ⟨1, 0⟩, ⟨1, 1⟩, ⟨0, 1⟩]).distance_to 8
      (Polygon.mk [⟨10001 / 10000, 0⟩, ⟨2, 0⟩, ⟨2, 1⟩, ⟨10001 / 10000, 1⟩]) =
        Except.ok Dist.zero ∧
    ¬ (Dist.is_zero Dist.zero = true ↔
      (Polygon.mk [⟨0, 0⟩, ⟨1, 0⟩, ⟨1, 1⟩, ⟨0, 1⟩]).intersects 8
        (Polygon.mk [⟨10001 / 10000, 0⟩, ⟨2, 0⟩, ⟨2, 1⟩, ⟨10001 / 10000, 1⟩]) =
          Except.ok true)) ∧
    ((Polygon.mk [⟨0, 0⟩, ⟨1, 0⟩, ⟨1, 1⟩, ⟨0, 1⟩]).intersects 8
      (Polygon.mk [⟨1, 1⟩, ⟨2, 1⟩, ⟨2, 2⟩, ⟨1, 2⟩]) = Except.ok false ∧
    (Polygon.mk [⟨0, 0⟩, ⟨1, 0⟩, ⟨1, 1⟩, ⟨0, 1⟩]).distance_to 8
      (Polygon.mk [⟨1, 1⟩, ⟨2, 1⟩, ⟨2, 2⟩, ⟨1, 2⟩]) = Except.ok Dist.zero) ∧
    ((Rounded.Polygon.mk
        [Rounded.v2.lit (-9 / 10) (-5 / 10), Rounded.v2.lit (-3 / 10) (3 / 10)]).intersects 8
      (Rounded.Polygon.mk
        [Rounded.v2.lit (-5 / 10) (9 / 10), Rounded.v2.lit (1 / 10) (-9 / 10)]) =
        Except.ok false ∧
    (Rounded.Polygon.mk
        [Rounded.v2.lit (-9 / 10) (-5 / 10), Rounded.v2.lit (-3 / 10) (3 / 10)]).distance_to 8
      (Rounded.Polygon.mk
        [Rounded.v2.lit (-5 / 10) (9 / 10), Rounded.v2.lit (1 / 10) (-9 / 10)]) =
        Except.ok (Double.finite 0) ∧
    [Rounded.v2.lit (-9 / 10) (-5 / 10), Rounded.v2.lit (-3 / 10) (3 / 10)].map
        Rounded.v2.value =
      [⟨-8106479329266893 / 9007199254740992, -1 / 2⟩,
        ⟨-5404319552844595 / 18014398509481984, 5404319552844595 / 18014398509481984⟩] ∧
    [Rounded.v2.lit (-5 / 10) (9 / 10), Rounded.v2.lit (1 / 10) (-9 / 10)].map
        Rounded.v2.value =
      [⟨-1 / 2, 8106479329266893 / 9007199254740992⟩,
        ⟨3602879701896397 / 36028797018963968, -8106479329266893 / 9007199254740992⟩] ∧
    ¬ ∃ d1 : v2, d1 ≠ ⟨0, 0⟩ ∧
      GJK.separates [⟨-8106479329266893 / 9007199254740992, -1 / 2⟩,
          ⟨-5404319552844595 / 18014398509481984, 5404319552844595 / 18014398509481984⟩]
        [⟨-1 / 2, 8106479329266893 / 9007199254740992⟩,
          ⟨3602879701896397 / 36028797018963968, -8106479329266893 / 9007199254740992⟩]
        d1) := by
  refine ⟨⟨by decide!, by decide!, ?_⟩, ⟨by decide!, by decide!⟩,
    ⟨by decide!, by decide!, by decide!, by decide!, GJK.crossing_not_separated⟩⟩
  intro h
  have h1 := h.mp rfl
  have h2 : (Polygon.mk [⟨0, 0⟩, ⟨1, 0⟩, ⟨1, 1⟩, ⟨0, 1⟩]).intersects 8
      (Polygon.mk [⟨10001 / 10000, 0⟩, ⟨2, 0⟩, ⟨2, 1⟩, ⟨10001 / 10000, 1⟩]) =
        Except.ok false := by decide!
  rw [h2] at h1
  exact absurd h1 (by decide)

/-- C4, amended: over exact arithmetic, for polygons of at least two vertices each,
`distance_to` returns a value (some number of iterations is enough), and the returned
value is 0 when `intersects` is true, is 0 when the hulls share a point, and is 0 only
when some points of the two hulls are at squared distance at most `EPSILON`; so it is 0
if and only if `intersects` is true unless the polygons are both weakly separated by a
line and within the square root of `EPSILON` of each other. -/
theorem distance_to_zero_near (P Q : Polygon) (hP : 2 ≤ P.vertices.length)
    (hQ : 2 ≤ Q.vertices.length) :
    (∃ N : Nat, ∀ fuel, N ≤ fuel → ∃ v, P.distance_to fuel Q = Except.ok v) ∧
    ∀ fuel v, P.distance_to fuel Q = Except.ok v →
      (P.intersects fuel Q = Except.ok true → v.is_zero = true) ∧
      ((∃ x, GJK.in_hull P.vertices x ∧ GJK.in_hull Q.vertices x) → v.is_zero = true) ∧
      (v.is_zero = true → GJK.hulls_within P.vertices Q.vertices GJK.EPSILON) ∧
      (((¬ ∃ d : v2, d ≠ ⟨0, 0⟩ ∧ GJK.separates P.vertices Q.vertices d) ∨
          ¬ GJK.hulls_within P.vertices Q.vertices GJK.EPSILON) →
        (v.is_zero = true ↔ P.intersects fuel Q = Except.ok true)) := by
  refine ⟨distance_to_returns P Q hP hQ, ?_⟩
  intro fuel v h
  have hzero : P.intersects fuel Q = Except.ok true → v = Dist.zero := by
    intro hi
    unfold distance_to gjk_intersects at h
    rw [hi] at h
    exact (Except.ok.inj h).symm
  have hwithin : v.is_zero = true → GJK.hulls_within P.vertices Q.vertices GJK.EPSILON := by
    intro hz
    unfold distance_to gjk_intersects at h
    cases hi : P.intersects fuel Q with
    | error e =>
      rw [hi] at h
      exact absurd h (by simp)
    | ok r =>
      rw [hi] at h
      cases r with
      | true =>
        exact GJK.hulls_within_of_meet (hulls_meet_of_intersects hP hQ hi)
          (le_of_lt GJK.EPSILON_pos)
      | false =>
        simp only at h
        obtain ⟨e, d, he⟩ := GJK.distance_eq_ok h
        refine GJK.distance_exit_zero fuel _ _ hP hQ e d v he ?_
        intro hne
        rcases GJK.distance_exit_sound fuel _ _ hP hQ e d v he with
          ⟨_, q, hv, hq, _, heps, _⟩ | ⟨hne1, _⟩
        · rw [hv] at hz
          simp only [Dist.is_zero, decide_eq_true_eq] at hz
          linarith
        · exact hne1 hne
  refine ⟨?_, ?_, hwithin, ?_⟩
  · intro hi
    rw [hzero hi]
    rfl
  · rintro ⟨x, hxP, hxQ⟩
    unfold distance_to gjk_intersects at h
    cases hi : P.intersects fuel Q with
    | error e =>
      rw [hi] at h
      exact absurd h (by simp)
    | ok r =>
      rw [hi] at h
      cases r with
      | true =>
        rw [← Except.ok.inj h]
        rfl
      | false =>
        simp only at h
        rw [GJK.distance_zero_of_shared fuel _ _ hP hQ x hxP hxQ v h]
        rfl
  · intro hcase
    constructor
    · intro hz
      cases hi : P.intersects fuel Q with
      | error e =>
        unfold distance_to gjk_intersects at h
        rw [hi] at h
        exact absurd h (by simp)
      | ok r =>
        cases r with
        | true => rfl
        | false =>
          exfalso
          rcases hcase with hsep | hfar
          · exact hsep (separates_of_not_intersects hP hQ hi)
          · exact hfar (hwithin hz)
    · intro hi
      rw [hzero hi]
      rfl

/-- C4 as amended, at the unit square and the square (3, 0)-(4, 1): the squares are
farther apart than the square root of `EPSILON`, `intersects` is false and `distance_to`
is `sqrt 4`. -/
theorem distance_to_zero_near_witness :
    2 ≤ (Polygon.mk [⟨0, 0⟩, ⟨1, 0⟩, ⟨1, 1⟩, ⟨0, 1⟩]).vertices.length ∧
    2 ≤ (Polygon.mk [⟨3, 0⟩, ⟨4, 0⟩, ⟨4, 1⟩, ⟨3, 1⟩]).vertices.length ∧
    (Polygon.mk [⟨0, 0⟩, ⟨1, 0⟩, ⟨1, 1⟩, ⟨0, 1⟩]).distance_to 8
      (Polygon.mk [⟨3, 0⟩, ⟨4, 0⟩, ⟨4, 1⟩, ⟨3, 1⟩]) = Except.ok (Dist.sqrt 4) ∧
    ((∃ N : Nat, ∀ fuel, N ≤ fuel → ∃ v,
        (Polygon.mk [⟨0, 0⟩, ⟨1, 0⟩, ⟨1, 1⟩, ⟨0, 1⟩]).distance_to fuel
          (Polygon.mk [⟨3, 0⟩, ⟨4, 0⟩, ⟨4, 1⟩, ⟨3, 1⟩]) = Except.ok v) ∧
      ∀ fuel v, (Polygon.mk [⟨0, 0⟩, ⟨1, 0⟩, ⟨1, 1⟩, ⟨0, 1⟩]).distance_to fuel
          (Polygon.mk [⟨3, 0⟩, ⟨4, 0⟩, ⟨4, 1⟩, ⟨3, 1⟩]) = Except.ok v →
        ((Polygon.mk [⟨0, 0⟩, ⟨1, 0⟩, ⟨1, 1⟩, ⟨0, 1⟩]).intersects fuel
          (Polygon.mk [⟨3, 0⟩, ⟨4, 0⟩, ⟨4, 1⟩, ⟨3, 1⟩]) = Except.ok true →
            v.is_zero = true) ∧
        ((∃ x, GJK.in_hull (Polygon.mk [⟨0, 0⟩, ⟨1, 0⟩, ⟨1, 1⟩, ⟨0, 1⟩]).vertices x ∧
          GJK.in_hull (Polygon.mk [⟨3, 0⟩, ⟨4, 0⟩, ⟨4, 1⟩, ⟨3, 1⟩]).vertices x) →
            v.is_zero = true) ∧
        (v.is_zero = true → GJK.hulls_within
          (Polygon.mk [⟨0, 0⟩, ⟨1, 0⟩, ⟨1, 1⟩, ⟨0, 1⟩]).vertices
          (Polygon.mk [⟨3, 0⟩, ⟨4, 0⟩, ⟨4, 1⟩, ⟨3, 1⟩]).vertices GJK.EPSILON) ∧
        (((¬ ∃ d : v2, d ≠ ⟨0, 0⟩ ∧ GJK.separates
            (Polygon.mk [⟨0, 0⟩, ⟨1, 0⟩, ⟨1, 1⟩, ⟨0, 1⟩]).vertices
            (Polygon.mk [⟨3, 0⟩, ⟨4, 0⟩, ⟨4, 1⟩, ⟨3, 1⟩]).vertices d) ∨
          ¬ GJK.hulls_within (Polygon.mk [⟨0, 0⟩, ⟨1, 0⟩, ⟨1, 1⟩, ⟨0, 1⟩]).vertices
            (Polygon.mk [⟨3, 0⟩, ⟨4, 0⟩, ⟨4, 1⟩, ⟨3, 1⟩]).vertices GJK.EPSILON) →
          (v.is_zero = true ↔
            (Polygon.mk [⟨0, 0⟩, ⟨1, 0⟩, ⟨1, 1⟩, ⟨0, 1⟩]).intersects fuel
              (Polygon.mk [⟨3, 0⟩, ⟨4, 0⟩, ⟨4, 1⟩, ⟨3, 1⟩]) = Except.ok true))) :=
  ⟨by decide, by decide, by decide!, distance_to_zero_near _ _ (by decide) (by decide)⟩

/-- C6, amended: over exact arithmetic, for polygons of at least two vertices each,
`GJK::distance(A, B)` and `GJK::distance(B, A)` give the same result with every number
of iterations allowed and return a value when enough are allowed, and `distance_to(A, B)`
and `distance_to(B, A)` both return, with the same value. -/
theorem distance_to_symmetric (P Q : Polygon) (hP : 2 ≤ P.vertices.length)
    (hQ : 2 ≤ Q.vertices.length) :
    (∀ fuel, GJK.distance fuel P.vertices Q.vertices =
      GJK.distance fuel Q.vertices P.vertices) ∧
    (∃ N : Nat, ∀ fuel, N ≤ fuel → ∃ v, GJK.distance fuel P.vertices Q.vertices = Except.ok v ∧
      GJK.distance fuel Q.vertices P.vertices = Except.ok v) ∧
    (∃ N : Nat, ∀ fuel, N ≤ fuel → ∃ v, P.distance_to fuel Q = Except.ok v ∧
      Q.distance_to fuel P = Except.ok v) ∧
    ∀ f1 f2 v1 v2, P.distance_to f1 Q = Except.ok v1 → Q.distance_to f2 P = Except.ok v2 →
      v1 = v2 := by
  refine ⟨fun fuel => GJK.distance_comm fuel _ _ hP hQ, ?_, ?_,
    fun f1 f2 v1 v2 => distance_to_agree P Q hP hQ f1 f2 v1 v2⟩
  · obtain ⟨N, hN⟩ := GJK.distance_returns _ _ hP hQ
    refine ⟨N, fun fuel hfuel => ?_⟩
    obtain ⟨v, hv⟩ := hN fuel hfuel
    refine ⟨v, hv, ?_⟩
    rw [← GJK.distance_comm fuel _ _ hP hQ]
    exact hv
  · obtain ⟨N1, hN1⟩ := distance_to_returns P Q hP hQ
    obtain ⟨N2, hN2⟩ := distance_to_returns Q P hQ hP
    refine ⟨max N1 N2, fun fuel hfuel => ?_⟩
    obtain ⟨v1, hv1⟩ := hN1 fuel (le_trans (le_max_left _ _) hfuel)
    obtain ⟨v2, hv2⟩ := hN2 fuel (le_trans (le_max_right _ _) hfuel)
    refine ⟨v1, hv1, ?_⟩
    rw [distance_to_agree P Q hP hQ fuel fuel v1 v2 hv1 hv2]
    exact hv2

/-- C6 as amended, at the squares (0,0)-(1,1) and (2,2)-(3,3): both orders return
`sqrt 2`. -/
theorem distance_to_symmetric_witness :
    2 ≤ (Polygon.mk [⟨0, 0⟩, ⟨1, 0⟩, ⟨1, 1⟩, ⟨0, 1⟩]).vertices.length ∧
    2 ≤ (Polygon.mk [⟨2, 2⟩, ⟨3, 2⟩, ⟨3, 3⟩, ⟨2, 3⟩]).vertices.length ∧
    (Polygon.mk [⟨0, 0⟩, ⟨1, 0⟩, ⟨1, 1⟩, ⟨0, 1⟩]).distance_to 8
      (Polygon.mk [⟨2, 2⟩, ⟨3, 2⟩, ⟨3, 3⟩, ⟨2, 3⟩]) = Except.ok (Dist.sqrt 2) ∧
    (Polygon.mk [⟨2, 2⟩, ⟨3, 2⟩, ⟨3, 3⟩, ⟨2, 3⟩]).distance_to 8
      (Polygon.mk [⟨0, 0⟩, ⟨1, 0⟩, ⟨1, 1⟩, ⟨0, 1⟩]) = Except.ok (Dist.sqrt 2) ∧
    ((∀ fuel, GJK.distance fuel (Polygon.mk [⟨0, 0⟩, ⟨1, 0⟩, ⟨1, 1⟩, ⟨0, 1⟩]).vertices
        (Polygon.mk [⟨2, 2⟩, ⟨3, 2⟩, ⟨3, 3⟩, ⟨2, 3⟩]).vertices =
      GJK.distance fuel (Polygon.mk [⟨2, 2⟩, ⟨3, 2⟩, ⟨3, 3⟩, ⟨2, 3⟩]).vertices
        (Polygon.mk [⟨0, 0⟩, ⟨1, 0⟩, ⟨1, 1⟩, ⟨0, 1⟩]).vertices) ∧
    (∃ N : Nat, ∀ fuel, N ≤ fuel → ∃ v,
      GJK.distance fuel (Polygon.mk [⟨0, 0⟩, ⟨1, 0⟩, ⟨1, 1⟩, ⟨0, 1⟩]).vertices
        (Polygon.mk [⟨2, 2⟩, ⟨3, 2⟩, ⟨3, 3⟩, ⟨2, 3⟩]).vertices = Except.ok v ∧
      GJK.distance fuel (Polygon.mk [⟨2, 2⟩, ⟨3, 2⟩, ⟨3, 3⟩, ⟨2, 3⟩]).vertices
        (Polygon.mk [⟨0, 0⟩, ⟨1, 0⟩, ⟨1, 1⟩, ⟨0, 1⟩]).vertices = Except.ok v) ∧
    (∃ N : Nat, ∀ fuel, N ≤ fuel → ∃ v,
      (Polygon.mk [⟨0, 0⟩, ⟨1, 0⟩, ⟨1, 1⟩, ⟨0, 1⟩]).distance_to fuel
        (Polygon.mk [⟨2, 2⟩, ⟨3, 2⟩, ⟨3, 3⟩, ⟨2, 3⟩]) = Except.ok v ∧
      (Polygon.mk [⟨2, 2⟩, ⟨3, 2⟩, ⟨3, 3⟩, ⟨2, 3⟩]).distance_to fuel
        (Polygon.mk [⟨0, 0⟩, ⟨1, 0⟩, ⟨1, 1⟩, ⟨0, 1⟩]) = Except.ok v) ∧
    ∀ f1 f2 v1 v2,
      (Polygon.mk [⟨0, 0⟩, ⟨1, 0⟩, ⟨1, 1⟩, ⟨0, 1⟩]).distance_to f1
        (Polygon.mk [⟨2, 2⟩, ⟨3, 2⟩, ⟨3, 3⟩, ⟨2, 3⟩]) = Except.ok v1 →
      (Polygon.mk [⟨2, 2⟩, ⟨3, 2⟩, ⟨3, 3⟩, ⟨2, 3⟩]).distance_to f2
        (Polygon.mk [⟨0, 0⟩, ⟨1, 0⟩, ⟨1, 1⟩, ⟨0, 1⟩]) = Except.ok v2 → v1 = v2) :=
  ⟨by decide, by decide, by decide!, by decide!,
    distance_to_symmetric _ _ (by decide) (by decide)⟩

end Polygon

/-! ## polygon.h: `contains` and the even-odd rule -/

namespace Polygon

theorem sign_cases (a : ℚ) : (0 < a ∧ ¬ a ≤ 0) ∨ (a ≤ 0 ∧ ¬ 0 < a) := by
  rcases lt_or_le 0 a with h | h
  · exact Or.inl ⟨h, not_le.mpr h⟩
  · exact Or.inr ⟨h, not_lt.mpr h⟩

theorem sign_cases3 (c : ℚ) :
    (c < 0 ∧ ¬ 0 < c ∧ ¬ c = 0) ∨ (¬ c < 0 ∧ ¬ 0 < c ∧ c = 0) ∨
      (0 < c ∧ ¬ c < 0 ∧ ¬ c = 0) := by
  rcases lt_trichotomy c 0 with h | h | h
  · exact Or.inl ⟨h, not_lt.mpr h.le, ne_of_lt h⟩
  · exact Or.inr (Or.inl ⟨by rw [h]; exact lt_irrefl 0, by rw [h]; exact lt_irrefl 0, h⟩)
  · exact Or.inr (Or.inr ⟨h, not_lt.mpr h.le, ne_of_gt h⟩)

/-- The crossing test in signs: the two strict side tests differ and the product is
positive exactly when the first is positive with a negative area, or the second is with
a positive area. -/
theorem crossing_signs (a b c : ℚ) :
    ((decide (0 < a) != decide (0 < b)) && decide (0 < c * (b - a))) =
      ((decide (0 < a) && !decide (0 < b) && decide (c < 0)) ||
        (!decide (0 < a) && decide (0 < b) && decide (0 < c))) := by
  rcases sign_cases a with ⟨ha, ha'⟩ | ⟨ha, ha'⟩ <;>
  rcases sign_cases b with ⟨hb, hb'⟩ | ⟨hb, hb'⟩ <;>
  simp only [ha, ha', hb, hb', decide_True, decide_False, bne_self_eq_false, Bool.false_and,
    Bool.and_false, Bool.or_false, Bool.true_and, Bool.and_true, Bool.false_or,
    Bool.not_true, Bool.not_false]
  · have : (0 < c * (b - a)) ↔ c < 0 := by
      constructor
      · intro h
        by_contra hc
        have := mul_nonneg (not_lt.mp hc) (by linarith : 0 ≤ a - b)
        linarith
      · intro h
        have := mul_pos_of_neg_of_neg h (by linarith : b - a < 0)
        linarith
    simp [this]
  · have : (0 < c * (b - a)) ↔ 0 < c := by
      constructor
      · intro h
        by_contra hc
        have := mul_nonneg (neg_nonneg.mpr (not_lt.mp hc)) (by linarith : 0 ≤ b - a)
        linarith
      · intro h
        exact mul_pos h (by linarith)
    simp [this]

/-- Change of direction, towards a direction that points up. -/
theorem sector_up (a b c y1 y2 h : ℚ) (hh : 0 < h) (R1 : c * h = b * y1 - a * y2)
    (Ka : c = 0 → (0 < a ↔ 0 < b)) (Ky : c = 0 → (0 < y1 ↔ 0 < y2)) :
    (((decide (0 < a) != decide (0 < b)) && decide (0 < c * (b - a))) !=
      ((decide (0 < y1) != decide (0 < y2)) && decide (0 < c * (y2 - y1)))) =
    ((decide (0 < y1) && !decide (0 < a)) != (decide (0 < y2) && !decide (0 < b))) := by
  rw [crossing_signs, crossing_signs]
  rcases sign_cases a with ⟨ha, ha'⟩ | ⟨ha, ha'⟩ <;>
  rcases sign_cases b with ⟨hb, hb'⟩ | ⟨hb, hb'⟩ <;>
  rcases sign_cases y1 with ⟨h1, h1'⟩ | ⟨h1, h1'⟩ <;>
  rcases sign_cases y2 with ⟨h2, h2'⟩ | ⟨h2, h2'⟩ <;>
  rcases sign_cases3 c with ⟨hc, hc', hc0⟩ | ⟨hc, hc', hc0⟩ | ⟨hc, hc', hc0⟩ <;>
  first
  | (simp [ha, ha', hb, hb', h1, h1', h2, h2', hc, hc']; done)
  | (exfalso
     have ka := Ka hc0
     have ky := Ky hc0
     simp [ha, ha', hb, hb', h1, h1', h2, h2'] at ka ky)
  | (exfalso; nlinarith)

/-- Change of direction, towards a direction that points down. -/
theorem sector_down (a b c y1 y2 h : ℚ) (hh : h < 0) (R1 : c * h = b * y1 - a * y2)
    (Ka : c = 0 → (0 < a ↔ 0 < b)) (Ky : c = 0 → (0 < y1 ↔ 0 < y2)) :
    (((decide (0 < a) != decide (0 < b)) && decide (0 < c * (b - a))) !=
      ((decide (0 < y1) != decide (0 < y2)) && decide (0 < c * (y2 - y1)))) =
    ((!decide (0 < y1) && decide (0 < a)) != (!decide (0 < y2) && decide (0 < b))) := by
  rw [crossing_signs, crossing_signs]
  rcases sign_cases a with ⟨ha, ha'⟩ | ⟨ha, ha'⟩ <;>
  rcases sign_cases b with ⟨hb, hb'⟩ | ⟨hb, hb'⟩ <;>
  rcases sign_cases y1 with ⟨h1, h1'⟩ | ⟨h1, h1'⟩ <;>
  rcases sign_cases y2 with ⟨h2, h2'⟩ | ⟨h2, h2'⟩ <;>
  rcases sign_cases3 c with ⟨hc, hc', hc0⟩ | ⟨hc, hc', hc0⟩ | ⟨hc, hc', hc0⟩ <;>
  first
  | (simp [ha, ha', hb, hb', h1, h1', h2, h2', hc, hc']; done)
  | (exfalso
     have ka := Ka hc0
     have ky := Ky hc0
     simp [ha, ha', hb, hb', h1, h1', h2, h2'] at ka ky)
  | (exfalso; nlinarith)

/-- Change of direction, towards the direction of the ray itself. -/
theorem sector_same (c y1 y2 dx : ℚ) (hd : 0 < dx) :
    ((decide (0 < dx * y1) != decide (0 < dx * y2)) &&
        decide (0 < c * (dx * y2 - dx * y1))) =
      ((decide (0 < y1) != decide (0 < y2)) && decide (0 < c * (y2 - y1))) := by
  have e1 : (0 < dx * y1) ↔ 0 < y1 := by
    constructor
    · intro h
      by_contra hc
      have := mul_nonneg hd.le (neg_nonneg.mpr (not_lt.mp hc))
      linarith
    · exact fun h => mul_pos hd h
  have e2 : (0 < dx * y2) ↔ 0 < y2 := by
    constructor
    · intro h
      by_contra hc
      have := mul_nonneg hd.le (neg_nonneg.mpr (not_lt.mp hc))
      linarith
    · exact fun h => mul_pos hd h
  have e3 : (0 < c * (dx * y2 - dx * y1)) ↔ 0 < c * (y2 - y1) := by
    have e : c * (dx * y2 - dx * y1) = dx * (c * (y2 - y1)) := by ring
    rw [e]
    constructor
    · intro h
      by_contra hc
      have := mul_nonneg hd.le (neg_nonneg.mpr (not_lt.mp hc))
      linarith
    · exact fun h => mul_pos hd h
  simp only [e1, e2, e3]

/-- Two vectors of zero cross product and positive dot product: a linear form is
positive on one exactly when it is on the other. -/
theorem parallel_same_side (x1 y1 x2 y2 p r : ℚ) (hc : x1 * y2 - y1 * x2 = 0)
    (hd : 0 < x1 * x2 + y1 * y2) : 0 < p * x1 + r * y1 ↔ 0 < p * x2 + r * y2 := by
  have e : (p * x1 + r * y1) * (x1 * x2 + y1 * y2) - (p * x2 + r * y2) * (x1 * x1 + y1 * y1) =
      (p * y1 - r * x1) * (x1 * y2 - y1 * x2) := by ring
  rw [hc, mul_zero] at e
  have e' : (p * x2 + r * y2) * (x1 * x2 + y1 * y2) - (p * x1 + r * y1) * (x2 * x2 + y2 * y2) =
      -((p * y2 - r * x2) * (x1 * y2 - y1 * x2)) := by ring
  rw [hc, mul_zero, neg_zero] at e'
  have hU : 0 ≤ x1 * x1 + y1 * y1 := by nlinarith [mul_self_nonneg x1, mul_self_nonneg y1]
  have hV : 0 ≤ x2 * x2 + y2 * y2 := by nlinarith [mul_self_nonneg x2, mul_self_nonneg y2]
  constructor
  · intro h
    by_contra hn
    have h1 := mul_pos h hd
    have h2 := mul_nonneg (neg_nonneg.mpr (not_lt.mp hn)) hU
    linarith
  · intro h
    by_contra hn
    have h1 := mul_pos h hd
    have h2 := mul_nonneg (neg_nonneg.mpr (not_lt.mp hn)) hV
    linarith

/-- Change of direction, towards the direction opposite to the ray. -/
theorem sector_opposite (x1 y1 x2 y2 dx : ℚ) (hd : dx < 0)
    (hs : x1 * y2 - y1 * x2 ≠ 0 ∨ 0 < x1 * x2 + y1 * y2) :
    (((decide (0 < dx * y1) != decide (0 < dx * y2)) &&
        decide (0 < (x1 * y2 - y1 * x2) * (dx * y2 - dx * y1))) !=
      ((decide (0 < y1) != decide (0 < y2)) &&
        decide (0 < (x1 * y2 - y1 * x2) * (y2 - y1)))) =
    ((decide (0 < y1) || (decide (y1 = 0) && decide (x1 < 0))) !=
      (decide (0 < y2) || (decide (y2 = 0) && decide (x2 < 0)))) := by
  have e1 : ∀ y : ℚ, (0 < dx * y) ↔ 0 < -y := by
    intro y
    constructor
    · intro h
      by_contra hc
      have hy0 : 0 ≤ y := by linarith [not_lt.mp hc]
      have := mul_nonneg (neg_nonneg.mpr hd.le) hy0
      linarith
    · intro h
      have := mul_pos (neg_pos.mpr hd) h
      linarith
  have e3 : (0 < (x1 * y2 - y1 * x2) * (dx * y2 - dx * y1)) ↔
      0 < (x1 * y2 - y1 * x2) * (-y2 - -y1) := by
    have e : (x1 * y2 - y1 * x2) * (dx * y2 - dx * y1) =
        (-dx) * ((x1 * y2 - y1 * x2) * (-y2 - -y1)) := by ring
    rw [e]
    constructor
    · intro h
      by_contra hc
      have := mul_nonneg (neg_nonneg.mpr hd.le) (neg_nonneg.mpr (not_lt.mp hc))
      linarith
    · exact fun h => mul_pos (neg_pos.mpr hd) h
  simp only [e1, e3]
  rw [crossing_signs, crossing_signs]
  have hy : x1 * y2 - y1 * x2 = 0 → (0 < y1 ↔ 0 < y2) := by
    intro hc
    rcases hs with hs | hs
    · exact absurd hc hs
    · have := parallel_same_side x1 y1 x2 y2 0 1 hc hs
      simpa using this
  have hy' : x1 * y2 - y1 * x2 = 0 → (y1 < 0 ↔ y2 < 0) := by
    intro hc
    rcases hs with hs | hs
    · exact absurd hc hs
    · have := parallel_same_side x1 y1 x2 y2 0 (-1) hc hs
      simpa using this
  have hx' : x1 * y2 - y1 * x2 = 0 → (x1 < 0 ↔ x2 < 0) := by
    intro hc
    rcases hs with hs | hs
    · exact absurd hc hs
    · have := parallel_same_side x1 y1 x2 y2 (-1) 0 hc hs
      simpa using this
  rcases sign_cases3 y1 with ⟨h1, h1', h10⟩ | ⟨h1, h1', h10⟩ | ⟨h1, h1', h10⟩ <;>
  rcases sign_cases3 y2 with ⟨h2, h2', h20⟩ | ⟨h2, h2', h20⟩ | ⟨h2, h2', h20⟩
  · simp [h1, h1', h10, h2, h2', h20]
  · subst h20
    simp [h1, h1', h10]
    constructor
    · intro h
      by_contra hn
      have := mul_nonneg (neg_nonneg.mpr h1.le) (not_lt.mp hn)
      linarith
    · intro h
      exact mul_pos_of_neg_of_neg h1 h
  · have hc : x1 * y2 - y1 * x2 ≠ 0 := fun hc => h2' ((hy' hc).mp h1)
    rcases lt_or_gt_of_ne hc with hc1 | hc1
    · simp [h1, h1', h10, h2, h2', h20, hc1, not_lt.mpr hc1.le]
    · simp [h1, h1', h10, h2, h2', h20, hc1, not_lt.mpr hc1.le]
  · subst h10
    simp [h2, h2', h20]
    constructor
    · intro h
      by_contra hn
      have := mul_nonneg (not_lt.mp hn) (neg_nonneg.mpr h2.le)
      linarith
    · intro h
      exact mul_pos_of_neg_of_neg h h2
  · subst h10
    subst h20
    have := hx' (by ring)
    simp [this]
  · subst h10
    have hx0 : x1 ≠ 0 := by
      intro hx
      subst hx
      rcases hs with hs | hs
      · exact hs (by ring)
      · simp at hs
    simp [h2, h2', h20]
    rcases lt_or_gt_of_ne hx0 with hx | hx
    · simp [hx, not_lt.mpr hx.le]
    · simp [hx, not_lt.mpr hx.le]
  · have hc : x1 * y2 - y1 * x2 ≠ 0 := fun hc => h1' ((hy' hc).mpr h2)
    rcases lt_or_gt_of_ne hc with hc1 | hc1
    · simp [h1, h1', h10, h2, h2', h20, hc1, not_lt.mpr hc1.le]
    · simp [h1, h1', h10, h2, h2', h20, hc1, not_lt.mpr hc1.le]
  · subst h20
    have hx0 : x2 ≠ 0 := by
      intro hx
      subst hx
      rcases hs with hs | hs
      · exact hs (by ring)
      · simp at hs
    simp [h1, h1', h10]
    rcases lt_or_gt_of_ne hx0 with hx | hx
    · simp [hx, not_lt.mpr hx.le]
    · simp [hx, not_lt.mpr hx.le]
  · simp [h1, h1', h10, h2, h2', h20]

/-- A segment crosses an edge exactly when one of the two rays along it, from its start
and from its end, does. -/
theorem segment_two_rays (a b c c' : ℚ)
    (K : c = 0 → (0 < a ↔ 0 < b)) (K' : c' = 0 → (0 < a ↔ 0 < b)) :
    ((decide (0 < a) != decide (0 < b)) && (decide (0 < c) != decide (0 < c'))) =
      (((decide (0 < a) != decide (0 < b)) && decide (0 < c * (b - a))) !=
        ((decide (0 < a) != decide (0 < b)) && decide (0 < c' * (b - a)))) := by
  rw [crossing_signs, crossing_signs]
  rcases sign_cases a with ⟨ha, ha'⟩ | ⟨ha, ha'⟩ <;>
  rcases sign_cases b with ⟨hb, hb'⟩ | ⟨hb, hb'⟩ <;>
  rcases sign_cases3 c with ⟨h1, h1', h10⟩ | ⟨h1, h1', h10⟩ | ⟨h1, h1', h10⟩ <;>
  rcases sign_cases3 c' with ⟨h2, h2', h20⟩ | ⟨h2, h2', h20⟩ | ⟨h2, h2', h20⟩ <;>
  first
  | (simp [ha, ha', hb, hb', h1, h1', h2, h2']; done)
  | (exfalso
     have k := K h10
     simp [ha, ha', hb, hb'] at k)
  | (exfalso
     have k := K' h20
     simp [ha, ha', hb, hb'] at k)

theorem ccw_eq (A B C : v2) : Line_segment.__ccw__ A B C = decide (0 < orient A B C) := by
  rw [Bool.eq_iff_iff, ccw_iff_orient, decide_eq_true_iff]

/-- A point off a segment: its vectors to the two ends are not opposite. -/
theorem sep_of_not_on_seg {a b x : v2} (h : ¬ on_seg a b x) :
    (a - x).cross (b - x) ≠ 0 ∨ 0 < (a - x).dot (b - x) := by
  by_contra hn
  push_neg at hn
  obtain ⟨hc, hd⟩ := hn
  apply h
  simp only [v2.cross, v2.dot, GJK.sub_x, GJK.sub_y] at hc hd
  by_cases hab : (a - b).rsq = 0
  · obtain ⟨hx, hy⟩ := GJK.rsq_eq_zero hab
    simp only [GJK.sub_x, GJK.sub_y] at hx hy
    have hbx : b.x = a.x := by linarith
    have hby : b.y = a.y := by linarith
    rw [hbx, hby] at hd
    have h1 : a.x - x.x = 0 := by nlinarith [mul_self_nonneg (a.x - x.x), mul_self_nonneg (a.y - x.y)]
    have h2 : a.y - x.y = 0 := by nlinarith [mul_self_nonneg (a.x - x.x), mul_self_nonneg (a.y - x.y)]
    refine ⟨0, le_refl 0, zero_le_one, ?_⟩
    apply GJK.v2_ext
    · simp only [GJK.add_x, GJK.mul_x, GJK.sub_x]
      linarith
    · simp only [GJK.add_y, GJK.mul_y, GJK.sub_y]
      linarith
  · have hL : 0 < (a - b).rsq := lt_of_le_of_ne (GJK.rsq_nonneg _) (Ne.symm hab)
    have hL' : (a - b).rsq = (a.x - b.x) * (a.x - b.x) + (a.y - b.y) * (a.y - b.y) := rfl
    refine ⟨((a - x).dot (a - b)) / (a - b).rsq, ?_, ?_, ?_⟩
    · apply div_nonneg _ hL.le
      simp only [v2.dot, GJK.sub_x, GJK.sub_y]
      nlinarith [mul_self_nonneg (a.x - x.x), mul_self_nonneg (a.y - x.y)]
    · rw [div_le_one hL, hL']
      simp only [v2.dot, GJK.sub_x, GJK.sub_y]
      nlinarith [mul_self_nonneg (b.x - x.x), mul_self_nonneg (b.y - x.y)]
    · apply GJK.v2_ext
      · simp only [GJK.add_x, GJK.mul_x, GJK.sub_x]
        field_simp
        rw [hL']
        simp only [v2.dot, GJK.sub_x, GJK.sub_y]
        linear_combination (a.y - b.y) * hc
      · simp only [GJK.add_y, GJK.mul_y, GJK.sub_y]
        field_simp
        rw [hL']
        simp only [v2.dot, GJK.sub_x, GJK.sub_y]
        linear_combination (-(a.x - b.x)) * hc

end Polygon

namespace Polygon

/-- Two vectors that are not opposite and have zero cross product lie strictly on the
same side of every line through the origin. -/
theorem same_side_of_sep {U V : v2} (hs : U.cross V ≠ 0 ∨ 0 < U.dot V) (d : v2)
    (hc : U.cross V = 0) : 0 < d.cross U ↔ 0 < d.cross V := by
  rcases hs with hs | hs
  · exact absurd hc hs
  · have := parallel_same_side U.x U.y V.x V.y (-d.y) d.x hc hs
    simp only [v2.cross]
    constructor
    · intro h
      have h1 := this.mp (by linarith)
      linarith
    · intro h
      have h1 := this.mpr (by linarith)
      linarith

/-- The test `Line_segment::intersects` of the edge `u v` with the segment `q f`, for `q`
and `f` off the edge: exactly one of the rays from `q` and from `f` in the direction
`f - q` crosses the edge. -/
theorem edge_two_rays (u v q f : v2) (hq : ¬ on_seg u v q) (hf : ¬ on_seg u v f) :
    (Line_segment.mk u v).intersects ⟨q, f⟩ =
      (ray_crosses (u - q) (v - q) (f - q) != ray_crosses (u - f) (v - f) (f - q)) := by
  have hsq := sep_of_not_on_seg hq
  have hsf := sep_of_not_on_seg hf
  have K := same_side_of_sep hsq (f - q)
  have K' := same_side_of_sep hsf (f - q)
  have ea : orient u q f = (f - q).cross (u - q) := by
    simp only [orient, v2.cross, GJK.sub_x, GJK.sub_y]
    ring
  have eb : orient v q f = (f - q).cross (v - q) := by
    simp only [orient, v2.cross, GJK.sub_x, GJK.sub_y]
    ring
  have ec : orient u v q = (u - q).cross (v - q) := by
    simp only [orient, v2.cross, GJK.sub_x, GJK.sub_y]
    ring
  have ec' : orient u v f = (u - f).cross (v - f) := by
    simp only [orient, v2.cross, GJK.sub_x, GJK.sub_y]
    ring
  have ea' : (f - q).cross (u - f) = (f - q).cross (u - q) := by
    simp only [v2.cross, GJK.sub_x, GJK.sub_y]
    ring
  have eb' : (f - q).cross (v - f) = (f - q).cross (v - q) := by
    simp only [v2.cross, GJK.sub_x, GJK.sub_y]
    ring
  rw [ea', eb'] at K'
  simp only [Line_segment.intersects, ray_crosses, ccw_eq, ea, eb, ec, ec', ea', eb']
  exact segment_two_rays _ _ _ _ K K'

theorem cross_right (w : v2) : (⟨1, 0⟩ : v2).cross w = w.y := by
  simp only [v2.cross]
  ring

/-- The horizontal ray to the right is the ray in the direction `(1, 0)`. -/
theorem crosses_ray_eq (u v x : v2) :
    crosses_ray u v x = ray_crosses (u - x) (v - x) ⟨1, 0⟩ := by
  have e1 : (x.y < u.y) ↔ 0 < (u - x).y := by
    simp only [GJK.sub_y]
    constructor <;> intro h <;> linarith
  have e2 : (x.y < v.y) ↔ 0 < (v - x).y := by
    simp only [GJK.sub_y]
    constructor <;> intro h <;> linarith
  have e3 : (v.y - u.y) * orient u v x = (u - x).cross (v - x) * ((v - x).y - (u - x).y) := by
    simp only [orient, v2.cross, GJK.sub_x, GJK.sub_y]
    ring
  simp only [crosses_ray, ray_crosses, cross_right, e1, e2, e3]

/-- Change of direction of a ray from the origin: the rays in the directions `d` and
`(1, 0)` differ on a segment off the origin exactly when one end of the segment is in
the sector between them and the other is not. -/
theorem ray_direction (U V d : v2) (hd : d ≠ ⟨0, 0⟩)
    (hs : U.cross V ≠ 0 ∨ 0 < U.dot V) :
    (ray_crosses U V d != ray_crosses U V ⟨1, 0⟩) = (in_sector d U != in_sector d V) := by
  have Ka := same_side_of_sep hs d
  have Ky := same_side_of_sep hs ⟨1, 0⟩
  rw [cross_right, cross_right] at Ky
  have R1 : U.cross V * d.y = d.cross V * U.y - d.cross U * V.y := by
    simp only [v2.cross]
    ring
  simp only [ray_crosses, cross_right]
  rcases lt_trichotomy d.y 0 with hy | hy | hy
  · have e : ∀ w : v2, in_sector d w = (!decide (0 < w.y) && decide (0 < d.cross w)) := by
      intro w
      simp only [in_sector, if_neg (not_lt.mpr hy.le), if_pos hy]
    rw [e, e]
    exact sector_down _ _ _ _ _ _ hy R1 Ka Ky
  · have hx : d.x ≠ 0 := by
      intro hx
      apply hd
      exact GJK.v2_ext hx hy
    have ea : ∀ w : v2, d.cross w = d.x * w.y := by
      intro w
      simp only [v2.cross, hy]
      ring
    have hn1 : ¬ 0 < d.y := by
      rw [hy]
      exact lt_irrefl 0
    have hn2 : ¬ d.y < 0 := by
      rw [hy]
      exact lt_irrefl 0
    simp only [ea]
    rcases lt_or_gt_of_ne hx with hx1 | hx1
    · have e : ∀ w : v2, in_sector d w =
          (decide (0 < w.y) || (decide (w.y = 0) && decide (w.x < 0))) := by
        intro w
        simp only [in_sector, if_neg hn1, if_neg hn2, if_pos hx1]
      rw [e, e]
      exact sector_opposite U.x U.y V.x V.y d.x hx1 hs
    · have e : ∀ w : v2, in_sector d w = false := by
        intro w
        simp only [in_sector, if_neg hn1, if_neg hn2, if_neg (not_lt.mpr hx1.le)]
      rw [e, e, sector_same _ _ _ _ hx1]
      simp
  · have e : ∀ w : v2, in_sector d w = (decide (0 < w.y) && !decide (0 < d.cross w)) := by
      intro w
      simp only [in_sector, if_pos hy]
    rw [e, e]
    exact sector_up _ _ _ _ _ _ hy R1 Ka Ky

/-- The test of `contains` on one edge: for `q` and `f` off the edge `u v`, the segment
from `q` to `f` crosses the edge exactly when the horizontal rays from `q` and from `f`
disagree on it, up to a term that depends on each end of the edge alone. -/
theorem edge_parity (u v q f : v2) (hq : ¬ on_seg u v q) (hf : ¬ on_seg u v f) :
    (Line_segment.mk u v).intersects ⟨q, f⟩ =
      ((crosses_ray u v q != crosses_ray u v f) !=
        ((in_sector (f - q) (u - q) != in_sector (f - q) (u - f)) !=
          (in_sector (f - q) (v - q) != in_sector (f - q) (v - f)))) := by
  by_cases hqf : f = q
  · subst hqf
    rw [edge_two_rays u v f f hq hf]
    simp
  · have hd : f - q ≠ ⟨0, 0⟩ := by
      intro h
      apply hqf
      have hx := congrArg v2.x h
      have hy := congrArg v2.y h
      simp only [GJK.sub_x, GJK.sub_y] at hx hy
      exact GJK.v2_ext (by linarith) (by linarith)
    have L2q := ray_direction (u - q) (v - q) (f - q) hd (sep_of_not_on_seg hq)
    have L2f := ray_direction (u - f) (v - f) (f - q) hd (sep_of_not_on_seg hf)
    rw [edge_two_rays u v q f hq hf, crosses_ray_eq, crosses_ray_eq]
    revert L2q L2f
    generalize ray_crosses (u - q) (v - q) (f - q) = x1
    generalize ray_crosses (u - f) (v - f) (f - q) = x2
    generalize ray_crosses (u - q) (v - q) ⟨1, 0⟩ = x3
    generalize ray_crosses (u - f) (v - f) ⟨1, 0⟩ = x4
    generalize in_sector (f - q) (u - q) = x5
    generalize in_sector (f - q) (v - q) = x6
    generalize in_sector (f - q) (u - f) = x7
    generalize in_sector (f - q) (v - f) = x8
    cases x1 <;> cases x2 <;> cases x3 <;> cases x4 <;> cases x5 <;> cases x6 <;>
      cases x7 <;> cases x8 <;> simp

end Polygon

namespace Polygon

theorem parity_succ (n : Nat) : decide ((n + 1) % 2 = 1) = !decide (n % 2 = 1) := by
  rcases Nat.mod_two_eq_zero_or_one n with h | h
  · have h1 : (n + 1) % 2 = 1 := by omega
    simp [h, h1]
  · have h1 : (n + 1) % 2 = 0 := by omega
    simp [h, h1]

/-- Parity of the number of elements that pass a test which is the exclusive or of two
tests. -/
theorem parity_filter_bne {α : Type} (l : List α) (p f g : α → Bool)
    (h : ∀ e ∈ l, p e = (f e != g e)) :
    decide ((l.filter p).length % 2 = 1) =
      (decide ((l.filter f).length % 2 = 1) != decide ((l.filter g).length % 2 = 1)) := by
  induction l with
  | nil => simp
  | cons a l ih =>
    have ih1 := ih (fun e he => h e (List.mem_cons_of_mem a he))
    have ha := h a (List.mem_cons_self a l)
    simp only [List.filter_cons, ha]
    generalize hA : decide ((l.filter f).length % 2 = 1) = A at ih1
    generalize hB : decide ((l.filter g).length % 2 = 1) = B at ih1
    cases f a <;> cases g a <;>
      simp only [bne_self_eq_false, Bool.false_eq_true, if_false, if_true, List.length_cons,
        parity_succ, ih1, hA, hB, Bool.true_bne, Bool.false_bne, Bool.bne_true,
        Bool.bne_false, Bool.not_false, Bool.not_true] <;>
      cases A <;> cases B <;> rfl

/-- Parity of the number of elements whose image passes a test. -/
theorem filter_map_length {α β : Type} (l : List α) (g : α → β) (σ : β → Bool) :
    (l.filter (fun e => σ (g e))).length = ((l.map g).filter σ).length := by
  rw [List.filter_map, List.length_map]
  rfl

theorem edges_map_start (P : Polygon) : P.edges.map (fun e => e.start) = P.vertices := by
  unfold edges
  rw [List.map_map]
  exact List.finRange_map_get P.vertices

theorem edges_map_end (P : Polygon) :
    P.edges.map (fun e => e.end) = P.vertices.rotate 1 := by
  unfold edges
  rw [List.map_map]
  apply List.ext_get
  · simp
  · intro i h1 h2
    simp only [List.get_eq_getElem, List.getElem_map, Function.comp, List.getElem_finRange,
      List.getElem_rotate]
    rfl

/-- A term that depends on each end of an edge alone is counted an even number of times
over the edges of a polygon. -/
theorem parity_ends (P : Polygon) (σ : v2 → Bool) :
    decide ((P.edges.filter (fun e => σ e.start != σ e.end)).length % 2 = 1) = false := by
  rw [parity_filter_bne P.edges _ (fun e => σ e.start) (fun e => σ e.end) (fun _ _ => rfl),
    filter_map_length P.edges (fun e => e.start) σ, filter_map_length P.edges (fun e => e.end) σ,
    edges_map_start, edges_map_end,
    ((List.rotate_perm P.vertices 1).filter σ).length_eq]
  simp

/-- What `contains` computes: for a point `q` and a far point `f` on no edge of the
polygon, the parity of the number of edges crossed by the segment from `q` to `f` is the
exclusive or of the even-odd rule at `q` and at `f`. -/
theorem cast_parity (P : Polygon) (q f : v2)
    (hq : ∀ e ∈ P.edges, ¬ on_seg e.start e.end q)
    (hf : ∀ e ∈ P.edges, ¬ on_seg e.start e.end f) :
    decide ((P.edges.filter (fun line => line.intersects ⟨q, f⟩)).length % 2 = 1) =
      (P.inside q != P.inside f) := by
  have h1 := parity_filter_bne P.edges (fun line => line.intersects ⟨q, f⟩)
    (fun e => crosses_ray e.start e.end q != crosses_ray e.start e.end f)
    (fun e => (fun w => in_sector (f - q) (w - q) != in_sector (f - q) (w - f)) e.start !=
      (fun w => in_sector (f - q) (w - q) != in_sector (f - q) (w - f)) e.end)
    (fun e he => edge_parity e.start e.end q f (hq e he) (hf e he))
  have h2 := parity_ends P (fun w => in_sector (f - q) (w - q) != in_sector (f - q) (w - f))
  have h3 := parity_filter_bne P.edges
    (fun e => crosses_ray e.start e.end q != crosses_ray e.start e.end f)
    (fun e => crosses_ray e.start e.end q) (fun e => crosses_ray e.start e.end f)
    (fun _ _ => rfl)
  rw [h1, h2, h3]
  simp only [inside, Bool.bne_false]

/-- The even-odd rule does not depend on the direction of the ray: at a point `x` on no
edge, the ray from `x` in any direction `d` crosses an odd number of edges exactly when
the horizontal ray to the right does. -/
theorem inside_any_direction (P : Polygon) (x d : v2) (hd : d ≠ ⟨0, 0⟩)
    (hx : ∀ e ∈ P.edges, ¬ on_seg e.start e.end x) :
    decide ((P.edges.filter (fun e => ray_crosses (e.start - x) (e.end - x) d)).length % 2
      = 1) = P.inside x := by
  have h1 := parity_filter_bne P.edges (fun e => ray_crosses (e.start - x) (e.end - x) d)
    (fun e => crosses_ray e.start e.end x)
    (fun e => (fun w => in_sector d (w - x)) e.start != (fun w => in_sector d (w - x)) e.end)
    (by
      intro e he
      have h := ray_direction (e.start - x) (e.end - x) d hd (sep_of_not_on_seg (hx e he))
      show ray_crosses (e.start - x) (e.end - x) d =
        (crosses_ray e.start e.end x !=
          (in_sector d (e.start - x) != in_sector d (e.end - x)))
      rw [crosses_ray_eq]
      revert h
      generalize ray_crosses (e.start - x) (e.end - x) d = x1
      generalize ray_crosses (e.start - x) (e.end - x) ⟨1, 0⟩ = x2
      generalize in_sector d (e.start - x) = x3
      generalize in_sector d (e.end - x) = x4
      cases x1 <;> cases x2 <;> cases x3 <;> cases x4 <;> simp)
  have h2 := parity_ends P (fun w => in_sector d (w - x))
  rw [h1, h2]
  simp only [inside, Bool.bne_false]

end Polygon

namespace Polygon

/-- A point of a segment is not higher than both ends. -/
theorem on_seg_le {a b x : v2} {Y : ℚ} (h : on_seg a b x) (ha : a.y < Y) (hb : b.y < Y) :
    x.y < Y := by
  obtain ⟨t, h0, h1, hx⟩ := h
  rw [hx]
  simp only [GJK.add_y, GJK.mul_y, GJK.sub_y]
  nlinarith [mul_nonneg h0 (sub_nonneg.mpr hb.le), mul_nonneg (sub_nonneg.mpr h1) (sub_nonneg.mpr ha.le)]

/-- A point of a triangle is not higher than the three vertices. -/
theorem in_triangle_le {p0 p1 p2 x : v2} {Y : ℚ} (h : in_triangle p0 p1 p2 x) (h0 : p0.y < Y)
    (h1 : p1.y < Y) (h2 : p2.y < Y) : x.y < Y := by
  obtain ⟨l0, l1, l2, k0, k1, k2, hs, hx⟩ := h
  rw [hx]
  simp only [GJK.add_y, GJK.mul_y]
  have e : Y = Y * l0 + Y * l1 + Y * l2 := by
    have : Y * (l0 + l1 + l2) = Y := by rw [hs, mul_one]
    linarith
  have m0 := mul_nonneg k0 (sub_nonneg.mpr h0.le)
  have m1 := mul_nonneg k1 (sub_nonneg.mpr h1.le)
  have m2 := mul_nonneg k2 (sub_nonneg.mpr h2.le)
  rcases lt_or_eq_of_le k0 with k | k
  · have := mul_pos k (sub_pos.mpr h0)
    nlinarith
  · rcases lt_or_eq_of_le k1 with k' | k'
    · have := mul_pos k' (sub_pos.mpr h1)
      nlinarith
    · have hl2 : l2 = 1 := by linarith
      rw [← k, ← k', hl2]
      linarith

/-- The line from `q` to a point at another height passes through a point other than `q`
for at most one abscissa of that point. -/
theorem orient_far_root (q p : v2) (Y x x' : ℚ) (hY : q.y < Y) (hx : x ≠ x')
    (h1 : orient q ⟨x, Y⟩ p = 0) (h2 : orient q ⟨x', Y⟩ p = 0) : p = q := by
  simp only [orient, v2.cross, GJK.sub_x, GJK.sub_y] at h1 h2
  have hy : (x - x') * (p.y - q.y) = 0 := by linarith
  have hy1 : p.y - q.y = 0 := by
    rcases mul_eq_zero.mp hy with h | h
    · exact absurd (sub_eq_zero.mp h) hx
    · exact h
  rw [hy1] at h1
  have hx1 : (Y - q.y) * (p.x - q.x) = 0 := by linarith
  have hx2 : p.x - q.x = 0 := by
    rcases mul_eq_zero.mp hx1 with h | h
    · linarith
    · exact h
  exact GJK.v2_ext (by linarith) (by linarith)

/-- Some point at the height `Y` sees `q` along a line that passes through none of three
given points other than `q`. -/
theorem exists_far (q p0 p1 p2 : v2) (Y : ℚ) (hY : q.y < Y) (h0 : p0 ≠ q) (h1 : p1 ≠ q)
    (h2 : p2 ≠ q) :
    ∃ x : ℚ, orient q ⟨x, Y⟩ p0 ≠ 0 ∧ orient q ⟨x, Y⟩ p1 ≠ 0 ∧ orient q ⟨x, Y⟩ p2 ≠ 0 := by
  by_contra hn
  have key : ∀ x : ℚ, orient q ⟨x, Y⟩ p0 = 0 ∨ orient q ⟨x, Y⟩ p1 = 0 ∨
      orient q ⟨x, Y⟩ p2 = 0 := by
    intro x
    by_contra hx
    push_neg at hx
    exact hn ⟨x, hx⟩
  rcases key 0 with a0 | a0 | a0 <;> rcases key 1 with a1 | a1 | a1 <;>
  rcases key 2 with a2 | a2 | a2 <;> rcases key 3 with a3 | a3 | a3 <;>
  first
  | exact h0 (orient_far_root q p0 Y 0 1 hY (by norm_num) a0 a1)
  | exact h0 (orient_far_root q p0 Y 0 2 hY (by norm_num) a0 a2)
  | exact h0 (orient_far_root q p0 Y 0 3 hY (by norm_num) a0 a3)
  | exact h0 (orient_far_root q p0 Y 1 2 hY (by norm_num) a1 a2)
  | exact h0 (orient_far_root q p0 Y 1 3 hY (by norm_num) a1 a3)
  | exact h0 (orient_far_root q p0 Y 2 3 hY (by norm_num) a2 a3)
  | exact h1 (orient_far_root q p1 Y 0 1 hY (by norm_num) a0 a1)
  | exact h1 (orient_far_root q p1 Y 0 2 hY (by norm_num) a0 a2)
  | exact h1 (orient_far_root q p1 Y 0 3 hY (by norm_num) a0 a3)
  | exact h1 (orient_far_root q p1 Y 1 2 hY (by norm_num) a1 a2)
  | exact h1 (orient_far_root q p1 Y 1 3 hY (by norm_num) a1 a3)
  | exact h1 (orient_far_root q p1 Y 2 3 hY (by norm_num) a2 a3)
  | exact h2 (orient_far_root q p2 Y 0 1 hY (by norm_num) a0 a1)
  | exact h2 (orient_far_root q p2 Y 0 2 hY (by norm_num) a0 a2)
  | exact h2 (orient_far_root q p2 Y 0 3 hY (by norm_num) a0 a3)
  | exact h2 (orient_far_root q p2 Y 1 2 hY (by norm_num) a1 a2)
  | exact h2 (orient_far_root q p2 Y 1 3 hY (by norm_num) a1 a3)
  | exact h2 (orient_far_root q p2 Y 2 3 hY (by norm_num) a2 a3)

/-- No edge is crossed by the horizontal ray from a point higher than both its ends. -/
theorem crosses_ray_above (u v x : v2) (hu : u.y < x.y) (hv : v.y < x.y) :
    crosses_ray u v x = false := by
  simp [crosses_ray, not_lt.mpr hu.le, not_lt.mpr hv.le]

/-- The even-odd rule on a triangle that is not degenerate, at a point on no edge: the
point is inside exactly when it is a combination of the vertices with positive weights
that sum to 1. -/
theorem inside_triangle (p0 p1 p2 q : v2) (hT : orient p0 p1 p2 ≠ 0)
    (hedge : ¬ on_seg p0 p1 q ∧ ¬ on_seg p1 p2 q ∧ ¬ on_seg p2 p0 q) :
    (Polygon.mk [p0, p1, p2]).inside q = true ↔ strictly_in_triangle p0 p1 p2 q := by
  obtain ⟨Y, hY0, hY1, hY2, hYq⟩ : ∃ Y : ℚ, p0.y < Y ∧ p1.y < Y ∧ p2.y < Y ∧ q.y < Y := by
    refine ⟨max (max p0.y p1.y) (max p2.y q.y) + 1, ?_, ?_, ?_, ?_⟩
    · have := le_max_left p0.y p1.y
      have := le_max_left (max p0.y p1.y) (max p2.y q.y)
      linarith
    · have := le_max_right p0.y p1.y
      have := le_max_left (max p0.y p1.y) (max p2.y q.y)
      linarith
    · have := le_max_left p2.y q.y
      have := le_max_right (max p0.y p1.y) (max p2.y q.y)
      linarith
    · have := le_max_right p2.y q.y
      have := le_max_right (max p0.y p1.y) (max p2.y q.y)
      linarith
  have n0 : p0 ≠ q := fun h => hedge.1 (by rw [← h]; exact Line_segment.on_seg_start p0 p1)
  have n1 : p1 ≠ q := fun h => hedge.2.1 (by rw [← h]; exact Line_segment.on_seg_start p1 p2)
  have n2 : p2 ≠ q := fun h => hedge.2.2 (by rw [← h]; exact Line_segment.on_seg_start p2 p0)
  obtain ⟨x, k0, k1, k2⟩ := exists_far q p0 p1 p2 Y hYq n0 n1 n2
  have hfar : ¬ in_triangle p0 p1 p2 ⟨x, Y⟩ := by
    intro h
    have := in_triangle_le h hY0 hY1 hY2
    exact lt_irrefl Y this
  have hcast := tri_cast p0 p1 p2 q ⟨x, Y⟩ hT hfar hedge
    ⟨not_on_seg (Or.inl k0), not_on_seg (Or.inl k1), not_on_seg (Or.inl k2)⟩
  have hq : ∀ e ∈ (Polygon.mk [p0, p1, p2]).edges, ¬ on_seg e.start e.end q := by
    intro e he
    rw [edges_three] at he
    simp only [List.mem_cons, List.mem_singleton, List.not_mem_nil, or_false] at he
    rcases he with rfl | rfl | rfl
    · exact hedge.1
    · exact hedge.2.1
    · exact hedge.2.2
  have hf : ∀ e ∈ (Polygon.mk [p0, p1, p2]).edges, ¬ on_seg e.start e.end ⟨x, Y⟩ := by
    intro e he h
    rw [edges_three] at he
    simp only [List.mem_cons, List.mem_singleton, List.not_mem_nil, or_false] at he
    rcases he with rfl | rfl | rfl
    · exact lt_irrefl Y (on_seg_le h hY0 hY1)
    · exact lt_irrefl Y (on_seg_le h hY1 hY2)
    · exact lt_irrefl Y (on_seg_le h hY2 hY0)
  have hpar := cast_parity (Polygon.mk [p0, p1, p2]) q ⟨x, Y⟩ hq hf
  have hout : (Polygon.mk [p0, p1, p2]).inside ⟨x, Y⟩ = false := by
    unfold inside
    rw [edges_three]
    simp only [List.filter, crosses_ray_above p0 p1 ⟨x, Y⟩ hY0 hY1,
      crosses_ray_above p1 p2 ⟨x, Y⟩ hY1 hY2, crosses_ray_above p2 p0 ⟨x, Y⟩ hY2 hY0]
    rfl
  rw [hout, Bool.bne_false] at hpar
  rw [← hpar, ← hcast, edges_three]
  simp only [List.filter]
  exact parity_three _ _ _ _ _ _

theorem start_mem_of_edge (P : Polygon) {e : Line_segment} (he : e ∈ P.edges) :
    e.start ∈ P.vertices := by
  have h := List.mem_map_of_mem (fun e : Line_segment => e.start) he
  rw [edges_map_start] at h
  exact h

theorem end_mem_of_edge (P : Polygon) {e : Line_segment} (he : e ∈ P.edges) :
    e.end ∈ P.vertices := by
  have h := List.mem_map_of_mem (fun e : Line_segment => e.end) he
  rw [edges_map_end] at h
  exact List.mem_rotate.mp h

/-- The even-odd rule is constant along a segment that meets no edge. -/
theorem inside_of_clear_path (P : Polygon) (x f : v2)
    (h : ∀ e ∈ P.edges, ¬ ∃ p, on_seg e.start e.end p ∧ on_seg x f p) :
    P.inside x = P.inside f := by
  have hx : ∀ e ∈ P.edges, ¬ on_seg e.start e.end x :=
    fun e he hs => h e he ⟨x, hs, Line_segment.on_seg_start x f⟩
  have hf : ∀ e ∈ P.edges, ¬ on_seg e.start e.end f :=
    fun e he hs => h e he ⟨f, hs, Line_segment.on_seg_end x f⟩
  have hpar := cast_parity P x f hx hf
  have hnil : P.edges.filter (fun line => line.intersects ⟨x, f⟩) = [] := by
    rw [List.filter_eq_nil_iff]
    intro e he hi
    exact h e he (Line_segment.shared_of_intersects e ⟨x, f⟩ hi)
  rw [hnil] at hpar
  cases h1 : P.inside x <;> cases h2 : P.inside f <;> rw [h1, h2] at hpar <;>
    first | rfl | exact absurd hpar (by decide)

/-- A point higher than every vertex is outside by the even-odd rule. -/
theorem inside_above (P : Polygon) (x : v2) (h : ∀ v ∈ P.vertices, v.y < x.y) :
    P.inside x = false := by
  have hnil : P.edges.filter (fun line => crosses_ray line.start line.end x) = [] := by
    rw [List.filter_eq_nil_iff]
    intro e he
    rw [crosses_ray_above e.start e.end x (h _ (start_mem_of_edge P he))
      (h _ (end_mem_of_edge P he))]
    exact Bool.false_ne_true
  unfold inside
  rw [hnil]
  rfl

end Polygon

namespace Polygon

/-- The test of the even-odd rule on one edge, in geometric terms: exactly one end of the
edge is strictly above the horizontal line through `x`, and the edge meets that line at a
point strictly to the right of `x`. -/
theorem crosses_ray_iff (u v x : v2) :
    crosses_ray u v x = true ↔
      ((x.y < u.y ∧ ¬ x.y < v.y) ∨ (¬ x.y < u.y ∧ x.y < v.y)) ∧
        ∃ t s : ℚ, 0 ≤ t ∧ t ≤ 1 ∧ 0 < s ∧ u + (v - u) * t = x + ⟨s, 0⟩ := by
  have eo : orient u v x = (v.x - u.x) * (x.y - u.y) - (v.y - u.y) * (x.x - u.x) := by
    simp only [orient, v2.cross, GJK.sub_x, GJK.sub_y]
  have hstr : (decide (x.y < u.y) != decide (x.y < v.y)) = true ↔
      ((x.y < u.y ∧ ¬ x.y < v.y) ∨ (¬ x.y < u.y ∧ x.y < v.y)) := by
    by_cases h1 : x.y < u.y <;> by_cases h2 : x.y < v.y <;> simp [h1, h2]
  simp only [crosses_ray, Bool.and_eq_true, decide_eq_true_eq, hstr]
  constructor
  · rintro ⟨hs, hp⟩
    refine ⟨hs, ?_⟩
    have hne : v.y - u.y ≠ 0 := by
      intro h
      rw [h, zero_mul] at hp
      exact lt_irrefl 0 hp
    have hsq : 0 < (v.y - u.y) * (v.y - u.y) := mul_self_pos.mpr hne
    refine ⟨(x.y - u.y) / (v.y - u.y), orient u v x / (v.y - u.y), ?_, ?_, ?_, ?_⟩
    · rw [div_nonneg_iff]
      rcases hs with ⟨h1, h2⟩ | ⟨h1, h2⟩
      · right
        constructor <;> linarith [not_lt.mp h2]
      · left
        constructor <;> linarith [not_lt.mp h1]
    · rcases hs with ⟨h1, h2⟩ | ⟨h1, h2⟩
      · have hneg : v.y - u.y < 0 := by linarith [not_lt.mp h2]
        rw [div_le_one_of_neg hneg]
        linarith [not_lt.mp h2]
      · have hpos : 0 < v.y - u.y := by linarith [not_lt.mp h1]
        rw [div_le_one hpos]
        linarith
    · have e : orient u v x / (v.y - u.y) =
          ((v.y - u.y) * orient u v x) / ((v.y - u.y) * (v.y - u.y)) := by
        field_simp
        ring
      rw [e]
      exact div_pos hp hsq
    · apply GJK.v2_ext
      · show (u + (v - u) * ((x.y - u.y) / (v.y - u.y))).x =
          x.x + orient u v x / (v.y - u.y)
        simp only [GJK.add_x, GJK.mul_x, GJK.sub_x, eo]
        field_simp
        ring
      · show (u + (v - u) * ((x.y - u.y) / (v.y - u.y))).y = x.y + 0
        simp only [GJK.add_y, GJK.mul_y, GJK.sub_y]
        field_simp
  · rintro ⟨hs, t, s, _, _, hs0, he⟩
    refine ⟨hs, ?_⟩
    have hx := congrArg v2.x he
    have hy := congrArg v2.y he
    have hx' : u.x + (v.x - u.x) * t = x.x + s := hx
    have hy' : u.y + (v.y - u.y) * t = x.y + 0 := hy
    have hne : v.y - u.y ≠ 0 := by
      intro h
      rcases hs with ⟨h1, h2⟩ | ⟨h1, h2⟩
      · exact h2 (by linarith)
      · exact h1 (by linarith)
    have e : (v.y - u.y) * orient u v x = (v.y - u.y) * (v.y - u.y) * s := by
      rw [eo]
      have hxy : x.y - u.y = (v.y - u.y) * t := by linarith
      have hxx : x.x - u.x = (v.x - u.x) * t - s := by linarith
      rw [hxy, hxx]
      ring
    rw [e]
    exact mul_pos (mul_self_pos.mpr hne) hs0

/-- C17, amended: over exact arithmetic, for every polygon and every point `q`, when
neither `q` nor the far point (300000, 300000) lies on an edge, `contains(q)` is the
exclusive or of the even-odd rule at `q` and at the far point; so when the far point is
outside, `contains(q)` is true exactly when `q` is inside, and then `distance_to(q)` is
`0.0`. For a triangle that is not degenerate, inside means a combination of the vertices
with positive weights that sum to 1, so that `contains(q)` is true exactly when `q` lies
strictly inside the triangle, provided the far point does not. The even-odd rule counts
the edges that the horizontal ray from the point to the right meets, one end of the edge
being strictly above the ray and the other not; a ray in any other direction gives the
same parity, the rule gives the same answer at the two ends of a segment that meets no
edge, and a point higher than every vertex is outside. -/
theorem contains_even_odd (P : Polygon) (q : v2)
    (hq : ∀ e ∈ P.edges, ¬ on_seg e.start e.end q)
    (hF : ∀ e ∈ P.edges, ¬ on_seg e.start e.end ⟨300000, 300000⟩) :
    P.contains q = (P.inside q != P.inside ⟨300000, 300000⟩) ∧
    (P.inside ⟨300000, 300000⟩ = false → (P.contains q = true ↔ P.inside q = true)) ∧
    (P.contains q = true → P.distance_to_point q = some Dist.zero) ∧
    (∀ p0 p1 p2 : v2, P.vertices = [p0, p1, p2] → orient p0 p1 p2 ≠ 0 →
      (P.inside q = true ↔ strictly_in_triangle p0 p1 p2 q) ∧
      (P.inside ⟨300000, 300000⟩ = true ↔
        strictly_in_triangle p0 p1 p2 ⟨300000, 300000⟩) ∧
      (¬ strictly_in_triangle p0 p1 p2 ⟨300000, 300000⟩ →
        (P.contains q = true ↔ strictly_in_triangle p0 p1 p2 q))) ∧
    (∀ d : v2, d ≠ ⟨0, 0⟩ →
      decide ((P.edges.filter (fun e => ray_crosses (e.start - q) (e.end - q) d)).length % 2
        = 1) = P.inside q) ∧
    (∀ x f : v2, (∀ e ∈ P.edges, ¬ ∃ p, on_seg e.start e.end p ∧ on_seg x f p) →
      P.inside x = P.inside f) ∧
    (∀ x : v2, (∀ v ∈ P.vertices, v.y < x.y) → P.inside x = false) ∧
    (∀ u v x : v2, crosses_ray u v x = true ↔
      ((x.y < u.y ∧ ¬ x.y < v.y) ∨ (¬ x.y < u.y ∧ x.y < v.y)) ∧
        ∃ t s : ℚ, 0 ≤ t ∧ t ≤ 1 ∧ 0 < s ∧ u + (v - u) * t = x + ⟨s, 0⟩) := by
  have hc : P.contains q = (P.inside q != P.inside ⟨300000, 300000⟩) :=
    cast_parity P q ⟨300000, 300000⟩ hq hF
  refine ⟨hc, ?_, ?_, ?_, fun d hd => inside_any_direction P q d hd hq,
    inside_of_clear_path P, inside_above P, crosses_ray_iff⟩
  · intro hout
    rw [hc, hout, Bool.bne_false]
  · intro h
    unfold distance_to_point
    rw [if_pos h]
  · intro p0 p1 p2 hv hT
    have hP : P = Polygon.mk [p0, p1, p2] := by
      cases P
      simp only at hv
      rw [hv]
    subst hP
    have edge_of : ∀ x : v2, (∀ e ∈ (Polygon.mk [p0, p1, p2]).edges, ¬ on_seg e.start e.end x) →
        ¬ on_seg p0 p1 x ∧ ¬ on_seg p1 p2 x ∧ ¬ on_seg p2 p0 x := by
      intro x hx
      rw [edges_three] at hx
      exact ⟨hx ⟨p0, p1⟩ (by simp), hx ⟨p1, p2⟩ (by simp), hx ⟨p2, p0⟩ (by simp)⟩
    have hiq := inside_triangle p0 p1 p2 q hT (edge_of q hq)
    have hiF := inside_triangle p0 p1 p2 ⟨300000, 300000⟩ hT (edge_of _ hF)
    refine ⟨hiq, hiF, ?_⟩
    intro hnF
    have hout : (Polygon.mk [p0, p1, p2]).inside ⟨300000, 300000⟩ = false := by
      cases h : (Polygon.mk [p0, p1, p2]).inside ⟨300000, 300000⟩ with
      | false => rfl
      | true => exact absurd (hiF.mp h) hnF
    rw [hc, hout, Bool.bne_false]
    exact hiq

/-- C17 as amended, at the triangle (0,0), (10,0), (5,10) and the point (5,5): `contains`
is true and `distance_to` is 0. -/
theorem contains_even_odd_witness :
    (Polygon.mk [⟨0, 0⟩, ⟨10, 0⟩, ⟨5, 10⟩]).contains ⟨5, 5⟩ = true ∧
    (Polygon.mk [⟨0, 0⟩, ⟨10, 0⟩, ⟨5, 10⟩]).distance_to_point ⟨5, 5⟩ = some Dist.zero ∧
    (Polygon.mk [⟨0, 0⟩, ⟨10, 0⟩, ⟨5, 10⟩]).inside ⟨5, 5⟩ = true ∧
    (Polygon.mk [⟨0, 0⟩, ⟨10, 0⟩, ⟨5, 10⟩]).inside ⟨300000, 300000⟩ = false ∧
    strictly_in_triangle ⟨0, 0⟩ ⟨10, 0⟩ ⟨5, 10⟩ ⟨5, 5⟩ ∧
    ((Polygon.mk [⟨0, 0⟩, ⟨10, 0⟩, ⟨5, 10⟩]).contains ⟨5, 5⟩ =
      ((Polygon.mk [⟨0, 0⟩, ⟨10, 0⟩, ⟨5, 10⟩]).inside ⟨5, 5⟩ !=
        (Polygon.mk [⟨0, 0⟩, ⟨10, 0⟩, ⟨5, 10⟩]).inside ⟨300000, 300000⟩) ∧
    ((Polygon.mk [⟨0, 0⟩, ⟨10, 0⟩, ⟨5, 10⟩]).inside ⟨300000, 300000⟩ = false →
      ((Polygon.mk [⟨0, 0⟩, ⟨10, 0⟩, ⟨5, 10⟩]).contains ⟨5, 5⟩ = true ↔
        (Polygon.mk [⟨0, 0⟩, ⟨10, 0⟩, ⟨5, 10⟩]).inside ⟨5, 5⟩ = true)) ∧
    ((Polygon.mk [⟨0, 0⟩, ⟨10, 0⟩, ⟨5, 10⟩]).contains ⟨5, 5⟩ = true →
      (Polygon.mk [⟨0, 0⟩, ⟨10, 0⟩, ⟨5, 10⟩]).distance_to_point ⟨5, 5⟩ = some Dist.zero) ∧
    (∀ p0 p1 p2 : v2, (Polygon.mk [⟨0, 0⟩, ⟨10, 0⟩, ⟨5, 10⟩]).vertices = [p0, p1, p2] →
      orient p0 p1 p2 ≠ 0 →
      ((Polygon.mk [⟨0, 0⟩, ⟨10, 0⟩, ⟨5, 10⟩]).inside ⟨5, 5⟩ = true ↔
        strictly_in_triangle p0 p1 p2 ⟨5, 5⟩) ∧
      ((Polygon.mk [⟨0, 0⟩, ⟨10, 0⟩, ⟨5, 10⟩]).inside ⟨300000, 300000⟩ = true ↔
        strictly_in_triangle p0 p1 p2 ⟨300000, 300000⟩) ∧
      (¬ strictly_in_triangle p0 p1 p2 ⟨300000, 300000⟩ →
        ((Polygon.mk [⟨0, 0⟩, ⟨10, 0⟩, ⟨5, 10⟩]).contains ⟨5, 5⟩ = true ↔
          strictly_in_triangle p0 p1 p2 ⟨5, 5⟩))) ∧
    (∀ d : v2, d ≠ ⟨0, 0⟩ →
      decide (((Polygon.mk [⟨0, 0⟩, ⟨10, 0⟩, ⟨5, 10⟩]).edges.filter
        (fun e => ray_crosses (e.start - ⟨5, 5⟩) (e.end - ⟨5, 5⟩) d)).length % 2 = 1) =
          (Polygon.mk [⟨0, 0⟩, ⟨10, 0⟩, ⟨5, 10⟩]).inside ⟨5, 5⟩) ∧
    (∀ x f : v2, (∀ e ∈ (Polygon.mk [⟨0, 0⟩, ⟨10, 0⟩, ⟨5, 10⟩]).edges,
        ¬ ∃ p, on_seg e.start e.end p ∧ on_seg x f p) →
      (Polygon.mk [⟨0, 0⟩, ⟨10, 0⟩, ⟨5, 10⟩]).inside x =
        (Polygon.mk [⟨0, 0⟩, ⟨10, 0⟩, ⟨5, 10⟩]).inside f) ∧
    (∀ x : v2, (∀ v ∈ (Polygon.mk [⟨0, 0⟩, ⟨10, 0⟩, ⟨5, 10⟩]).vertices, v.y < x.y) →
      (Polygon.mk [⟨0, 0⟩, ⟨10, 0⟩, ⟨5, 10⟩]).inside x = false) ∧
    (∀ u v x : v2, crosses_ray u v x = true ↔
      ((x.y < u.y ∧ ¬ x.y < v.y) ∨ (¬ x.y < u.y ∧ x.y < v.y)) ∧
        ∃ t s : ℚ, 0 ≤ t ∧ t ≤ 1 ∧ 0 < s ∧ u + (v - u) * t = x + ⟨s, 0⟩)) :=
  ⟨by decide!, by decide!, by decide!, by decide!,
    ⟨1 / 4, 1 / 4, 1 / 2, by norm_num, by norm_num, by norm_num, by norm_num, by decide!⟩,
    contains_even_odd (Polygon.mk [⟨0, 0⟩, ⟨10, 0⟩, ⟨5, 10⟩]) ⟨5, 5⟩
      (by
        intro e he
        rw [edges_three] at he
        simp only [List.mem_cons, List.mem_singleton, List.not_mem_nil, or_false] at he
        rcases he with rfl | rfl | rfl
        · exact not_on_seg (Or.inl (by decide!))
        · exact not_on_seg (Or.inl (by decide!))
        · exact not_on_seg (Or.inl (by decide!)))
      (by
        intro e he
        rw [edges_three] at he
        simp only [List.mem_cons, List.mem_singleton, List.not_mem_nil, or_false] at he
        rcases he with rfl | rfl | rfl
        · exact not_on_seg (Or.inl (by decide!))
        · exact not_on_seg (Or.inl (by decide!))
        · exact not_on_seg (Or.inl (by decide!)))⟩

end Polygon

namespace Rounded

namespace Line_segment

/-- C27 as stated fails: in doubles, for `s` = (-0.7,-1.5)-(2.0,1.2) and `o` =
(-0.9,-1.8)-(0.1,-0.7), `s.intersects(o)` is false and `o.intersects(s)` is true, and
`s.dist_to_line_seg(o)` is not `o.dist_to_line_seg(s)`, which is `0.0`: the products of
`__ccw__` are rounded. -/
theorem intersects_not_symmetric :
    (Line_segment.mk (v2.lit (-7 / 10) (-15 / 10)) (v2.lit 2 (12 / 10))).intersects
      (Line_segment.mk (v2.lit (-9 / 10) (-18 / 10)) (v2.lit (1 / 10) (-7 / 10))) = false ∧
    (Line_segment.mk (v2.lit (-9 / 10) (-18 / 10)) (v2.lit (1 / 10) (-7 / 10))).intersects
      (Line_segment.mk (v2.lit (-7 / 10) (-15 / 10)) (v2.lit 2 (12 / 10))) = true ∧
    (Line_segment.mk (v2.lit (-9 / 10) (-18 / 10)) (v2.lit (1 / 10) (-7 / 10))).dist_to_line_seg
      (Line_segment.mk (v2.lit (-7 / 10) (-15 / 10)) (v2.lit 2 (12 / 10))) = Double.finite 0 ∧
    (Line_segment.mk (v2.lit (-7 / 10) (-15 / 10)) (v2.lit 2 (12 / 10))).dist_to_line_seg
      (Line_segment.mk (v2.lit (-9 / 10) (-18 / 10)) (v2.lit (1 / 10) (-7 / 10))) ≠
        Double.finite 0 := by
  decide!

/-- C16 as stated fails: the segments (0,0)-(134217730,134217729) and
(1,1)-(-134217729,-134217728) have opposite direction vectors, of cross product 0, and
in doubles `intersects` is true on them: the products of `__ccw__`, near `2 ^ 54`, are
rounded. -/
theorem parallel_intersects :
    (N2D.Line_segment.mk ⟨0, 0⟩ ⟨134217730, 134217729⟩).vec.cross
      (N2D.Line_segment.mk ⟨1, 1⟩ ⟨-134217729, -134217728⟩).vec = 0 ∧
    (Line_segment.mk ⟨Double.finite 0, Double.finite 0⟩
        ⟨Double.finite 134217730, Double.finite 134217729⟩).intersects
      (Line_segment.mk ⟨Double.finite 1, Double.finite 1⟩
        ⟨Double.finite (-134217729), Double.finite (-134217728)⟩) = true := by
  decide!

end Line_segment

namespace sphere

/-- C19 as stated fails: the point (-1,0) is at `L1` distance `2 ^ 53 + 2` from
(2 ^ 53, 1), the radius of the disk, and in doubles `contains` is true, the difference
`2 ^ 53 + 1` of the abscissas being rounded to `2 ^ 53`; the point (-3,0) is at `L1`
distance `2 ^ 53 + 6` from (2 ^ 53, 3), the radius of the disk, and `on_boundary` is
false for the tolerance 1, the distance being rounded to `2 ^ 53 + 8`. -/
theorem at_radius_rounded :
    ((⟨9007199254740992, 1⟩ : N2D.v2) - ⟨-1, 0⟩).l1 = 9007199254740994 ∧
    (sphere.mk ⟨Double.finite 9007199254740992, Double.finite 1⟩
      (Double.finite 9007199254740994) SPHEREMETRIC.L1).contains
        ⟨Double.finite (-1), Double.finite 0⟩ = true ∧
    ((⟨9007199254740992, 3⟩ : N2D.v2) - ⟨-3, 0⟩).l1 = 9007199254740998 ∧
    (sphere.mk ⟨Double.finite 9007199254740992, Double.finite 3⟩
      (Double.finite 9007199254740998) SPHEREMETRIC.L1).on_boundary
        ⟨Double.finite (-3), Double.finite 0⟩ (Double.finite 1) = false := by
  decide!

end sphere

namespace GJK

/-- C8 as stated fails: in doubles, for `A` = (1.1,0.3), (-1.3,-0.6), (0.9,-0.7),
`B` = (2,0.1), (-1.7,-0.2), (-0.3,0.5), (1.9,-0.2) and `dir` = (1,-0.2), `support_func`
returns (2.8,0.5) and `farest_point_in_dir` on `mink_diff(A, B)` returns another point,
whose dot product with `dir` is larger: the differences and the products are rounded. -/
theorem support_func_not_farest :
    ∃ s f, support_func [v2.lit (11 / 10) (3 / 10), v2.lit (-13 / 10) (-6 / 10),
        v2.lit (9 / 10) (-7 / 10)]
      [v2.lit 2 (1 / 10), v2.lit (-17 / 10) (-2 / 10), v2.lit (-3 / 10) (5 / 10),
        v2.lit (19 / 10) (-2 / 10)] (v2.lit 1 (-2 / 10)) = Except.ok s ∧
    farest_point_in_dir (mink_diff [v2.lit (11 / 10) (3 / 10), v2.lit (-13 / 10) (-6 / 10),
        v2.lit (9 / 10) (-7 / 10)]
      [v2.lit 2 (1 / 10), v2.lit (-17 / 10) (-2 / 10), v2.lit (-3 / 10) (5 / 10),
        v2.lit (19 / 10) (-2 / 10)]) (v2.lit 1 (-2 / 10)) = Except.ok f ∧
    s = v2.lit (28 / 10) (5 / 10) ∧ s ≠ f ∧
    Double.lt (s.dot (v2.lit 1 (-2 / 10))) (f.dot (v2.lit 1 (-2 / 10))) = true ∧
    f ∈ mink_diff [v2.lit (11 / 10) (3 / 10), v2.lit (-13 / 10) (-6 / 10),
        v2.lit (9 / 10) (-7 / 10)]
      [v2.lit 2 (1 / 10), v2.lit (-17 / 10) (-2 / 10), v2.lit (-3 / 10) (5 / 10),
        v2.lit (19 / 10) (-2 / 10)] := by
  refine ⟨v2.lit (28 / 10) (5 / 10),
    v2.lit (9 / 10) (-7 / 10) - v2.lit (-17 / 10) (-2 / 10), ?_⟩
  decide!

end GJK

end Rounded

namespace Rounded

namespace Line_segment

/-- C13 as stated fails: in doubles, for the segment (0,0)-(1,3) and the point (1,0),
`project_in` returns the point (0.1, 0.30000000000000004), which is not on the segment;
the point (1/10, 3/10) of the segment is nearer to (1,0). The quotient `1 / 10` and the
product `3 * 0.1` are rounded. -/
theorem project_in_off_segment :
    (Line_segment.mk ⟨Double.finite 0, Double.finite 0⟩
      ⟨Double.finite 1, Double.finite 3⟩).project_in ⟨Double.finite 1, Double.finite 0⟩ =
        ⟨Double.finite (3602879701896397 / 36028797018963968),
          Double.finite (1351079888211149 / 4503599627370496)⟩ ∧
    ¬ on_seg ⟨0, 0⟩ ⟨1, 3⟩
      ⟨3602879701896397 / 36028797018963968, 1351079888211149 / 4503599627370496⟩ ∧
    on_seg ⟨0, 0⟩ ⟨1, 3⟩ ⟨1 / 10, 3 / 10⟩ ∧
    ((⟨1, 0⟩ : N2D.v2) - ⟨1 / 10, 3 / 10⟩).rsq <
      ((⟨1, 0⟩ : N2D.v2) -
        ⟨3602879701896397 / 36028797018963968, 1351079888211149 / 4503599627370496⟩).rsq := by
  refine ⟨by decide!, N2D.Polygon.not_on_seg (Or.inl (by decide!)),
    ⟨1 / 10, by norm_num, by norm_num, by decide!⟩, by decide!⟩

/-- C15 as stated fails, in two ways. The threshold is the double `0.0000001`, a little
below `1e-7`: for the segments (0,0)-(0,1) and (-c/2, 1/2)-(c/2, 1/2), where `c` is that
double, the determinant `c` is below `1e-7` and the point (0, 1/2) is returned, in exact
arithmetic and in doubles. And in doubles, for the segments (0,0)-(1,3) and (0,1)-(3,0),
the point returned is (0.3, 0.8999999999999999), which is on neither segment. -/
theorem intersection_point_rounded :
    ((N2D.Line_segment.mk ⟨-944473296573929 / 18889465931478580854784, 1 / 2⟩
        ⟨944473296573929 / 18889465931478580854784, 1 / 2⟩).vec.x *
      (N2D.Line_segment.mk ⟨0, 0⟩ ⟨0, 1⟩).vec.y -
      (N2D.Line_segment.mk ⟨-944473296573929 / 18889465931478580854784, 1 / 2⟩
        ⟨944473296573929 / 18889465931478580854784, 1 / 2⟩).vec.y *
      (N2D.Line_segment.mk ⟨0, 0⟩ ⟨0, 1⟩).vec.x = 944473296573929 / 9444732965739290427392 ∧
    |(944473296573929 / 9444732965739290427392 : ℚ)| < 1 / 10000000 ∧
    (N2D.Line_segment.mk ⟨0, 0⟩ ⟨0, 1⟩).intersection_point
      (N2D.Line_segment.mk ⟨-944473296573929 / 18889465931478580854784, 1 / 2⟩
        ⟨944473296573929 / 18889465931478580854784, 1 / 2⟩) = some ⟨0, 1 / 2⟩ ∧
    (Line_segment.mk ⟨Double.finite 0, Double.finite 0⟩
        ⟨Double.finite 0, Double.finite 1⟩).intersection_point
      (Line_segment.mk
        ⟨Double.finite (-944473296573929 / 18889465931478580854784), Double.finite (1 / 2)⟩
        ⟨Double.finite (944473296573929 / 18889465931478580854784), Double.finite (1 / 2)⟩) =
      ⟨Double.finite 0, Double.finite (1 / 2)⟩) ∧
    ((Line_segment.mk ⟨Double.finite 0, Double.finite 0⟩
        ⟨Double.finite 1, Double.finite 3⟩).intersection_point
      (Line_segment.mk ⟨Double.finite 0, Double.finite 1⟩
        ⟨Double.finite 3, Double.finite 0⟩) =
      ⟨Double.finite (5404319552844595 / 18014398509481984),
        Double.finite (2026619832316723 / 2251799813685248)⟩ ∧
    ¬ on_seg ⟨0, 0⟩ ⟨1, 3⟩
      ⟨5404319552844595 / 18014398509481984, 2026619832316723 / 2251799813685248⟩ ∧
    ¬ on_seg ⟨0, 1⟩ ⟨3, 0⟩
      ⟨5404319552844595 / 18014398509481984, 2026619832316723 / 2251799813685248⟩) := by
  refine ⟨⟨by decide!, by decide!, by decide!, by decide!⟩, by decide!,
    N2D.Polygon.not_on_seg (Or.inl (by decide!)),
    N2D.Polygon.not_on_seg (Or.inl (by decide!))⟩

end Line_segment

end Rounded

namespace Rounded

namespace GJK

/-- C5 as stated fails: in doubles, for the segments (10000000,10000000)-
(19999999,10000000) and (-19999998,-19999999)-(19999999,20000000), `GJK::distance`
returns through the progress check and the value returned is NaN: the rounded
`dot(c, d)` is positive, and `std::sqrt` is applied to a negative number. In exact
arithmetic the radicand is 399999960000001/3199999680000010, about 0.125. -/
theorem distance_nan :
    distance_exit 2
        [⟨Double.finite 10000000, Double.finite 10000000⟩,
          ⟨Double.finite 19999999, Double.finite 10000000⟩]
        [⟨Double.finite (-19999998), Double.finite (-19999999)⟩,
          ⟨Double.finite 19999999, Double.finite 20000000⟩] =
      Except.ok (N2D.GJK.Exit.no_progress,
        ⟨Double.finite (-67108865 / 268435456), Double.finite (67108863 / 268435456)⟩,
        Double.nan) ∧
    distance 2
        [⟨Double.finite 10000000, Double.finite 10000000⟩,
          ⟨Double.finite 19999999, Double.finite 10000000⟩]
        [⟨Double.finite (-19999998), Double.finite (-19999999)⟩,
          ⟨Double.finite 19999999, Double.finite 20000000⟩] = Except.ok Double.nan ∧
    Double.le (Double.finite 0) Double.nan = false ∧
    N2D.GJK.distance 2 [⟨10000000, 10000000⟩, ⟨19999999, 10000000⟩]
        [⟨-19999998, -19999999⟩, ⟨19999999, 20000000⟩] =
      Except.ok (Dist.sqrt (399999960000001 / 3199999680000010)) := by
  decide!

/-- C6 as stated fails: in doubles, for `A` = (4,1), (2,-1) and `B` = (5,-2), (4,5),
`GJK::distance(A, B)` is 0.5656854249492367 and `GJK::distance(B, A)` is
0.5656854249492379, and so are the two values of `distance_to`; in exact arithmetic both
are the square root of 8/25. -/
theorem distance_not_symmetric :
    distance 1 [⟨Double.finite 4, Double.finite 1⟩, ⟨Double.finite 2, Double.finite (-1)⟩]
        [⟨Double.finite 5, Double.finite (-2)⟩, ⟨Double.finite 4, Double.finite 5⟩] =
      Except.ok (Double.finite (2547620669010303 / 4503599627370496)) ∧
    distance 1 [⟨Double.finite 5, Double.finite (-2)⟩, ⟨Double.finite 4, Double.finite 5⟩]
        [⟨Double.finite 4, Double.finite 1⟩, ⟨Double.finite 2, Double.finite (-1)⟩] =
      Except.ok (Double.finite (5095241338020617 / 9007199254740992)) ∧
    (Polygon.mk [⟨Double.finite 4, Double.finite 1⟩,
        ⟨Double.finite 2, Double.finite (-1)⟩]).distance_to 8
      (Polygon.mk [⟨Double.finite 5, Double.finite (-2)⟩,
        ⟨Double.finite 4, Double.finite 5⟩]) =
      Except.ok (Double.finite (2547620669010303 / 4503599627370496)) ∧
    (Polygon.mk [⟨Double.finite 5, Double.finite (-2)⟩,
        ⟨Double.finite 4, Double.finite 5⟩]).distance_to 8
      (Polygon.mk [⟨Double.finite 4, Double.finite 1⟩,
        ⟨Double.finite 2, Double.finite (-1)⟩]) =
      Except.ok (Double.finite (5095241338020617 / 9007199254740992)) ∧
    (2547620669010303 / 4503599627370496 : ℚ) ≠ 5095241338020617 / 9007199254740992 ∧
    N2D.GJK.distance 1 [⟨4, 1⟩, ⟨2, -1⟩] [⟨5, -2⟩, ⟨4, 5⟩] =
      Except.ok (Dist.sqrt (8 / 25)) ∧
    N2D.GJK.distance 1 [⟨5, -2⟩, ⟨4, 5⟩] [⟨4, 1⟩, ⟨2, -1⟩] =
      Except.ok (Dist.sqrt (8 / 25)) := by
  decide!

end GJK

end Rounded

namespace Double

/-- Zero is a double. -/
theorem nearest_zero : nearest 0 = finite 0 := by
  simp only [nearest, if_true]

/-- A finite double times zero is zero, and an infinity or NaN times zero is NaN. -/
theorem mul_zero_cases (a : Double) :
    (mul_fe a (finite 0) = ⟨finite 0, ⟨false, false⟩⟩) ∨
      (mul_fe a (finite 0) = ⟨nan, ⟨true, false⟩⟩) ∨
      (mul_fe a (finite 0) = ⟨nan, ⟨false, false⟩⟩) := by
  cases a with
  | finite x =>
    left
    show (⟨nearest (x * 0), ⟨false, false⟩⟩ : Flagged Double) = _
    rw [mul_zero, nearest_zero]
  | inf s =>
    right
    left
    rfl
  | nan =>
    right
    right
    rfl

/-- Rounding never gives NaN. -/
theorem nearest_ne_nan (q : ℚ) : nearest q ≠ nan := by
  unfold nearest
  split
  · exact fun h => by cases h
  · simp only
    split
    · exact fun h => by cases h
    · exact fun h => by cases h

/-- A finite double times zero is zero. -/
theorem finite_mul_zero (x : ℚ) : finite x * finite 0 = finite 0 := by
  show nearest (x * 0) = finite 0
  rw [mul_zero, nearest_zero]

/-- Zero plus zero is zero. -/
theorem zero_add_zero : (finite 0 : Double) + finite 0 = finite 0 := by
  show nearest (0 + 0) = finite 0
  rw [add_zero, nearest_zero]

end Double

namespace Rounded

namespace Line_segment

/-- The point returned by `project_in_fe` is the one `project_in` returns. -/
theorem project_in_fe_val (self : Line_segment) (pt : v2) :
    (self.project_in_fe pt).val = self.project_in pt := rfl

/-- The value returned by `project_t_fe` is the one `project_t` returns. -/
theorem project_t_fe_val (self : Line_segment) (pt : v2) :
    (self.project_t_fe pt).val = self.project_t pt := by
  unfold project_t_fe project_t
  by_cases h : Double.eq self.length (Double.finite 0) = true
  · have h1 : Double.eq (self.length_fe).val (Double.finite 0) = true := h
    simp only [bind, h1, if_true, h]
    rfl
  · have h1 : ¬ Double.eq (self.length_fe).val (Double.finite 0) = true := h
    simp only [bind, h1, h]
    rfl

/-- On a segment with `start == end`, `project_in` raises `FE_INVALID`: it divides
`0.0` by `0.0`, or multiplies an infinity by `0.0` before. -/
theorem project_in_fe_invalid (ax ay px py : ℚ) :
    ((Line_segment.mk ⟨Double.finite ax, Double.finite ay⟩
      ⟨Double.finite ax, Double.finite ay⟩).project_in_fe
        ⟨Double.finite px, Double.finite py⟩).flags.invalid = true := by
  have hx0 : Double.sub_fe (Double.finite ax) (Double.finite ax) =
      ⟨Double.finite 0, ⟨false, false⟩⟩ := by
    show (⟨Double.nearest (ax + -ax), ⟨false, false⟩⟩ : Flagged Double) = _
    rw [add_neg_cancel, Double.nearest_zero]
  have hy0 : Double.sub_fe (Double.finite ay) (Double.finite ay) =
      ⟨Double.finite 0, ⟨false, false⟩⟩ := by
    show (⟨Double.nearest (ay + -ay), ⟨false, false⟩⟩ : Flagged Double) = _
    rw [add_neg_cancel, Double.nearest_zero]
  have hdx : Double.sub_fe (Double.finite px) (Double.finite ax) =
      ⟨Double.nearest (px + -ax), ⟨false, false⟩⟩ := rfl
  have hdy : Double.sub_fe (Double.finite py) (Double.finite ay) =
      ⟨Double.nearest (py + -ay), ⟨false, false⟩⟩ := rfl
  have nx := Double.nearest_ne_nan (px + -ax)
  have ny := Double.nearest_ne_nan (py + -ay)
  simp only [project_in_fe, v2.sub_fe, bind, pure, hx0, hy0, hdx, hdy, v2.dot_fe]
  generalize Double.nearest (px + -ax) = dx at nx
  generalize Double.nearest (py + -ay) = dy at ny
  cases dx with
  | nan => exact absurd rfl nx
  | inf s =>
    simp [Double.mul_fe]
  | finite x =>
    cases dy with
    | nan => exact absurd rfl ny
    | inf s =>
      simp [Double.mul_fe]
    | finite y =>
      simp [Double.mul_fe, Double.add_fe, Double.div_fe, Double.finite_mul_zero,
        Double.zero_add_zero]

/-- On a segment with `start == end`, `project_t` returns `0.0` through its guard and
raises no flag. -/
theorem project_t_fe_guarded (ax ay px py : ℚ) :
    (Line_segment.mk ⟨Double.finite ax, Double.finite ay⟩
      ⟨Double.finite ax, Double.finite ay⟩).project_t_fe
        ⟨Double.finite px, Double.finite py⟩ = ⟨Double.finite 0, ⟨false, false⟩⟩ := by
  have hx0 : Double.sub_fe (Double.finite ax) (Double.finite ax) =
      ⟨Double.finite 0, ⟨false, false⟩⟩ := by
    show (⟨Double.nearest (ax + -ax), ⟨false, false⟩⟩ : Flagged Double) = _
    rw [add_neg_cancel, Double.nearest_zero]
  have hy0 : Double.sub_fe (Double.finite ay) (Double.finite ay) =
      ⟨Double.finite 0, ⟨false, false⟩⟩ := by
    show (⟨Double.nearest (ay + -ay), ⟨false, false⟩⟩ : Flagged Double) = _
    rw [add_neg_cancel, Double.nearest_zero]
  simp [project_t_fe, length_fe, v2.sub_fe, bind, pure, hx0, hy0, v2.dot_fe, Double.mul_fe,
    Double.add_fe, Double.finite_mul_zero, Double.zero_add_zero, Double.sqrt_fe, Double.sqrt,
    Double.eq]

/-- On a segment with `start == end`, `project_in` returns `start` (rounded, if its
coordinates were not doubles). -/
theorem project_in_degenerate (ax ay px py : ℚ) :
    (Line_segment.mk ⟨Double.finite ax, Double.finite ay⟩
      ⟨Double.finite ax, Double.finite ay⟩).project_in
        ⟨Double.finite px, Double.finite py⟩ = ⟨Double.nearest ax, Double.nearest ay⟩ := by
  have hx0 : (Double.finite ax : Double) - Double.finite ax = Double.finite 0 := by
    show Double.nearest (ax + -ax) = _
    rw [add_neg_cancel, Double.nearest_zero]
  have hy0 : (Double.finite ay : Double) - Double.finite ay = Double.finite 0 := by
    show Double.nearest (ay + -ay) = _
    rw [add_neg_cancel, Double.nearest_zero]
  have hdx : (Double.finite px : Double) - Double.finite ax = Double.nearest (px + -ax) := rfl
  have hdy : (Double.finite py : Double) - Double.finite ay = Double.nearest (py + -ay) := rfl
  have nx := Double.nearest_ne_nan (px + -ax)
  have ny := Double.nearest_ne_nan (py + -ay)
  have hsub : ∀ a b : v2, a - b = ⟨a.x - b.x, a.y - b.y⟩ := fun _ _ => rfl
  have hadd : ∀ a b : v2, a + b = ⟨a.x + b.x, a.y + b.y⟩ := fun _ _ => rfl
  have hmul : ∀ (a : v2) (t : Double), a * t = ⟨a.x * t, a.y * t⟩ := fun _ _ => rfl
  have hq : ∀ n : Double, Double.max (Double.finite 0)
      (Double.min (n / Double.finite 0) (Double.finite 1)) = Double.finite 0 →
      (⟨Double.finite ax, Double.finite ay⟩ : v2) +
        (⟨Double.finite 0, Double.finite 0⟩ : v2) *
          Double.max (Double.finite 0) (Double.min (n / Double.finite 0) (Double.finite 1)) =
        ⟨Double.nearest ax, Double.nearest ay⟩ := by
    intro n hn
    rw [hn, hmul, hadd]
    simp only [Double.finite_mul_zero]
    show (⟨Double.nearest (ax + 0), Double.nearest (ay + 0)⟩ : v2) = _
    rw [add_zero, add_zero]
  simp only [project_in, hsub, hx0, hy0, hdx, hdy, v2.rsq, v2.dot, Double.finite_mul_zero,
    Double.zero_add_zero]
  apply hq
  generalize Double.nearest (px + -ax) = dx at nx
  generalize Double.nearest (py + -ay) = dy at ny
  cases dx with
  | nan => exact absurd rfl nx
  | inf s =>
    cases dy with
    | nan => exact absurd rfl ny
    | inf t => rfl
    | finite y =>
      rw [Double.finite_mul_zero]
      rfl
  | finite x =>
    cases dy with
    | nan => exact absurd rfl ny
    | inf t =>
      rw [Double.finite_mul_zero]
      rfl
    | finite y =>
      rw [Double.finite_mul_zero, Double.finite_mul_zero, Double.zero_add_zero]
      rfl

/-- C22 fails on the code: on a segment with `start == end`, `project_t` returns `0.0`
through its guard `r == 0.0` and raises no floating-point exception, but `project_in`
has no guard and performs the division by zero: it raises `FE_INVALID`. On the segment
(0,0)-(0,0) and the point (1,1) the quotient `0.0 / 0.0` is NaN, `std::min(NaN, 1.0)` is
NaN and `std::max(0.0, NaN)` is `0.0`; the point returned is `start` all the same, and
`dist_to(pt)` is `|pt - start|`. -/
theorem project_in_divides_by_zero (ax ay px py : ℚ) :
    (Line_segment.mk ⟨Double.finite ax, Double.finite ay⟩
      ⟨Double.finite ax, Double.finite ay⟩).project_t_fe
        ⟨Double.finite px, Double.finite py⟩ = ⟨Double.finite 0, ⟨false, false⟩⟩ ∧
    ((Line_segment.mk ⟨Double.finite ax, Double.finite ay⟩
      ⟨Double.finite ax, Double.finite ay⟩).project_in_fe
        ⟨Double.finite px, Double.finite py⟩).flags.invalid = true ∧
    (Line_segment.mk ⟨Double.finite ax, Double.finite ay⟩
      ⟨Double.finite ax, Double.finite ay⟩).project_in
        ⟨Double.finite px, Double.finite py⟩ = ⟨Double.nearest ax, Double.nearest ay⟩ ∧
    (Line_segment.mk ⟨Double.finite 0, Double.finite 0⟩
      ⟨Double.finite 0, Double.finite 0⟩).project_in_fe ⟨Double.finite 1, Double.finite 1⟩ =
        ⟨⟨Double.finite 0, Double.finite 0⟩, ⟨true, false⟩⟩ ∧
    ((⟨Double.finite 1, Double.finite 1⟩ : v2) - ⟨Double.finite 0, Double.finite 0⟩).dot
        ((⟨Double.finite 0, Double.finite 0⟩ : v2) - ⟨Double.finite 0, Double.finite 0⟩) /
      ((⟨Double.finite 0, Double.finite 0⟩ : v2) - ⟨Double.finite 0, Double.finite 0⟩).rsq =
        Double.nan ∧
    Double.min Double.nan (Double.finite 1) = Double.nan ∧
    Double.max (Double.finite 0) Double.nan = Double.finite 0 ∧
    (Line_segment.mk ⟨Double.finite 0, Double.finite 0⟩
      ⟨Double.finite 0, Double.finite 0⟩).dist_to ⟨Double.finite 1, Double.finite 1⟩ =
        ((⟨Double.finite 1, Double.finite 1⟩ : v2) - ⟨Double.finite 0, Double.finite 0⟩).r :=
  ⟨project_t_fe_guarded ax ay px py, project_in_fe_invalid ax ay px py,
    project_in_degenerate ax ay px py, by decide!, by decide!, by decide!, by decide!,
    by decide!⟩

end Line_segment

end Rounded

end N2D
